import Mathlib

/-!
# Fog::Path — a shallow embedding of `Fog/Graphics/Path.cpp`

The path of the Fog graphics library is a reference-counted, copy-on-write
buffer of `(command, x, y)` vertices.  The embedding keeps the memory explicit:

* a `Heap` maps addresses to `Data` blocks (the C++ `Path::Data`), a `Path`
  object is the address held in its `_d` member;
* `double` coordinates are exact rationals, the libm functions the source calls
  (`cos`, `sin`, `fmod`) are uninterpreted functions of the environment;
* `Memory::alloc` may refuse any request: the environment says which attempts fail;
* a vertex pointer `Vertex*` into a block is the index of the slot.
-/

set_option autoImplicit false

namespace Fog

/-! ## Constants of `Path.h` -/

/-- Modelled from the spec: `Path.h` is not among the sources.  The command codes are
those of `agg_basics.h` (`path_cmd_stop` ...), which `AggPath::vertex` hands to
Anti-Grain unchanged. -/
abbrev CmdStop : Nat := 0
/-- Modelled from the spec: command code of MoveTo (see `CmdStop`). -/
abbrev CmdMoveTo : Nat := 1
/-- Modelled from the spec: command code of LineTo (see `CmdStop`). -/
abbrev CmdLineTo : Nat := 2
/-- Modelled from the spec: command code of Curve3 (see `CmdStop`). -/
abbrev CmdCurve3 : Nat := 3
/-- Modelled from the spec: command code of Curve4 (see `CmdStop`). -/
abbrev CmdCurve4 : Nat := 4
/-- Modelled from the spec: command code of Catrom (see `CmdStop`). -/
abbrev CmdCatrom : Nat := 6
/-- Modelled from the spec: command code of UBSpline (see `CmdStop`). -/
abbrev CmdUBSpline : Nat := 7
/-- Modelled from the spec: command code of EndPoly (see `CmdStop`). -/
abbrev CmdEndPoly : Nat := 15
/-- Modelled from the spec: mask of the command bits (see `CmdStop`). -/
abbrev CmdMask : Nat := 15
/-- Modelled from the spec: the EndPoly "close" flag, a bit outside `CmdMask`. -/
abbrev CFlagClose : Nat := 64

/-- Modelled from the spec: cached type LineOnly; nonzero, zero meaning "not yet known". -/
abbrev LineType : Nat := 1
/-- Modelled from the spec: cached type HasCurves; the larger one (`fog_max` in `addPath`). -/
abbrev CurveType : Nat := 2

/-- Modelled from the spec: `Data::IsNull` flag bit. -/
abbrev IsNull : Nat := 1
/-- Modelled from the spec: `Data::IsDynamic` flag bit (heap allocated block). -/
abbrev IsDynamic : Nat := 2
/-- Modelled from the spec: `Data::IsSharable` flag bit. -/
abbrev IsSharable : Nat := 4
/-- Modelled from the spec: `Data::IsStrong` flag bit. -/
abbrev IsStrong : Nat := 8

/-- Result codes of `err_t`. -/
inductive err_t where
  | Ok
  | OutOfMemory
  | InvalidPath
deriving DecidableEq, Repr

/-! ## Vertices and commands -/

/-- Embedding of `Path::Vertex`: the raw command word (command and flags) and the coordinates. -/
structure Vertex where
  cmd : Nat
  x : ℚ
  y : ℚ
deriving DecidableEq

/-- Modelled from the spec: `Path::Cmd::cmd()`, the command without its flags. -/
def Cmd.cmd (c : Nat) : Nat := c &&& CmdMask

/-- Modelled from the spec: `Path::Cmd::isStop()`. -/
def Cmd.isStop (c : Nat) : Bool := c == CmdStop

/-- Modelled from the spec: `Path::Cmd::isVertex()`, true of a drawable vertex
(MoveTo, LineTo, Curve3, Curve4, Catrom, UBSpline), false of Stop and EndPoly. -/
def Cmd.isVertex (c : Nat) : Bool := decide (CmdMoveTo ≤ c) && decide (c < CmdEndPoly)

/-- Modelled from the spec: `Path::Cmd::isCurve()` (`agg::is_curve`). -/
def Cmd.isCurve (c : Nat) : Bool := c == CmdCurve3 || c == CmdCurve4

/-! ## Memory -/

/-- Embedding of `Path::Data`: header and vertex storage of one block.  `freed` records that
`Memory::free` has been called on the block. -/
structure Data where
  refCount : Nat
  flags : Nat
  type : Nat
  capacity : Nat
  length : Nat
  data : Nat → Vertex
  freed : Bool

/-- What the program cannot see in advance: allocation failures, the contents of
fresh memory, the growth policy `Std::calcOptimalCapacity` (not among the sources)
and the libm functions. -/
structure Env where
  oom : Nat → Bool
  uninit : Nat → Nat → Vertex
  calcOptimalCapacity : Nat → Nat → Nat
  cos : ℚ → ℚ
  sin : ℚ → ℚ
  fmod : ℚ → ℚ → ℚ
  atan2 : ℚ → ℚ → ℚ
  M_PI : ℚ

/-- The memory: blocks by address; `next` is the next fresh address and counts the
allocation attempts. Address 0 holds `Path::sharedNull`. -/
structure Heap where
  mem : Nat → Data
  next : Nat

/-- Address of `Path::sharedNull`. -/
abbrev sharedNull : Nat := 0

/-- Replace the block at address `p` by `f` of it. -/
def Heap.upd (h : Heap) (p : Nat) (f : Data → Data) : Heap :=
  { h with mem := fun q => if q = p then f (h.mem p) else h.mem q }

/-- Store `v` into slot `i` of the block at `p` (`p->data[i] = v`). -/
def Heap.write (h : Heap) (p i : Nat) (v : Vertex) : Heap :=
  h.upd p (fun b => { b with data := fun j => if j = i then v else b.data j })

/-- Store the vertices `vs` into the slots `i`, `i+1`, ... of the block at `p`. -/
def Heap.writeList (h : Heap) (p i : Nat) : List Vertex → Heap
  | [] => h
  | v :: vs => (h.write p i v).writeList p (i + 1) vs

/-- Assignment `p->length = n`. -/
def Heap.setLength (h : Heap) (p n : Nat) : Heap :=
  h.upd p (fun b => { b with length := n })

/-- Assignment `p->type = t`. -/
def Heap.setType (h : Heap) (p t : Nat) : Heap :=
  h.upd p (fun b => { b with type := t })

/-- The vertex sequence observed through a handle on block `p`: slots `0 .. length-1`. -/
def Heap.verts (h : Heap) (p : Nat) : List Vertex :=
  (List.range (h.mem p).length).map (h.mem p).data

/-- Outcome of a member function: the memory, the `_d` of the path afterwards and the
result code. -/
structure Out where
  heap : Heap
  d : Nat
  err : err_t

/-! ## `Path::Data` -/

/-- Embedding of `Path::Data::refAlways()` (`Path.h`): `refCount.inc()`. -/
def Data.refAlways (h : Heap) (p : Nat) : Heap :=
  h.upd p (fun b => { b with refCount := b.refCount + 1 })

/-- Embedding of `Path::Data::deref()`. -/
def Data.deref (h : Heap) (p : Nat) : Heap :=
  h.upd p (fun b =>
    let b1 := { b with refCount := b.refCount - 1 }
    if b1.refCount = 0 ∧ b.flags &&& IsDynamic ≠ 0 then { b1 with freed := true } else b1)

/-- The header `Path::Data::alloc` writes into a new block at address `addr`; the
vertex storage is whatever the memory held. -/
def Data.fresh (E : Env) (addr capacity : Nat) : Data :=
  { refCount := 1, flags := IsDynamic ||| IsSharable, type := LineType,
    capacity := capacity, length := 0, data := E.uninit addr, freed := false }

/-- Embedding of `Path::Data::alloc(capacity)`: `none` when `Memory::alloc` fails. -/
def Data.alloc (E : Env) (h : Heap) (capacity : Nat) : Heap × Option Nat :=
  if E.oom h.next then ({ h with next := h.next + 1 }, none)
  else
    ({ mem := fun q => if q = h.next then Data.fresh E h.next capacity else h.mem q,
       next := h.next + 1 }, some h.next)

/-- Embedding of `memcpy(dst->data, src->data, n * sizeof(Vertex))` between the blocks `dst`
and `src`. -/
def memcpy (h : Heap) (dst src n : Nat) : Heap :=
  h.upd dst (fun b => { b with data := fun i => if i < n then (h.mem src).data i else b.data i })

/-- Embedding of `Path::Data::copy()`. -/
def Data.copy (E : Env) (h : Heap) (p : Nat) : Heap × Option Nat :=
  if (h.mem p).length = 0 then (Data.refAlways h p, some p)
  else
    match Data.alloc E h (h.mem p).length with
    | (h1, none) => (h1, none)
    | (h1, some d) =>
      let h2 := h1.setLength d (h1.mem p).length
      let h3 := h2.setType d (h2.mem p).type
      (memcpy h3 d p (h3.mem p).length, some d)

/-- Embedding of `Path::Data::ref()`. -/
def Data.ref (E : Env) (h : Heap) (p : Nat) : Heap × Option Nat :=
  if (h.mem p).flags &&& IsSharable ≠ 0 then (Data.refAlways h p, some p)
  else Data.copy E h p

/-! ## `Path`: type, storage -/

/-- The scan of `Path::type()`: is there a command strictly between LineTo and the mask. -/
def detectType (vs : List Vertex) : Nat :=
  if vs.any (fun v => decide (CmdLineTo < Cmd.cmd v.cmd) && decide (Cmd.cmd v.cmd < CmdMask))
  then CurveType else LineType

/-- Embedding of `Path::type()`: the cached type, computed and cached when the cache holds 0. -/
def type (h : Heap) (d : Nat) : Heap × Nat :=
  let t := (h.mem d).type
  if t ≠ 0 then (h, t)
  else
    let t := detectType (h.verts d)
    (h.setType d t, t)

/-- Embedding of `Path::length()` (`Path.h`): `_d->length`. -/
def length (h : Heap) (d : Nat) : Nat := (h.mem d).length

/-- Embedding of `Path::reserve(capacity)`. -/
def reserve (E : Env) (h : Heap) (d : Nat) (capacity : Nat) : Out :=
  if (h.mem d).refCount = 1 ∧ capacity ≤ (h.mem d).capacity then ⟨h, d, .Ok⟩
  else
    match Data.alloc E h capacity with
    | (h1, none) => ⟨h1, d, .OutOfMemory⟩
    | (h1, some newd) =>
      let h2 := h1.setLength newd (h1.mem d).length
      let h3 := memcpy h2 newd d (h2.mem d).length
      ⟨Data.deref h3 d, newd, .Ok⟩

/-- Embedding of `Path::_add(count)`: the memory, the `_d` afterwards and the slot of the first new
vertex (`none` for `NULL`).  `remain` is computed on naturals: with `length ≤ capacity`
the unsigned subtraction of the source does not wrap. -/
def _add (E : Env) (h : Heap) (d : Nat) (count : Nat) : Heap × Nat × Option Nat :=
  let length := (h.mem d).length
  let remain := (h.mem d).capacity - length
  if (h.mem d).refCount = 1 ∧ count ≤ remain then
    (h.setLength d ((h.mem d).length + count), d, some length)
  else
    let optimalCapacity := E.calcOptimalCapacity (h.mem d).length ((h.mem d).length + count)
    match Data.alloc E h optimalCapacity with
    | (h1, none) => (h1, d, none)
    | (h1, some newd) =>
      let h2 := h1.setLength newd (length + count)
      let h3 := memcpy h2 newd d length
      (Data.deref h3 d, newd, some length)

/-- Embedding of `Path::isDetached()` (`Path.h`): the block has one owner. -/
def isDetached (h : Heap) (d : Nat) : Bool := (h.mem d).refCount == 1

/-- Embedding of `Path::_detach()`. -/
def _detach (E : Env) (h : Heap) (d : Nat) : Out :=
  if isDetached h d then ⟨h, d, .Ok⟩
  else
    match Data.copy E h d with
    | (h1, none) => ⟨h1, d, .OutOfMemory⟩
    | (h1, some newd) => ⟨Data.deref h1 d, newd, .Ok⟩

/-- Embedding of `Path::detach()` (`Path.h`): `_detach()` unless already detached. -/
def detach (E : Env) (h : Heap) (d : Nat) : Out :=
  if isDetached h d then ⟨h, d, .Ok⟩ else _detach E h d

/-- Embedding of `Path::clear()`. -/
def clear (h : Heap) (d : Nat) : Heap × Nat :=
  if 1 < (h.mem d).refCount then
    (Data.deref (Data.refAlways h sharedNull) d, sharedNull)
  else
    ((h.setLength d 0).setType d LineType, d)

/-- Embedding of `Path::free()`. -/
def free (h : Heap) (d : Nat) : Heap × Nat :=
  (Data.deref (Data.refAlways h sharedNull) d, sharedNull)

/-- Embedding of `Path::setDeep(other)`. -/
def setDeep (E : Env) (h : Heap) (d other : Nat) : Out :=
  if d = other then ⟨h, d, .Ok⟩
  else if (h.mem other).length = 0 then
    let c := clear h d
    ⟨c.1, c.2, .Ok⟩
  else
    let r := reserve E h d (h.mem other).length
    if r.err ≠ .Ok then
      let c := clear r.heap r.d
      ⟨c.1, c.2, .OutOfMemory⟩
    else
      let len := (r.heap.mem other).length
      let h2 := r.heap.setLength r.d len
      let h3 := h2.setType r.d (h2.mem other).type
      ⟨memcpy h3 r.d other len, r.d, .Ok⟩

/-- Embedding of `Path::set(other)`.  In the sharing branch `other_d` is sharable, so `ref()`
returns
the block itself; the `none` case is kept only to make the match total. -/
def set (E : Env) (h : Heap) (d other : Nat) : Out :=
  if d = other then ⟨h, d, .Ok⟩
  else if (h.mem d).flags &&& IsStrong ≠ 0 ∨ (h.mem other).flags &&& IsSharable = 0 then
    setDeep E h d other
  else
    match Data.ref E h other with
    | (h1, none) => ⟨h1, d, .OutOfMemory⟩
    | (h1, some r) => ⟨Data.deref h1 d, r, .Ok⟩

/-- Embedding of `Path::Path()`: a new path holds `sharedNull`. -/
def newPath (h : Heap) : Heap × Nat := (Data.refAlways h sharedNull, sharedNull)

/-- Embedding of `Path::Path(const Path& other)`: `_d = other._d->ref()`. -/
def copyPath (E : Env) (h : Heap) (other : Nat) : Heap × Option Nat := Data.ref E h other

/-- Embedding of `Path::~Path()`. -/
def dropPath (h : Heap) (d : Nat) : Heap := Data.deref h d

/-! ## Last vertex -/

/-- Embedding of `lastX(d)`. -/
def lastX (h : Heap) (d : Nat) : ℚ :=
  if (h.mem d).length ≠ 0 then ((h.mem d).data ((h.mem d).length - 1)).x else 0

/-- Embedding of `lastY(d)`. -/
def lastY (h : Heap) (d : Nat) : ℚ :=
  if (h.mem d).length ≠ 0 then ((h.mem d).data ((h.mem d).length - 1)).y else 0

/-- The test of `relToAbsInline`: `d->length && v[-1].cmd.isVertex()`. -/
def lastIsVertex (h : Heap) (d : Nat) : Bool :=
  decide ((h.mem d).length ≠ 0) && Cmd.isVertex ((h.mem d).data ((h.mem d).length - 1)).cmd

/-- Embedding of `relToAbsInline(d, &x, &y)`: the pair after the call. -/
def relToAbsInline (h : Heap) (d : Nat) (p : ℚ × ℚ) : ℚ × ℚ :=
  if lastIsVertex h d then
    (p.1 + ((h.mem d).data ((h.mem d).length - 1)).x,
     p.2 + ((h.mem d).data ((h.mem d).length - 1)).y)
  else p

/-! ## Start / End -/

/-- Embedding of `Path::start(index)`: the outcome and the value stored through `index`, if any. -/
def start (E : Env) (h : Heap) (d : Nat) : Out × Option Nat :=
  if (h.mem d).length ≠ 0 ∧ ¬ Cmd.isStop ((h.mem d).data ((h.mem d).length - 1)).cmd then
    match _add E h d 1 with
    | (h1, d1, none) => (⟨h1, d1, .OutOfMemory⟩, none)
    | (h1, d1, some v) =>
      let h2 := h1.write d1 v ⟨CmdStop, 0, 0⟩
      (⟨h2, d1, .Ok⟩, some (h2.mem d1).length)
  else (⟨h, d, .Ok⟩, some (h.mem d).length)

/-- Embedding of `Path::endPoly(cmdflags)`. -/
def endPoly (E : Env) (h : Heap) (d : Nat) (cmdflags : Nat) : Out :=
  if lastIsVertex h d then
    match _add E h d 1 with
    | (h1, d1, none) => ⟨h1, d1, .OutOfMemory⟩
    | (h1, d1, some v) => ⟨h1.write d1 v ⟨cmdflags ||| CmdEndPoly, 0, 0⟩, d1, .Ok⟩
  else ⟨h, d, .Ok⟩

/-- Embedding of `Path::closePolygon(cmdflags)`. -/
def closePolygon (E : Env) (h : Heap) (d : Nat) (cmdflags : Nat) : Out :=
  endPoly E h d (cmdflags ||| CFlagClose)

/-! ## MoveTo / LineTo -/

/-- Embedding of `Path::moveTo(x, y)`. -/
def moveTo (E : Env) (h : Heap) (d : Nat) (x y : ℚ) : Out :=
  match _add E h d 1 with
  | (h1, d1, none) => ⟨h1, d1, .OutOfMemory⟩
  | (h1, d1, some v) => ⟨h1.write d1 v ⟨CmdMoveTo, x, y⟩, d1, .Ok⟩

/-- Embedding of `Path::moveToRel(dx, dy)`. -/
def moveToRel (E : Env) (h : Heap) (d : Nat) (dx dy : ℚ) : Out :=
  let p := relToAbsInline h d (dx, dy)
  moveTo E h d p.1 p.2

/-- Embedding of `Path::lineTo(x, y)`. -/
def lineTo (E : Env) (h : Heap) (d : Nat) (x y : ℚ) : Out :=
  match _add E h d 1 with
  | (h1, d1, none) => ⟨h1, d1, .OutOfMemory⟩
  | (h1, d1, some v) => ⟨h1.write d1 v ⟨CmdLineTo, x, y⟩, d1, .Ok⟩

/-- Embedding of `Path::lineToRel(dx, dy)`. -/
def lineToRel (E : Env) (h : Heap) (d : Nat) (dx dy : ℚ) : Out :=
  let p := relToAbsInline h d (dx, dy)
  lineTo E h d p.1 p.2

/-- Embedding of `Path::lineTo(pts, count)`: the points are the list `pts`. -/
def lineToPts (E : Env) (h : Heap) (d : Nat) (pts : List (ℚ × ℚ)) : Out :=
  match _add E h d pts.length with
  | (h1, d1, none) => ⟨h1, d1, .OutOfMemory⟩
  | (h1, d1, some v) =>
    ⟨h1.writeList d1 v (pts.map (fun p => ⟨CmdLineTo, p.1, p.2⟩)), d1, .Ok⟩

/-- Embedding of `Path::hlineTo(x)`. -/
def hlineTo (E : Env) (h : Heap) (d : Nat) (x : ℚ) : Out :=
  lineTo E h d x (lastY h d)

/-- Embedding of `Path::hlineToRel(dx)`. -/
def hlineToRel (E : Env) (h : Heap) (d : Nat) (dx : ℚ) : Out :=
  let p := relToAbsInline h d (dx, 0)
  lineTo E h d p.1 p.2

/-- Embedding of `Path::vlineTo(y)`. -/
def vlineTo (E : Env) (h : Heap) (d : Nat) (y : ℚ) : Out :=
  lineTo E h d (lastX h d) y

/-- Embedding of `Path::vlineToRel(dy)`. -/
def vlineToRel (E : Env) (h : Heap) (d : Nat) (dy : ℚ) : Out :=
  let p := relToAbsInline h d (0, dy)
  lineTo E h d p.1 p.2

/-! ## BezierTo / CubicTo -/

/-- Embedding of `Path::curveTo(cx, cy, tx, ty)`. -/
def curveTo (E : Env) (h : Heap) (d : Nat) (cx cy tx ty : ℚ) : Out :=
  match _add E h d 2 with
  | (h1, d1, none) => ⟨h1, d1, .OutOfMemory⟩
  | (h1, d1, some v) =>
    let h2 := h1.write d1 v ⟨CmdCurve3, cx, cy⟩
    let h3 := h2.write d1 (v + 1) ⟨CmdCurve3, tx, ty⟩
    ⟨h3.setType d1 CurveType, d1, .Ok⟩

/-- Embedding of `relToAbsInline` with two points. -/
def relToAbsInline2 (h : Heap) (d : Nat) (p0 p1 : ℚ × ℚ) : (ℚ × ℚ) × (ℚ × ℚ) :=
  (relToAbsInline h d p0, relToAbsInline h d p1)

/-- Embedding of `relToAbsInline` with three points. -/
def relToAbsInline3 (h : Heap) (d : Nat) (p0 p1 p2 : ℚ × ℚ) : (ℚ × ℚ) × (ℚ × ℚ) × (ℚ × ℚ) :=
  (relToAbsInline h d p0, relToAbsInline h d p1, relToAbsInline h d p2)

/-- Embedding of `Path::curveToRel(cx, cy, tx, ty)`. -/
def curveToRel (E : Env) (h : Heap) (d : Nat) (cx cy tx ty : ℚ) : Out :=
  let p := relToAbsInline2 h d (cx, cy) (tx, ty)
  curveTo E h d p.1.1 p.1.2 p.2.1 p.2.2

/-- Embedding of `Path::curveTo(tx, ty)`, the smooth form. -/
def curveToSmooth (E : Env) (h : Heap) (d : Nat) (tx ty : ℚ) : Out :=
  let b := h.mem d
  if lastIsVertex h d then
    let cx := (b.data (b.length - 1)).x
    let cy := (b.data (b.length - 1)).y
    if 2 ≤ b.length ∧ Cmd.isCurve (b.data (b.length - 2)).cmd then
      curveTo E h d (cx + ((b.data (b.length - 1)).x - (b.data (b.length - 2)).x))
        (cy + ((b.data (b.length - 1)).y - (b.data (b.length - 2)).y)) tx ty
    else curveTo E h d cx cy tx ty
  else ⟨h, d, .Ok⟩

/-- Embedding of `Path::curveToRel(tx, ty)`. -/
def curveToSmoothRel (E : Env) (h : Heap) (d : Nat) (tx ty : ℚ) : Out :=
  let p := relToAbsInline h d (tx, ty)
  curveToSmooth E h d p.1 p.2

/-- Embedding of `Path::cubicTo(cx1, cy1, cx2, cy2, tx, ty)`. -/
def cubicTo (E : Env) (h : Heap) (d : Nat) (cx1 cy1 cx2 cy2 tx ty : ℚ) : Out :=
  match _add E h d 3 with
  | (h1, d1, none) => ⟨h1, d1, .OutOfMemory⟩
  | (h1, d1, some v) =>
    let h2 := h1.write d1 v ⟨CmdCurve4, cx1, cy1⟩
    let h3 := h2.write d1 (v + 1) ⟨CmdCurve4, cx2, cy2⟩
    let h4 := h3.write d1 (v + 2) ⟨CmdCurve4, tx, ty⟩
    ⟨h4.setType d1 CurveType, d1, .Ok⟩

/-- Embedding of `Path::cubicToRel(cx1, cy1, cx2, cy2, tx, ty)`. -/
def cubicToRel (E : Env) (h : Heap) (d : Nat) (cx1 cy1 cx2 cy2 tx ty : ℚ) : Out :=
  let p := relToAbsInline3 h d (cx1, cy1) (cx2, cy2) (tx, ty)
  cubicTo E h d p.1.1 p.1.2 p.2.1.1 p.2.1.2 p.2.2.1 p.2.2.2

/-- Embedding of `Path::cubicTo(cx2, cy2, tx, ty)`, the smooth form. -/
def cubicToSmooth (E : Env) (h : Heap) (d : Nat) (cx2 cy2 tx ty : ℚ) : Out :=
  let b := h.mem d
  if lastIsVertex h d then
    let cx1 := (b.data (b.length - 1)).x
    let cy1 := (b.data (b.length - 1)).y
    if 2 ≤ b.length ∧ Cmd.isCurve (b.data (b.length - 2)).cmd then
      cubicTo E h d (cx1 + ((b.data (b.length - 1)).x - (b.data (b.length - 2)).x))
        (cy1 + ((b.data (b.length - 1)).y - (b.data (b.length - 2)).y)) cx2 cy2 tx ty
    else cubicTo E h d cx1 cy1 cx2 cy2 tx ty
  else ⟨h, d, .Ok⟩

/-- Embedding of `Path::cubicToRel(cx2, cy2, tx, ty)`. -/
def cubicToSmoothRel (E : Env) (h : Heap) (d : Nat) (cx2 cy2 tx ty : ℚ) : Out :=
  let p := relToAbsInline2 h d (cx2, cy2) (tx, ty)
  cubicToSmooth E h d p.1.1 p.1.2 p.2.1 p.2.2

/-! ## Whole-path transformations -/

/-- The loop `for (i = 0; i < len; i++) if (v[i].cmd.isVertex()) v[i] = f(v[i])` on the
block at `d`. -/
def mapVertices (h : Heap) (d : Nat) (f : Vertex → Vertex) : Heap :=
  h.upd d (fun b => { b with data := fun i =>
    if i < b.length ∧ Cmd.isVertex (b.data i).cmd then f (b.data i) else b.data i })

/-- Embedding of `Path::flipX(x1, x2)`. -/
def flipX (E : Env) (h : Heap) (d : Nat) (x1 x2 : ℚ) : Out :=
  if (h.mem d).length = 0 then ⟨h, d, .Ok⟩
  else
    let r := detach E h d
    if r.err ≠ .Ok then r
    else ⟨mapVertices r.heap r.d (fun v => { v with x := x2 - v.x + x1 }), r.d, .Ok⟩

/-- Embedding of `Path::flipY(y1, y2)`. -/
def flipY (E : Env) (h : Heap) (d : Nat) (y1 y2 : ℚ) : Out :=
  if (h.mem d).length = 0 then ⟨h, d, .Ok⟩
  else
    let r := detach E h d
    if r.err ≠ .Ok then r
    else ⟨mapVertices r.heap r.d (fun v => { v with y := y2 - v.y + y1 }), r.d, .Ok⟩

/-- Embedding of `Path::translate(dx, dy)`. -/
def translate (E : Env) (h : Heap) (d : Nat) (dx dy : ℚ) : Out :=
  if (h.mem d).length = 0 then ⟨h, d, .Ok⟩
  else
    let r := detach E h d
    if r.err ≠ .Ok then r
    else ⟨mapVertices r.heap r.d (fun v => { v with x := v.x + dx, y := v.y + dy }), r.d, .Ok⟩

/-- The loop of `Path::translate(dx, dy, pathId)`: from slot `i`, stop at the first Stop
command; `fuel` bounds the number of slots still to visit. -/
def translateLoop (dx dy : ℚ) (len : Nat) : Nat → Nat → (Nat → Vertex) → (Nat → Vertex)
  | 0, _, data => data
  | fuel + 1, i, data =>
    if i < len then
      if Cmd.isStop (data i).cmd then data
      else if Cmd.isVertex (data i).cmd then
        translateLoop dx dy len fuel (i + 1)
          (fun j => if j = i then { data i with x := (data i).x + dx, y := (data i).y + dy }
                    else data j)
      else translateLoop dx dy len fuel (i + 1) data
    else data

/-- Embedding of `Path::translate(dx, dy, pathId)`. -/
def translateFrom (E : Env) (h : Heap) (d : Nat) (dx dy : ℚ) (pathId : Nat) : Out :=
  if (h.mem d).length = 0 then ⟨h, d, .Ok⟩
  else
    let r := detach E h d
    if r.err ≠ .Ok then r
    else
      ⟨r.heap.upd r.d (fun b =>
        { b with data := translateLoop dx dy b.length (b.length - pathId) pathId b.data }),
       r.d, .Ok⟩

/-- The first loop of `Path::scale` with `keepStartPos`: the running minima `px`, `py`,
started at `v[0]` and lowered by the drawable vertices of the slots `1 .. len-1`. -/
def scaleOrigin (data : Nat → Vertex) (len : Nat) : ℚ × ℚ :=
  (List.range' 1 (len - 1)).foldl
    (fun p i =>
      if Cmd.isVertex (data i).cmd then
        (if (data i).x < p.1 then (data i).x else p.1,
         if (data i).y < p.2 then (data i).y else p.2)
      else p)
    ((data 0).x, (data 0).y)

/-- Embedding of `Path::scale(sx, sy, keepStartPos)`. -/
def scale (E : Env) (h : Heap) (d : Nat) (sx sy : ℚ) (keepStartPos : Bool) : Out :=
  if (h.mem d).length = 0 then ⟨h, d, .Ok⟩
  else
    let r := detach E h d
    if r.err ≠ .Ok then r
    else if keepStartPos then
      let p := scaleOrigin (r.heap.mem r.d).data (r.heap.mem r.d).length
      ⟨mapVertices r.heap r.d
        (fun v => { v with x := (v.x - p.1) * sx + p.1, y := (v.y - p.2) * sy + p.2 }),
       r.d, .Ok⟩
    else
      ⟨mapVertices r.heap r.d (fun v => { v with x := v.x * sx, y := v.y * sy }), r.d, .Ok⟩

/-- Modelled from the spec: `AffineMatrix` is not among the sources; the path uses it
only through `transform(&x, &y)`, here the map it applies to a coordinate pair. -/
structure AffineMatrix where
  transform : ℚ × ℚ → ℚ × ℚ

/-- Embedding of `Path::applyMatrix(matrix)`. -/
def applyMatrix (E : Env) (h : Heap) (d : Nat) (matrix : AffineMatrix) : Out :=
  if (h.mem d).length = 0 then ⟨h, d, .Ok⟩
  else
    let r := detach E h d
    if r.err ≠ .Ok then r
    else
      ⟨mapVertices r.heap r.d
        (fun v => { v with x := (matrix.transform (v.x, v.y)).1,
                           y := (matrix.transform (v.x, v.y)).2 }),
       r.d, .Ok⟩

/-! ## Rectangles -/

/-- Modelled from the spec: `RectF` is not among the sources: origin and extent, valid
when neither extent is zero or negative. -/
structure RectF where
  x : ℚ
  y : ℚ
  w : ℚ
  h : ℚ
deriving DecidableEq

/-- Modelled from the spec: `RectF::isValid()`. -/
def RectF.isValid (r : RectF) : Bool := decide (0 < r.w) && decide (0 < r.h)
/-- Modelled from the spec: `RectF::x1()`. -/
def RectF.x1 (r : RectF) : ℚ := r.x
/-- Modelled from the spec: `RectF::y1()`. -/
def RectF.y1 (r : RectF) : ℚ := r.y
/-- Modelled from the spec: `RectF::x2()`. -/
def RectF.x2 (r : RectF) : ℚ := r.x + r.w
/-- Modelled from the spec: `RectF::y2()`. -/
def RectF.y2 (r : RectF) : ℚ := r.y + r.h

/-- The five vertices `addRect` and `addRects` store for one rectangle. -/
def rectVertices (r : RectF) : List Vertex :=
  [⟨CmdMoveTo, r.x1, r.y1⟩, ⟨CmdLineTo, r.x2, r.y1⟩, ⟨CmdLineTo, r.x2, r.y2⟩,
   ⟨CmdLineTo, r.x1, r.y2⟩, ⟨CmdEndPoly ||| CFlagClose, 0, 0⟩]

/-- Embedding of `Path::addRect(r)`. -/
def addRect (E : Env) (h : Heap) (d : Nat) (r : RectF) : Out :=
  if ¬ r.isValid then ⟨h, d, .Ok⟩
  else
    match _add E h d 5 with
    | (h1, d1, none) => ⟨h1, d1, .OutOfMemory⟩
    | (h1, d1, some v) => ⟨h1.writeList d1 v (rectVertices r), d1, .Ok⟩

/-- The loop of `Path::addRects`: the memory and the write cursor `v` after the
rectangles `rs`. -/
def addRectsLoop (h : Heap) (d : Nat) : Nat → List RectF → Heap × Nat
  | v, [] => (h, v)
  | v, r :: rs =>
    if ¬ r.isValid then addRectsLoop h d v rs
    else addRectsLoop (h.writeList d v (rectVertices r)) d (v + 5) rs

/-- Embedding of `Path::addRects(r, count)`: the array is the list `rs`. -/
def addRects (E : Env) (h : Heap) (d : Nat) (rs : List RectF) : Out :=
  if rs.length = 0 then ⟨h, d, .Ok⟩
  else
    match _add E h d (rs.length * 5) with
    | (h1, d1, none) => ⟨h1, d1, .OutOfMemory⟩
    | (h1, d1, some v) =>
      let l := addRectsLoop h1 d1 v rs
      ⟨l.1.setLength d1 l.2, d1, .Ok⟩

/-! ## AddPath -/

/-- The copy loop of `Path::addPath`: slot `v + i` of `d` receives slot `i` of `src`,
for `i < count`, one vertex after the other. -/
def addPathLoop (d src : Nat) : Nat → Nat → Nat → Heap → Heap
  | 0, _, _, h => h
  | count + 1, v, i, h => addPathLoop d src count (v + 1) (i + 1) (h.write d v ((h.mem src).data i))

/-- Embedding of `Path::addPath(path)`.  `path` is the block the argument holds.  When it is
the block
of `this`, the source reads `path.cData()` after `_add`; the slots copied, `0 .. count-1`,
hold the same vertices in the old and in the new block. -/
def addPath (E : Env) (h : Heap) (d path : Nat) : Out :=
  let count := length h path
  if count = 0 then ⟨h, d, .Ok⟩
  else
    let t1 := type h d
    let t2 := type t1.1 path
    let t := max t1.2 t2.2
    match _add E t2.1 d count with
    | (h1, d1, none) => ⟨h1, d1, .OutOfMemory⟩
    | (h1, d1, some v) =>
      let src := if path = d then d1 else path
      ⟨(addPathLoop d1 src count v 0 h1).setType d1 t, d1, .Ok⟩

/-! ## ArcTo -/

/-- Constant `bezier_arc_angle_epsilon`. -/
def bezier_arc_angle_epsilon : ℚ := 1 / 100

/-- Embedding of `arc_to_bezier`: the four vertices it stores at `dst[0..3]`. -/
def arc_to_bezier (E : Env) (cx cy rx ry start_angle sweep_angle : ℚ) : List Vertex :=
  let sweep_angle := sweep_angle / 2
  let x0 := E.cos sweep_angle
  let y0 := E.sin sweep_angle
  let tx := (1 - x0) * (4 / 3)
  let ty := y0 - tx * x0 / y0
  let sn := E.sin (start_angle + sweep_angle)
  let cs := E.cos (start_angle + sweep_angle)
  [(x0, -y0), (x0 + tx, -ty), (x0 + tx, ty), (x0, y0)].map
    (fun p => ⟨CmdCurve4, cx + rx * (p.1 * cs - p.2 * sn), cy + ry * (p.1 * sn + p.2 * cs)⟩)

/-- Variables of the `do ... while` loop of `Path::_arcTo`. -/
structure ArcLoop where
  heap : Heap
  v : Nat
  start : ℚ
  total_sweep : ℚ

/-- The first half of a round of the loop of `Path::_arcTo`: from `sweep` and the
`total_sweep` so far, the values of `local_sweep`, `total_sweep` and `done`. -/
def arcStep (E : Env) (sweep total_sweep : ℚ) : ℚ × ℚ × Bool :=
  let prev_sweep := total_sweep
  if sweep < 0 then
    let total := total_sweep - E.M_PI * (1 / 2)
    if total ≤ sweep + bezier_arc_angle_epsilon then (sweep - prev_sweep, total, true)
    else (-E.M_PI * (1 / 2), total, false)
  else
    let total := total_sweep + E.M_PI * (1 / 2)
    if sweep - bezier_arc_angle_epsilon ≤ total then (sweep - prev_sweep, total, true)
    else (E.M_PI * (1 / 2), total, false)

/-- The `do ... while (!done && v < vend)` loop of `Path::_arcTo` on the block `d`.  The
cursor advances by 3 from `vend - 12`, so 4 rounds of fuel are never exhausted. -/
def arcLoop (E : Env) (d : Nat) (cx cy rx ry sweep : ℚ) (vend : Nat) : Nat → ArcLoop → ArcLoop
  | 0, s => s
  | fuel + 1, s =>
    let step := arcStep E sweep s.total_sweep
    let h1 := s.heap.writeList d (s.v - 1) (arc_to_bezier E cx cy rx ry s.start step.1)
    let s1 : ArcLoop := ⟨h1, s.v + 3, s.start + step.1, step.2.1⟩
    if ¬ step.2.2 ∧ s1.v < vend then arcLoop E d cx cy rx ry sweep vend fuel s1 else s1

/-- The two branches of `Path::_arcTo` up to the final `if (closePath)`, `start` and
`sweep` already normalised.  The code is `some OutOfMemory` for the early return, `none`
when control reaches the end of the branch. -/
def arcBody (E : Env) (h : Heap) (d : Nat) (cx cy rx ry start sweep : ℚ)
    (initialCommand : Nat) : Heap × Nat × Option err_t :=
  if |sweep| < 1 / 10000000000 then
    match _add E h d 2 with
    | (h1, d1, none) => (h1, d1, some .OutOfMemory)
    | (h1, d1, some v) =>
      let h2 := h1.write d1 v ⟨initialCommand, cx + rx * E.cos start, cx + ry * E.sin start⟩
      let h3 := h2.write d1 (v + 1)
        ⟨CmdLineTo, cx + rx * E.cos (start + sweep), cx + ry * E.sin (start + sweep)⟩
      (h3, d1, none)
  else
    match _add E h d 13 with
    | (h1, d1, none) => (h1, d1, some .OutOfMemory)
    | (h1, d1, some vstart) =>
      let l := arcLoop E d1 cx cy rx ry sweep (vstart + 13) 4 ⟨h1, vstart + 1, start, 0⟩
      let h2 := l.heap.upd d1 (fun b => { b with data := fun j =>
        if j = vstart then { b.data vstart with cmd := initialCommand } else b.data j })
      let h3 := h2.setLength d1 l.v
      (h3.setType d1 CurveType, d1, none)

/-- Embedding of `Path::_arcTo`.  The result code is `none` where control leaves the function
without
a `return` (no allocation failure and `closePath` false). -/
def _arcTo (E : Env) (h : Heap) (d : Nat) (cx cy rx ry start sweep : ℚ)
    (initialCommand : Nat) (closePath : Bool) : Heap × Nat × Option err_t :=
  let start := E.fmod start (2 * E.M_PI)
  let sweep := if 2 * E.M_PI ≤ sweep then 2 * E.M_PI else sweep
  let sweep := if sweep ≤ -2 * E.M_PI then -2 * E.M_PI else sweep
  match arcBody E h d cx cy rx ry start sweep initialCommand with
  | (h1, d1, some e) => (h1, d1, some e)
  | (h1, d1, none) =>
    if closePath then
      let r := closePolygon E h1 d1 0
      (r.heap, r.d, some r.err)
    else (h1, d1, none)

/-- Embedding of `Path::arcTo`. -/
def arcTo (E : Env) (h : Heap) (d : Nat) (cx cy rx ry start sweep : ℚ) :
    Heap × Nat × Option err_t :=
  _arcTo E h d cx cy rx ry start sweep CmdLineTo false

/-- Embedding of `Path::arcToRel`. -/
def arcToRel (E : Env) (h : Heap) (d : Nat) (cx cy rx ry start sweep : ℚ) :
    Heap × Nat × Option err_t :=
  let p := relToAbsInline h d (cx, cy)
  _arcTo E h d p.1 p.2 rx ry start sweep CmdLineTo false

/-- Modelled from the spec: `PointF` is not among the sources: a pair of coordinates. -/
structure PointF where
  x : ℚ
  y : ℚ
deriving DecidableEq

/-- Embedding of `Path::addArc(const RectF& r, start, sweep)`; `r.width()` and
`r.height()` are the extents of `r`. -/
def addArc (E : Env) (h : Heap) (d : Nat) (r : RectF) (start sweep : ℚ) :
    Heap × Nat × Option err_t :=
  if ¬ r.isValid then (h, d, some .Ok)
  else
    let rx := r.w / 2
    let ry := r.h / 2
    let cx := r.x + rx
    let cy := r.y + ry
    _arcTo E h d cx cy rx ry start sweep CmdMoveTo false

/-- Embedding of `Path::addArc(const PointF& cp, const PointF& r, start, sweep)`. -/
def addArcCenter (E : Env) (h : Heap) (d : Nat) (cp r : PointF) (start sweep : ℚ) :
    Heap × Nat × Option err_t :=
  _arcTo E h d cp.x cp.y r.x r.y start sweep CmdMoveTo false

/-! ## Curve approximation -/

/-- Macro `APPROXIMATE_CURVE3_RECURSION_LIMIT`. -/
abbrev APPROXIMATE_CURVE3_RECURSION_LIMIT : Nat := 32

/-- Constant `curve_collinearity_epsilon`. -/
def curve_collinearity_epsilon : ℚ := 1 / 10 ^ 30
/-- Constant `curve_angle_tolerance_epsilon`. -/
def curve_angle_tolerance_epsilon : ℚ := 1 / 100

/-- Embedding of `squareDistance(x1, y1, x2, y2)`. -/
def squareDistance (x1 y1 x2 y2 : ℚ) : ℚ :=
  let dx := x2 - x1
  let dy := y2 - y1
  dx * dx + dy * dy

/-- Embedding of `struct ApproximateCurve3Data`. -/
structure ApproximateCurve3Data where
  x1 : ℚ
  y1 : ℚ
  x2 : ℚ
  y2 : ℚ
  x3 : ℚ
  y3 : ℚ

/-- Embedding of `struct ApproximateCurve4Data`. -/
structure ApproximateCurve4Data where
  x1 : ℚ
  y1 : ℚ
  x2 : ℚ
  y2 : ℚ
  x3 : ℚ
  y3 : ℚ
  x4 : ℚ
  y4 : ℚ

/-- The tests of one round of the loop of `approximateCurve3`, before "Continue
subdivision": `some pts` when the round jumps to `ret` after `ADD_VERTEX` of the points
`pts` (none for the simple collinear case), `none` when it falls through to the
subdivision. -/
def curve3Test (E : Env) (c : ApproximateCurve3Data)
    (distanceToleranceSquare angleTolerance : ℚ) : Option (List (ℚ × ℚ)) :=
  let x12 := (c.x1 + c.x2) / 2
  let y12 := (c.y1 + c.y2) / 2
  let x23 := (c.x2 + c.x3) / 2
  let y23 := (c.y2 + c.y3) / 2
  let x123 := (x12 + x23) / 2
  let y123 := (y12 + y23) / 2
  let dx := c.x3 - c.x1
  let dy := c.y3 - c.y1
  let d := |(c.x2 - c.x3) * dy - (c.y2 - c.y3) * dx|
  if curve_collinearity_epsilon < d then
    if d * d ≤ distanceToleranceSquare * (dx * dx + dy * dy) then
      if angleTolerance < curve_angle_tolerance_epsilon then some [(x123, y123)]
      else
        let da := |E.atan2 (c.y3 - c.y2) (c.x3 - c.x2) - E.atan2 (c.y2 - c.y1) (c.x2 - c.x1)|
        let da := if E.M_PI ≤ da then 2 * E.M_PI - da else da
        if da < angleTolerance then some [(x123, y123)] else none
    else none
  else
    let da := dx * dx + dy * dy
    if da = 0 then
      let d := squareDistance c.x1 c.y1 c.x2 c.y2
      if d < distanceToleranceSquare then some [(c.x2, c.y2)] else none
    else
      let d := ((c.x2 - c.x1) * dx + (c.y2 - c.y1) * dy) / da
      if 0 < d ∧ d < 1 then some []
      else
        let d :=
          if d ≤ 0 then squareDistance c.x2 c.y2 c.x1 c.y1
          else if 1 ≤ d then squareDistance c.x2 c.y2 c.x3 c.y3
          else squareDistance c.x2 c.y2 (c.x1 + d * dx) (c.y1 + d * dy)
        if d < distanceToleranceSquare then some [(c.x2, c.y2)] else none

/-- The `for (;;)` loop of `approximateCurve3`.  `stack` is `stack[0 .. level-1]`, last
pushed first, so `level` is its length; `out` collects the `ADD_VERTEX` points.  The
result is the output and the curve in `x1 .. y3` at the `break`; `none` when `fuel`
rounds do not reach the `break`. -/
def approximateCurve3Loop (E : Env) (distanceToleranceSquare angleTolerance : ℚ) :
    Nat → ApproximateCurve3Data → List ApproximateCurve3Data → List (ℚ × ℚ) →
    Option (List (ℚ × ℚ) × ApproximateCurve3Data)
  | 0, _, _, _ => none
  | fuel + 1, c, stack, out =>
    let x12 := (c.x1 + c.x2) / 2
    let y12 := (c.y1 + c.y2) / 2
    let x23 := (c.x2 + c.x3) / 2
    let y23 := (c.y2 + c.y3) / 2
    let x123 := (x12 + x23) / 2
    let y123 := (y12 + y23) / 2
    match curve3Test E c distanceToleranceSquare angleTolerance with
    | none =>
      if stack.length < APPROXIMATE_CURVE3_RECURSION_LIMIT then
        approximateCurve3Loop E distanceToleranceSquare angleTolerance fuel
          { c with x2 := x12, y2 := y12, x3 := x123, y3 := y123 }
          (⟨x123, y123, x23, y23, c.x3, c.y3⟩ :: stack) out
      else
        match stack with
        | [] => some (out, c)
        | top :: rest =>
          approximateCurve3Loop E distanceToleranceSquare angleTolerance fuel top rest out
    | some pts =>
      match stack with
      | [] => some (out ++ pts, c)
      | top :: rest =>
        approximateCurve3Loop E distanceToleranceSquare angleTolerance fuel top rest (out ++ pts)

/-- The vertices `approximateCurve3` stores from the slot `_add` returned: the points of
the loop and the end point, all LineTo. -/
def approximateCurve3Points (E : Env) (fuel : Nat) (x1 y1 x2 y2 x3 y3 : ℚ)
    (approximationScale angleTolerance : ℚ) : Option (List Vertex) :=
  let distanceToleranceSquare := 1 / 2 / approximationScale
  let distanceToleranceSquare := distanceToleranceSquare * distanceToleranceSquare
  match approximateCurve3Loop E distanceToleranceSquare angleTolerance fuel
      ⟨x1, y1, x2, y2, x3, y3⟩ [] [] with
  | none => none
  | some (out, c) =>
    some ((out ++ [(c.x3, c.y3)]).map (fun p => ⟨CmdLineTo, p.1, p.2⟩))

/-- Embedding of `approximateCurve3`; `none` when the loop does not end within `fuel` rounds. -/
def approximateCurve3 (E : Env) (fuel : Nat) (h : Heap) (dst : Nat) (x1 y1 x2 y2 x3 y3 : ℚ)
    (approximationScale angleTolerance : ℚ) : Option Out :=
  match _add E h dst (APPROXIMATE_CURVE3_RECURSION_LIMIT * 2 + 1) with
  | (h1, d1, none) => some ⟨h1, d1, .OutOfMemory⟩
  | (h1, d1, some v) =>
    match approximateCurve3Points E fuel x1 y1 x2 y2 x3 y3 approximationScale angleTolerance with
    | none => none
    | some vs => some ⟨(h1.writeList d1 v vs).setLength d1 (v + vs.length), d1, .Ok⟩

/-- The `switch` of one round of the loop of `approximateCurve4`: `some pts` when the
round jumps to `ret` after `ADD_VERTEX` of `pts`, `none` when it leaves the `switch` by
`break` and continues with the subdivision. -/
def curve4Test (E : Env) (c : ApproximateCurve4Data)
    (distanceToleranceSquare angleTolerance cuspLimit : ℚ) : Option (List (ℚ × ℚ)) :=
  let x23 := (c.x2 + c.x3) / 2
  let y23 := (c.y2 + c.y3) / 2
  let dx := c.x4 - c.x1
  let dy := c.y4 - c.y1
  let d2 := |(c.x2 - c.x4) * dy - (c.y2 - c.y4) * dx|
  let d3 := |(c.x3 - c.x4) * dy - (c.y3 - c.y4) * dx|
  let wrap := fun (da : ℚ) => if E.M_PI ≤ da then 2 * E.M_PI - da else da
  match decide (curve_collinearity_epsilon < d2), decide (curve_collinearity_epsilon < d3) with
  | false, false =>
    let k := dx * dx + dy * dy
    let finish := fun (d2 d3 : ℚ) =>
      if d3 < d2 then
        if d2 < distanceToleranceSquare then some [(c.x2, c.y2)] else none
      else
        if d3 < distanceToleranceSquare then some [(c.x3, c.y3)] else none
    if k = 0 then
      finish (squareDistance c.x1 c.y1 c.x2 c.y2) (squareDistance c.x4 c.y4 c.x3 c.y3)
    else
      let k := 1 / k
      let d2 := k * ((c.x2 - c.x1) * dx + (c.y2 - c.y1) * dy)
      let d3 := k * ((c.x3 - c.x1) * dx + (c.y3 - c.y1) * dy)
      if 0 < d2 ∧ d2 < 1 ∧ 0 < d3 ∧ d3 < 1 then some []
      else
        let d2 :=
          if d2 ≤ 0 then squareDistance c.x2 c.y2 c.x1 c.y1
          else if 1 ≤ d2 then squareDistance c.x2 c.y2 c.x4 c.y4
          else squareDistance c.x2 c.y2 (c.x1 + d2 * dx) (c.y1 + d2 * dy)
        let d3 :=
          if d3 ≤ 0 then squareDistance c.x3 c.y3 c.x1 c.y1
          else if 1 ≤ d3 then squareDistance c.x3 c.y3 c.x4 c.y4
          else squareDistance c.x3 c.y3 (c.x1 + d3 * dx) (c.y1 + d3 * dy)
        finish d2 d3
  | false, true =>
    if d3 * d3 ≤ distanceToleranceSquare * (dx * dx + dy * dy) then
      if angleTolerance < curve_angle_tolerance_epsilon then some [(x23, y23)]
      else
        let da1 := wrap |E.atan2 (c.y4 - c.y3) (c.x4 - c.x3) - E.atan2 (c.y3 - c.y2) (c.x3 - c.x2)|
        if da1 < angleTolerance then some [(c.x2, c.y2), (c.x3, c.y3)]
        else if cuspLimit ≠ 0 ∧ cuspLimit < da1 then some [(c.x3, c.y3)]
        else none
    else none
  | true, false =>
    if d2 * d2 ≤ distanceToleranceSquare * (dx * dx + dy * dy) then
      if angleTolerance < curve_angle_tolerance_epsilon then some [(x23, y23)]
      else
        let da1 := wrap |E.atan2 (c.y3 - c.y2) (c.x3 - c.x2) - E.atan2 (c.y2 - c.y1) (c.x2 - c.x1)|
        if da1 < angleTolerance then some [(c.x2, c.y2), (c.x3, c.y3)]
        else if cuspLimit ≠ 0 ∧ cuspLimit < da1 then some [(c.x3, c.y3)]
        else none
    else none
  | true, true =>
    if (d2 + d3) * (d2 + d3) ≤ distanceToleranceSquare * (dx * dx + dy * dy) then
      if angleTolerance < curve_angle_tolerance_epsilon then some [(x23, y23)]
      else
        let k := E.atan2 (c.y3 - c.y2) (c.x3 - c.x2)
        let da1 := wrap |k - E.atan2 (c.y2 - c.y1) (c.x2 - c.x1)|
        let da2 := wrap |E.atan2 (c.y4 - c.y3) (c.x4 - c.x3) - k|
        if da1 + da2 < angleTolerance then some [(x23, y23)]
        else if cuspLimit ≠ 0 ∧ cuspLimit < da1 then some [(c.x2, c.y2)]
        else if cuspLimit ≠ 0 ∧ cuspLimit < da2 then some [(c.x3, c.y3)]
        else none
    else none

/-- The `for (;;)` loop of `approximateCurve4` (see `approximateCurve3Loop`). -/
def approximateCurve4Loop (E : Env) (distanceToleranceSquare angleTolerance cuspLimit : ℚ) :
    Nat → ApproximateCurve4Data → List ApproximateCurve4Data → List (ℚ × ℚ) →
    Option (List (ℚ × ℚ) × ApproximateCurve4Data)
  | 0, _, _, _ => none
  | fuel + 1, c, stack, out =>
    let x12 := (c.x1 + c.x2) / 2
    let y12 := (c.y1 + c.y2) / 2
    let x23 := (c.x2 + c.x3) / 2
    let y23 := (c.y2 + c.y3) / 2
    let x34 := (c.x3 + c.x4) / 2
    let y34 := (c.y3 + c.y4) / 2
    let x123 := (x12 + x23) / 2
    let y123 := (y12 + y23) / 2
    let x234 := (x23 + x34) / 2
    let y234 := (y23 + y34) / 2
    let x1234 := (x123 + x234) / 2
    let y1234 := (y123 + y234) / 2
    match curve4Test E c distanceToleranceSquare angleTolerance cuspLimit with
    | none =>
      if stack.length < APPROXIMATE_CURVE3_RECURSION_LIMIT then
        approximateCurve4Loop E distanceToleranceSquare angleTolerance cuspLimit fuel
          { c with x2 := x12, y2 := y12, x3 := x123, y3 := y123, x4 := x1234, y4 := y1234 }
          (⟨x1234, y1234, x234, y234, x34, y34, c.x4, c.y4⟩ :: stack) out
      else
        match stack with
        | [] => some (out, c)
        | top :: rest =>
          approximateCurve4Loop E distanceToleranceSquare angleTolerance cuspLimit fuel
            top rest out
    | some pts =>
      match stack with
      | [] => some (out ++ pts, c)
      | top :: rest =>
        approximateCurve4Loop E distanceToleranceSquare angleTolerance cuspLimit fuel
          top rest (out ++ pts)

/-- The vertices `approximateCurve4` stores from the slot `_add` returned. -/
def approximateCurve4Points (E : Env) (fuel : Nat) (x1 y1 x2 y2 x3 y3 x4 y4 : ℚ)
    (approximationScale angleTolerance cuspLimit : ℚ) : Option (List Vertex) :=
  let distanceToleranceSquare := 1 / 2 / approximationScale
  let distanceToleranceSquare := distanceToleranceSquare * distanceToleranceSquare
  match approximateCurve4Loop E distanceToleranceSquare angleTolerance cuspLimit fuel
      ⟨x1, y1, x2, y2, x3, y3, x4, y4⟩ [] [] with
  | none => none
  | some (out, c) =>
    some ((out ++ [(c.x4, c.y4)]).map (fun p => ⟨CmdLineTo, p.1, p.2⟩))

/-- Embedding of `approximateCurve4`; `none` when the loop does not end within `fuel` rounds. -/
def approximateCurve4 (E : Env) (fuel : Nat) (h : Heap) (dst : Nat)
    (x1 y1 x2 y2 x3 y3 x4 y4 : ℚ) (approximationScale angleTolerance cuspLimit : ℚ) :
    Option Out :=
  match _add E h dst (APPROXIMATE_CURVE3_RECURSION_LIMIT * 4 + 1) with
  | (h1, d1, none) => some ⟨h1, d1, .OutOfMemory⟩
  | (h1, d1, some v) =>
    match approximateCurve4Points E fuel x1 y1 x2 y2 x3 y3 x4 y4 approximationScale
        angleTolerance cuspLimit with
    | none => none
    | some vs => some ⟨(h1.writeList d1 v vs).setLength d1 (v + vs.length), d1, .Ok⟩

/-! ## Flatten -/

/-- The end of `Path::flattenTo` after the `do ... while (n)` loop. -/
def flattenFinish (E : Env) (matrix : Option AffineMatrix) (h : Heap) (dst dstv : Nat) : Out :=
  let h1 := h.setLength dst dstv
  let h2 := h1.setType dst LineType
  match matrix with
  | some m =>
    let r := applyMatrix E h2 dst m
    ⟨r.heap, r.d, .Ok⟩
  | none => ⟨h2, dst, .Ok⟩

/-- The label `invalid:` of `Path::flattenTo`. -/
def flattenInvalid (h : Heap) (dst : Nat) : Out :=
  ⟨(h.setLength dst 0).setType dst LineType, dst, .InvalidPath⟩

/-- The end of a curve case of `Path::flattenTo`, `k` source vertices consumed: return,
or `goto ensureSpace` and the next round, which `next` runs. -/
def flattenAgain (E : Env) (r : Out) (n k : Nat) (next : Heap → Nat → Nat → Option Out) :
    Option Out :=
  if n - k = 0 then some ⟨r.heap, r.d, .Ok⟩
  else
    match _add E r.heap r.d (n - k) with
    | (h2, d2, none) => some ⟨h2, d2, .OutOfMemory⟩
    | (h2, d2, some dstv) => next h2 d2 dstv

/-- The `do ... while (n)` loop of `Path::flattenTo` with its jumps to `ensureSpace`.
`this` is the source block, `v` the index of the source cursor, `n` the number of source
vertices left, `dst` the block of the destination, `dstv` its write cursor.  Every round
consumes a source vertex, so `steps = n` rounds are enough; `none` also when a curve
approximation does not end within `fuel`. -/
def flattenLoop (E : Env) (fuel : Nat) (this : Nat) (matrix : Option AffineMatrix)
    (approximationScale : ℚ) :
    Nat → Heap → Nat → Nat → Nat → Nat → ℚ → ℚ → Option Out
  | 0, _, _, _, _, _, _, _ => none
  | steps + 1, h, dst, v, n, dstv, lastx, lasty =>
    let v0 := (h.mem this).data v
    let v1 := (h.mem this).data (v + 1)
    let v2 := (h.mem this).data (v + 2)
    let c := Cmd.cmd v0.cmd
    if c = CmdMoveTo ∨ c = CmdLineTo then
      let h1 := h.write dst dstv ⟨v0.cmd, v0.x, v0.y⟩
      if n - 1 ≠ 0 then
        flattenLoop E fuel this matrix approximationScale steps h1 dst (v + 1) (n - 1)
          (dstv + 1) v0.x v0.y
      else some (flattenFinish E matrix h1 dst (dstv + 1))
    else if c = CmdCurve3 then
      if n ≤ 1 then some (flattenInvalid h dst)
      else if Cmd.cmd v1.cmd ≠ CmdCurve3 then some (flattenInvalid h dst)
      else
        match approximateCurve3 E fuel (h.setLength dst dstv) dst lastx lasty
            v0.x v0.y v1.x v1.y approximationScale 0 with
        | none => none
        | some r =>
          if r.err ≠ .Ok then some r
          else
            flattenAgain E r n 2 (fun h2 d2 dstv2 =>
              flattenLoop E fuel this matrix approximationScale steps h2 d2 (v + 2) (n - 2) dstv2
                ((r.heap.mem this).data (v + 1)).x ((r.heap.mem this).data (v + 1)).y)
    else if c = CmdCurve4 then
      if n ≤ 2 then some (flattenInvalid h dst)
      else if Cmd.cmd v1.cmd ≠ CmdCurve4 ∨ Cmd.cmd v2.cmd ≠ CmdCurve4 then
        some (flattenInvalid h dst)
      else
        match approximateCurve4 E fuel (h.setLength dst dstv) dst lastx lasty
            v0.x v0.y v1.x v1.y v2.x v2.y approximationScale 0 0 with
        | none => none
        | some r =>
          if r.err ≠ .Ok then some r
          else
            flattenAgain E r n 3 (fun h2 d2 dstv2 =>
              flattenLoop E fuel this matrix approximationScale steps h2 d2 (v + 3) (n - 3) dstv2
                ((r.heap.mem this).data (v + 2)).x ((r.heap.mem this).data (v + 2)).y)
    else if c = CmdCatrom then
      if n ≤ 2 then some (flattenInvalid h dst)
      else if Cmd.cmd v1.cmd ≠ CmdCatrom ∨ Cmd.cmd v2.cmd ≠ CmdCatrom then
        some (flattenInvalid h dst)
      else
        match approximateCurve4 E fuel (h.setLength dst dstv) dst
            v0.x v0.y
            ((-lastx + 6 * v0.x + v1.x) / 6) ((-lasty + 6 * v0.y + v1.y) / 6)
            ((v0.x + 6 * v1.x - v2.x) / 6) ((v0.y + 6 * v1.y - v2.y) / 6)
            v1.x v1.y approximationScale 0 0 with
        | none => none
        | some r =>
          flattenAgain E r n 3 (fun h2 d2 dstv2 =>
            flattenLoop E fuel this matrix approximationScale steps h2 d2 (v + 3) (n - 3) dstv2
              v2.x v2.y)
    else if c = CmdUBSpline then
      if n ≤ 2 then some (flattenInvalid h dst)
      else if Cmd.cmd v1.cmd ≠ CmdUBSpline ∨ Cmd.cmd v2.cmd ≠ CmdUBSpline then
        some (flattenInvalid h dst)
      else
        let lastx1 := (v0.x + 4 * v1.x + v2.x) / 6
        let lasty1 := (v0.y + 4 * v1.y + v2.y) / 6
        match approximateCurve4 E fuel (h.setLength dst dstv) dst
            ((lastx + 4 * v0.x + v1.x) / 6) ((lasty + 4 * v0.y + v1.y) / 6)
            ((4 * v0.x + 2 * v1.x) / 6) ((4 * v0.y + 2 * v1.y) / 6)
            ((2 * v0.x + 4 * v1.x) / 6) ((2 * v0.y + 4 * v1.y) / 6)
            lastx1 lasty1 approximationScale 0 0 with
        | none => none
        | some r =>
          flattenAgain E r n 3 (fun h2 d2 dstv2 =>
            flattenLoop E fuel this matrix approximationScale steps h2 d2 (v + 3) (n - 3) dstv2
              lastx1 lasty1)
    else
      let h1 := h.write dst dstv ⟨v0.cmd, 0, 0⟩
      if n - 1 ≠ 0 then
        flattenLoop E fuel this matrix approximationScale steps h1 dst (v + 1) (n - 1)
          (dstv + 1) 0 0
      else some (flattenFinish E matrix h1 dst (dstv + 1))

/-- Embedding of `Path::flattenTo(dst, matrix, approximationScale)` for a destination that is
another
object than `this` (`this != &dst`; the two may hold the same block).  The outcome
carries the `_d` of `dst`; the `_d` of `this` does not change. -/
def flattenToOther (E : Env) (fuel : Nat) (h : Heap) (this dst : Nat)
    (matrix : Option AffineMatrix) (approximationScale : ℚ) : Option Out :=
  let t := type h this
  if t.2 = LineType then
    let r := set E t.1 dst this
    match matrix with
    | some m =>
      let r2 := applyMatrix E r.heap r.d m
      some ⟨r2.heap, r2.d, .Ok⟩
    | none => some ⟨r.heap, r.d, .Ok⟩
  else
    let c := clear t.1 dst
    let n := length c.1 this
    if n = 0 then some ⟨c.1, c.2, .Ok⟩
    else
      let r := reserve E c.1 c.2 (n * 8)
      if r.err ≠ .Ok then some ⟨r.heap, r.d, .OutOfMemory⟩
      else
        match _add E r.heap r.d n with
        | (h2, d2, none) => some ⟨h2, d2, .OutOfMemory⟩
        | (h2, d2, some dstv) =>
          flattenLoop E fuel this matrix approximationScale n h2 d2 0 n dstv 0 0

/-- Embedding of `Path::flattenTo(*this, matrix, approximationScale)`, destination and source the
same object: the work is done on a temporary path, which is then assigned. -/
def flattenToSelf (E : Env) (fuel : Nat) (h : Heap) (this : Nat)
    (matrix : Option AffineMatrix) (approximationScale : ℚ) : Option Out :=
  let t := type h this
  if t.2 = LineType then
    match matrix with
    | some m =>
      let r := applyMatrix E t.1 this m
      some ⟨r.heap, r.d, .Ok⟩
    | none => some ⟨t.1, this, .Ok⟩
  else
    let tmp := newPath t.1
    match flattenToOther E fuel tmp.1 this tmp.2 matrix approximationScale with
    | none => none
    | some r =>
      let s := set E r.heap this r.d
      some ⟨dropPath s.heap r.d, s.d, r.err⟩

/-- Embedding of `Path::flatten(matrix, approximationScale)`. -/
def flatten (E : Env) (fuel : Nat) (h : Heap) (d : Nat)
    (matrix : Option AffineMatrix) (approximationScale : ℚ) : Option Out :=
  let t := type h d
  if t.2 = LineType then some ⟨t.1, d, .Ok⟩
  else flattenToSelf E fuel t.1 d matrix approximationScale

/-- Embedding of `Path::flatten()`. -/
def flatten0 (E : Env) (fuel : Nat) (h : Heap) (d : Nat) : Option Out :=
  flatten E fuel h d none 1

/-! ## AntiGrain wrappers -/

/-- Embedding of `struct AggPath`: the block it reads and its two cursors `vCur` and
`vEnd`, as slot indices into that block. -/
structure AggPath where
  d : Nat
  vCur : Nat
  vEnd : Nat

/-- Embedding of `AggPath::rewind(index)`. -/
def AggPath.rewind (h : Heap) (a : AggPath) (index : Nat) : AggPath :=
  { a with vCur := index, vEnd := (h.mem a.d).length }

/-- Embedding of `AggPath::AggPath(path)`: `d = path._d; rewind(0);`. -/
def AggPath.create (h : Heap) (path : Nat) : AggPath :=
  AggPath.rewind h ⟨path, 0, 0⟩ 0

/-- Embedding of `AggPath::vertex(x, y)`: the command returned, the values stored through
`x` and `y` (`none` when nothing is stored) and the adapter afterwards. -/
def AggPath.vertex (h : Heap) (a : AggPath) : Nat × Option (ℚ × ℚ) × AggPath :=
  if a.vCur = a.vEnd then (CmdStop, none, a)
  else
    (Cmd.cmd ((h.mem a.d).data a.vCur).cmd,
     some (((h.mem a.d).data a.vCur).x, ((h.mem a.d).data a.vCur).y),
     { a with vCur := a.vCur + 1 })

/-- The template parameter `VertexStorage` of `concatToPath`: a source with a state of
type `σ`, `rewind(path_id)` and `vertex(x, y)`; `vertex` gives the command, the values it
stores through `x` and `y` (`none` when it stores nothing) and the state afterwards. -/
structure VertexStorage (σ : Type) where
  rewind : σ → Nat → σ
  vertex : σ → Nat × Option (ℚ × ℚ) × σ

/-- The loop `for (i = step; i; i--, v++)` of `concatToPath` on the block `d`: the memory,
the cursor `v`, the source, and whether the loop left through `goto done`. -/
def concatChunk {σ : Type} (V : VertexStorage σ) (d : Nat) :
    Nat → Heap → Nat → σ → Heap × Nat × σ × Bool
  | 0, h, v, s => (h, v, s, false)
  | i + 1, h, v, s =>
    let r := V.vertex s
    let xy := r.2.1.getD (((h.mem d).data v).x, ((h.mem d).data v).y)
    let h1 := h.write d v ⟨r.1, xy.1, xy.2⟩
    if r.1 = CmdStop then (h1, v, r.2.2, true)
    else concatChunk V d i h1 (v + 1) r.2.2

/-- The `for (;;)` loop of `concatToPath`; `none` when `fuel` rounds do not reach a
`return`. -/
def concatLoop {σ : Type} (E : Env) (V : VertexStorage σ) :
    Nat → Heap → Nat → Nat → Nat → σ → Option Out
  | 0, _, _, _, _, _ => none
  | fuel + 1, h, d, len, step, s =>
    let r := reserve E h d (len + step)
    if r.err ≠ .Ok then some r
    else
      let c := concatChunk V r.d step r.heap len s
      if c.2.2.2 then some ⟨c.1.setLength r.d c.2.1, r.d, .Ok⟩
      else
        let len := len + step
        let h2 := c.1.setLength r.d len
        let step := if step < 1024 * 1024 then step <<< 1 else step
        concatLoop E V fuel h2 r.d len step c.2.2.1

/-- Embedding of `concatToPath(dst, src, path_id)`; `none` when the loop does not end
within `fuel` rounds. -/
def concatToPath {σ : Type} (E : Env) (V : VertexStorage σ) (fuel : Nat) (h : Heap)
    (dst : Nat) (src : σ) (path_id : Nat) : Option Out :=
  let len := length h dst
  concatLoop E V fuel h dst len 1024 (V.rewind src path_id)

/-! ## Rounded rectangles -/

/-- Modelled from the spec: `err |= e` on result codes.  The numeric values of the codes
are not among the sources; `Error::Ok` is the zero the code tests with `if (err)`, so the
bitwise or with Ok is the other code and the or of a code with itself is that code.  The
value is `none` where the source does not determine it: two different error codes, or an
operand that is itself not determined (`_arcTo` left without a `return`). -/
def errOr : Option err_t → Option err_t → Option err_t
  | some .Ok, b => b
  | a, some .Ok => a
  | some a, some b => if a = b then some a else none
  | _, _ => none

/-- Embedding of `Path::addRound(r, radius)`; `r.w()`, `r.width()` and `r.h()`,
`r.height()` are the extents of `r`. -/
def addRound (E : Env) (h : Heap) (d : Nat) (r : RectF) (radius : PointF) :
    Heap × Nat × Option err_t :=
  if ¬ r.isValid then (h, d, some .Ok)
  else
    let rw2 := r.w / 2
    let rh2 := r.h / 2
    let rx := |radius.x|
    let ry := |radius.y|
    let rx := if rw2 < rx then rw2 else rx
    let ry := if rh2 < ry then rh2 else ry
    if rx = 0 ∨ ry = 0 then
      let o := addRect E h d r
      (o.heap, o.d, some o.err)
    else
      let x1 := r.x
      let y1 := r.y
      let x2 := r.x + r.w
      let y2 := r.y + r.h
      let err : Option err_t := some .Ok
      let o1 := moveTo E h d (x1 + rx) y1
      let err := errOr err (some o1.err)
      let o2 := lineTo E o1.heap o1.d (x2 - rx) y1
      let err := errOr err (some o2.err)
      let a3 := arcTo E o2.heap o2.d (x2 - rx) (y1 + ry) rx ry (E.M_PI * (3 / 2)) (E.M_PI * (1 / 2))
      let err := errOr err a3.2.2
      let o4 := lineTo E a3.1 a3.2.1 x2 (y2 - ry)
      let err := errOr err (some o4.err)
      let a5 := arcTo E o4.heap o4.d (x2 - rx) (y2 - ry) rx ry (E.M_PI * 0) (E.M_PI * (1 / 2))
      let err := errOr err a5.2.2
      let o6 := lineTo E a5.1 a5.2.1 (x1 + rx) y2
      let err := errOr err (some o6.err)
      let a7 := arcTo E o6.heap o6.d (x1 + rx) (y2 - ry) rx ry (E.M_PI * (1 / 2)) (E.M_PI * (1 / 2))
      let err := errOr err a7.2.2
      let o8 := lineTo E a7.1 a7.2.1 x1 (y1 + ry)
      let err := errOr err (some o8.err)
      let a9 := arcTo E o8.heap o8.d (x1 + rx) (y1 + ry) rx ry (E.M_PI * 1) (E.M_PI * (1 / 2))
      let err := errOr err a9.2.2
      let o10 := closePolygon E a9.1 a9.2.1 0
      let err := errOr err (some o10.err)
      (o10.heap, o10.d, err)

/-! ## The arc arithmetic over a field of scalars

The source computes the arcs in `double`.  To state what the formulas give in exact real
arithmetic, the arithmetic of `arc_to_bezier` and of the loop of `Path::_arcTo` is given
a second time with the scalars left open; `arc_to_bezier`, `arcStep` and `arcLoop` above
are the case of the rationals and of the functions of the environment. -/

/-- The arithmetic of `arc_to_bezier` over a field `K` with its `cos` and `sin`: the
coordinates stored at `dst[0 .. 3]`. -/
def Exact.arc_to_bezier {K : Type} [Field K] (cos sin : K → K)
    (cx cy rx ry start_angle sweep_angle : K) : List (K × K) :=
  let sweep_angle := sweep_angle / 2
  let x0 := cos sweep_angle
  let y0 := sin sweep_angle
  let tx := (1 - x0) * (4 / 3)
  let ty := y0 - tx * x0 / y0
  let sn := sin (start_angle + sweep_angle)
  let cs := cos (start_angle + sweep_angle)
  [(x0, -y0), (x0 + tx, -ty), (x0 + tx, ty), (x0, y0)].map
    (fun p => (cx + rx * (p.1 * cs - p.2 * sn), cy + ry * (p.1 * sn + p.2 * cs)))

/-- The first half of a round of the loop of `Path::_arcTo` over an ordered field, `pi`
for `M_PI`: the values of `local_sweep`, `total_sweep` and `done` (see `arcStep`). -/
def Exact.arcStep {K : Type} [LinearOrderedField K] (pi sweep total_sweep : K) :
    K × K × Bool :=
  let prev_sweep := total_sweep
  if sweep < 0 then
    let total := total_sweep - pi * (1 / 2)
    if total ≤ sweep + 1 / 100 then (sweep - prev_sweep, total, true)
    else (-pi * (1 / 2), total, false)
  else
    let total := total_sweep + pi * (1 / 2)
    if sweep - 1 / 100 ≤ total then (sweep - prev_sweep, total, true)
    else (pi * (1 / 2), total, false)

/-- Variables of the loop of `Path::_arcTo` over an ordered field: `out` holds the
coordinates stored so far in the slots from `vstart` on, `v` is the cursor as an offset
from `vstart`; `sweeps` records the `local_sweep` of the rounds run so far. -/
structure Exact.ArcLoop (K : Type) where
  out : List (K × K)
  v : Nat
  start : K
  total_sweep : K
  sweeps : List K

/-- The `do ... while (!done && v < vend)` loop of `Path::_arcTo` over an ordered field
(see `arcLoop`): a round stores its four points from the slot `v - 1` on, over the last
point of the round before, and `vend` is `vstart + 13`. -/
def Exact.arcLoop {K : Type} [LinearOrderedField K] (cos sin : K → K)
    (pi cx cy rx ry sweep : K) : Nat → Exact.ArcLoop K → Exact.ArcLoop K
  | 0, s => s
  | fuel + 1, s =>
    let step := Exact.arcStep pi sweep s.total_sweep
    let out1 := s.out.take (s.v - 1) ++ Exact.arc_to_bezier cos sin cx cy rx ry s.start step.1
    let s1 : Exact.ArcLoop K :=
      ⟨out1, s.v + 3, s.start + step.1, step.2.1, s.sweeps ++ [step.1]⟩
    if ¬ step.2.2 ∧ s1.v < 13 then Exact.arcLoop cos sin pi cx cy rx ry sweep fuel s1 else s1

/-- The general branch of `Path::_arcTo` (`fabs(sweep) >= 1e-10` after the clamps) over
an ordered field: `start` and `sweep` are normalised as the function does, then the loop
runs on the 13 slots `_add` made. -/
def Exact.arcGeneral {K : Type} [LinearOrderedField K] (cos sin : K → K)
    (fmod : K → K → K) (pi cx cy rx ry start sweep : K) : Exact.ArcLoop K :=
  let start := fmod start (2 * pi)
  let sweep := if 2 * pi ≤ sweep then 2 * pi else sweep
  let sweep := if sweep ≤ -2 * pi then -2 * pi else sweep
  Exact.arcLoop cos sin pi cx cy rx ry sweep 4 ⟨[], 1, start, 0, []⟩

/-! ## Ellipses, chords and pies -/

/-- Embedding of `Path::addEllipse(const RectF& r)`. -/
def addEllipse (E : Env) (h : Heap) (d : Nat) (r : RectF) : Heap × Nat × Option err_t :=
  if ¬ r.isValid then (h, d, some .Ok)
  else
    let rx := r.w / 2
    let ry := r.h / 2
    let cx := r.x + rx
    let cy := r.y + ry
    _arcTo E h d cx cy rx ry 0 (2 * E.M_PI) CmdMoveTo true

/-- Embedding of `Path::addEllipse(const PointF& cp, const PointF& r)`. -/
def addEllipseCenter (E : Env) (h : Heap) (d : Nat) (cp r : PointF) :
    Heap × Nat × Option err_t :=
  _arcTo E h d cp.x cp.y r.x r.y 0 (2 * E.M_PI) CmdMoveTo true

/-- Embedding of `Path::addChord(const RectF& r, start, sweep)`. -/
def addChord (E : Env) (h : Heap) (d : Nat) (r : RectF) (start sweep : ℚ) :
    Heap × Nat × Option err_t :=
  if ¬ r.isValid then (h, d, some .Ok)
  else
    let rx := r.w / 2
    let ry := r.h / 2
    let cx := r.x + rx
    let cy := r.y + ry
    _arcTo E h d cx cy rx ry start sweep CmdMoveTo true

/-- Embedding of `Path::addChord(const PointF& cp, const PointF& r, start, sweep)`. -/
def addChordCenter (E : Env) (h : Heap) (d : Nat) (cp r : PointF) (start sweep : ℚ) :
    Heap × Nat × Option err_t :=
  _arcTo E h d cp.x cp.y r.x r.y start sweep CmdMoveTo true

/-- Embedding of `Path::addPie(const PointF& cp, const PointF& r, start, sweep)`.  The
result code is `none` where it would be the value of an `_arcTo` left without a
`return`. -/
def addPieCenter (E : Env) (h : Heap) (d : Nat) (cp r : PointF) (start sweep : ℚ) :
    Heap × Nat × Option err_t :=
  if E.M_PI * 2 ≤ sweep then addEllipseCenter E h d cp r
  else
    let start := E.fmod start (E.M_PI * 2)
    let start := if start < 0 then start + E.M_PI * 2 else start
    let o := moveTo E h d cp.x cp.y
    if o.err ≠ .Ok then (o.heap, o.d, some o.err)
    else
      match _arcTo E o.heap o.d cp.x cp.y r.x r.y start sweep CmdLineTo true with
      | (h1, d1, none) => (h1, d1, none)
      | (h1, d1, some e) => if e ≠ .Ok then (h1, d1, some e) else (h1, d1, some .Ok)

/-- Embedding of `Path::addPie(const RectF& r, start, sweep)`. -/
def addPie (E : Env) (h : Heap) (d : Nat) (r : RectF) (start sweep : ℚ) :
    Heap × Nat × Option err_t :=
  if ¬ r.isValid then (h, d, some .Ok)
  else
    let rx := r.w / 2
    let ry := r.h / 2
    let cx := r.x + rx
    let cy := r.y + ry
    addPieCenter E h d ⟨cx, cy⟩ ⟨rx, ry⟩ start sweep

/-! ## The tolerance of the curve loops in `double` -/

/-- The value of `distanceToleranceSquare` (`0.5 / approximationScale`, then
`distanceToleranceSquare *= distanceToleranceSquare`) where the `double` arithmetic of
the source matters: a square of at most `2^-1075`, half the smallest positive `double`,
is rounded to `0.0`; above that the exact value stands for the rounded one. -/
def distanceToleranceSquareDouble (approximationScale : ℚ) : ℚ :=
  let distanceToleranceSquare := 1 / 2 / approximationScale
  if distanceToleranceSquare * distanceToleranceSquare ≤ 1 / 2 ^ 1075 then 0
  else distanceToleranceSquare * distanceToleranceSquare

/-- The vertices `approximateCurve3` stores when the tolerance is the one the source
computes in `double` (`approximateCurve3Points` computes it exactly); `none` when the
loop does not reach its `break` within `fuel` rounds. -/
def approximateCurve3PointsDouble (E : Env) (fuel : Nat) (x1 y1 x2 y2 x3 y3 : ℚ)
    (approximationScale angleTolerance : ℚ) : Option (List Vertex) :=
  match approximateCurve3Loop E (distanceToleranceSquareDouble approximationScale)
      angleTolerance fuel ⟨x1, y1, x2, y2, x3, y3⟩ [] [] with
  | none => none
  | some (out, c) =>
    some ((out ++ [(c.x3, c.y3)]).map (fun p => ⟨CmdLineTo, p.1, p.2⟩))

/-! ## Initial memory and a concrete environment -/

/-- The block `fog_path_init` sets up for `sharedNull`. -/
def sharedNullData : Data :=
  { refCount := 1, flags := IsNull ||| IsSharable, type := LineType, capacity := 0,
    length := 0, data := fun _ => ⟨CmdStop, 0, 0⟩, freed := false }

/-- The memory after `fog_path_init`: only `sharedNull` exists. -/
def Heap.init : Heap := { mem := fun _ => sharedNullData, next := 1 }

/-- An environment in which no allocation fails, used to run the code on examples:
fresh memory holds Stop vertices and the capacity grows by half of what is asked. -/
def Env.plain : Env :=
  { oom := fun _ => false
    uninit := fun _ _ => ⟨CmdStop, 0, 0⟩
    calcOptimalCapacity := fun _ after => after + after / 2
    cos := fun _ => 1
    sin := fun _ => 0
    fmod := fun x _ => x
    atan2 := fun _ _ => 0
    M_PI := 355 / 113 }

/-- An environment in which every allocation fails; otherwise as `Env.plain`. -/
def Env.failing : Env := { Env.plain with oom := fun _ => true }

/-- A vertex source that plays back a list: the state is the list and what is left of
it; `rewind(i)` restarts at the element `i`. -/
def listStorage : VertexStorage (List Vertex × List Vertex) :=
  { rewind := fun s i => (s.1, s.1.drop i)
    vertex := fun s =>
      match s.2 with
      | [] => (CmdStop, none, s)
      | v :: rest => (v.cmd, some (v.x, v.y), (s.1, rest)) }

/-! ## Notions used in the statements -/

/-- The block `q` shows the same vertices in `h'` as in `h`: same length, same slots. -/
def Same (q : Nat) (h h' : Heap) : Prop :=
  (h'.mem q).length = (h.mem q).length ∧ (h'.mem q).data = (h.mem q).data

/-- The condition under which work through a handle on block `d` cannot touch the
vertices another handle sees in block `q`: `q` is an existing, referenced block that
still shows what it showed in `h0`, and when `d` is `q` itself the block has a second
owner. -/
structure Safe (q : Nat) (h0 h : Heap) (d : Nat) : Prop where
  same : Same q h0 h
  lt : q < h.next
  live : 1 ≤ (h.mem q).refCount
  shared : d = q → 2 ≤ (h.mem q).refCount

/-- What a successful `_add(count)` guarantees about the block `d1` it leaves in `_d`
and the slot `v` it returns. -/
structure AddOk (E : Env) (h : Heap) (d count : Nat) (h1 : Heap) (d1 v : Nat) : Prop where
  slot : v = (h.mem d).length
  length : (h1.mem d1).length = (h.mem d).length + count
  data : ∀ i, i < (h.mem d).length → (h1.mem d1).data i = (h.mem d).data i
  type : (h1.mem d1).type =
    if (h.mem d).refCount = 1 ∧ count ≤ (h.mem d).capacity - (h.mem d).length
    then (h.mem d).type else LineType
  capacity : (h1.mem d1).capacity =
    if (h.mem d).refCount = 1 ∧ count ≤ (h.mem d).capacity - (h.mem d).length
    then (h.mem d).capacity
    else E.calcOptimalCapacity (h.mem d).length ((h.mem d).length + count)
  refCount : (h1.mem d1).refCount = 1
  next : h.next ≤ h1.next
  lt : d1 < h1.next

/-- The outcome `o` of an operation on the path `d` of `h` is a success that appended
exactly the vertices `vs`; the block it leaves in `_d` exists. -/
structure Appends (h : Heap) (d : Nat) (o : Out) (vs : List Vertex) : Prop where
  err : o.err = .Ok
  verts : o.heap.verts o.d = h.verts d ++ vs
  lt : o.d < o.heap.next

/-- The vertex sequence is empty or ends in a structural marker (Stop or EndPoly). -/
def endsInMarker (vs : List Vertex) : Prop :=
  vs = [] ∨ ∃ ws w, vs = ws ++ [w] ∧ (Cmd.cmd w.cmd = CmdStop ∨ Cmd.cmd w.cmd = CmdEndPoly)

/-- The cached type of block `q` is LineType. -/
def TL (h : Heap) (q : Nat) : Prop := (h.mem q).type = LineType

/-- Every block whose cached type is LineType in `h` still has it in `h'`. -/
def Keeps (h h' : Heap) : Prop := ∀ q, TL h q → TL h' q

/-- The left-to-right scan of `flattenTo` over the vertices `vs` meets a malformed curve
group: a Curve3 that is the last vertex or is not followed by a second Curve3, or a
Curve4, Catrom or UBSpline that is not followed by two more vertices of the same
command.  Well-formed groups (2 or 3 vertices) and all other vertices are passed over. -/
def meetsMalformed : List Vertex → Bool
  | [] => false
  | v :: rest =>
    if Cmd.cmd v.cmd = CmdCurve3 then
      match rest with
      | w :: rest' => if Cmd.cmd w.cmd = CmdCurve3 then meetsMalformed rest' else true
      | [] => true
    else if Cmd.cmd v.cmd = CmdCurve4 ∨ Cmd.cmd v.cmd = CmdCatrom
        ∨ Cmd.cmd v.cmd = CmdUBSpline then
      match rest with
      | w1 :: w2 :: rest' =>
        if Cmd.cmd w1.cmd = Cmd.cmd v.cmd ∧ Cmd.cmd w2.cmd = Cmd.cmd v.cmd then
          meetsMalformed rest'
        else true
      | _ => true
    else meetsMalformed rest

/-- The running last point of the scan of `flattenTo` after a well-formed group of three
vertices `v, w1, w2` with command `c` (Curve4, Catrom or UBSpline). -/
def lastAfter3 (c : Nat) (v w1 w2 : Vertex) : ℚ × ℚ :=
  if c = CmdUBSpline then ((v.x + 4 * w1.x + w2.x) / 6, (v.y + 4 * w1.y + w2.y) / 6)
  else (w2.x, w2.y)

/-- The call of `approximateCurve4` the scan of `flattenTo` makes for a well-formed group
`v, w1, w2` with command `c` (Curve4, Catrom or UBSpline) and running last point
`(lastx, lasty)`: the vertices it computes, `none` when the loop does not end in `fuel`. -/
def group3Points (E : Env) (fuel : Nat) (scale : ℚ) (c : Nat) (lastx lasty : ℚ)
    (v w1 w2 : Vertex) : Option (List Vertex) :=
  if c = CmdCurve4 then
    approximateCurve4Points E fuel lastx lasty v.x v.y w1.x w1.y w2.x w2.y scale 0 0
  else if c = CmdCatrom then
    approximateCurve4Points E fuel v.x v.y
      ((-lastx + 6 * v.x + w1.x) / 6) ((-lasty + 6 * v.y + w1.y) / 6)
      ((v.x + 6 * w1.x - w2.x) / 6) ((v.y + 6 * w1.y - w2.y) / 6)
      w1.x w1.y scale 0 0
  else
    approximateCurve4Points E fuel
      ((lastx + 4 * v.x + w1.x) / 6) ((lasty + 4 * v.y + w1.y) / 6)
      ((4 * v.x + 2 * w1.x) / 6) ((4 * v.y + 2 * w1.y) / 6)
      ((2 * v.x + 4 * w1.x) / 6) ((2 * v.y + 4 * w1.y) / 6)
      ((v.x + 4 * w1.x + w2.x) / 6) ((v.y + 4 * w1.y + w2.y) / 6) scale 0 0

/-- The curve loops that the scan of `flattenTo` runs on the vertices `vs`, started with
the running last point `(lastx, lasty)`, all end within `fuel` rounds; the scan is
followed up to the first malformed group. -/
def curvesApproximated (E : Env) (fuel : Nat) (scale : ℚ) : ℚ → ℚ → List Vertex → Bool
  | _, _, [] => true
  | lastx, lasty, v :: rest =>
    if Cmd.cmd v.cmd = CmdMoveTo ∨ Cmd.cmd v.cmd = CmdLineTo then
      curvesApproximated E fuel scale v.x v.y rest
    else if Cmd.cmd v.cmd = CmdCurve3 then
      match rest with
      | w :: rest' =>
        if Cmd.cmd w.cmd = CmdCurve3 then
          (approximateCurve3Points E fuel lastx lasty v.x v.y w.x w.y scale 0).isSome
            && curvesApproximated E fuel scale w.x w.y rest'
        else true
      | [] => true
    else if Cmd.cmd v.cmd = CmdCurve4 ∨ Cmd.cmd v.cmd = CmdCatrom
        ∨ Cmd.cmd v.cmd = CmdUBSpline then
      match rest with
      | w1 :: w2 :: rest' =>
        if Cmd.cmd w1.cmd = Cmd.cmd v.cmd ∧ Cmd.cmd w2.cmd = Cmd.cmd v.cmd then
          (group3Points E fuel scale (Cmd.cmd v.cmd) lastx lasty v w1 w2).isSome
            && curvesApproximated E fuel scale (lastAfter3 (Cmd.cmd v.cmd) v w1 w2).1
                (lastAfter3 (Cmd.cmd v.cmd) v w1 w2).2 rest'
        else true
      | _ => true
    else curvesApproximated E fuel scale 0 0 rest

/-- The outcome `r` of a `flattenTo` that ended at the label `invalid`: the code
InvalidPath, the destination empty with type LineType, and the block `this` of the
source still showing what it showed in `h0`. -/
structure InvalidEnd (this : Nat) (h0 : Heap) (r : Out) : Prop where
  err : r.err = .InvalidPath
  length : (r.heap.mem r.d).length = 0
  type : (r.heap.mem r.d).type = LineType
  same : Same this h0 r.heap

/-- The mutating operations of `Path`, with their arguments. -/
inductive MutOp where
  | moveTo (x y : ℚ)
  | lineTo (x y : ℚ)
  | lineToPts (pts : List (ℚ × ℚ))
  | curveTo (cx cy tx ty : ℚ)
  | curveToSmooth (tx ty : ℚ)
  | cubicTo (cx1 cy1 cx2 cy2 tx ty : ℚ)
  | cubicToSmooth (cx2 cy2 tx ty : ℚ)
  | addRect (r : RectF)
  | addRects (rs : List RectF)
  | arcTo (cx cy rx ry start sweep : ℚ)
  | addPath (path : Nat)
  | start
  | endPoly (cmdflags : Nat)
  | closePolygon (cmdflags : Nat)
  | reserve (capacity : Nat)
  | clear
  | translate (dx dy : ℚ)
  | translateFrom (dx dy : ℚ) (pathId : Nat)
  | scale (sx sy : ℚ) (keepStartPos : Bool)
  | flipX (x1 x2 : ℚ)
  | flipY (y1 y2 : ℚ)
  | applyMatrix (matrix : AffineMatrix)

/-- Run a mutating operation on the path holding block `d`: the memory and the `_d` of
that path afterwards. -/
def MutOp.run (E : Env) (h : Heap) (d : Nat) : MutOp → Heap × Nat
  | .moveTo x y => ((Fog.moveTo E h d x y).heap, (Fog.moveTo E h d x y).d)
  | .lineTo x y => ((Fog.lineTo E h d x y).heap, (Fog.lineTo E h d x y).d)
  | .lineToPts pts => ((Fog.lineToPts E h d pts).heap, (Fog.lineToPts E h d pts).d)
  | .curveTo cx cy tx ty =>
    ((Fog.curveTo E h d cx cy tx ty).heap, (Fog.curveTo E h d cx cy tx ty).d)
  | .curveToSmooth tx ty =>
    ((Fog.curveToSmooth E h d tx ty).heap, (Fog.curveToSmooth E h d tx ty).d)
  | .cubicTo cx1 cy1 cx2 cy2 tx ty =>
    ((Fog.cubicTo E h d cx1 cy1 cx2 cy2 tx ty).heap, (Fog.cubicTo E h d cx1 cy1 cx2 cy2 tx ty).d)
  | .cubicToSmooth cx2 cy2 tx ty =>
    ((Fog.cubicToSmooth E h d cx2 cy2 tx ty).heap, (Fog.cubicToSmooth E h d cx2 cy2 tx ty).d)
  | .addRect r => ((Fog.addRect E h d r).heap, (Fog.addRect E h d r).d)
  | .addRects rs => ((Fog.addRects E h d rs).heap, (Fog.addRects E h d rs).d)
  | .arcTo cx cy rx ry st sweep =>
    ((Fog.arcTo E h d cx cy rx ry st sweep).1, (Fog.arcTo E h d cx cy rx ry st sweep).2.1)
  | .addPath path => ((Fog.addPath E h d path).heap, (Fog.addPath E h d path).d)
  | .start => ((Fog.start E h d).1.heap, (Fog.start E h d).1.d)
  | .endPoly cmdflags => ((Fog.endPoly E h d cmdflags).heap, (Fog.endPoly E h d cmdflags).d)
  | .closePolygon cmdflags =>
    ((Fog.closePolygon E h d cmdflags).heap, (Fog.closePolygon E h d cmdflags).d)
  | .reserve capacity => ((Fog.reserve E h d capacity).heap, (Fog.reserve E h d capacity).d)
  | .clear => Fog.clear h d
  | .translate dx dy => ((Fog.translate E h d dx dy).heap, (Fog.translate E h d dx dy).d)
  | .translateFrom dx dy pathId =>
    ((Fog.translateFrom E h d dx dy pathId).heap, (Fog.translateFrom E h d dx dy pathId).d)
  | .scale sx sy keepStartPos =>
    ((Fog.scale E h d sx sy keepStartPos).heap, (Fog.scale E h d sx sy keepStartPos).d)
  | .flipX x1 x2 => ((Fog.flipX E h d x1 x2).heap, (Fog.flipX E h d x1 x2).d)
  | .flipY y1 y2 => ((Fog.flipY E h d y1 y2).heap, (Fog.flipY E h d y1 y2).d)
  | .applyMatrix matrix =>
    ((Fog.applyMatrix E h d matrix).heap, (Fog.applyMatrix E h d matrix).d)

/-- The vertices the rectangles `rs` contribute to a path: the five vertices of each valid
rectangle, in order; nothing for an invalid one. -/
def rectsVertices : List RectF → List Vertex
  | [] => []
  | r :: rs => if r.isValid then rectVertices r ++ rectsVertices rs else rectsVertices rs

/-- The calls `addRect(r)` for each rectangle `r` of `rs`, in order, on the path holding
block `d`; the sequence stops at the first call that fails. -/
def addRectEach (E : Env) (h : Heap) (d : Nat) : List RectF → Out
  | [] => ⟨h, d, .Ok⟩
  | r :: rs =>
    if (addRect E h d r).err = .Ok then
      addRectEach E (addRect E h d r).heap (addRect E h d r).d rs
    else addRect E h d r

/-- The outcome `o` of an arc operation on the path `d` of `h` appended exactly two
vertices: the first with the command `c`, the second with LineTo. -/
def AppendsArcPair (h : Heap) (d : Nat) (o : Heap × Nat × Option err_t) (c : Nat) : Prop :=
  ∃ x0 y0 x1 y1, o.1.verts o.2.1 = h.verts d ++ [⟨c, x0, y0⟩, ⟨CmdLineTo, x1, y1⟩] ∧
    (o.1.mem o.2.1).length = (h.mem d).length + 2

/-- The sweep `_arcTo` works with: its argument after the two clamps to `2π` and
`-2π`. -/
def arcSweep (E : Env) (sweep : ℚ) : ℚ :=
  if (if 2 * E.M_PI ≤ sweep then 2 * E.M_PI else sweep) ≤ -2 * E.M_PI then -2 * E.M_PI
  else (if 2 * E.M_PI ≤ sweep then 2 * E.M_PI else sweep)

/-- The outcome `o` of an arc operation on the path `d` of `h` appended exactly `1 + 3k`
vertices, the first with the command `c` and all others with Curve4, and left the cached
type CurveType. -/
def AppendsArc (h : Heap) (d : Nat) (o : Heap × Nat × Option err_t) (c k : Nat) : Prop :=
  ∃ first rest, o.1.verts o.2.1 = h.verts d ++ first :: rest ∧ first.cmd = c ∧
    rest.length = 3 * k ∧ (∀ v ∈ rest, v.cmd = CmdCurve4) ∧
    (o.1.mem o.2.1).type = CurveType

/-- The adapter after `k` calls of `vertex`. -/
def AggPath.after (h : Heap) (a : AggPath) : Nat → AggPath
  | 0 => a
  | k + 1 => (AggPath.vertex h (AggPath.after h a k)).2.2

/-- The source `V` in state `s` yields the vertices `vs`, none with the command Stop,
and then Stop. -/
def Yields {σ : Type} (V : VertexStorage σ) : σ → List Vertex → Prop
  | s, [] => (V.vertex s).1 = CmdStop
  | s, v :: vs =>
    (V.vertex s).1 = v.cmd ∧ v.cmd ≠ CmdStop ∧ (V.vertex s).2.1 = some (v.x, v.y) ∧
      Yields V (V.vertex s).2.2 vs

/-- The calls `lineTo(p)` for each point `p` of `pts`, in order, on the path holding
block `d`; the sequence stops at the first call that fails. -/
def lineToEach (E : Env) (h : Heap) (d : Nat) : List (ℚ × ℚ) → Out
  | [] => ⟨h, d, .Ok⟩
  | p :: pts =>
    if (lineTo E h d p.1 p.2).err = .Ok then
      lineToEach E (lineTo E h d p.1 p.2).heap (lineTo E h d p.1 p.2).d pts
    else lineTo E h d p.1 p.2

/-- The outcome `o` of an operation on the path `d` of `h` left the path as it was: the
same block, with the same vertices, length, capacity and type (as `type()` returns
it). -/
structure Untouched (h : Heap) (d : Nat) (o : Out) : Prop where
  block : o.d = d
  verts : o.heap.verts d = h.verts d
  length : (o.heap.mem d).length = (h.mem d).length
  capacity : (o.heap.mem d).capacity = (h.mem d).capacity
  type : (type o.heap d).2 = (type h d).2

/-- The allocation `_add(count)` needs on the block `d` fails: the block is shared or has
fewer than `count` free slots, so `_add` allocates, and the allocation is refused. -/
def AllocFails (E : Env) (h : Heap) (d count : Nat) : Prop :=
  ¬((h.mem d).refCount = 1 ∧ count ≤ (h.mem d).capacity - (h.mem d).length) ∧
    E.oom h.next = true

/-- The outcome `o` of an operation on the path `d` of `h` is a success that appended the
vertices `vs` in place: no allocation was attempted, the path holds the same block and
the block has the same capacity. -/
structure InPlace (h : Heap) (d : Nat) (o : Out) (vs : List Vertex) : Prop where
  err : o.err = .Ok
  block : o.d = d
  next : o.heap.next = h.next
  capacity : (o.heap.mem d).capacity = (h.mem d).capacity
  verts : o.heap.verts d = h.verts d ++ vs

/-- The two legs `p1 p2` and `p2 p3` of the control polygon of `c` are at most `m` long in
each coordinate. -/
def Curve3Within (c : ApproximateCurve3Data) (m : ℚ) : Prop :=
  |c.x2 - c.x1| ≤ m ∧ |c.y2 - c.y1| ≤ m ∧ |c.x3 - c.x2| ≤ m ∧ |c.y3 - c.y2| ≤ m

/-- The first half of the cubic `c`: the curve the loop of `approximateCurve4` goes on with
when it subdivides. -/
def curve4Left (c : ApproximateCurve4Data) : ApproximateCurve4Data :=
  let x12 := (c.x1 + c.x2) / 2
  let y12 := (c.y1 + c.y2) / 2
  let x23 := (c.x2 + c.x3) / 2
  let y23 := (c.y2 + c.y3) / 2
  let x34 := (c.x3 + c.x4) / 2
  let y34 := (c.y3 + c.y4) / 2
  let x123 := (x12 + x23) / 2
  let y123 := (y12 + y23) / 2
  let x234 := (x23 + x34) / 2
  let y234 := (y23 + y34) / 2
  let x1234 := (x123 + x234) / 2
  let y1234 := (y123 + y234) / 2
  { c with x2 := x12, y2 := y12, x3 := x123, y3 := y123, x4 := x1234, y4 := y1234 }

/-- The second half of the cubic `c`: the curve the loop of `approximateCurve4` pushes on
its stack when it subdivides. -/
def curve4Right (c : ApproximateCurve4Data) : ApproximateCurve4Data :=
  let x12 := (c.x1 + c.x2) / 2
  let y12 := (c.y1 + c.y2) / 2
  let x23 := (c.x2 + c.x3) / 2
  let y23 := (c.y2 + c.y3) / 2
  let x34 := (c.x3 + c.x4) / 2
  let y34 := (c.y3 + c.y4) / 2
  let x123 := (x12 + x23) / 2
  let y123 := (y12 + y23) / 2
  let x234 := (x23 + x34) / 2
  let y234 := (y23 + y34) / 2
  let x1234 := (x123 + x234) / 2
  let y1234 := (y123 + y234) / 2
  ⟨x1234, y1234, x234, y234, x34, y34, c.x4, c.y4⟩

/-- What the loop of `approximateCurve4` stores while it works off the cubic `c`, entered
with `level` curves on its stack, followed to `depth` subdivisions: the points of the
round when the round accepts `c`; nothing when `c` is not accepted and the stack is full;
otherwise the points of the first half (one more curve on the stack) followed by those of
the second half.  `none` when `depth` subdivisions are not enough. -/
def subdivide4 (E : Env) (tol angleTolerance cuspLimit : ℚ) :
    Nat → Nat → ApproximateCurve4Data → Option (List (ℚ × ℚ))
  | 0, _, _ => none
  | depth + 1, level, c =>
    match curve4Test E c tol angleTolerance cuspLimit with
    | some pts => some pts
    | none =>
      if level < APPROXIMATE_CURVE3_RECURSION_LIMIT then
        match subdivide4 E tol angleTolerance cuspLimit depth (level + 1) (curve4Left c),
          subdivide4 E tol angleTolerance cuspLimit depth level (curve4Right c) with
        | some a, some b => some (a ++ b)
        | _, _ => none
      else some []

/-- While the loop of `approximateCurve4` works off the cubic `c` (as in `subdivide4`), no
sub-curve is left without a stored point: no round ends in the simple collinear case and
no sub-curve is dropped because the stack is full. -/
def storesEverywhere4 (E : Env) (tol angleTolerance cuspLimit : ℚ) :
    Nat → Nat → ApproximateCurve4Data → Bool
  | 0, _, _ => true
  | depth + 1, level, c =>
    match curve4Test E c tol angleTolerance cuspLimit with
    | some pts => !pts.isEmpty
    | none =>
      decide (level < APPROXIMATE_CURVE3_RECURSION_LIMIT) &&
        storesEverywhere4 E tol angleTolerance cuspLimit depth (level + 1) (curve4Left c) &&
        storesEverywhere4 E tol angleTolerance cuspLimit depth level (curve4Right c)

/-- The arguments the Catrom case of `Path::flattenTo` hands to `approximateCurve4`:
the control points it computes from the running last point `(lastx, lasty)` and the
three vertices `v0`, `v1`, `v2` of the group. -/
def catromToBezier (lastx lasty : ℚ) (v0 v1 v2 : Vertex) : ApproximateCurve4Data :=
  ⟨v0.x, v0.y,
   (-lastx + 6 * v0.x + v1.x) / 6, (-lasty + 6 * v0.y + v1.y) / 6,
   (v0.x + 6 * v1.x - v2.x) / 6, (v0.y + 6 * v1.y - v2.y) / 6,
   v1.x, v1.y⟩

/-- The point at the parameter `t` of the cubic Bezier curve with the control points of
`c`. -/
def bezierAt (c : ApproximateCurve4Data) (t : ℚ) : ℚ × ℚ :=
  ((1 - t) ^ 3 * c.x1 + 3 * (1 - t) ^ 2 * t * c.x2 + 3 * (1 - t) * t ^ 2 * c.x3 + t ^ 3 * c.x4,
   (1 - t) ^ 3 * c.y1 + 3 * (1 - t) ^ 2 * t * c.y2 + 3 * (1 - t) * t ^ 2 * c.y3 + t ^ 3 * c.y4)

/-- The point at the parameter `t` of the uniform Catmull-Rom segment through
`p1 .. p4`, which runs from `p2` to `p3`. -/
def catmullRomAt (p1 p2 p3 p4 : ℚ × ℚ) (t : ℚ) : ℚ × ℚ :=
  (1 / 2 * (2 * p2.1 + (-p1.1 + p3.1) * t + (2 * p1.1 - 5 * p2.1 + 4 * p3.1 - p4.1) * t ^ 2
    + (-p1.1 + 3 * p2.1 - 3 * p3.1 + p4.1) * t ^ 3),
   1 / 2 * (2 * p2.2 + (-p1.2 + p3.2) * t + (2 * p1.2 - 5 * p2.2 + 4 * p3.2 - p4.2) * t ^ 2
    + (-p1.2 + 3 * p2.2 - 3 * p3.2 + p4.2) * t ^ 3))

/-- The vertices of an arc from the coordinates of its points: the first carries the
initial command `c`, the others Curve4. -/
def arcVertices (c : Nat) : List (ℚ × ℚ) → List Vertex
  | [] => []
  | p :: ps => ⟨c, p.1, p.2⟩ :: ps.map (fun q => ⟨CmdCurve4, q.1, q.2⟩)

/-- The state `s` of the arc loop on the block `d`, entered with the memory `h0` and
`vstart = vs`, and the state `x` of the same loop over the rationals agree: same cursor,
angles and stored points; the loop has left the slots below `vs` alone. -/
structure ArcSim (d vs : Nat) (h0 : Heap) (s : ArcLoop) (x : Exact.ArcLoop ℚ) : Prop where
  v : s.v = vs + x.v
  len : x.out.length = x.v
  start : s.start = x.start
  total : s.total_sweep = x.total_sweep
  data : ∀ i p, x.out[i]? = some p → (s.heap.mem d).data (vs + i) = ⟨CmdCurve4, p.1, p.2⟩
  below : ∀ i, i < vs → (s.heap.mem d).data i = (h0.mem d).data i
  next : s.heap.next = h0.next

/-- The start angle `addPie` hands to the arc primitive: `fmod(start, 2π)`, raised by
`2π` when negative. -/
def pieStart (E : Env) (start : ℚ) : ℚ :=
  if E.fmod start (E.M_PI * 2) < 0 then E.fmod start (E.M_PI * 2) + E.M_PI * 2
  else E.fmod start (E.M_PI * 2)

/-- The outcome `o` of a transformation of the path `d` of `h` kept its structure: the
length, the command of every vertex, and the stored coordinates of every vertex that is
not drawable (Stop, EndPoly). -/
structure KeepsStructure (h : Heap) (d : Nat) (o : Out) : Prop where
  length : (o.heap.mem o.d).length = (h.mem d).length
  cmd : ∀ i, i < (h.mem d).length →
    ((o.heap.mem o.d).data i).cmd = ((h.mem d).data i).cmd
  marker : ∀ i, i < (h.mem d).length → Cmd.isVertex ((h.mem d).data i).cmd = false →
    (o.heap.mem o.d).data i = (h.mem d).data i

/-- The number `m` is the minimum x over the drawable vertices of `vs`. -/
def IsMinX (vs : List Vertex) (m : ℚ) : Prop :=
  (∃ v ∈ vs, Cmd.isVertex v.cmd = true ∧ v.x = m) ∧
  ∀ v ∈ vs, Cmd.isVertex v.cmd = true → m ≤ v.x

/-- The number `m` is the minimum y over the drawable vertices of `vs`. -/
def IsMinY (vs : List Vertex) (m : ℚ) : Prop :=
  (∃ v ∈ vs, Cmd.isVertex v.cmd = true ∧ v.y = m) ∧
  ∀ v ∈ vs, Cmd.isVertex v.cmd = true → m ≤ v.y

/-- What `scale(sx, sy, true)` does to a vertex when `(px, py)` is the corner it keeps:
a drawable vertex is scaled about the corner, a marker is left as it is. -/
def scaleAbout (px py sx sy : ℚ) (v : Vertex) : Vertex :=
  if Cmd.isVertex v.cmd then ⟨v.cmd, (v.x - px) * sx + px, (v.y - py) * sy + py⟩ else v

/-! ## Example states -/

/-- The memory after `Path p;` on the initial memory: `p` holds `sharedNull`. -/
def exEmpty : Heap := (newPath Heap.init).1

/-- State after `Path p; p.moveTo(10, 10);`. -/
def exMoved : Out := moveTo Env.plain exEmpty sharedNull 10 10

/-- State after `Path p; p.moveTo(10, 10); p.start();`. -/
def exStarted : Out := (start Env.plain exMoved.heap exMoved.d).1

/-- State after `Path a; a.moveTo(10, 10); a.lineTo(20, 10);`. -/
def exLine : Out := lineTo Env.plain exMoved.heap exMoved.d 20 10

/-- The memory after `Path b = a;` on `exLine`: `a` and `b` hold the block `exLine.d`. -/
def exLineShared : Heap := (copyPath Env.plain exLine.heap exLine.d).1

/-- State of `b` after `b.reserve(1)` on `exLineShared`. -/
def exLineReserved : Out := reserve Env.plain exLineShared exLine.d 1

/-- State after `Path a; a.moveTo(10, 10); a.curveTo(20, 20, 30, 10);`. -/
def exCurve : Out := curveTo Env.plain exMoved.heap exMoved.d 20 20 30 10

/-- The memory after `Path b = a;` on `exCurve`. -/
def exCurveShared : Heap := (copyPath Env.plain exCurve.heap exCurve.d).1

/-- State of `b` after `b.lineTo(40, 10)` on `exCurveShared`. -/
def exCurveSharedLine : Out := lineTo Env.plain exCurveShared exCurve.d 40 10

/-- State after `a.reserve(100)` on `exCurve`. -/
def exCurveReserved : Out := reserve Env.plain exCurve.heap exCurve.d 100

/-- State after `Path p; p.moveTo(0,0); p.lineTo(10,0); p.lineTo(10,10);`. -/
def exOpenTriangle : Out :=
  let a := moveTo Env.plain exEmpty sharedNull 0 0
  let b := lineTo Env.plain a.heap a.d 10 0
  lineTo Env.plain b.heap b.d 10 10

/-- State after `Path p; p.moveTo(0,0); p.lineTo(10,0); p.lineTo(10,10);
p.closePolygon();`. -/
def exTriangle : Out := closePolygon Env.plain exOpenTriangle.heap exOpenTriangle.d 0

/-- The memory after `Path dst;` on `exTriangle`: `dst` holds `sharedNull`. -/
def exTriangleDst : Heap := (newPath exTriangle.heap).1

/-- State after `Path p; p.moveTo(0, 0); p.curveTo(1, 1, 2, 0);`. -/
def exArch : Out :=
  let a := moveTo Env.plain exEmpty sharedNull 0 0
  curveTo Env.plain a.heap a.d 1 1 2 0

/-- State after `p.flatten()` on `exArch` (the initial state if the run does not end
within 10 rounds of the curve loop; it does). -/
def exArchFlat : Out := (flatten0 Env.plain 10 exArch.heap exArch.d).getD ⟨Heap.init, 0, .Ok⟩

/-- The memory of `exArch` with a third, single Curve3 vertex stored after the
well-formed pair: the path `MoveTo(0,0), Curve3(1,1), Curve3(2,0), Curve3(3,3)`, block
`exArch.d`, ends in a malformed group. -/
def exBroken : Heap :=
  (_add Env.plain exArch.heap exArch.d 1).1.write exArch.d 3 ⟨CmdCurve3, 3, 3⟩

/-- State of `q` after `Path q; q.moveTo(0, 0); q.lineTo(5, 5);` on the memory of
`exCurve`, whose path `a` holds `MoveTo(10,10), Curve3(20,20), Curve3(30,10)` in the
block `exCurve.d`. -/
def exPair : Out :=
  let n := newPath exCurve.heap
  let a := moveTo Env.plain n.1 n.2 0 0
  lineTo Env.plain a.heap a.d 5 5

/-- State after `p.reserve(2)` on `exMoved` (`Path p; p.moveTo(10, 10);`). -/
def exMovedReserved : Out := reserve Env.plain exMoved.heap exMoved.d 2

/-- State after `Path p; p.moveTo(0, 0);`. -/
def exOrigin : Out := moveTo Env.plain exEmpty sharedNull 0 0

/-- State after `Path p; p.moveTo(0, 0); p.curveTo(2000, 4000, 4000, 0);`. -/
def exBigCurve : Out := curveTo Env.plain exOrigin.heap exOrigin.d 2000 4000 4000 0

/-- State of a path holding `MoveTo(0,0), Catrom(1,2), Catrom(3,2), Catrom(4,0)`: the
three Catrom vertices are stored into the room `_add(3)` makes on `exOrigin`. -/
def exCatrom : Out :=
  let a := _add Env.plain exOrigin.heap exOrigin.d 3
  ⟨a.1.writeList a.2.1 1 [⟨CmdCatrom, 1, 2⟩, ⟨CmdCatrom, 3, 2⟩, ⟨CmdCatrom, 4, 0⟩], a.2.1, .Ok⟩

/-- The matrix of the translation by `(100, 0)`. -/
def exShift : AffineMatrix := ⟨fun p => (p.1 + 100, p.2)⟩

/-- The memory and the path `dst` after `Path dst;` on `exArch`, whose path `p` holds
`MoveTo(0,0), Curve3(1,1), Curve3(2,0)` and so ends with a curve group. -/
def exArchDst : Heap × Nat := newPath exArch.heap

/-- State after `p.lineTo(3, 0)` on `exArch`: the path ends with a line vertex. -/
def exArchLine : Out := lineTo Env.plain exArch.heap exArch.d 3 0

/-- The memory and the path `dst` after `Path dst;` on `exArchLine`. -/
def exArchLineDst : Heap × Nat := newPath exArchLine.heap

/-! # Verification

## The memory primitives, field by field -/

@[simp] theorem Heap.upd_mem (h : Heap) (p q : Nat) (f : Data → Data) :
    (h.upd p f).mem q = if q = p then f (h.mem p) else h.mem q := rfl

@[simp] theorem Heap.upd_next (h : Heap) (p : Nat) (f : Data → Data) :
    (h.upd p f).next = h.next := rfl

@[simp] theorem write_next (h : Heap) (p : Nat) (i : Nat) (v : Vertex) :
    (Heap.write h p i v).next = h.next := rfl

theorem write_mem_ne (h : Heap) (p : Nat) (i : Nat) (v : Vertex) (q : Nat) (hq : q ≠ p) :
    (Heap.write h p i v).mem q = h.mem q := by
  simp [Heap.write, hq]

@[simp] theorem write_refCount (h : Heap) (p : Nat) (i : Nat) (v : Vertex) (q : Nat) :
    ((Heap.write h p i v).mem q).refCount = (h.mem q).refCount := by
  unfold Heap.write
  simp only [Heap.upd_mem]
  split
  · simp_all
  · rfl

@[simp] theorem write_flags (h : Heap) (p : Nat) (i : Nat) (v : Vertex) (q : Nat) :
    ((Heap.write h p i v).mem q).flags = (h.mem q).flags := by
  unfold Heap.write
  simp only [Heap.upd_mem]
  split
  · simp_all
  · rfl

@[simp] theorem write_type (h : Heap) (p : Nat) (i : Nat) (v : Vertex) (q : Nat) :
    ((Heap.write h p i v).mem q).type = (h.mem q).type := by
  unfold Heap.write
  simp only [Heap.upd_mem]
  split
  · simp_all
  · rfl

@[simp] theorem write_capacity (h : Heap) (p : Nat) (i : Nat) (v : Vertex) (q : Nat) :
    ((Heap.write h p i v).mem q).capacity = (h.mem q).capacity := by
  unfold Heap.write
  simp only [Heap.upd_mem]
  split
  · simp_all
  · rfl

@[simp] theorem write_length (h : Heap) (p : Nat) (i : Nat) (v : Vertex) (q : Nat) :
    ((Heap.write h p i v).mem q).length = (h.mem q).length := by
  unfold Heap.write
  simp only [Heap.upd_mem]
  split
  · simp_all
  · rfl

@[simp] theorem setLength_next (h : Heap) (p : Nat) (n : Nat) :
    (Heap.setLength h p n).next = h.next := rfl

theorem setLength_mem_ne (h : Heap) (p : Nat) (n : Nat) (q : Nat) (hq : q ≠ p) :
    (Heap.setLength h p n).mem q = h.mem q := by
  simp [Heap.setLength, hq]

@[simp] theorem setLength_refCount (h : Heap) (p : Nat) (n : Nat) (q : Nat) :
    ((Heap.setLength h p n).mem q).refCount = (h.mem q).refCount := by
  unfold Heap.setLength
  simp only [Heap.upd_mem]
  split
  · simp_all
  · rfl

@[simp] theorem setLength_flags (h : Heap) (p : Nat) (n : Nat) (q : Nat) :
    ((Heap.setLength h p n).mem q).flags = (h.mem q).flags := by
  unfold Heap.setLength
  simp only [Heap.upd_mem]
  split
  · simp_all
  · rfl

@[simp] theorem setLength_type (h : Heap) (p : Nat) (n : Nat) (q : Nat) :
    ((Heap.setLength h p n).mem q).type = (h.mem q).type := by
  unfold Heap.setLength
  simp only [Heap.upd_mem]
  split
  · simp_all
  · rfl

@[simp] theorem setLength_capacity (h : Heap) (p : Nat) (n : Nat) (q : Nat) :
    ((Heap.setLength h p n).mem q).capacity = (h.mem q).capacity := by
  unfold Heap.setLength
  simp only [Heap.upd_mem]
  split
  · simp_all
  · rfl

@[simp] theorem setLength_data (h : Heap) (p : Nat) (n : Nat) (q : Nat) :
    ((Heap.setLength h p n).mem q).data = (h.mem q).data := by
  unfold Heap.setLength
  simp only [Heap.upd_mem]
  split
  · simp_all
  · rfl

@[simp] theorem setType_next (h : Heap) (p : Nat) (t : Nat) :
    (Heap.setType h p t).next = h.next := rfl

theorem setType_mem_ne (h : Heap) (p : Nat) (t : Nat) (q : Nat) (hq : q ≠ p) :
    (Heap.setType h p t).mem q = h.mem q := by
  simp [Heap.setType, hq]

@[simp] theorem setType_refCount (h : Heap) (p : Nat) (t : Nat) (q : Nat) :
    ((Heap.setType h p t).mem q).refCount = (h.mem q).refCount := by
  unfold Heap.setType
  simp only [Heap.upd_mem]
  split
  · simp_all
  · rfl

@[simp] theorem setType_flags (h : Heap) (p : Nat) (t : Nat) (q : Nat) :
    ((Heap.setType h p t).mem q).flags = (h.mem q).flags := by
  unfold Heap.setType
  simp only [Heap.upd_mem]
  split
  · simp_all
  · rfl

@[simp] theorem setType_capacity (h : Heap) (p : Nat) (t : Nat) (q : Nat) :
    ((Heap.setType h p t).mem q).capacity = (h.mem q).capacity := by
  unfold Heap.setType
  simp only [Heap.upd_mem]
  split
  · simp_all
  · rfl

@[simp] theorem setType_length (h : Heap) (p : Nat) (t : Nat) (q : Nat) :
    ((Heap.setType h p t).mem q).length = (h.mem q).length := by
  unfold Heap.setType
  simp only [Heap.upd_mem]
  split
  · simp_all
  · rfl

@[simp] theorem setType_data (h : Heap) (p : Nat) (t : Nat) (q : Nat) :
    ((Heap.setType h p t).mem q).data = (h.mem q).data := by
  unfold Heap.setType
  simp only [Heap.upd_mem]
  split
  · simp_all
  · rfl

@[simp] theorem refAlways_next (h : Heap) (p : Nat)  :
    (Data.refAlways h p).next = h.next := rfl

theorem refAlways_mem_ne (h : Heap) (p : Nat)  (q : Nat) (hq : q ≠ p) :
    (Data.refAlways h p).mem q = h.mem q := by
  simp [Data.refAlways, hq]

@[simp] theorem refAlways_flags (h : Heap) (p : Nat)  (q : Nat) :
    ((Data.refAlways h p).mem q).flags = (h.mem q).flags := by
  unfold Data.refAlways
  simp only [Heap.upd_mem]
  split
  · simp_all
  · rfl

@[simp] theorem refAlways_type (h : Heap) (p : Nat)  (q : Nat) :
    ((Data.refAlways h p).mem q).type = (h.mem q).type := by
  unfold Data.refAlways
  simp only [Heap.upd_mem]
  split
  · simp_all
  · rfl

@[simp] theorem refAlways_capacity (h : Heap) (p : Nat)  (q : Nat) :
    ((Data.refAlways h p).mem q).capacity = (h.mem q).capacity := by
  unfold Data.refAlways
  simp only [Heap.upd_mem]
  split
  · simp_all
  · rfl

@[simp] theorem refAlways_length (h : Heap) (p : Nat)  (q : Nat) :
    ((Data.refAlways h p).mem q).length = (h.mem q).length := by
  unfold Data.refAlways
  simp only [Heap.upd_mem]
  split
  · simp_all
  · rfl

@[simp] theorem refAlways_data (h : Heap) (p : Nat)  (q : Nat) :
    ((Data.refAlways h p).mem q).data = (h.mem q).data := by
  unfold Data.refAlways
  simp only [Heap.upd_mem]
  split
  · simp_all
  · rfl

@[simp] theorem deref_next (h : Heap) (p : Nat)  :
    (Data.deref h p).next = h.next := rfl

theorem deref_mem_ne (h : Heap) (p : Nat)  (q : Nat) (hq : q ≠ p) :
    (Data.deref h p).mem q = h.mem q := by
  simp [Data.deref, hq]

@[simp] theorem deref_flags (h : Heap) (p : Nat)  (q : Nat) :
    ((Data.deref h p).mem q).flags = (h.mem q).flags := by
  unfold Data.deref
  simp only [Heap.upd_mem]
  split
  · split <;> simp_all
  · rfl

@[simp] theorem deref_type (h : Heap) (p : Nat)  (q : Nat) :
    ((Data.deref h p).mem q).type = (h.mem q).type := by
  unfold Data.deref
  simp only [Heap.upd_mem]
  split
  · split <;> simp_all
  · rfl

@[simp] theorem deref_capacity (h : Heap) (p : Nat)  (q : Nat) :
    ((Data.deref h p).mem q).capacity = (h.mem q).capacity := by
  unfold Data.deref
  simp only [Heap.upd_mem]
  split
  · split <;> simp_all
  · rfl

@[simp] theorem deref_length (h : Heap) (p : Nat)  (q : Nat) :
    ((Data.deref h p).mem q).length = (h.mem q).length := by
  unfold Data.deref
  simp only [Heap.upd_mem]
  split
  · split <;> simp_all
  · rfl

@[simp] theorem deref_data (h : Heap) (p : Nat)  (q : Nat) :
    ((Data.deref h p).mem q).data = (h.mem q).data := by
  unfold Data.deref
  simp only [Heap.upd_mem]
  split
  · split <;> simp_all
  · rfl

@[simp] theorem memcpy_next (h : Heap) (p : Nat) (src n : Nat) :
    (memcpy h p src n).next = h.next := rfl

theorem memcpy_mem_ne (h : Heap) (p : Nat) (src n : Nat) (q : Nat) (hq : q ≠ p) :
    (memcpy h p src n).mem q = h.mem q := by
  simp [memcpy, hq]

@[simp] theorem memcpy_refCount (h : Heap) (p : Nat) (src n : Nat) (q : Nat) :
    ((memcpy h p src n).mem q).refCount = (h.mem q).refCount := by
  unfold memcpy
  simp only [Heap.upd_mem]
  split
  · simp_all
  · rfl

@[simp] theorem memcpy_flags (h : Heap) (p : Nat) (src n : Nat) (q : Nat) :
    ((memcpy h p src n).mem q).flags = (h.mem q).flags := by
  unfold memcpy
  simp only [Heap.upd_mem]
  split
  · simp_all
  · rfl

@[simp] theorem memcpy_type (h : Heap) (p : Nat) (src n : Nat) (q : Nat) :
    ((memcpy h p src n).mem q).type = (h.mem q).type := by
  unfold memcpy
  simp only [Heap.upd_mem]
  split
  · simp_all
  · rfl

@[simp] theorem memcpy_capacity (h : Heap) (p : Nat) (src n : Nat) (q : Nat) :
    ((memcpy h p src n).mem q).capacity = (h.mem q).capacity := by
  unfold memcpy
  simp only [Heap.upd_mem]
  split
  · simp_all
  · rfl

@[simp] theorem memcpy_length (h : Heap) (p : Nat) (src n : Nat) (q : Nat) :
    ((memcpy h p src n).mem q).length = (h.mem q).length := by
  unfold memcpy
  simp only [Heap.upd_mem]
  split
  · simp_all
  · rfl

@[simp] theorem write_data_apply (h : Heap) (p i : Nat) (v : Vertex) (q j : Nat) :
    ((h.write p i v).mem q).data j = if q = p ∧ j = i then v else (h.mem q).data j := by
  unfold Heap.write
  simp only [Heap.upd_mem]
  by_cases hq : q = p
  · subst hq; by_cases hj : j = i <;> simp [hj]
  · simp [hq]

@[simp] theorem setLength_length (h : Heap) (p n q : Nat) :
    ((h.setLength p n).mem q).length = if q = p then n else (h.mem q).length := by
  unfold Heap.setLength
  simp only [Heap.upd_mem]
  split <;> simp_all

@[simp] theorem setType_type (h : Heap) (p t q : Nat) :
    ((h.setType p t).mem q).type = if q = p then t else (h.mem q).type := by
  unfold Heap.setType
  simp only [Heap.upd_mem]
  split <;> simp_all

@[simp] theorem refAlways_refCount (h : Heap) (p q : Nat) :
    ((Data.refAlways h p).mem q).refCount
      = if q = p then (h.mem q).refCount + 1 else (h.mem q).refCount := by
  unfold Data.refAlways
  simp only [Heap.upd_mem]
  split <;> simp_all

@[simp] theorem deref_refCount (h : Heap) (p q : Nat) :
    ((Data.deref h p).mem q).refCount
      = if q = p then (h.mem q).refCount - 1 else (h.mem q).refCount := by
  unfold Data.deref
  simp only [Heap.upd_mem]
  split
  · split <;> simp_all
  · rfl

@[simp] theorem memcpy_data_apply (h : Heap) (p src n q i : Nat) :
    ((memcpy h p src n).mem q).data i
      = if q = p ∧ i < n then (h.mem src).data i else (h.mem q).data i := by
  unfold memcpy
  simp only [Heap.upd_mem]
  by_cases hq : q = p
  · subst hq; by_cases hi : i < n <;> simp [hi]
  · simp [hq]

/-! ## Allocation -/

@[simp] theorem alloc_next (E : Env) (h : Heap) (c : Nat) :
    (Data.alloc E h c).1.next = h.next + 1 := by
  unfold Data.alloc; split <;> rfl

theorem alloc_mem_of_lt (E : Env) (h : Heap) (c q : Nat) (hq : q < h.next) :
    (Data.alloc E h c).1.mem q = h.mem q := by
  have hne : q ≠ h.next := Nat.ne_of_lt hq
  unfold Data.alloc; split <;> simp [hne]

theorem alloc_fail (E : Env) (h : Heap) (c : Nat) (ho : E.oom h.next = true) :
    Data.alloc E h c = ({ h with next := h.next + 1 }, none) := by
  simp [Data.alloc, ho]

theorem alloc_ok (E : Env) (h : Heap) (c : Nat) (ho : E.oom h.next = false) :
    (Data.alloc E h c).2 = some h.next ∧
      (Data.alloc E h c).1.mem h.next = Data.fresh E h.next c := by
  simp [Data.alloc, ho]

theorem alloc_snd (E : Env) (h : Heap) (c : Nat) :
    (Data.alloc E h c).2 = if E.oom h.next then none else some h.next := by
  unfold Data.alloc; split <;> rfl

theorem add_inplace (E : Env) (h : Heap) (d count : Nat)
    (hc : (h.mem d).refCount = 1 ∧ count ≤ (h.mem d).capacity - (h.mem d).length) :
    _add E h d count = (h.setLength d ((h.mem d).length + count), d, some (h.mem d).length) := by
  simp [_add, hc]

theorem add_fail (E : Env) (h : Heap) (d count : Nat)
    (hc : ¬((h.mem d).refCount = 1 ∧ count ≤ (h.mem d).capacity - (h.mem d).length))
    (ho : E.oom h.next = true) :
    _add E h d count = ({ h with next := h.next + 1 }, d, none) := by
  simp [_add, hc, alloc_fail E h _ ho]

theorem add_grow (E : Env) (h : Heap) (d count : Nat)
    (hc : ¬((h.mem d).refCount = 1 ∧ count ≤ (h.mem d).capacity - (h.mem d).length))
    (ho : E.oom h.next = false) :
    _add E h d count =
      (Data.deref (memcpy ((Data.alloc E h
          (E.calcOptimalCapacity (h.mem d).length ((h.mem d).length + count))).1.setLength
            h.next ((h.mem d).length + count)) h.next d (h.mem d).length) d,
        h.next, some (h.mem d).length) := by
  have h2 := (alloc_ok E h (E.calcOptimalCapacity (h.mem d).length ((h.mem d).length + count)) ho).1
  unfold _add
  simp only [hc, if_false]
  generalize Data.alloc E h _ = a at h2 ⊢
  obtain ⟨a1, a2⟩ := a
  simp only at h2
  subst h2
  rfl

theorem add_eq_some {E : Env} {h : Heap} {d count : Nat} {h1 : Heap} {d1 v : Nat}
    (hd : d < h.next) (e : _add E h d count = (h1, d1, some v)) :
    AddOk E h d count h1 d1 v := by
  by_cases hc : (h.mem d).refCount = 1 ∧ count ≤ (h.mem d).capacity - (h.mem d).length
  · rw [add_inplace E h d count hc] at e
    simp only [Prod.mk.injEq, Option.some.injEq] at e
    obtain ⟨rfl, rfl, rfl⟩ := e
    constructor <;> simp [hc, hd]
  · by_cases ho : E.oom h.next = true
    · rw [add_fail E h d count hc ho] at e
      simp at e
    · have ho' : E.oom h.next = false := by simpa using ho
      rw [add_grow E h d count hc ho'] at e
      simp only [Prod.mk.injEq, Option.some.injEq] at e
      obtain ⟨rfl, rfl, rfl⟩ := e
      have hne : h.next ≠ d := (Nat.ne_of_lt hd).symm
      have hf := (alloc_ok E h (E.calcOptimalCapacity (h.mem d).length ((h.mem d).length + count)) ho').2
      constructor
      · rfl
      · simp [hne]
      · intro i hi
        simp [hne, hi, (Nat.ne_of_lt hd), alloc_mem_of_lt E h _ d hd]
      · simp [hne, hc, hf, Data.fresh]
      · simp [hne, hc, hf, Data.fresh]
      · simp [hne, hf, Data.fresh]
      · simp
      · simp

theorem add_eq_none {E : Env} {h : Heap} {d count : Nat} {h1 : Heap} {d1 : Nat}
    (e : _add E h d count = (h1, d1, none)) :
    d1 = d ∧ h1.mem = h.mem ∧ h1.next = h.next + 1 ∧ E.oom h.next = true := by
  by_cases hc : (h.mem d).refCount = 1 ∧ count ≤ (h.mem d).capacity - (h.mem d).length
  · rw [add_inplace E h d count hc] at e; simp at e
  · by_cases ho : E.oom h.next = true
    · rw [add_fail E h d count hc ho] at e
      simp only [Prod.mk.injEq] at e
      obtain ⟨rfl, rfl, -⟩ := e
      exact ⟨rfl, rfl, rfl, ho⟩
    · have ho' : E.oom h.next = false := by simpa using ho
      rw [add_grow E h d count hc ho'] at e
      simp at e

theorem add_ok_of_mem (E : Env) (h : Heap) (d count : Nat) (ho : E.oom h.next = false) :
    (_add E h d count).2.2 = some (h.mem d).length := by
  by_cases hc : (h.mem d).refCount = 1 ∧ count ≤ (h.mem d).capacity - (h.mem d).length
  · rw [add_inplace E h d count hc]
  · rw [add_grow E h d count hc ho]

theorem safe_add {q : Nat} {h0 h : Heap} {d : Nat} (E : Env) (count : Nat)
    (s : Safe q h0 h d) :
    Safe q h0 (_add E h d count).1 (_add E h d count).2.1 ∧
      ((_add E h d count).2.2 ≠ none → (_add E h d count).2.1 ≠ q) := by
  obtain ⟨⟨hl, hd⟩, hlt, hlive, hsh⟩ := s
  by_cases hc : (h.mem d).refCount = 1 ∧ count ≤ (h.mem d).capacity - (h.mem d).length
  · have hdq : d ≠ q := fun e => by have := hsh e; subst e; omega
    have hqd : q ≠ d := fun e => hdq e.symm
    rw [add_inplace E h d count hc]
    refine ⟨⟨⟨?_, ?_⟩, ?_, ?_, ?_⟩, ?_⟩ <;> simp [hqd, hl, hd, hlt, hlive, hdq]
  · by_cases ho : E.oom h.next = true
    · rw [add_fail E h d count hc ho]
      exact ⟨⟨⟨hl, hd⟩, Nat.lt_succ_of_lt hlt, hlive, hsh⟩, fun e => absurd rfl e⟩
    · have ho' : E.oom h.next = false := by simpa using ho
      have hne : q ≠ h.next := Nat.ne_of_lt hlt
      rw [add_grow E h d count hc ho']
      have hm := alloc_mem_of_lt E h (E.calcOptimalCapacity (h.mem d).length ((h.mem d).length + count)) q hlt
      refine ⟨⟨⟨?_, ?_⟩, ?_, ?_, ?_⟩, ?_⟩
      · simp [hne, hm, hl]
      · funext i; simp [hne, hm, hd]
      · simp; omega
      · simp only [deref_refCount, memcpy_refCount, setLength_refCount, hm]
        split
        · rename_i e; have := hsh e.symm; omega
        · exact hlive
      · intro e; exact absurd e.symm hne
      · intro _ e; exact absurd e.symm hne

/-! ## Vertex sequences -/

theorem verts_eq_of_same {q : Nat} {h h' : Heap} (s : Same q h h') : h'.verts q = h.verts q := by
  unfold Heap.verts; rw [s.1, s.2]

theorem same_refl (q : Nat) (h : Heap) : Same q h h := ⟨rfl, rfl⟩

theorem same_trans {q : Nat} {h1 h2 h3 : Heap} (a : Same q h1 h2) (b : Same q h2 h3) :
    Same q h1 h3 := ⟨b.1.trans a.1, b.2.trans a.2⟩

@[simp] theorem verts_length (h : Heap) (p : Nat) : (h.verts p).length = (h.mem p).length := by
  simp [Heap.verts]

theorem verts_getElem? (h : Heap) (p i : Nat) (hi : i < (h.mem p).length) :
    (h.verts p)[i]? = some ((h.mem p).data i) := by
  simp [Heap.verts, List.getElem?_map, List.getElem?_range hi]

theorem verts_eq_append (h h1 : Heap) (d d1 : Nat) (vs : List Vertex)
    (hlen : (h1.mem d1).length = (h.mem d).length + vs.length)
    (hold : ∀ i, i < (h.mem d).length → (h1.mem d1).data i = (h.mem d).data i)
    (hnew : ∀ k (hk : k < vs.length), (h1.mem d1).data ((h.mem d).length + k) = vs[k]) :
    h1.verts d1 = h.verts d ++ vs := by
  apply List.ext_getElem
  · simp [hlen]
  · intro i h1i h2i
    simp only [verts_length] at h1i
    simp only [Heap.verts, List.getElem_map, List.getElem_range]
    by_cases hi : i < (h.mem d).length
    · rw [List.getElem_append_left (by simpa using hi)]
      simp [hold i hi]
    · rw [List.getElem_append_right (by simpa using hi)]
      simp only [List.length_map, List.length_range]
      have hk : i - (h.mem d).length < vs.length := by omega
      rw [← hnew _ hk]
      congr 1; omega

/-! ## `writeList` -/

@[simp] theorem writeList_next (h : Heap) (p i : Nat) (vs : List Vertex) :
    (h.writeList p i vs).next = h.next := by
  induction vs generalizing h i with
  | nil => rfl
  | cons v vs ih => simp [Heap.writeList, ih]

theorem writeList_mem_ne (h : Heap) (p i : Nat) (vs : List Vertex) (q : Nat) (hq : q ≠ p) :
    (h.writeList p i vs).mem q = h.mem q := by
  induction vs generalizing h i with
  | nil => rfl
  | cons v vs ih => simp [Heap.writeList, ih, write_mem_ne _ _ _ _ _ hq]

@[simp] theorem writeList_length (h : Heap) (p i : Nat) (vs : List Vertex) (q : Nat) :
    ((h.writeList p i vs).mem q).length = (h.mem q).length := by
  induction vs generalizing h i with
  | nil => rfl
  | cons v vs ih => simp [Heap.writeList, ih]

@[simp] theorem writeList_type (h : Heap) (p i : Nat) (vs : List Vertex) (q : Nat) :
    ((h.writeList p i vs).mem q).type = (h.mem q).type := by
  induction vs generalizing h i with
  | nil => rfl
  | cons v vs ih => simp [Heap.writeList, ih]

@[simp] theorem writeList_refCount (h : Heap) (p i : Nat) (vs : List Vertex) (q : Nat) :
    ((h.writeList p i vs).mem q).refCount = (h.mem q).refCount := by
  induction vs generalizing h i with
  | nil => rfl
  | cons v vs ih => simp [Heap.writeList, ih]

@[simp] theorem writeList_capacity (h : Heap) (p i : Nat) (vs : List Vertex) (q : Nat) :
    ((h.writeList p i vs).mem q).capacity = (h.mem q).capacity := by
  induction vs generalizing h i with
  | nil => rfl
  | cons v vs ih => simp [Heap.writeList, ih]

@[simp] theorem writeList_flags (h : Heap) (p i : Nat) (vs : List Vertex) (q : Nat) :
    ((h.writeList p i vs).mem q).flags = (h.mem q).flags := by
  induction vs generalizing h i with
  | nil => rfl
  | cons v vs ih => simp [Heap.writeList, ih]

theorem writeList_data_lt (h : Heap) (p i : Nat) (vs : List Vertex) (q j : Nat) (hj : j < i) :
    ((h.writeList p i vs).mem q).data j = (h.mem q).data j := by
  induction vs generalizing h i with
  | nil => rfl
  | cons v vs ih =>
    simp only [Heap.writeList]
    rw [ih _ _ (by omega)]
    simp [Nat.ne_of_lt hj]

theorem writeList_data_ge (h : Heap) (p i : Nat) (vs : List Vertex) (q j : Nat)
    (hj : i + vs.length ≤ j) :
    ((h.writeList p i vs).mem q).data j = (h.mem q).data j := by
  induction vs generalizing h i with
  | nil => rfl
  | cons v vs ih =>
    simp only [Heap.writeList, List.length_cons] at hj ⊢
    rw [ih _ _ (by omega)]
    have : j ≠ i := by omega
    simp [this]

theorem writeList_data_at (h : Heap) (p i : Nat) (vs : List Vertex) (k : Nat)
    (hk : k < vs.length) :
    ((h.writeList p i vs).mem p).data (i + k) = vs[k] := by
  induction vs generalizing h i k with
  | nil => simp at hk
  | cons v vs ih =>
    simp only [Heap.writeList]
    cases k with
    | zero =>
      rw [writeList_data_lt _ _ _ _ _ _ (by omega)]
      simp
    | succ k =>
      have := ih (h.write p i v) (i + 1) k (by simpa using hk)
      rw [show i + (k + 1) = i + 1 + k by omega, this]
      simp

theorem writeList_data_ne (h : Heap) (p i : Nat) (vs : List Vertex) (q : Nat) (hq : q ≠ p) :
    ((h.writeList p i vs).mem q).data = (h.mem q).data := by
  rw [writeList_mem_ne h p i vs q hq]

/-- A successful `_add` followed by the stores of `vs` into the new slots appends `vs`. -/
theorem verts_add_writeList {E : Env} {h h1 : Heap} {d d1 v : Nat} (vs : List Vertex)
    (a : AddOk E h d vs.length h1 d1 v) : (h1.writeList d1 v vs).verts d1 = h.verts d ++ vs := by
  apply verts_eq_append
  · simp [a.length]
  · intro i hi
    rw [writeList_data_lt _ _ _ _ _ _ (by rw [a.slot]; exact hi)]
    exact a.data i hi
  · intro k hk
    rw [← a.slot]
    exact writeList_data_at h1 d1 v vs k hk

/-! ## Rectangles (C10) -/

/-- C10. For every valid rectangle `r` and every path (block `d` of an existing heap),
when the allocation `_add` may need does not fail, `addRect(r)` returns success and the
vertex sequence afterwards is the old one followed by exactly the five vertices
MoveTo(x1,y1), LineTo(x2,y1), LineTo(x2,y2), LineTo(x1,y2), EndPoly|Close. -/
theorem addRect_appends_five (E : Env) (h : Heap) (d : Nat) (r : RectF)
    (hd : d < h.next) (hmem : E.oom h.next = false) (hr : r.isValid = true) :
    (addRect E h d r).err = .Ok ∧
    (addRect E h d r).heap.verts (addRect E h d r).d =
      h.verts d ++ [⟨CmdMoveTo, r.x1, r.y1⟩, ⟨CmdLineTo, r.x2, r.y1⟩, ⟨CmdLineTo, r.x2, r.y2⟩,
        ⟨CmdLineTo, r.x1, r.y2⟩, ⟨CmdEndPoly ||| CFlagClose, 0, 0⟩] ∧
    ((addRect E h d r).heap.mem (addRect E h d r).d).length = (h.mem d).length + 5 := by
  have hs := add_ok_of_mem E h d 5 hmem
  unfold addRect
  simp only [hr, not_true_eq_false, if_false]
  generalize ha : _add E h d 5 = a at hs
  obtain ⟨h1, d1, v⟩ := a
  simp only at hs
  subst hs
  have ok := add_eq_some hd ha
  refine ⟨rfl, ?_, ?_⟩
  · exact verts_add_writeList (rectVertices r) ok
  · simp [ok.length]


theorem init_verts : (newPath Heap.init).1.verts sharedNull = [] := by
  simp [Heap.verts, newPath, Heap.init, sharedNullData]

theorem exEmpty_verts : exEmpty.verts sharedNull = [] := init_verts

theorem exEmpty_lt : sharedNull < exEmpty.next := by decide

theorem addRect_appends_five_witness :
    sharedNull < (newPath Heap.init).1.next ∧ Env.plain.oom (newPath Heap.init).1.next = false ∧
    RectF.isValid ⟨0, 0, 10, 10⟩ = true ∧
    (addRect Env.plain (newPath Heap.init).1 sharedNull ⟨0, 0, 10, 10⟩).err = .Ok ∧
    (addRect Env.plain (newPath Heap.init).1 sharedNull ⟨0, 0, 10, 10⟩).heap.verts
        (addRect Env.plain (newPath Heap.init).1 sharedNull ⟨0, 0, 10, 10⟩).d =
      [⟨CmdMoveTo, 0, 0⟩, ⟨CmdLineTo, 10, 0⟩, ⟨CmdLineTo, 10, 10⟩, ⟨CmdLineTo, 0, 10⟩,
        ⟨CmdEndPoly ||| CFlagClose, 0, 0⟩] := by
  have hd : sharedNull < (newPath Heap.init).1.next := by decide
  have hmem : Env.plain.oom (newPath Heap.init).1.next = false := rfl
  have hr : RectF.isValid ⟨0, 0, 10, 10⟩ = true := by simp [RectF.isValid]
  have t := addRect_appends_five Env.plain (newPath Heap.init).1 sharedNull ⟨0, 0, 10, 10⟩ hd hmem hr
  refine ⟨hd, hmem, hr, t.1, ?_⟩
  rw [t.2.1, init_verts]
  norm_num [RectF.x1, RectF.x2, RectF.y1, RectF.y2]

/-! ## The single-call builders append what they store -/

@[simp] theorem verts_setType (h : Heap) (p t q : Nat) : (h.setType p t).verts q = h.verts q := by
  unfold Heap.verts
  have : ((h.setType p t).mem q).data = (h.mem q).data := setType_data h p t q
  rw [this, setType_length]

theorem write_eq_writeList (h : Heap) (p i : Nat) (v : Vertex) :
    h.write p i v = h.writeList p i [v] := rfl

theorem write2_eq_writeList (h : Heap) (p i : Nat) (a b : Vertex) :
    (h.write p i a).write p (i + 1) b = h.writeList p i [a, b] := rfl

theorem write3_eq_writeList (h : Heap) (p i : Nat) (a b c : Vertex) :
    ((h.write p i a).write p (i + 1) b).write p (i + 2) c = h.writeList p i [a, b, c] := rfl

theorem moveTo_appends (E : Env) (h : Heap) (d : Nat) (x y : ℚ)
    (hd : d < h.next) (hmem : E.oom h.next = false) :
    Appends h d (moveTo E h d x y) [⟨CmdMoveTo, x, y⟩] := by
  have hs := add_ok_of_mem E h d 1 hmem
  unfold moveTo
  generalize ha : _add E h d 1 = a at hs
  obtain ⟨h1, d1, v⟩ := a
  simp only at hs
  subst hs
  have ok := add_eq_some hd ha
  exact ⟨rfl, verts_add_writeList [_] ok, by simpa [Heap.write] using ok.lt⟩

theorem lineTo_appends (E : Env) (h : Heap) (d : Nat) (x y : ℚ)
    (hd : d < h.next) (hmem : E.oom h.next = false) :
    Appends h d (lineTo E h d x y) [⟨CmdLineTo, x, y⟩] := by
  have hs := add_ok_of_mem E h d 1 hmem
  unfold lineTo
  generalize ha : _add E h d 1 = a at hs
  obtain ⟨h1, d1, v⟩ := a
  simp only at hs
  subst hs
  have ok := add_eq_some hd ha
  exact ⟨rfl, verts_add_writeList [_] ok, by simpa [Heap.write] using ok.lt⟩

theorem curveTo_appends (E : Env) (h : Heap) (d : Nat) (cx cy tx ty : ℚ)
    (hd : d < h.next) (hmem : E.oom h.next = false) :
    Appends h d (curveTo E h d cx cy tx ty) [⟨CmdCurve3, cx, cy⟩, ⟨CmdCurve3, tx, ty⟩] := by
  have hs := add_ok_of_mem E h d 2 hmem
  unfold curveTo
  generalize ha : _add E h d 2 = a at hs
  obtain ⟨h1, d1, v⟩ := a
  simp only at hs
  subst hs
  have ok := add_eq_some hd ha
  refine ⟨rfl, ?_, by simpa [Heap.write] using ok.lt⟩
  simp only [write2_eq_writeList, verts_setType]
  exact verts_add_writeList [_, _] ok

theorem cubicTo_appends (E : Env) (h : Heap) (d : Nat) (cx1 cy1 cx2 cy2 tx ty : ℚ)
    (hd : d < h.next) (hmem : E.oom h.next = false) :
    Appends h d (cubicTo E h d cx1 cy1 cx2 cy2 tx ty)
      [⟨CmdCurve4, cx1, cy1⟩, ⟨CmdCurve4, cx2, cy2⟩, ⟨CmdCurve4, tx, ty⟩] := by
  have hs := add_ok_of_mem E h d 3 hmem
  unfold cubicTo
  generalize ha : _add E h d 3 = a at hs
  obtain ⟨h1, d1, v⟩ := a
  simp only at hs
  subst hs
  have ok := add_eq_some hd ha
  refine ⟨rfl, ?_, by simpa [Heap.write] using ok.lt⟩
  simp only [write3_eq_writeList, verts_setType]
  exact verts_add_writeList [_, _, _] ok

/-! ## Relative coordinates (C8, C9) -/

theorem last_of_verts {h : Heap} {d : Nat} {vs : List Vertex} {w : Vertex}
    (hv : h.verts d = vs ++ [w]) :
    (h.mem d).length ≠ 0 ∧ (h.mem d).data ((h.mem d).length - 1) = w := by
  have hl : (h.mem d).length = vs.length + 1 := by
    have := congrArg List.length hv
    simpa using this
  refine ⟨by omega, ?_⟩
  have hg := verts_getElem? h d ((h.mem d).length - 1) (by omega)
  rw [hv, hl] at hg
  simp at hg
  rw [hl]; simpa using hg.symm

theorem relToAbsInline_last {h : Heap} {d : Nat} {vs : List Vertex} {c : Nat} {lx ly : ℚ}
    (hv : h.verts d = vs ++ [⟨c, lx, ly⟩]) (hc : Cmd.isVertex c = true) (p : ℚ × ℚ) :
    relToAbsInline h d p = (lx + p.1, ly + p.2) := by
  obtain ⟨h0, hl⟩ := last_of_verts hv
  simp [relToAbsInline, lastIsVertex, h0, hl, hc, add_comm]

/-- C8. Relative resolution: when the last vertex of the path is a drawable vertex at
`(lx, ly)` (and the allocation `_add` may need does not fail), `moveToRel` and
`lineToRel` append one vertex at `(lx+dx, ly+dy)`, `hlineToRel` appends
`LineTo(lx+dx, ly)`, `vlineToRel` appends `LineTo(lx, ly+dy)`, `curveToRel` appends two
Curve3 vertices and `cubicToRel` three Curve4 vertices, all offset by `(lx, ly)`. -/
theorem rel_resolves_against_last (E : Env) (h : Heap) (d : Nat) (vs : List Vertex)
    (c : Nat) (lx ly : ℚ)
    (hd : d < h.next) (hmem : E.oom h.next = false)
    (hv : h.verts d = vs ++ [⟨c, lx, ly⟩]) (hc : Cmd.isVertex c = true) :
    (∀ dx dy, Appends h d (moveToRel E h d dx dy) [⟨CmdMoveTo, lx + dx, ly + dy⟩]) ∧
    (∀ dx dy, Appends h d (lineToRel E h d dx dy) [⟨CmdLineTo, lx + dx, ly + dy⟩]) ∧
    (∀ dx, Appends h d (hlineToRel E h d dx) [⟨CmdLineTo, lx + dx, ly⟩]) ∧
    (∀ dy, Appends h d (vlineToRel E h d dy) [⟨CmdLineTo, lx, ly + dy⟩]) ∧
    (∀ cx cy tx ty, Appends h d (curveToRel E h d cx cy tx ty)
      [⟨CmdCurve3, lx + cx, ly + cy⟩, ⟨CmdCurve3, lx + tx, ly + ty⟩]) ∧
    (∀ cx1 cy1 cx2 cy2 tx ty, Appends h d (cubicToRel E h d cx1 cy1 cx2 cy2 tx ty)
      [⟨CmdCurve4, lx + cx1, ly + cy1⟩, ⟨CmdCurve4, lx + cx2, ly + cy2⟩,
       ⟨CmdCurve4, lx + tx, ly + ty⟩]) := by
  have r := fun p => relToAbsInline_last hv hc p
  refine ⟨?_, ?_, ?_, ?_, ?_, ?_⟩
  · intro dx dy
    simpa [moveToRel, r] using moveTo_appends E h d (lx + dx) (ly + dy) hd hmem
  · intro dx dy
    simpa [lineToRel, r] using lineTo_appends E h d (lx + dx) (ly + dy) hd hmem
  · intro dx
    simpa [hlineToRel, r] using lineTo_appends E h d (lx + dx) ly hd hmem
  · intro dy
    simpa [vlineToRel, r] using lineTo_appends E h d lx (ly + dy) hd hmem
  · intro cx cy tx ty
    simpa [curveToRel, relToAbsInline2, r] using
      curveTo_appends E h d (lx + cx) (ly + cy) (lx + tx) (ly + ty) hd hmem
  · intro cx1 cy1 cx2 cy2 tx ty
    simpa [cubicToRel, relToAbsInline3, r] using
      cubicTo_appends E h d (lx + cx1) (ly + cy1) (lx + cx2) (ly + cy2) (lx + tx) (ly + ty) hd hmem

theorem exMoved_appends : Appends exEmpty sharedNull exMoved [⟨CmdMoveTo, 10, 10⟩] :=
  moveTo_appends Env.plain exEmpty sharedNull 10 10 exEmpty_lt rfl

theorem exMoved_verts : exMoved.heap.verts exMoved.d = [⟨CmdMoveTo, 10, 10⟩] := by
  rw [exMoved_appends.verts, exEmpty_verts]; rfl

theorem rel_resolves_against_last_witness :
    exMoved.d < exMoved.heap.next ∧ Env.plain.oom exMoved.heap.next = false ∧
    exMoved.heap.verts exMoved.d = [] ++ [⟨CmdMoveTo, 10, 10⟩] ∧
    Cmd.isVertex CmdMoveTo = true ∧
    (lineToRel Env.plain exMoved.heap exMoved.d 5 5).heap.verts
        (lineToRel Env.plain exMoved.heap exMoved.d 5 5).d =
      [⟨CmdMoveTo, 10, 10⟩, ⟨CmdLineTo, 15, 15⟩] := by
  have t := rel_resolves_against_last Env.plain exMoved.heap exMoved.d [] CmdMoveTo 10 10
    exMoved_appends.lt rfl exMoved_verts (by decide)
  refine ⟨exMoved_appends.lt, rfl, exMoved_verts, by decide, ?_⟩
  rw [(t.2.1 5 5).verts, exMoved_verts]
  norm_num

theorem cmd_eq_mod (c : Nat) : Cmd.cmd c = c % 16 := by
  unfold Cmd.cmd
  exact Nat.and_pow_two_sub_one_eq_mod c 4

theorem not_isVertex_of_marker (c : Nat) (hc : Cmd.cmd c = CmdStop ∨ Cmd.cmd c = CmdEndPoly) :
    Cmd.isVertex c = false := by
  rw [cmd_eq_mod] at hc
  simp only [Cmd.isVertex, Bool.and_eq_false_imp, decide_eq_true_eq, decide_eq_false_iff_not,
    CmdMoveTo, CmdEndPoly, CmdStop] at hc ⊢
  omega

theorem lastIsVertex_of_marker {h : Heap} {d : Nat} (hm : endsInMarker (h.verts d)) :
    lastIsVertex h d = false := by
  rcases hm with he | ⟨ws, w, hv, hc⟩
  · have : (h.mem d).length = 0 := by
      have := congrArg List.length he
      simpa using this
    simp [lastIsVertex, this]
  · obtain ⟨_, hl⟩ := last_of_verts hv
    simp [lastIsVertex, hl, not_isVertex_of_marker w.cmd hc]

theorem start_appends (E : Env) (h : Heap) (d : Nat) (vs : List Vertex) (w : Vertex)
    (hd : d < h.next) (hmem : E.oom h.next = false)
    (hv : h.verts d = vs ++ [w]) (hw : Cmd.isStop w.cmd = false) :
    Appends h d (start E h d).1 [⟨CmdStop, 0, 0⟩] := by
  obtain ⟨h0, hl⟩ := last_of_verts hv
  have hs := add_ok_of_mem E h d 1 hmem
  unfold start
  simp only [h0, hl, hw, ne_eq, not_false_eq_true, and_self, if_true, Bool.false_eq_true]
  generalize ha : _add E h d 1 = a at hs
  obtain ⟨h1, d1, v⟩ := a
  simp only at hs
  subst hs
  have ok := add_eq_some hd ha
  exact ⟨rfl, verts_add_writeList [_] ok, by simpa [Heap.write] using ok.lt⟩

theorem exStarted_appends : Appends exMoved.heap exMoved.d exStarted [⟨CmdStop, 0, 0⟩] :=
  start_appends Env.plain exMoved.heap exMoved.d [] ⟨CmdMoveTo, 10, 10⟩ exMoved_appends.lt rfl
    exMoved_verts (by decide)

theorem exStarted_verts :
    exStarted.heap.verts exStarted.d = [⟨CmdMoveTo, 10, 10⟩, ⟨CmdStop, 0, 0⟩] := by
  rw [exStarted_appends.verts, exMoved_verts]; rfl

/-- C2 (failing input). `Path a; a.moveTo(10,10); a.lineTo(20,10); Path b = a;
b.reserve(1);`: before the call the shared block satisfies `length <= capacity` (2 and
3); `reserve` succeeds and leaves `b` with a block of capacity 1 and length 2. -/
theorem reserve_shared_breaks_length_le_capacity :
    (exLineShared.mem exLine.d).refCount = 2 ∧
    (exLineShared.mem exLine.d).length = 2 ∧ (exLineShared.mem exLine.d).capacity = 3 ∧
    exLineReserved.err = .Ok ∧
    (exLineReserved.heap.mem exLineReserved.d).length = 2 ∧
    (exLineReserved.heap.mem exLineReserved.d).capacity = 1 ∧
    ¬ (exLineReserved.heap.mem exLineReserved.d).length
        ≤ (exLineReserved.heap.mem exLineReserved.d).capacity := by
  decide

/-- C3 (failing input). `Path a; a.moveTo(10,10); a.curveTo(20,20,30,10); Path b = a;
b.lineTo(40,10);`: `type()` of the path is CurveType before `lineTo`; the call succeeds,
the path still holds its two Curve3 vertices, and `type()` now returns LineType. -/
theorem lineTo_detach_resets_type :
    (type exCurveShared exCurve.d).2 = CurveType ∧
    exCurveSharedLine.err = .Ok ∧
    exCurveSharedLine.heap.verts exCurveSharedLine.d =
      [⟨CmdMoveTo, 10, 10⟩, ⟨CmdCurve3, 20, 20⟩, ⟨CmdCurve3, 30, 10⟩, ⟨CmdLineTo, 40, 10⟩] ∧
    (type exCurveSharedLine.heap exCurveSharedLine.d).2 = LineType := by
  decide

/-- C4 (failing input). `Path a; a.moveTo(10,10); a.curveTo(20,20,30,10); Path b = a;
b.lineTo(40,10); b.flatten();`: every builder call succeeds, `flatten()` returns success
without touching the path, and `b` still carries its two Curve3 vertices.  The same
happens after `a.reserve(100)` in place of the copy and the `lineTo`. -/
theorem flatten_after_detach_keeps_curves :
    exCurve.err = .Ok ∧ exCurveSharedLine.err = .Ok ∧
    (flatten0 Env.plain 100 exCurveSharedLine.heap exCurveSharedLine.d).map (fun o => o.err)
      = some .Ok ∧
    (flatten0 Env.plain 100 exCurveSharedLine.heap exCurveSharedLine.d).map
        (fun o => o.heap.verts o.d) =
      some [⟨CmdMoveTo, 10, 10⟩, ⟨CmdCurve3, 20, 20⟩, ⟨CmdCurve3, 30, 10⟩,
        ⟨CmdLineTo, 40, 10⟩] ∧
    exCurveReserved.err = .Ok ∧
    (flatten0 Env.plain 100 exCurveReserved.heap exCurveReserved.d).map
        (fun o => (o.err, o.heap.verts o.d)) =
      some (.Ok, [⟨CmdMoveTo, 10, 10⟩, ⟨CmdCurve3, 20, 20⟩, ⟨CmdCurve3, 30, 10⟩]) := by
  decide

/-! ## Copy-on-write: what a handle on another block cannot change (C1) -/

theorem safe_congr {q : Nat} {h0 h h' : Heap} {d : Nat} (s : Safe q h0 h d)
    (hl : (h'.mem q).length = (h.mem q).length) (hdt : (h'.mem q).data = (h.mem q).data)
    (hr : (h'.mem q).refCount = (h.mem q).refCount) (hn : h.next ≤ h'.next) :
    Safe q h0 h' d :=
  ⟨⟨hl.trans s.same.1, hdt.trans s.same.2⟩, Nat.lt_of_lt_of_le s.lt hn, hr ▸ s.live,
    fun e => hr ▸ s.shared e⟩

theorem safe_of_mem {q : Nat} {h0 h h' : Heap} {d : Nat} (s : Safe q h0 h d)
    (hm : h'.mem q = h.mem q) (hn : h.next ≤ h'.next) : Safe q h0 h' d :=
  safe_congr s (by rw [hm]) (by rw [hm]) (by rw [hm]) hn

theorem safe_handle {q : Nat} {h0 h : Heap} {d : Nat} (s : Safe q h0 h d) (d' : Nat)
    (hne : d' ≠ q) : Safe q h0 h d' :=
  ⟨s.same, s.lt, s.live, fun e => absurd e hne⟩

theorem safe_init (q : Nat) (h : Heap) (hq : q < h.next) (hs : 2 ≤ (h.mem q).refCount) :
    Safe q h h q :=
  ⟨same_refl q h, hq, by omega, fun _ => hs⟩

theorem safe_write {q : Nat} {h0 h : Heap} {d : Nat} (s : Safe q h0 h d) (hne : d ≠ q)
    (i : Nat) (v : Vertex) : Safe q h0 (h.write d i v) d :=
  safe_of_mem s (write_mem_ne h d i v q (Ne.symm hne)) (Nat.le_refl _)

theorem safe_writeList {q : Nat} {h0 h : Heap} {d : Nat} (s : Safe q h0 h d) (hne : d ≠ q)
    (i : Nat) (vs : List Vertex) : Safe q h0 (h.writeList d i vs) d :=
  safe_of_mem s (writeList_mem_ne h d i vs q (Ne.symm hne)) (by simp)

theorem safe_setType {q : Nat} {h0 h : Heap} {d : Nat} (s : Safe q h0 h d) (p t : Nat) :
    Safe q h0 (h.setType p t) d :=
  safe_congr s (by simp) (setType_data h p t q) (by simp) (Nat.le_refl _)

theorem safe_setLength {q : Nat} {h0 h : Heap} {d : Nat} (s : Safe q h0 h d) (hne : d ≠ q)
    (n : Nat) : Safe q h0 (h.setLength d n) d :=
  safe_of_mem s (setLength_mem_ne h d n q (Ne.symm hne)) (Nat.le_refl _)

theorem safe_upd {q : Nat} {h0 h : Heap} {d : Nat} (s : Safe q h0 h d) (hne : d ≠ q)
    (f : Data → Data) : Safe q h0 (h.upd d f) d :=
  safe_of_mem s (by simp [Ne.symm hne]) (Nat.le_refl _)

theorem safe_reserve {q : Nat} {h0 h : Heap} {d : Nat} (E : Env) (n : Nat)
    (s : Safe q h0 h d) : Safe q h0 (reserve E h d n).heap (reserve E h d n).d := by
  unfold reserve
  split
  · exact s
  · by_cases ho : E.oom h.next = true
    · rw [alloc_fail E h n ho]
      exact safe_of_mem s rfl (Nat.le_succ _)
    · have ho' : E.oom h.next = false := by simpa using ho
      have hne : q ≠ h.next := Nat.ne_of_lt s.lt
      have h2 := (alloc_ok E h n ho').1
      have hm := alloc_mem_of_lt E h n q s.lt
      have hn := alloc_next E h n
      generalize Data.alloc E h n = a at h2 hm hn
      obtain ⟨a1, a2⟩ := a
      simp only at h2 hm hn
      subst h2
      simp only
      refine ⟨⟨?_, ?_⟩, ?_, ?_, ?_⟩
      · simp [hne, hm, s.same.1]
      · funext i; simp [hne, hm, s.same.2]
      · simp [hn]; have := s.lt; omega
      · simp only [deref_refCount, memcpy_refCount, setLength_refCount, hm]
        split
        · rename_i e; have := s.shared e.symm; omega
        · exact s.live
      · intro e; exact absurd e.symm hne

theorem safe_clear {q : Nat} {h0 h : Heap} {d : Nat} (s : Safe q h0 h d) :
    Safe q h0 (clear h d).1 (clear h d).2 := by
  unfold clear
  split
  · refine ⟨⟨?_, ?_⟩, ?_, ?_, ?_⟩
    · simp [s.same.1]
    · rw [deref_data, refAlways_data, s.same.2]
    · simpa using s.lt
    · have := s.live; have := s.shared
      simp only [deref_refCount, refAlways_refCount]
      split <;> split <;> omega
    · intro e
      have := s.live; have := s.shared
      simp only [deref_refCount, refAlways_refCount]
      split <;> split <;> omega
  · rename_i hc
    have hne : d ≠ q := fun e => by have := s.shared e; subst e; omega
    exact safe_setType (safe_setLength s hne 0) d LineType

theorem alloc_cases (E : Env) (h : Heap) (c : Nat) :
    (E.oom h.next = true ∧ Data.alloc E h c = ({ h with next := h.next + 1 }, none)) ∨
    (E.oom h.next = false ∧ ∃ a1, Data.alloc E h c = (a1, some h.next) ∧
      a1.next = h.next + 1 ∧ a1.mem h.next = Data.fresh E h.next c ∧
      ∀ q, q ≠ h.next → a1.mem q = h.mem q) := by
  by_cases ho : E.oom h.next = true
  · exact Or.inl ⟨ho, alloc_fail E h c ho⟩
  · have ho' : E.oom h.next = false := by simpa using ho
    refine Or.inr ⟨ho', (Data.alloc E h c).1, ?_, alloc_next E h c, (alloc_ok E h c ho').2, ?_⟩
    · have := (alloc_ok E h c ho').1
      exact Prod.ext rfl this
    · intro q hq
      unfold Data.alloc; simp [ho', hq]

theorem safe_detach {q : Nat} {h0 h : Heap} {d : Nat} (E : Env) (s : Safe q h0 h d)
    (hlen : (h.mem d).length ≠ 0) :
    Safe q h0 (detach E h d).heap (detach E h d).d ∧
      ((detach E h d).err = .Ok → (detach E h d).d ≠ q) := by
  unfold detach
  by_cases hdet : isDetached h d = true
  · simp only [hdet, if_true]
    have hne : d ≠ q := fun e => by
      have := s.shared e; subst e
      simp [isDetached] at hdet; omega
    exact ⟨s, fun _ => hne⟩
  · simp only [hdet, _detach, Data.copy, hlen, if_false, Bool.false_eq_true]
    rcases alloc_cases E h (h.mem d).length with ⟨_, e⟩ | ⟨_, a1, e, hn, _, hm⟩
    · rw [e]
      exact ⟨safe_of_mem s rfl (Nat.le_succ _), fun e => by simp at e⟩
    · rw [e]
      have hne : q ≠ h.next := Nat.ne_of_lt s.lt
      refine ⟨⟨⟨?_, ?_⟩, ?_, ?_, ?_⟩, fun _ e => absurd e.symm hne⟩
      · simp [hne, hm q hne, s.same.1]
      · funext i; simp [hne, hm q hne, s.same.2]
      · simp [hn]; have := s.lt; omega
      · simp only [deref_refCount, memcpy_refCount, setType_refCount, setLength_refCount,
          hm q hne]
        split
        · rename_i e; have := s.shared e.symm; omega
        · exact s.live
      · intro e; exact absurd e.symm hne

theorem same_flipX {q : Nat} {h0 h : Heap} {d : Nat} (E : Env) (s : Safe q h0 h d)
    (x1 x2 : ℚ) : Same q h0 (flipX E h d x1 x2).heap := by
  unfold flipX
  split
  · exact s.same
  · rename_i hlen
    obtain ⟨s1, hne⟩ := safe_detach E s hlen
    by_cases he : (detach E h d).err = .Ok
    · simp only [he, ne_eq, not_true_eq_false, if_false]
      exact (safe_upd s1 (hne he) _).same
    · simp only [he, ne_eq, not_false_eq_true, if_true]
      exact s1.same

theorem same_flipY {q : Nat} {h0 h : Heap} {d : Nat} (E : Env) (s : Safe q h0 h d)
    (y1 y2 : ℚ) : Same q h0 (flipY E h d y1 y2).heap := by
  unfold flipY
  split
  · exact s.same
  · rename_i hlen
    obtain ⟨s1, hne⟩ := safe_detach E s hlen
    by_cases he : (detach E h d).err = .Ok
    · simp only [he, ne_eq, not_true_eq_false, if_false]
      exact (safe_upd s1 (hne he) _).same
    · simp only [he, ne_eq, not_false_eq_true, if_true]
      exact s1.same

theorem same_translate {q : Nat} {h0 h : Heap} {d : Nat} (E : Env) (s : Safe q h0 h d)
    (dx dy : ℚ) : Same q h0 (translate E h d dx dy).heap := by
  unfold translate
  split
  · exact s.same
  · rename_i hlen
    obtain ⟨s1, hne⟩ := safe_detach E s hlen
    by_cases he : (detach E h d).err = .Ok
    · simp only [he, ne_eq, not_true_eq_false, if_false]
      exact (safe_upd s1 (hne he) _).same
    · simp only [he, ne_eq, not_false_eq_true, if_true]
      exact s1.same

theorem same_translateFrom {q : Nat} {h0 h : Heap} {d : Nat} (E : Env) (s : Safe q h0 h d)
    (dx dy : ℚ) (pathId : Nat) : Same q h0 (translateFrom E h d dx dy pathId).heap := by
  unfold translateFrom
  split
  · exact s.same
  · rename_i hlen
    obtain ⟨s1, hne⟩ := safe_detach E s hlen
    by_cases he : (detach E h d).err = .Ok
    · simp only [he, ne_eq, not_true_eq_false, if_false]
      exact (safe_upd s1 (hne he) _).same
    · simp only [he, ne_eq, not_false_eq_true, if_true]
      exact s1.same

theorem same_applyMatrix {q : Nat} {h0 h : Heap} {d : Nat} (E : Env) (s : Safe q h0 h d)
    (m : AffineMatrix) : Same q h0 (applyMatrix E h d m).heap := by
  unfold applyMatrix
  split
  · exact s.same
  · rename_i hlen
    obtain ⟨s1, hne⟩ := safe_detach E s hlen
    by_cases he : (detach E h d).err = .Ok
    · simp only [he, ne_eq, not_true_eq_false, if_false]
      exact (safe_upd s1 (hne he) _).same
    · simp only [he, ne_eq, not_false_eq_true, if_true]
      exact s1.same

theorem same_scale {q : Nat} {h0 h : Heap} {d : Nat} (E : Env) (s : Safe q h0 h d)
    (sx sy : ℚ) (k : Bool) : Same q h0 (scale E h d sx sy k).heap := by
  unfold scale
  split
  · exact s.same
  · rename_i hlen
    obtain ⟨s1, hne⟩ := safe_detach E s hlen
    by_cases he : (detach E h d).err = .Ok
    · simp only [he, ne_eq, not_true_eq_false, if_false]
      cases k
      · simp only [Bool.false_eq_true, if_false]
        exact (safe_upd s1 (hne he) _).same
      · simp only [if_true]
        exact (safe_upd s1 (hne he) _).same
    · simp only [he, ne_eq, not_false_eq_true, if_true]
      exact s1.same

theorem safe_moveTo {q : Nat} {h0 h : Heap} {d : Nat} (E : Env) (s : Safe q h0 h d)
    (x y : ℚ) : Safe q h0 (moveTo E h d x y).heap (moveTo E h d x y).d := by
  obtain ⟨s1, hne⟩ := safe_add E (1) s
  unfold moveTo
  generalize _add E h d (1) = a at s1 hne
  obtain ⟨h1, d1, v⟩ := a
  cases v with
  | none => exact s1
  | some v => exact safe_write s1 (hne (by simp)) _ _

theorem safe_lineTo {q : Nat} {h0 h : Heap} {d : Nat} (E : Env) (s : Safe q h0 h d)
    (x y : ℚ) : Safe q h0 (lineTo E h d x y).heap (lineTo E h d x y).d := by
  obtain ⟨s1, hne⟩ := safe_add E (1) s
  unfold lineTo
  generalize _add E h d (1) = a at s1 hne
  obtain ⟨h1, d1, v⟩ := a
  cases v with
  | none => exact s1
  | some v => exact safe_write s1 (hne (by simp)) _ _

theorem safe_lineToPts {q : Nat} {h0 h : Heap} {d : Nat} (E : Env) (s : Safe q h0 h d)
    (pts : List (ℚ × ℚ)) : Safe q h0 (lineToPts E h d pts).heap (lineToPts E h d pts).d := by
  obtain ⟨s1, hne⟩ := safe_add E (pts.length) s
  unfold lineToPts
  generalize _add E h d (pts.length) = a at s1 hne
  obtain ⟨h1, d1, v⟩ := a
  cases v with
  | none => exact s1
  | some v => exact safe_writeList s1 (hne (by simp)) _ _

theorem safe_curveTo {q : Nat} {h0 h : Heap} {d : Nat} (E : Env) (s : Safe q h0 h d)
    (cx cy tx ty : ℚ) :
    Safe q h0 (curveTo E h d cx cy tx ty).heap (curveTo E h d cx cy tx ty).d := by
  obtain ⟨s1, hne⟩ := safe_add E 2 s
  unfold curveTo
  generalize _add E h d 2 = a at s1 hne
  obtain ⟨h1, d1, v⟩ := a
  cases v with
  | none => exact s1
  | some v =>
    exact safe_setType (safe_write (safe_write s1 (hne (by simp)) _ _) (hne (by simp)) _ _) _ _

theorem safe_cubicTo {q : Nat} {h0 h : Heap} {d : Nat} (E : Env) (s : Safe q h0 h d)
    (cx1 cy1 cx2 cy2 tx ty : ℚ) :
    Safe q h0 (cubicTo E h d cx1 cy1 cx2 cy2 tx ty).heap
      (cubicTo E h d cx1 cy1 cx2 cy2 tx ty).d := by
  obtain ⟨s1, hne⟩ := safe_add E 3 s
  unfold cubicTo
  generalize _add E h d 3 = a at s1 hne
  obtain ⟨h1, d1, v⟩ := a
  cases v with
  | none => exact s1
  | some v =>
    exact safe_setType (safe_write (safe_write (safe_write s1 (hne (by simp)) _ _)
      (hne (by simp)) _ _) (hne (by simp)) _ _) _ _

theorem safe_curveToSmooth {q : Nat} {h0 h : Heap} {d : Nat} (E : Env) (s : Safe q h0 h d)
    (tx ty : ℚ) :
    Safe q h0 (curveToSmooth E h d tx ty).heap (curveToSmooth E h d tx ty).d := by
  unfold curveToSmooth
  simp only
  split
  · split <;> exact safe_curveTo E s _ _ _ _
  · exact s

theorem safe_cubicToSmooth {q : Nat} {h0 h : Heap} {d : Nat} (E : Env) (s : Safe q h0 h d)
    (cx2 cy2 tx ty : ℚ) :
    Safe q h0 (cubicToSmooth E h d cx2 cy2 tx ty).heap (cubicToSmooth E h d cx2 cy2 tx ty).d := by
  unfold cubicToSmooth
  simp only
  split
  · split <;> exact safe_cubicTo E s _ _ _ _ _ _
  · exact s

theorem safe_addRect {q : Nat} {h0 h : Heap} {d : Nat} (E : Env) (s : Safe q h0 h d)
    (r : RectF) : Safe q h0 (addRect E h d r).heap (addRect E h d r).d := by
  obtain ⟨s1, hne⟩ := safe_add E 5 s
  unfold addRect
  split
  · exact s
  · generalize _add E h d 5 = a at s1 hne
    obtain ⟨h1, d1, v⟩ := a
    cases v with
    | none => exact s1
    | some v => exact safe_writeList s1 (hne (by simp)) _ _

theorem addRectsLoop_mem_ne (h : Heap) (d v : Nat) (rs : List RectF) (q : Nat) (hq : q ≠ d) :
    (addRectsLoop h d v rs).1.mem q = h.mem q ∧ (addRectsLoop h d v rs).1.next = h.next := by
  induction rs generalizing h v with
  | nil => exact ⟨rfl, rfl⟩
  | cons r rs ih =>
    unfold addRectsLoop
    split
    · exact ih h v
    · obtain ⟨a, b⟩ := ih (h.writeList d v (rectVertices r)) (v + 5)
      exact ⟨a.trans (writeList_mem_ne _ _ _ _ _ hq), b.trans (by simp)⟩

theorem safe_addRects {q : Nat} {h0 h : Heap} {d : Nat} (E : Env) (s : Safe q h0 h d)
    (rs : List RectF) : Safe q h0 (addRects E h d rs).heap (addRects E h d rs).d := by
  obtain ⟨s1, hne⟩ := safe_add E (rs.length * 5) s
  unfold addRects
  split
  · exact s
  · generalize _add E h d (rs.length * 5) = a at s1 hne
    obtain ⟨h1, d1, v⟩ := a
    cases v with
    | none => exact s1
    | some v =>
      have hd1 : d1 ≠ q := hne (by simp)
      obtain ⟨a, b⟩ := addRectsLoop_mem_ne h1 d1 v rs q (Ne.symm hd1)
      exact safe_setLength (safe_of_mem s1 a (Nat.le_of_eq b.symm)) hd1 _

theorem safe_start {q : Nat} {h0 h : Heap} {d : Nat} (E : Env) (s : Safe q h0 h d) :
    Safe q h0 (start E h d).1.heap (start E h d).1.d := by
  obtain ⟨s1, hne⟩ := safe_add E 1 s
  unfold start
  split
  · generalize _add E h d 1 = a at s1 hne
    obtain ⟨h1, d1, v⟩ := a
    cases v with
    | none => exact s1
    | some v => exact safe_write s1 (hne (by simp)) _ _
  · exact s

theorem safe_endPoly {q : Nat} {h0 h : Heap} {d : Nat} (E : Env) (s : Safe q h0 h d)
    (cmdflags : Nat) : Safe q h0 (endPoly E h d cmdflags).heap (endPoly E h d cmdflags).d := by
  obtain ⟨s1, hne⟩ := safe_add E 1 s
  unfold endPoly
  split
  · generalize _add E h d 1 = a at s1 hne
    obtain ⟨h1, d1, v⟩ := a
    cases v with
    | none => exact s1
    | some v => exact safe_write s1 (hne (by simp)) _ _
  · exact s

theorem safe_closePolygon {q : Nat} {h0 h : Heap} {d : Nat} (E : Env) (s : Safe q h0 h d)
    (cmdflags : Nat) :
    Safe q h0 (closePolygon E h d cmdflags).heap (closePolygon E h d cmdflags).d :=
  safe_endPoly E s _

theorem safe_type {q : Nat} {h0 h : Heap} {d : Nat} (s : Safe q h0 h d) (p : Nat) :
    Safe q h0 (type h p).1 d := by
  unfold type
  simp only
  split
  · exact s
  · exact safe_setType s _ _

theorem addPathLoop_mem_ne (d src : Nat) (count v i : Nat) (h : Heap) (q : Nat) (hq : q ≠ d) :
    (addPathLoop d src count v i h).mem q = h.mem q ∧
      (addPathLoop d src count v i h).next = h.next := by
  induction count generalizing v i h with
  | zero => exact ⟨rfl, rfl⟩
  | succ n ih =>
    unfold addPathLoop
    obtain ⟨a, b⟩ := ih (v + 1) (i + 1) (h.write d v ((h.mem src).data i))
    exact ⟨a.trans (write_mem_ne _ _ _ _ _ hq), b.trans (by simp)⟩

theorem safe_addPath {q : Nat} {h0 h : Heap} {d : Nat} (E : Env) (s : Safe q h0 h d)
    (path : Nat) : Safe q h0 (addPath E h d path).heap (addPath E h d path).d := by
  unfold addPath
  simp only
  split
  · exact s
  · have s2 := safe_type (safe_type s d) path
    obtain ⟨s1, hne⟩ := safe_add E (length h path) s2
    generalize _add E (type (type h d).1 path).1 d (length h path) = a at s1 hne
    obtain ⟨h1, d1, v⟩ := a
    cases v with
    | none => exact s1
    | some v =>
      have hd1 : d1 ≠ q := hne (by simp)
      obtain ⟨a, b⟩ := addPathLoop_mem_ne d1 (if path = d then d1 else path) (length h path) v 0
        h1 q (Ne.symm hd1)
      exact safe_setType (safe_of_mem s1 a (Nat.le_of_eq b.symm)) _ _

theorem arcLoop_mem_ne (E : Env) (d : Nat) (cx cy rx ry sweep : ℚ) (vend : Nat) (fuel : Nat)
    (s : ArcLoop) (q : Nat) (hq : q ≠ d) :
    (arcLoop E d cx cy rx ry sweep vend fuel s).heap.mem q = s.heap.mem q ∧
      (arcLoop E d cx cy rx ry sweep vend fuel s).heap.next = s.heap.next := by
  induction fuel generalizing s with
  | zero => exact ⟨rfl, rfl⟩
  | succ n ih =>
    unfold arcLoop
    simp only
    split
    · exact ⟨(ih _).1.trans (writeList_mem_ne _ _ _ _ _ hq), (ih _).2.trans (by simp)⟩
    · exact ⟨writeList_mem_ne _ _ _ _ _ hq, by simp⟩

theorem safe_arcBody {q : Nat} {h0 h : Heap} {d : Nat} (E : Env) (s : Safe q h0 h d)
    (cx cy rx ry start sweep : ℚ) (cmd : Nat) :
    Safe q h0 (arcBody E h d cx cy rx ry start sweep cmd).1
      (arcBody E h d cx cy rx ry start sweep cmd).2.1 := by
  unfold arcBody
  split
  · obtain ⟨s1, hne⟩ := safe_add E 2 s
    generalize _add E h d 2 = a at s1 hne
    obtain ⟨h1, d1, v⟩ := a
    cases v with
    | none => exact s1
    | some v =>
      have hd1 : d1 ≠ q := hne (by simp)
      exact safe_write (safe_write s1 hd1 v _) hd1 (v + 1) _
  · obtain ⟨s1, hne⟩ := safe_add E 13 s
    generalize _add E h d 13 = a at s1 hne
    obtain ⟨h1, d1, v⟩ := a
    cases v with
    | none => exact s1
    | some v =>
      have hd1 : d1 ≠ q := hne (by simp)
      obtain ⟨a, b⟩ := arcLoop_mem_ne E d1 cx cy rx ry sweep (v + 13) 4
        ⟨h1, v + 1, start, 0⟩ q (Ne.symm hd1)
      exact safe_setType (safe_setLength (safe_upd (safe_of_mem s1 a
        (Nat.le_of_eq b.symm)) hd1 _) hd1 _) d1 CurveType

theorem safe_arcTo_aux {q : Nat} {h0 h : Heap} {d : Nat} (E : Env) (s : Safe q h0 h d)
    (cx cy rx ry start sweep : ℚ) (cmd : Nat) (cl : Bool) :
    Safe q h0 (_arcTo E h d cx cy rx ry start sweep cmd cl).1
      (_arcTo E h d cx cy rx ry start sweep cmd cl).2.1 := by
  unfold _arcTo
  simp only
  have s1 := safe_arcBody E s cx cy rx ry (E.fmod start (2 * E.M_PI))
    (if (if 2 * E.M_PI ≤ sweep then 2 * E.M_PI else sweep) ≤ -2 * E.M_PI then -2 * E.M_PI
      else (if 2 * E.M_PI ≤ sweep then 2 * E.M_PI else sweep)) cmd
  generalize arcBody E h d cx cy rx ry _ _ cmd = a at s1
  obtain ⟨h1, d1, e⟩ := a
  cases e with
  | some e => exact s1
  | none =>
    cases cl
    · exact s1
    · exact safe_closePolygon E s1 0

theorem exLineShared_verts :
    exLineShared.verts exLine.d = [⟨CmdMoveTo, 10, 10⟩, ⟨CmdLineTo, 20, 10⟩] := by decide

theorem type_same (q : Nat) (h : Heap) (p : Nat) : Same q h (type h p).1 := by
  unfold type
  simp only
  split
  · exact same_refl q h
  · exact ⟨by simp, setType_data _ _ _ _⟩

theorem type_flags (h : Heap) (p q : Nat) : ((type h p).1.mem q).flags = (h.mem q).flags := by
  unfold type
  simp only
  split
  · rfl
  · simp

/-! ## The cached type during a flatten (C6) -/

theorem keeps_refl (h : Heap) : Keeps h h := fun _ t => t

theorem Keeps.ktrans {h1 h2 h3 : Heap} (a : Keeps h1 h2) (b : Keeps h2 h3) : Keeps h1 h3 :=
  fun q t => b q (a q t)

theorem keeps_of_type_eq {h h' : Heap} (e : ∀ q, (h'.mem q).type = (h.mem q).type) :
    Keeps h h' := fun q t => (e q).trans t

theorem keeps_write (h : Heap) (p i : Nat) (v : Vertex) : Keeps h (h.write p i v) :=
  keeps_of_type_eq (by simp)

theorem keeps_writeList (h : Heap) (p i : Nat) (vs : List Vertex) :
    Keeps h (h.writeList p i vs) :=
  keeps_of_type_eq (by simp)

theorem keeps_setLength (h : Heap) (p n : Nat) : Keeps h (h.setLength p n) :=
  keeps_of_type_eq (by simp)

theorem keeps_memcpy (h : Heap) (p src n : Nat) : Keeps h (memcpy h p src n) :=
  keeps_of_type_eq (by simp)

theorem keeps_deref (h : Heap) (p : Nat) : Keeps h (Data.deref h p) :=
  keeps_of_type_eq (by simp)

theorem keeps_refAlways (h : Heap) (p : Nat) : Keeps h (Data.refAlways h p) :=
  keeps_of_type_eq (by simp)

theorem keeps_setType_line (h : Heap) (p : Nat) : Keeps h (h.setType p LineType) := by
  intro q t
  unfold TL at *
  rw [setType_type]
  split
  · rfl
  · exact t

theorem tl_setType_line (h : Heap) (p : Nat) : TL (h.setType p LineType) p := by
  unfold TL; simp

theorem keeps_alloc (E : Env) (h : Heap) (c : Nat) :
    Keeps h (Data.alloc E h c).1 ∧
      ∀ nd, (Data.alloc E h c).2 = some nd → TL (Data.alloc E h c).1 nd := by
  rcases alloc_cases E h c with ⟨_, e⟩ | ⟨_, a1, e, _, hf, hm⟩
  · rw [e]
    exact ⟨fun q t => t, fun nd x => by simp at x⟩
  · rw [e]
    refine ⟨fun q t => ?_, fun nd x => ?_⟩
    · by_cases hq : q = h.next
      · subst hq; unfold TL; rw [hf]; rfl
      · unfold TL at *; rw [hm q hq]; exact t
    · simp only [Option.some.injEq] at x
      subst x
      unfold TL; rw [hf]; rfl

theorem keeps_add (E : Env) (h : Heap) (d count : Nat) :
    Keeps h (_add E h d count).1 ∧
      (TL h d → TL (_add E h d count).1 (_add E h d count).2.1) := by
  by_cases hc : (h.mem d).refCount = 1 ∧ count ≤ (h.mem d).capacity - (h.mem d).length
  · rw [add_inplace E h d count hc]
    exact ⟨keeps_setLength _ _ _, fun t => keeps_setLength _ _ _ _ t⟩
  · by_cases ho : E.oom h.next = true
    · rw [add_fail E h d count hc ho]
      exact ⟨fun q t => t, fun t => t⟩
    · have ho' : E.oom h.next = false := by simpa using ho
      rw [add_grow E h d count hc ho']
      obtain ⟨k, f⟩ := keeps_alloc E h
        (E.calcOptimalCapacity (h.mem d).length ((h.mem d).length + count))
      have f' := f h.next (alloc_ok E h _ ho').1
      have k2 : Keeps (Data.alloc E h
          (E.calcOptimalCapacity (h.mem d).length ((h.mem d).length + count))).1
          (Data.deref (memcpy ((Data.alloc E h
          (E.calcOptimalCapacity (h.mem d).length ((h.mem d).length + count))).1.setLength
            h.next ((h.mem d).length + count)) h.next d (h.mem d).length) d) :=
        ((keeps_setLength _ _ _).ktrans (keeps_memcpy _ _ _ _)).ktrans (keeps_deref _ _)
      exact ⟨k.ktrans k2, fun _ => k2 _ f'⟩

theorem keeps_reserve (E : Env) (h : Heap) (d n : Nat) :
    Keeps h (reserve E h d n).heap ∧ (TL h d → TL (reserve E h d n).heap (reserve E h d n).d) := by
  unfold reserve
  split
  · exact ⟨keeps_refl h, fun t => t⟩
  · obtain ⟨k, f⟩ := keeps_alloc E h n
    generalize Data.alloc E h n = a at k f
    obtain ⟨a1, a2⟩ := a
    cases a2 with
    | none => exact ⟨k, fun t => k _ t⟩
    | some nd =>
      have k2 : Keeps a1 (Data.deref (memcpy (a1.setLength nd (a1.mem d).length) nd d
          ((a1.setLength nd (a1.mem d).length).mem d).length) d) :=
        ((keeps_setLength _ _ _).ktrans (keeps_memcpy _ _ _ _)).ktrans (keeps_deref _ _)
      exact ⟨k.ktrans k2, fun _ => k2 _ (f nd rfl)⟩

theorem keeps_clear (h : Heap) (d : Nat) :
    Keeps h (clear h d).1 ∧ (TL h sharedNull → TL (clear h d).1 (clear h d).2) := by
  unfold clear
  split
  · have k : Keeps h (Data.deref (Data.refAlways h sharedNull) d) :=
      (keeps_refAlways _ _).ktrans (keeps_deref _ _)
    exact ⟨k, fun t => k _ t⟩
  · exact ⟨(keeps_setLength _ _ _).ktrans (keeps_setType_line _ _), fun _ => tl_setType_line _ _⟩

theorem keeps_copy (E : Env) (h : Heap) (p : Nat) (t : TL h p) :
    Keeps h (Data.copy E h p).1 ∧
      ∀ nd, (Data.copy E h p).2 = some nd → TL (Data.copy E h p).1 nd := by
  unfold Data.copy
  split
  · exact ⟨keeps_refAlways _ _, fun nd x => by
      simp only [Option.some.injEq] at x; subst x; exact keeps_refAlways _ _ _ t⟩
  · obtain ⟨k, f⟩ := keeps_alloc E h (h.mem p).length
    generalize Data.alloc E h (h.mem p).length = a at k f
    obtain ⟨a1, a2⟩ := a
    cases a2 with
    | none => exact ⟨k, fun nd x => by simp at x⟩
    | some nd =>
      have tp : (a1.mem p).type = LineType := k p t
      have k2 : Keeps a1 (memcpy ((a1.setLength nd (a1.mem p).length).setType nd
          ((a1.setLength nd (a1.mem p).length).mem p).type) nd p
          (((a1.setLength nd (a1.mem p).length).setType nd
            ((a1.setLength nd (a1.mem p).length).mem p).type).mem p).length) := by
        have e : ((a1.setLength nd (a1.mem p).length).mem p).type = LineType := by
          rw [setLength_type]; exact tp
        rw [e]
        exact ((keeps_setLength _ _ _).ktrans (keeps_setType_line _ _)).ktrans (keeps_memcpy _ _ _ _)
      refine ⟨k.ktrans k2, fun nd' x => ?_⟩
      simp only [Option.some.injEq] at x
      subst x
      exact k2 _ (f nd rfl)

theorem keeps_detach (E : Env) (h : Heap) (d : Nat) (t : TL h d) :
    Keeps h (detach E h d).heap ∧ TL (detach E h d).heap (detach E h d).d := by
  unfold detach
  split
  · exact ⟨keeps_refl h, t⟩
  · unfold _detach
    split
    · exact ⟨keeps_refl h, t⟩
    · obtain ⟨k, f⟩ := keeps_copy E h d t
      generalize Data.copy E h d = a at k f
      obtain ⟨a1, a2⟩ := a
      cases a2 with
      | none => exact ⟨k, k _ t⟩
      | some nd => exact ⟨k.ktrans (keeps_deref _ _), keeps_deref _ _ _ (f nd rfl)⟩

theorem keeps_mapVertices (h : Heap) (d : Nat) (f : Vertex → Vertex) :
    Keeps h (mapVertices h d f) := by
  apply keeps_of_type_eq
  intro q
  unfold mapVertices
  simp only [Heap.upd_mem]
  split
  · rename_i e; subst e; rfl
  · rfl

theorem keeps_applyMatrix (E : Env) (h : Heap) (d : Nat) (m : AffineMatrix) (t : TL h d) :
    Keeps h (applyMatrix E h d m).heap ∧ TL (applyMatrix E h d m).heap (applyMatrix E h d m).d := by
  unfold applyMatrix
  split
  · exact ⟨keeps_refl h, t⟩
  · obtain ⟨k, f⟩ := keeps_detach E h d t
    simp only
    split
    · exact ⟨k, f⟩
    · dsimp only
      exact ⟨k.ktrans (keeps_mapVertices (detach E h d).heap (detach E h d).d _),
        keeps_mapVertices (detach E h d).heap (detach E h d).d _ _ f⟩

theorem keeps_approximateCurve3 (E : Env) (fuel : Nat) (h : Heap) (dst : Nat)
    (x1 y1 x2 y2 x3 y3 s a : ℚ) (r : Out)
    (e : approximateCurve3 E fuel h dst x1 y1 x2 y2 x3 y3 s a = some r) :
    Keeps h r.heap ∧ (TL h dst → TL r.heap r.d) := by
  unfold approximateCurve3 at e
  obtain ⟨k, f⟩ := keeps_add E h dst (APPROXIMATE_CURVE3_RECURSION_LIMIT * 2 + 1)
  generalize _add E h dst (APPROXIMATE_CURVE3_RECURSION_LIMIT * 2 + 1) = b at e k f
  obtain ⟨h1, d1, v⟩ := b
  cases v with
  | none =>
    simp only [Option.some.injEq] at e
    subst e
    exact ⟨k, f⟩
  | some v =>
    simp only at e
    split at e
    · simp at e
    · rename_i vs _
      simp only [Option.some.injEq] at e
      subst e
      have k2 := (keeps_writeList h1 d1 v vs).ktrans (keeps_setLength _ d1 (v + vs.length))
      exact ⟨k.ktrans k2, fun t => k2 _ (f t)⟩

theorem keeps_approximateCurve4 (E : Env) (fuel : Nat) (h : Heap) (dst : Nat)
    (x1 y1 x2 y2 x3 y3 x4 y4 s a c : ℚ) (r : Out)
    (e : approximateCurve4 E fuel h dst x1 y1 x2 y2 x3 y3 x4 y4 s a c = some r) :
    Keeps h r.heap ∧ (TL h dst → TL r.heap r.d) := by
  unfold approximateCurve4 at e
  obtain ⟨k, f⟩ := keeps_add E h dst (APPROXIMATE_CURVE3_RECURSION_LIMIT * 4 + 1)
  generalize _add E h dst (APPROXIMATE_CURVE3_RECURSION_LIMIT * 4 + 1) = b at e k f
  obtain ⟨h1, d1, v⟩ := b
  cases v with
  | none =>
    simp only [Option.some.injEq] at e
    subst e
    exact ⟨k, f⟩
  | some v =>
    simp only at e
    split at e
    · simp at e
    · rename_i vs _
      simp only [Option.some.injEq] at e
      subst e
      have k2 := (keeps_writeList h1 d1 v vs).ktrans (keeps_setLength _ d1 (v + vs.length))
      exact ⟨k.ktrans k2, fun t => k2 _ (f t)⟩

theorem keeps_flattenFinish (E : Env) (m : Option AffineMatrix) (h : Heap) (dst dstv : Nat) :
    Keeps h (flattenFinish E m h dst dstv).heap ∧
      TL (flattenFinish E m h dst dstv).heap (flattenFinish E m h dst dstv).d := by
  have k := (keeps_setLength h dst dstv).ktrans (keeps_setType_line _ dst)
  have t : TL ((h.setLength dst dstv).setType dst LineType) dst := tl_setType_line _ _
  unfold flattenFinish
  cases m with
  | none => exact ⟨k, t⟩
  | some m =>
    obtain ⟨k2, t2⟩ := keeps_applyMatrix E _ dst m t
    exact ⟨k.ktrans k2, t2⟩

theorem keeps_flattenInvalid (h : Heap) (dst : Nat) :
    Keeps h (flattenInvalid h dst).heap ∧
      TL (flattenInvalid h dst).heap (flattenInvalid h dst).d :=
  ⟨(keeps_setLength h dst 0).ktrans (keeps_setType_line _ dst), tl_setType_line _ _⟩

theorem keeps_flattenAgain (E : Env) (r : Out) (n k : Nat)
    (next : Heap → Nat → Nat → Option Out) (r' : Out)
    (hn : ∀ h2 d2 dstv2 r2, next h2 d2 dstv2 = some r2 →
      Keeps h2 r2.heap ∧ (TL h2 d2 → TL r2.heap r2.d))
    (e : flattenAgain E r n k next = some r') :
    Keeps r.heap r'.heap ∧ (TL r.heap r.d → TL r'.heap r'.d) := by
  unfold flattenAgain at e
  split at e
  · simp only [Option.some.injEq] at e
    subst e
    exact ⟨keeps_refl _, fun t => t⟩
  · obtain ⟨k1, f1⟩ := keeps_add E r.heap r.d (n - k)
    generalize _add E r.heap r.d (n - k) = b at e k1 f1
    obtain ⟨h2, d2, v⟩ := b
    cases v with
    | none =>
      simp only [Option.some.injEq] at e
      subst e
      exact ⟨k1, f1⟩
    | some v =>
      obtain ⟨k2, f2⟩ := hn h2 d2 v r' e
      exact ⟨k1.ktrans k2, fun t => f2 (f1 t)⟩

theorem keeps_flattenLoop (E : Env) (fuel this : Nat) (m : Option AffineMatrix) (s : ℚ)
    (steps : Nat) : ∀ (h : Heap) (dst v n dstv : Nat) (lx ly : ℚ) (r : Out),
    flattenLoop E fuel this m s steps h dst v n dstv lx ly = some r →
    Keeps h r.heap ∧ (TL h dst → TL r.heap r.d) := by
  induction steps with
  | zero => intro h dst v n dstv lx ly r e; simp [flattenLoop] at e
  | succ steps ih =>
    intro h dst v n dstv lx ly r e
    unfold flattenLoop at e
    simp only at e
    have line : ∀ (w : Vertex) (a b : ℚ) (r : Out),
        (if n - 1 ≠ 0 then
            flattenLoop E fuel this m s steps (h.write dst dstv w) dst (v + 1) (n - 1)
              (dstv + 1) a b
          else some (flattenFinish E m (h.write dst dstv w) dst (dstv + 1))) = some r →
        Keeps h r.heap ∧ (TL h dst → TL r.heap r.d) := by
      intro w a b r e
      have kw := keeps_write h dst dstv w
      split at e
      · obtain ⟨k, f⟩ := ih _ _ _ _ _ _ _ _ e
        exact ⟨kw.ktrans k, fun t => f (kw _ t)⟩
      · simp only [Option.some.injEq] at e
        subst e
        obtain ⟨k, f⟩ := keeps_flattenFinish E m (h.write dst dstv w) dst (dstv + 1)
        exact ⟨kw.ktrans k, fun _ => f⟩
    have inv : ∀ r : Out, some (flattenInvalid h dst) = some r →
        Keeps h r.heap ∧ (TL h dst → TL r.heap r.d) := by
      intro r e
      simp only [Option.some.injEq] at e
      subst e
      exact ⟨(keeps_flattenInvalid h dst).1, fun _ => (keeps_flattenInvalid h dst).2⟩
    have ksl := keeps_setLength h dst dstv
    split at e
    · exact line _ _ _ r e
    · split at e
      · -- Curve3
        split at e
        · exact inv r e
        · split at e
          · exact inv r e
          · split at e
            · simp at e
            · rename_i r1 hr1
              obtain ⟨k1, f1⟩ := keeps_approximateCurve3 E fuel _ dst _ _ _ _ _ _ _ _ r1 hr1
              split at e
              · simp only [Option.some.injEq] at e
                subst e
                exact ⟨ksl.ktrans k1, fun t => f1 (ksl _ t)⟩
              · obtain ⟨k2, f2⟩ := keeps_flattenAgain E r1 n 2 _ r
                  (fun h2 d2 dstv2 r2 e2 => ih _ _ _ _ _ _ _ _ e2) e
                exact ⟨(ksl.ktrans k1).ktrans k2, fun t => f2 (f1 (ksl _ t))⟩
      · split at e
        · -- Curve4
          split at e
          · exact inv r e
          · split at e
            · exact inv r e
            · split at e
              · simp at e
              · rename_i r1 hr1
                obtain ⟨k1, f1⟩ :=
                  keeps_approximateCurve4 E fuel _ dst _ _ _ _ _ _ _ _ _ _ _ r1 hr1
                split at e
                · simp only [Option.some.injEq] at e
                  subst e
                  exact ⟨ksl.ktrans k1, fun t => f1 (ksl _ t)⟩
                · obtain ⟨k2, f2⟩ := keeps_flattenAgain E r1 n 3 _ r
                    (fun h2 d2 dstv2 r2 e2 => ih _ _ _ _ _ _ _ _ e2) e
                  exact ⟨(ksl.ktrans k1).ktrans k2, fun t => f2 (f1 (ksl _ t))⟩
        · split at e
          · -- Catrom
            split at e
            · exact inv r e
            · split at e
              · exact inv r e
              · split at e
                · simp at e
                · rename_i r1 hr1
                  obtain ⟨k1, f1⟩ :=
                    keeps_approximateCurve4 E fuel _ dst _ _ _ _ _ _ _ _ _ _ _ r1 hr1
                  obtain ⟨k2, f2⟩ := keeps_flattenAgain E r1 n 3 _ r
                    (fun h2 d2 dstv2 r2 e2 => ih _ _ _ _ _ _ _ _ e2) e
                  exact ⟨(ksl.ktrans k1).ktrans k2, fun t => f2 (f1 (ksl _ t))⟩
          · split at e
            · -- UBSpline
              split at e
              · exact inv r e
              · split at e
                · exact inv r e
                · split at e
                  · simp at e
                  · rename_i r1 hr1
                    obtain ⟨k1, f1⟩ :=
                      keeps_approximateCurve4 E fuel _ dst _ _ _ _ _ _ _ _ _ _ _ r1 hr1
                    obtain ⟨k2, f2⟩ := keeps_flattenAgain E r1 n 3 _ r
                      (fun h2 d2 dstv2 r2 e2 => ih _ _ _ _ _ _ _ _ e2) e
                    exact ⟨(ksl.ktrans k1).ktrans k2, fun t => f2 (f1 (ksl _ t))⟩
            · exact line _ _ _ r e

theorem keeps_type (h : Heap) (p : Nat) : Keeps h (type h p).1 := by
  intro q t
  unfold type
  simp only
  split
  · exact t
  · rename_i h0
    unfold TL at *
    rw [setType_type]
    split
    · rename_i e
      subst e
      rw [t] at h0
      exact absurd (by decide) h0
    · exact t

theorem type_cached (h : Heap) (d : Nat) : ((type h d).1.mem d).type = (type h d).2 := by
  unfold type
  simp only
  split
  · rfl
  · simp

theorem keeps_setDeep (E : Env) (h : Heap) (d other : Nat) (t : TL h other)
    (t0 : TL h sharedNull) :
    Keeps h (setDeep E h d other).heap ∧ TL (setDeep E h d other).heap (setDeep E h d other).d := by
  unfold setDeep
  split
  · rename_i e; subst e; exact ⟨keeps_refl h, t⟩
  · split
    · exact ⟨(keeps_clear h d).1, (keeps_clear h d).2 t0⟩
    · obtain ⟨k, _⟩ := keeps_reserve E h d (h.mem other).length
      simp only
      split
      · obtain ⟨k2, f2⟩ := keeps_clear (reserve E h d (h.mem other).length).heap
          (reserve E h d (h.mem other).length).d
        exact ⟨k.ktrans k2, f2 (k _ t0)⟩
      · have e : (((reserve E h d (h.mem other).length).heap.setLength
            (reserve E h d (h.mem other).length).d
            ((reserve E h d (h.mem other).length).heap.mem other).length).mem other).type
              = LineType := by
          rw [setLength_type]; exact k _ t
        rw [e]
        dsimp only
        exact ⟨k.ktrans (((keeps_setLength _ _ _).ktrans (keeps_setType_line _ _)).ktrans
            (keeps_memcpy _ _ _ _)),
          keeps_memcpy _ _ _ _ _ (tl_setType_line _ _)⟩

theorem keeps_set (E : Env) (h : Heap) (d other : Nat) (t : TL h other)
    (t0 : TL h sharedNull) :
    Keeps h (set E h d other).heap ∧ TL (set E h d other).heap (set E h d other).d := by
  unfold set
  split
  · rename_i e; subst e; exact ⟨keeps_refl h, t⟩
  · split
    · exact keeps_setDeep E h d other t t0
    · rename_i hc
      have hs : (h.mem other).flags &&& IsSharable ≠ 0 := fun e => hc (Or.inr e)
      have k : Keeps h (Data.deref (Data.refAlways h other) d) :=
        (keeps_refAlways _ _).ktrans (keeps_deref _ _)
      simp only [Data.ref, hs, ne_eq, not_false_eq_true, if_true]
      exact ⟨k, k _ t⟩

theorem keeps_flattenToOther (E : Env) (fuel : Nat) (h : Heap) (this dst : Nat)
    (m : Option AffineMatrix) (s : ℚ) (r : Out) (t0 : TL h sharedNull)
    (e : flattenToOther E fuel h this dst m s = some r) :
    Keeps h r.heap ∧ TL r.heap r.d := by
  unfold flattenToOther at e
  simp only at e
  have kt := keeps_type h this
  split at e
  · rename_i hl
    have tthis : TL (type h this).1 this := (type_cached h this).trans hl
    obtain ⟨k1, f1⟩ := keeps_set E (type h this).1 dst this tthis (kt _ t0)
    cases m with
    | none =>
      simp only [Option.some.injEq] at e
      subst e
      exact ⟨kt.ktrans k1, f1⟩
    | some m =>
      simp only [Option.some.injEq] at e
      subst e
      obtain ⟨k2, f2⟩ := keeps_applyMatrix E _ _ m f1
      exact ⟨(kt.ktrans k1).ktrans k2, f2⟩
  · obtain ⟨kc, fc⟩ := keeps_clear (type h this).1 dst
    have tc := fc (kt _ t0)
    split at e
    · simp only [Option.some.injEq] at e
      subst e
      exact ⟨kt.ktrans kc, tc⟩
    · obtain ⟨kr, fr⟩ := keeps_reserve E (clear (type h this).1 dst).1
        (clear (type h this).1 dst).2 (length (clear (type h this).1 dst).1 this * 8)
      have tr := fr tc
      split at e
      · simp only [Option.some.injEq] at e
        subst e
        exact ⟨(kt.ktrans kc).ktrans kr, tr⟩
      · obtain ⟨ka, fa⟩ := keeps_add E
          (reserve E (clear (type h this).1 dst).1 (clear (type h this).1 dst).2
            (length (clear (type h this).1 dst).1 this * 8)).heap
          (reserve E (clear (type h this).1 dst).1 (clear (type h this).1 dst).2
            (length (clear (type h this).1 dst).1 this * 8)).d
          (length (clear (type h this).1 dst).1 this)
        generalize _add E _ _ (length (clear (type h this).1 dst).1 this) = b at e ka fa
        obtain ⟨h2, d2, v⟩ := b
        cases v with
        | none =>
          simp only [Option.some.injEq] at e
          subst e
          exact ⟨((kt.ktrans kc).ktrans kr).ktrans ka, fa tr⟩
        | some v =>
          obtain ⟨kl, fl⟩ := keeps_flattenLoop E fuel this m s _ _ _ _ _ _ _ _ r e
          exact ⟨(((kt.ktrans kc).ktrans kr).ktrans ka).ktrans kl, fl (fa tr)⟩

theorem keeps_flattenToSelf (E : Env) (fuel : Nat) (h : Heap) (this : Nat)
    (m : Option AffineMatrix) (s : ℚ) (r : Out) (t0 : TL h sharedNull)
    (e : flattenToSelf E fuel h this m s = some r) :
    Keeps h r.heap ∧ TL r.heap r.d := by
  unfold flattenToSelf at e
  simp only at e
  have kt := keeps_type h this
  split at e
  · rename_i hl
    have tthis : TL (type h this).1 this := (type_cached h this).trans hl
    cases m with
    | none =>
      simp only [Option.some.injEq] at e
      subst e
      exact ⟨kt, tthis⟩
    | some m =>
      simp only [Option.some.injEq] at e
      subst e
      obtain ⟨k2, f2⟩ := keeps_applyMatrix E _ _ m tthis
      exact ⟨kt.ktrans k2, f2⟩
  · have kn : Keeps (type h this).1 (newPath (type h this).1).1 := keeps_refAlways _ _
    split at e
    · simp at e
    · rename_i r1 hr1
      obtain ⟨k1, f1⟩ := keeps_flattenToOther E fuel _ this _ m s r1 (kn _ (kt _ t0)) hr1
      simp only [Option.some.injEq] at e
      subst e
      obtain ⟨k2, f2⟩ := keeps_set E r1.heap this r1.d f1 (k1 _ (kn _ (kt _ t0)))
      have kd : Keeps (set E r1.heap this r1.d).heap (dropPath (set E r1.heap this r1.d).heap r1.d) :=
        keeps_deref _ _
      exact ⟨(((kt.ktrans kn).ktrans k1).ktrans k2).ktrans kd, kd _ f2⟩

theorem keeps_flatten (E : Env) (fuel : Nat) (h : Heap) (d : Nat)
    (m : Option AffineMatrix) (s : ℚ) (r : Out) (t0 : TL h sharedNull)
    (e : flatten E fuel h d m s = some r) :
    Keeps h r.heap ∧ TL r.heap r.d := by
  unfold flatten at e
  simp only at e
  have kt := keeps_type h d
  split at e
  · rename_i hl
    simp only [Option.some.injEq] at e
    subst e
    exact ⟨kt, (type_cached h d).trans hl⟩
  · obtain ⟨k, f⟩ := keeps_flattenToSelf E fuel _ d m s r (kt _ t0) e
    exact ⟨kt.ktrans k, f⟩

/-- C6. Flatten is idempotent: in a memory whose `sharedNull` carries the type LineType
(as `fog_path_init` leaves it), if `flatten(matrix, scale)` on a path returns with the
path in state `r1`, then a second `flatten`, with any matrix and scale, returns success
and changes nothing: the path holds the same block with the same vertex sequence. -/
theorem flatten_idempotent (E : Env) (fuel : Nat) (h : Heap) (d : Nat)
    (m : Option AffineMatrix) (s : ℚ) (r1 : Out)
    (hnull : (h.mem sharedNull).type = LineType)
    (e : flatten E fuel h d m s = some r1)
    (E2 : Env) (fuel2 : Nat) (m2 : Option AffineMatrix) (s2 : ℚ) :
    flatten E2 fuel2 r1.heap r1.d m2 s2 = some ⟨r1.heap, r1.d, .Ok⟩ ∧
    ∃ r2, flatten E2 fuel2 r1.heap r1.d m2 s2 = some r2 ∧ r2.err = .Ok ∧
      r2.heap.verts r2.d = r1.heap.verts r1.d := by
  have t : (r1.heap.mem r1.d).type = LineType := (keeps_flatten E fuel h d m s r1 hnull e).2
  have e2 : flatten E2 fuel2 r1.heap r1.d m2 s2 = some ⟨r1.heap, r1.d, .Ok⟩ := by
    simp [flatten, type, t]
  exact ⟨e2, _, e2, rfl, rfl⟩

theorem exArch_flatten : flatten Env.plain 10 exArch.heap exArch.d none 1 = some exArchFlat := by
  have hs : (flatten Env.plain 10 exArch.heap exArch.d none 1).isSome = true := by
    with_unfolding_all decide
  unfold exArchFlat flatten0
  cases hf : flatten Env.plain 10 exArch.heap exArch.d none 1 with
  | none => rw [hf] at hs; simp at hs
  | some r => rfl

theorem flatten_idempotent_witness :
    (exArch.heap.mem sharedNull).type = LineType ∧
    exArch.heap.verts exArch.d = [⟨CmdMoveTo, 0, 0⟩, ⟨CmdCurve3, 1, 1⟩, ⟨CmdCurve3, 2, 0⟩] ∧
    flatten Env.plain 10 exArch.heap exArch.d none 1 = some exArchFlat ∧
    exArchFlat.heap.verts exArchFlat.d =
      [⟨CmdMoveTo, 0, 0⟩, ⟨CmdLineTo, 1 / 2, 3 / 8⟩, ⟨CmdLineTo, 3 / 2, 3 / 8⟩,
       ⟨CmdLineTo, 2, 0⟩] ∧
    ∃ r2, flatten Env.plain 10 exArchFlat.heap exArchFlat.d none 1 = some r2 ∧ r2.err = .Ok ∧
      r2.heap.verts r2.d = exArchFlat.heap.verts exArchFlat.d := by
  have hn : (exArch.heap.mem sharedNull).type = LineType := by decide
  have t := flatten_idempotent Env.plain 10 exArch.heap exArch.d none 1 exArchFlat hn
    exArch_flatten Env.plain 10 none 1
  exact ⟨hn, by decide, exArch_flatten, by with_unfolding_all decide, t.2⟩

theorem meetsMalformed_nil : meetsMalformed [] = false := rfl

theorem meetsMalformed_cons (v : Vertex) (rest : List Vertex) :
    meetsMalformed (v :: rest) =
      if Cmd.cmd v.cmd = CmdCurve3 then
        match rest with
        | w :: rest' => if Cmd.cmd w.cmd = CmdCurve3 then meetsMalformed rest' else true
        | [] => true
      else if Cmd.cmd v.cmd = CmdCurve4 ∨ Cmd.cmd v.cmd = CmdCatrom
          ∨ Cmd.cmd v.cmd = CmdUBSpline then
        match rest with
        | w1 :: w2 :: rest' =>
          if Cmd.cmd w1.cmd = Cmd.cmd v.cmd ∧ Cmd.cmd w2.cmd = Cmd.cmd v.cmd then
            meetsMalformed rest'
          else true
        | _ => true
      else meetsMalformed rest := by
  cases rest with
  | nil => rfl
  | cons w rest' =>
    cases rest' with
    | nil => rfl
    | cons w2 r => rfl

theorem curvesApproximated_cons (E : Env) (fuel : Nat) (scale lastx lasty : ℚ) (v : Vertex)
    (rest : List Vertex) :
    curvesApproximated E fuel scale lastx lasty (v :: rest) =
      if Cmd.cmd v.cmd = CmdMoveTo ∨ Cmd.cmd v.cmd = CmdLineTo then
        curvesApproximated E fuel scale v.x v.y rest
      else if Cmd.cmd v.cmd = CmdCurve3 then
        match rest with
        | w :: rest' =>
          if Cmd.cmd w.cmd = CmdCurve3 then
            (approximateCurve3Points E fuel lastx lasty v.x v.y w.x w.y scale 0).isSome
              && curvesApproximated E fuel scale w.x w.y rest'
          else true
        | [] => true
      else if Cmd.cmd v.cmd = CmdCurve4 ∨ Cmd.cmd v.cmd = CmdCatrom
          ∨ Cmd.cmd v.cmd = CmdUBSpline then
        match rest with
        | w1 :: w2 :: rest' =>
          if Cmd.cmd w1.cmd = Cmd.cmd v.cmd ∧ Cmd.cmd w2.cmd = Cmd.cmd v.cmd then
            (group3Points E fuel scale (Cmd.cmd v.cmd) lastx lasty v w1 w2).isSome
              && curvesApproximated E fuel scale (lastAfter3 (Cmd.cmd v.cmd) v w1 w2).1
                  (lastAfter3 (Cmd.cmd v.cmd) v w1 w2).2 rest'
          else true
        | _ => true
      else curvesApproximated E fuel scale 0 0 rest := by
  cases rest with
  | nil => rfl
  | cons w rest' =>
    cases rest' with
    | nil => rfl
    | cons w2 r => rfl

/-! ## A malformed curve group stops the flatten (C7) -/

theorem approximateCurve3_run {q : Nat} {h0 h : Heap} {dst : Nat} (E : Env) (fuel : Nat)
    (s : Safe q h0 h dst) (hmem : E.oom h.next = false) (x1 y1 x2 y2 x3 y3 sc a : ℚ)
    (hp : (approximateCurve3Points E fuel x1 y1 x2 y2 x3 y3 sc a).isSome = true) :
    ∃ r, approximateCurve3 E fuel h dst x1 y1 x2 y2 x3 y3 sc a = some r ∧ r.err = .Ok ∧
      Safe q h0 r.heap r.d ∧ r.d ≠ q := by
  obtain ⟨vs, hvs⟩ := Option.isSome_iff_exists.mp hp
  have hs := add_ok_of_mem E h dst (APPROXIMATE_CURVE3_RECURSION_LIMIT * 2 + 1) hmem
  obtain ⟨s1, hne⟩ := safe_add E (APPROXIMATE_CURVE3_RECURSION_LIMIT * 2 + 1) s
  unfold approximateCurve3
  generalize _add E h dst (APPROXIMATE_CURVE3_RECURSION_LIMIT * 2 + 1) = b at hs s1 hne
  obtain ⟨h1, d1, v⟩ := b
  simp only at hs
  subst hs
  have hd1 : d1 ≠ q := hne (by simp)
  simp only [hvs]
  exact ⟨_, rfl, rfl, safe_setLength (safe_writeList s1 hd1 _ _) hd1 _, hd1⟩

theorem approximateCurve4_run {q : Nat} {h0 h : Heap} {dst : Nat} (E : Env) (fuel : Nat)
    (s : Safe q h0 h dst) (hmem : E.oom h.next = false) (x1 y1 x2 y2 x3 y3 x4 y4 sc a c : ℚ)
    (hp : (approximateCurve4Points E fuel x1 y1 x2 y2 x3 y3 x4 y4 sc a c).isSome = true) :
    ∃ r, approximateCurve4 E fuel h dst x1 y1 x2 y2 x3 y3 x4 y4 sc a c = some r ∧ r.err = .Ok ∧
      Safe q h0 r.heap r.d ∧ r.d ≠ q := by
  obtain ⟨vs, hvs⟩ := Option.isSome_iff_exists.mp hp
  have hs := add_ok_of_mem E h dst (APPROXIMATE_CURVE3_RECURSION_LIMIT * 4 + 1) hmem
  obtain ⟨s1, hne⟩ := safe_add E (APPROXIMATE_CURVE3_RECURSION_LIMIT * 4 + 1) s
  unfold approximateCurve4
  generalize _add E h dst (APPROXIMATE_CURVE3_RECURSION_LIMIT * 4 + 1) = b at hs s1 hne
  obtain ⟨h1, d1, v⟩ := b
  simp only at hs
  subst hs
  have hd1 : d1 ≠ q := hne (by simp)
  simp only [hvs]
  exact ⟨_, rfl, rfl, safe_setLength (safe_writeList s1 hd1 _ _) hd1 _, hd1⟩

theorem flattenAgain_run {q : Nat} {h0 : Heap} (E : Env) (r : Out) (n k : Nat)
    (next : Heap → Nat → Nat → Option Out)
    (s : Safe q h0 r.heap r.d) (hmem : E.oom r.heap.next = false) (hk : n - k ≠ 0) :
    ∃ h2 d2 dstv2, flattenAgain E r n k next = next h2 d2 dstv2 ∧ Safe q h0 h2 d2 ∧ d2 ≠ q := by
  have hs := add_ok_of_mem E r.heap r.d (n - k) hmem
  obtain ⟨s1, hne⟩ := safe_add E (n - k) s
  unfold flattenAgain
  simp only [hk, if_false]
  generalize _add E r.heap r.d (n - k) = b at hs s1 hne
  obtain ⟨h1, d1, v⟩ := b
  simp only at hs
  subst hs
  exact ⟨h1, d1, _, rfl, s1, hne (by simp)⟩

theorem invalidEnd_flattenInvalid {this : Nat} {h0 h : Heap} {dst : Nat}
    (s : Safe this h0 h dst) (hne : dst ≠ this) : InvalidEnd this h0 (flattenInvalid h dst) :=
  ⟨rfl, by simp [flattenInvalid], by simp [flattenInvalid],
    (safe_setType (safe_setLength s hne 0) dst LineType).same⟩

theorem ne_nil_of_meetsMalformed {vs : List Vertex} (h : meetsMalformed vs = true) : vs ≠ [] := by
  intro e; subst e; rw [meetsMalformed_nil] at h; exact Bool.noConfusion h

theorem src_tail {data : Nat → Vertex} {v n : Nat} {v0 : Vertex} {rest : List Vertex}
    (hlen : (v0 :: rest).length = n)
    (hsrc : ∀ k, k < n → (v0 :: rest)[k]? = some (data (v + k))) :
    data v = v0 ∧ rest.length = n - 1 ∧
      ∀ k, k < n - 1 → rest[k]? = some (data (v + 1 + k)) := by
  simp only [List.length_cons] at hlen
  refine ⟨?_, by omega, ?_⟩
  · have := hsrc 0 (by omega)
    simpa using this.symm
  · intro k hk
    have := hsrc (k + 1) (by omega)
    simp only [List.getElem?_cons_succ] at this
    rw [this]
    congr 2; omega

theorem flattenLoop_invalid (E : Env) (fuel this : Nat) (m : Option AffineMatrix) (sc : ℚ)
    (h0 : Heap) (hmem : ∀ k, E.oom k = false) (steps : Nat) :
    ∀ (h : Heap) (dst v n dstv : Nat) (lx ly : ℚ) (vs : List Vertex),
    Safe this h0 h dst → dst ≠ this → vs.length = n → n ≤ steps →
    (∀ k, k < n → vs[k]? = some ((h0.mem this).data (v + k))) →
    meetsMalformed vs = true → curvesApproximated E fuel sc lx ly vs = true →
    ∃ r, flattenLoop E fuel this m sc steps h dst v n dstv lx ly = some r ∧
      InvalidEnd this h0 r := by
  induction steps with
  | zero =>
    intro h dst v n dstv lx ly vs _ _ hlen hsteps _ hbad _
    have : vs = [] := List.eq_nil_of_length_eq_zero (by omega)
    exact absurd this (ne_nil_of_meetsMalformed hbad)
  | succ steps ih =>
    intro h dst v n dstv lx ly vs s hne hlen hsteps hsrc hbad hfuel
    cases vs with
    | nil => exact absurd rfl (ne_nil_of_meetsMalformed hbad)
    | cons v0 rest =>
      have hd : (h.mem this).data = (h0.mem this).data := s.same.2
      obtain ⟨hv0, hl1, hsrc1⟩ := src_tail hlen hsrc
      rw [meetsMalformed_cons] at hbad
      rw [curvesApproximated_cons] at hfuel
      unfold flattenLoop
      simp only [hd, hv0]
      -- a vertex that is passed through (line or marker)
      have pass : ∀ (w : Vertex) (a b : ℚ), meetsMalformed rest = true →
          curvesApproximated E fuel sc a b rest = true →
          ∃ r, (if n - 1 ≠ 0 then
              flattenLoop E fuel this m sc steps (h.write dst dstv w) dst (v + 1) (n - 1)
                (dstv + 1) a b
            else some (flattenFinish E m (h.write dst dstv w) dst (dstv + 1))) = some r ∧
            InvalidEnd this h0 r := by
        intro w a b hb hf
        have hr : rest ≠ [] := ne_nil_of_meetsMalformed hb
        have hn1 : n - 1 ≠ 0 := by
          rw [← hl1]; exact fun e => hr (List.eq_nil_of_length_eq_zero e)
        simp only [hn1, ne_eq, not_false_eq_true, if_true]
        exact ih _ dst (v + 1) (n - 1) (dstv + 1) a b rest (safe_write s hne _ _) hne hl1
          (by omega) hsrc1 hb hf
      by_cases hline : Cmd.cmd v0.cmd = CmdMoveTo ∨ Cmd.cmd v0.cmd = CmdLineTo
      · have h3 : Cmd.cmd v0.cmd ≠ CmdCurve3 := by rcases hline with e | e <;> rw [e] <;> decide
        have h4 : ¬(Cmd.cmd v0.cmd = CmdCurve4 ∨ Cmd.cmd v0.cmd = CmdCatrom
            ∨ Cmd.cmd v0.cmd = CmdUBSpline) := by
          rcases hline with e | e <;> rw [e] <;> decide
        simp only [h3, h4, if_false] at hbad
        simp only [hline, if_true] at hfuel ⊢
        exact pass _ _ _ hbad hfuel
      · simp only [hline, if_false] at hfuel ⊢
        by_cases hc3 : Cmd.cmd v0.cmd = CmdCurve3
        · simp only [hc3, if_true] at hbad hfuel ⊢
          cases rest with
          | nil =>
            have hn : n ≤ 1 := by simp at hlen; omega
            simp only [hn, if_true]
            exact ⟨_, rfl, invalidEnd_flattenInvalid s hne⟩
          | cons w rest' =>
            obtain ⟨hw, hl2, hsrc2⟩ := src_tail hl1 hsrc1
            have hn : ¬ n ≤ 1 := by simp at hlen; omega
            simp only [hn, if_false, hw]
            by_cases hw3 : Cmd.cmd w.cmd = CmdCurve3
            · simp only [hw3, if_true, Bool.and_eq_true] at hbad hfuel
              simp only [hw3, ne_eq, not_true_eq_false, if_false]
              obtain ⟨r1, e1, ok1, s1, hne1⟩ := approximateCurve3_run E fuel
                (safe_setLength s hne dstv) (hmem _) lx ly v0.x v0.y w.x w.y sc 0 hfuel.1
              simp only [e1, ok1, ne_eq, not_true_eq_false, if_false]
              have hr : rest' ≠ [] := ne_nil_of_meetsMalformed hbad
              have hn2 : n - 2 ≠ 0 := by
                have : rest'.length ≠ 0 := fun e => hr (List.eq_nil_of_length_eq_zero e)
                omega
              obtain ⟨h2, d2, dstv2, e2, s2, hne2⟩ := flattenAgain_run E r1 n 2
                (fun h2 d2 dstv2 =>
                  flattenLoop E fuel this m sc steps h2 d2 (v + 2) (n - 2) dstv2
                    ((r1.heap.mem this).data (v + 1)).x ((r1.heap.mem this).data (v + 1)).y)
                s1 (hmem _) hn2
              rw [e2]
              simp only [s1.same.2, hw]
              exact ih h2 d2 (v + 2) (n - 2) dstv2 w.x w.y rest' s2 hne2 (by omega) (by omega)
                (fun k hk => by
                  have := hsrc2 k (by omega)
                  rw [this]) hbad hfuel.2
            · simp only [hw3, ne_eq, not_false_eq_true, if_true]
              exact ⟨_, rfl, invalidEnd_flattenInvalid s hne⟩
        · simp only [hc3, if_false] at hbad hfuel ⊢
          have k64 : ¬(CmdCatrom = CmdCurve4) := by decide
          have k74 : ¬(CmdUBSpline = CmdCurve4) := by decide
          have k76 : ¬(CmdUBSpline = CmdCatrom) := by decide
          have k47 : ¬(CmdCurve4 = CmdUBSpline) := by decide
          have k67 : ¬(CmdCatrom = CmdUBSpline) := by decide
          by_cases hcCurve4 : Cmd.cmd v0.cmd = CmdCurve4
          · have hg : Cmd.cmd v0.cmd = CmdCurve4 ∨ Cmd.cmd v0.cmd = CmdCatrom
                ∨ Cmd.cmd v0.cmd = CmdUBSpline := by rw [hcCurve4]; decide
            simp only [hg, if_true] at hbad hfuel
            simp only [hcCurve4] at hbad hfuel ⊢
            simp only [if_true, k64, k74, k76, if_false]
            cases rest with
            | nil =>
              have hn : n ≤ 2 := by simp at hlen; omega
              simp only [hn, if_true]
              exact ⟨_, rfl, invalidEnd_flattenInvalid s hne⟩
            | cons w1 rest1 =>
              cases rest1 with
              | nil =>
                have hn : n ≤ 2 := by simp at hlen; omega
                simp only [hn, if_true]
                exact ⟨_, rfl, invalidEnd_flattenInvalid s hne⟩
              | cons w2 rest' =>
                obtain ⟨hw1, hl2, hsrc2⟩ := src_tail hl1 hsrc1
                obtain ⟨hw2, hl3, hsrc3⟩ := src_tail hl2 hsrc2
                have hw2' : (h0.mem this).data (v + 2) = w2 := hw2
                have hn : ¬ n ≤ 2 := by simp at hlen; omega
                dsimp only at hbad hfuel
                simp only [hn, if_false, hw1, hw2']
                by_cases hww : Cmd.cmd w1.cmd = CmdCurve4 ∧ Cmd.cmd w2.cmd = CmdCurve4
                · simp only [hww, and_self, if_true, Bool.and_eq_true] at hbad hfuel
                  have hno : ¬(Cmd.cmd w1.cmd ≠ CmdCurve4 ∨ Cmd.cmd w2.cmd ≠ CmdCurve4) := by
                    simp [hww.1, hww.2]
                  simp only [hno, if_false]
                  have hpts := hfuel.1
                  simp only [group3Points, if_true, k64, k74, k76, if_false] at hpts
                  obtain ⟨r1, e1, ok1, s1, hne1⟩ := approximateCurve4_run E fuel
                    (safe_setLength s hne dstv) (hmem _) lx ly v0.x v0.y w1.x w1.y w2.x w2.y sc 0 0 hpts
                  simp only [e1, ok1, ne_eq, not_true_eq_false, if_false]
                  have hr : rest' ≠ [] := ne_nil_of_meetsMalformed hbad
                  have hn3 : n - 3 ≠ 0 := by
                    have : rest'.length ≠ 0 := fun e => hr (List.eq_nil_of_length_eq_zero e)
                    omega
                  have hlast := hfuel.2
                  simp only [lastAfter3, if_true, k47, k67, if_false] at hlast
                  obtain ⟨h2, d2, dstv2, e2, s2, hne2⟩ := flattenAgain_run E r1 n 3
                    (fun h2 d2 dstv2 =>
                      flattenLoop E fuel this m sc steps h2 d2 (v + 3) (n - 3) dstv2
                        (((r1.heap.mem this).data (v + 2)).x) (((r1.heap.mem this).data (v + 2)).y))
                    s1 (hmem _) hn3
                  rw [e2]
                  try simp only [s1.same.2, hw2']
                  exact ih h2 d2 (v + 3) (n - 3) dstv2 _ _ rest' s2 hne2 (by omega) (by omega)
                    (fun k hk => by
                      have := hsrc3 k (by omega)
                      rw [this]) hbad hlast
                · have hno : Cmd.cmd w1.cmd ≠ CmdCurve4 ∨ Cmd.cmd w2.cmd ≠ CmdCurve4 := by
                    by_cases a : Cmd.cmd w1.cmd = CmdCurve4
                    · exact Or.inr (fun b => hww ⟨a, b⟩)
                    · exact Or.inl a
                  simp only [hno, if_true]
                  exact ⟨_, rfl, invalidEnd_flattenInvalid s hne⟩
          · simp only [hcCurve4, if_false]
            by_cases hcCatrom : Cmd.cmd v0.cmd = CmdCatrom
            · have hg : Cmd.cmd v0.cmd = CmdCurve4 ∨ Cmd.cmd v0.cmd = CmdCatrom
                  ∨ Cmd.cmd v0.cmd = CmdUBSpline := by rw [hcCatrom]; decide
              simp only [hg, if_true] at hbad hfuel
              simp only [hcCatrom] at hbad hfuel ⊢
              simp only [if_true, k64, k74, k76, if_false]
              cases rest with
              | nil =>
                have hn : n ≤ 2 := by simp at hlen; omega
                simp only [hn, if_true]
                exact ⟨_, rfl, invalidEnd_flattenInvalid s hne⟩
              | cons w1 rest1 =>
                cases rest1 with
                | nil =>
                  have hn : n ≤ 2 := by simp at hlen; omega
                  simp only [hn, if_true]
                  exact ⟨_, rfl, invalidEnd_flattenInvalid s hne⟩
                | cons w2 rest' =>
                  obtain ⟨hw1, hl2, hsrc2⟩ := src_tail hl1 hsrc1
                  obtain ⟨hw2, hl3, hsrc3⟩ := src_tail hl2 hsrc2
                  have hw2' : (h0.mem this).data (v + 2) = w2 := hw2
                  have hn : ¬ n ≤ 2 := by simp at hlen; omega
                  dsimp only at hbad hfuel
                  simp only [hn, if_false, hw1, hw2']
                  by_cases hww : Cmd.cmd w1.cmd = CmdCatrom ∧ Cmd.cmd w2.cmd = CmdCatrom
                  · simp only [hww, and_self, if_true, Bool.and_eq_true] at hbad hfuel
                    have hno : ¬(Cmd.cmd w1.cmd ≠ CmdCatrom ∨ Cmd.cmd w2.cmd ≠ CmdCatrom) := by
                      simp [hww.1, hww.2]
                    simp only [hno, if_false]
                    have hpts := hfuel.1
                    simp only [group3Points, if_true, k64, k74, k76, if_false] at hpts
                    obtain ⟨r1, e1, ok1, s1, hne1⟩ := approximateCurve4_run E fuel
                      (safe_setLength s hne dstv) (hmem _) v0.x v0.y ((-lx + 6 * v0.x + w1.x) / 6) ((-ly + 6 * v0.y + w1.y) / 6) ((v0.x + 6 * w1.x - w2.x) / 6) ((v0.y + 6 * w1.y - w2.y) / 6) w1.x w1.y sc 0 0 hpts
                    simp only [e1, ok1, ne_eq, not_true_eq_false, if_false]
                    have hr : rest' ≠ [] := ne_nil_of_meetsMalformed hbad
                    have hn3 : n - 3 ≠ 0 := by
                      have : rest'.length ≠ 0 := fun e => hr (List.eq_nil_of_length_eq_zero e)
                      omega
                    have hlast := hfuel.2
                    simp only [lastAfter3, if_true, k47, k67, if_false] at hlast
                    obtain ⟨h2, d2, dstv2, e2, s2, hne2⟩ := flattenAgain_run E r1 n 3
                      (fun h2 d2 dstv2 =>
                        flattenLoop E fuel this m sc steps h2 d2 (v + 3) (n - 3) dstv2
                          (w2.x) (w2.y))
                      s1 (hmem _) hn3
                    rw [e2]
                    try simp only [s1.same.2, hw2']
                    exact ih h2 d2 (v + 3) (n - 3) dstv2 _ _ rest' s2 hne2 (by omega) (by omega)
                      (fun k hk => by
                        have := hsrc3 k (by omega)
                        rw [this]) hbad hlast
                  · have hno : Cmd.cmd w1.cmd ≠ CmdCatrom ∨ Cmd.cmd w2.cmd ≠ CmdCatrom := by
                      by_cases a : Cmd.cmd w1.cmd = CmdCatrom
                      · exact Or.inr (fun b => hww ⟨a, b⟩)
                      · exact Or.inl a
                    simp only [hno, if_true]
                    exact ⟨_, rfl, invalidEnd_flattenInvalid s hne⟩
            · simp only [hcCatrom, if_false]
              by_cases hcUBSpline : Cmd.cmd v0.cmd = CmdUBSpline
              · have hg : Cmd.cmd v0.cmd = CmdCurve4 ∨ Cmd.cmd v0.cmd = CmdCatrom
                    ∨ Cmd.cmd v0.cmd = CmdUBSpline := by rw [hcUBSpline]; decide
                simp only [hg, if_true] at hbad hfuel
                simp only [hcUBSpline] at hbad hfuel ⊢
                simp only [if_true, k64, k74, k76, if_false]
                cases rest with
                | nil =>
                  have hn : n ≤ 2 := by simp at hlen; omega
                  simp only [hn, if_true]
                  exact ⟨_, rfl, invalidEnd_flattenInvalid s hne⟩
                | cons w1 rest1 =>
                  cases rest1 with
                  | nil =>
                    have hn : n ≤ 2 := by simp at hlen; omega
                    simp only [hn, if_true]
                    exact ⟨_, rfl, invalidEnd_flattenInvalid s hne⟩
                  | cons w2 rest' =>
                    obtain ⟨hw1, hl2, hsrc2⟩ := src_tail hl1 hsrc1
                    obtain ⟨hw2, hl3, hsrc3⟩ := src_tail hl2 hsrc2
                    have hw2' : (h0.mem this).data (v + 2) = w2 := hw2
                    have hn : ¬ n ≤ 2 := by simp at hlen; omega
                    dsimp only at hbad hfuel
                    simp only [hn, if_false, hw1, hw2']
                    by_cases hww : Cmd.cmd w1.cmd = CmdUBSpline ∧ Cmd.cmd w2.cmd = CmdUBSpline
                    · simp only [hww, and_self, if_true, Bool.and_eq_true] at hbad hfuel
                      have hno : ¬(Cmd.cmd w1.cmd ≠ CmdUBSpline ∨ Cmd.cmd w2.cmd ≠ CmdUBSpline) := by
                        simp [hww.1, hww.2]
                      simp only [hno, if_false]
                      have hpts := hfuel.1
                      simp only [group3Points, if_true, k64, k74, k76, if_false] at hpts
                      obtain ⟨r1, e1, ok1, s1, hne1⟩ := approximateCurve4_run E fuel
                        (safe_setLength s hne dstv) (hmem _) ((lx + 4 * v0.x + w1.x) / 6) ((ly + 4 * v0.y + w1.y) / 6) ((4 * v0.x + 2 * w1.x) / 6) ((4 * v0.y + 2 * w1.y) / 6) ((2 * v0.x + 4 * w1.x) / 6) ((2 * v0.y + 4 * w1.y) / 6) ((v0.x + 4 * w1.x + w2.x) / 6) ((v0.y + 4 * w1.y + w2.y) / 6) sc 0 0 hpts
                      simp only [e1, ok1, ne_eq, not_true_eq_false, if_false]
                      have hr : rest' ≠ [] := ne_nil_of_meetsMalformed hbad
                      have hn3 : n - 3 ≠ 0 := by
                        have : rest'.length ≠ 0 := fun e => hr (List.eq_nil_of_length_eq_zero e)
                        omega
                      have hlast := hfuel.2
                      simp only [lastAfter3, if_true, k47, k67, if_false] at hlast
                      obtain ⟨h2, d2, dstv2, e2, s2, hne2⟩ := flattenAgain_run E r1 n 3
                        (fun h2 d2 dstv2 =>
                          flattenLoop E fuel this m sc steps h2 d2 (v + 3) (n - 3) dstv2
                            ((v0.x + 4 * w1.x + w2.x) / 6) ((v0.y + 4 * w1.y + w2.y) / 6))
                        s1 (hmem _) hn3
                      rw [e2]
                      try simp only [s1.same.2, hw2']
                      exact ih h2 d2 (v + 3) (n - 3) dstv2 _ _ rest' s2 hne2 (by omega) (by omega)
                        (fun k hk => by
                          have := hsrc3 k (by omega)
                          rw [this]) hbad hlast
                    · have hno : Cmd.cmd w1.cmd ≠ CmdUBSpline ∨ Cmd.cmd w2.cmd ≠ CmdUBSpline := by
                        by_cases a : Cmd.cmd w1.cmd = CmdUBSpline
                        · exact Or.inr (fun b => hww ⟨a, b⟩)
                        · exact Or.inl a
                      simp only [hno, if_true]
                      exact ⟨_, rfl, invalidEnd_flattenInvalid s hne⟩
              · simp only [hcUBSpline, if_false]
                have h4 : ¬(Cmd.cmd v0.cmd = CmdCurve4 ∨ Cmd.cmd v0.cmd = CmdCatrom
                    ∨ Cmd.cmd v0.cmd = CmdUBSpline) := by
                  simp [hcCurve4, hcCatrom, hcUBSpline]
                simp only [h4, if_false] at hbad hfuel
                exact pass _ _ _ hbad hfuel

theorem reserve_ok (E : Env) (h : Heap) (d n : Nat) (hmem : E.oom h.next = false) :
    (reserve E h d n).err = .Ok := by
  unfold reserve
  split
  · rfl
  · rcases alloc_cases E h n with ⟨ho, _⟩ | ⟨_, a1, e, _⟩
    · rw [hmem] at ho; exact Bool.noConfusion ho
    · rw [e]

theorem type_of_tl {h : Heap} {d : Nat} (t : (h.mem d).type = LineType) :
    (type h d).2 = LineType := by
  simp [type, t]

theorem type_next (h : Heap) (p : Nat) : (type h p).1.next = h.next := by
  unfold type
  simp only
  split
  · rfl
  · simp

theorem verts_eq_of_copy (h h1 : Heap) (d d1 : Nat)
    (hlen : (h1.mem d1).length = (h.mem d).length)
    (hdata : ∀ i, i < (h.mem d).length → (h1.mem d1).data i = (h.mem d).data i) :
    h1.verts d1 = h.verts d := by
  have := verts_eq_append h h1 d d1 [] (by simpa using hlen) hdata (fun k hk => by simp at hk)
  simpa using this

theorem reserve_cases (E : Env) (h : Heap) (d n : Nat) (hmem : E.oom h.next = false) :
    ((reserve E h d n).d = d ∨ (reserve E h d n).d = h.next) ∧
      ∀ q, q ≠ d → q < h.next → (reserve E h d n).heap.mem q = h.mem q := by
  unfold reserve
  split
  · exact ⟨Or.inl rfl, fun _ _ _ => rfl⟩
  · rcases alloc_cases E h n with ⟨ho, _⟩ | ⟨_, a1, e, _, _, hm⟩
    · rw [hmem] at ho; exact Bool.noConfusion ho
    · rw [e]
      refine ⟨Or.inr rfl, fun q hq hlt => ?_⟩
      have hne : q ≠ h.next := Nat.ne_of_lt hlt
      simp only
      rw [deref_mem_ne _ _ _ hq, memcpy_mem_ne _ _ _ _ _ hne, setLength_mem_ne _ _ _ _ hne,
        hm q hne]

/-- Assignment by `setDeep` from another block: when the allocation does not fail, the path ends up
with the vertices of `other`, and `other` keeps them. -/
theorem setDeep_copies (E : Env) (h : Heap) (d other : Nat) (hne : d ≠ other)
    (hother : other < h.next) (hnull : (h.mem sharedNull).length = 0)
    (hmem : E.oom h.next = false) :
    (setDeep E h d other).heap.verts (setDeep E h d other).d = h.verts other ∧
      (setDeep E h d other).heap.verts other = h.verts other := by
  have hod : other ≠ d := Ne.symm hne
  unfold setDeep
  simp only [hne, if_false]
  split
  · rename_i h0
    have hv : h.verts other = [] := by simp [Heap.verts, h0]
    rw [hv]
    unfold clear
    split
    · constructor
      · simp [Heap.verts, hnull]
      · simp [Heap.verts, h0]
    · constructor
      · simp [Heap.verts]
      · simp [Heap.verts, hod, h0]
  · rename_i h0
    have ok := reserve_ok E h d (h.mem other).length hmem
    obtain ⟨hd', hm⟩ := reserve_cases E h d (h.mem other).length hmem
    have hmo := hm other hod hother
    have hne' : other ≠ (reserve E h d (h.mem other).length).d := by
      rcases hd' with e | e <;> rw [e]
      · exact hod
      · exact Nat.ne_of_lt hother
    simp only [ok, ne_eq, not_true_eq_false, if_false]
    constructor
    · apply verts_eq_of_copy
      · simp [hmo]
      · intro i hi
        simp [hmo, hi, hne']
    · apply verts_eq_of_copy
      · simp [hne', hmo]
      · intro i _
        simp [hne', hmo]

/-- C5. For every path whose `type()` is LineOnly and every approximation scale:
`flatten` returns success and leaves the vertex sequence unchanged; `flattenTo(dst, NULL,
scale)` into another path object returns success and leaves `dst` with exactly the
vertices of the source (commands with their flags, and coordinates), the source itself
unchanged.  Either the blocks carry the flags of every block this file creates (the
destination is not `IsStrong`, the source is `IsSharable`), so that the assignment
shares the block; or the assignment may copy, the source block exists, `sharedNull` is
empty and the allocation does not fail. -/
theorem flatten_line_only (E : Env) (fuel : Nat) (h : Heap) (this dst : Nat) (scale : ℚ)
    (hline : (type h this).2 = LineType)
    (hcase : ((h.mem dst).flags &&& IsStrong = 0 ∧ (h.mem this).flags &&& IsSharable ≠ 0) ∨
      (this < h.next ∧ (h.mem sharedNull).length = 0 ∧ E.oom h.next = false)) :
    (∃ r, flatten E fuel h this none scale = some r ∧ r.err = .Ok ∧ r.d = this ∧
      r.heap.verts this = h.verts this) ∧
    (∃ r, flattenToOther E fuel h this dst none scale = some r ∧ r.err = .Ok ∧
      r.heap.verts r.d = h.verts this ∧ r.heap.verts this = h.verts this) := by
  constructor
  · refine ⟨⟨(type h this).1, this, .Ok⟩, ?_, rfl, rfl, verts_eq_of_same (type_same this h this)⟩
    simp [flatten, hline]
  · have hv : (type h this).1.verts this = h.verts this := verts_eq_of_same (type_same this h this)
    unfold flattenToOther
    simp only [hline, if_true]
    by_cases he : dst = this
    · subst he
      refine ⟨_, rfl, ?_, ?_, ?_⟩
      · simp [set]
      · simpa [set] using hv
      · simpa [set] using hv
    · by_cases hf : ((type h this).1.mem dst).flags &&& IsStrong ≠ 0 ∨
          ((type h this).1.mem this).flags &&& IsSharable = 0
      · have hset : set E (type h this).1 dst this = setDeep E (type h this).1 dst this := by
          simp [set, he, hf]
        rw [hset]
        rcases hcase with ⟨c1, c2⟩ | ⟨c1, c2, c3⟩
        · rw [type_flags, type_flags] at hf
          rcases hf with f | f
          · exact absurd c1 f
          · exact absurd f c2
        · obtain ⟨v1, v2⟩ := setDeep_copies E (type h this).1 dst this he
            (by rw [type_next]; exact c1) (by rw [(type_same sharedNull h this).1]; exact c2)
            (by rw [type_next]; exact c3)
          refine ⟨_, rfl, rfl, v1.trans hv, v2.trans hv⟩
      · have hf1 : ((type h this).1.mem dst).flags &&& IsStrong = 0 := by
          by_contra c; exact hf (Or.inl c)
        have hf2 : ((type h this).1.mem this).flags &&& IsSharable ≠ 0 :=
          fun c => hf (Or.inr c)
        have hset : set E (type h this).1 dst this =
            ⟨Data.deref (Data.refAlways (type h this).1 this) dst, this, .Ok⟩ := by
          simp [set, he, hf1, hf2, Data.ref]
        rw [hset]
        have hs : Same this (type h this).1
            (Data.deref (Data.refAlways (type h this).1 this) dst) :=
          ⟨by simp, by rw [deref_data, refAlways_data]⟩
        exact ⟨_, rfl, rfl, (verts_eq_of_same hs).trans hv, (verts_eq_of_same hs).trans hv⟩

theorem flatten_line_only_witness :
    (type exTriangleDst exTriangle.d).2 = LineType ∧
    ((exTriangleDst.mem sharedNull).flags &&& IsStrong = 0 ∧
      (exTriangleDst.mem exTriangle.d).flags &&& IsSharable ≠ 0) ∧
    exTriangleDst.verts exTriangle.d =
      [⟨CmdMoveTo, 0, 0⟩, ⟨CmdLineTo, 10, 0⟩, ⟨CmdLineTo, 10, 10⟩,
       ⟨CmdEndPoly ||| CFlagClose, 0, 0⟩] ∧
    (∃ r, flatten Env.plain 0 exTriangleDst exTriangle.d none 1 = some r ∧ r.err = .Ok ∧
      r.d = exTriangle.d ∧ r.heap.verts exTriangle.d = exTriangleDst.verts exTriangle.d) ∧
    (∃ r, flattenToOther Env.plain 0 exTriangleDst exTriangle.d sharedNull none 1 = some r ∧
      r.err = .Ok ∧ r.heap.verts r.d = exTriangleDst.verts exTriangle.d ∧
      r.heap.verts exTriangle.d = exTriangleDst.verts exTriangle.d) := by
  have h1 : (type exTriangleDst exTriangle.d).2 = LineType := by decide
  have h2 : (exTriangleDst.mem sharedNull).flags &&& IsStrong = 0 ∧
      (exTriangleDst.mem exTriangle.d).flags &&& IsSharable ≠ 0 := by decide
  have t := flatten_line_only Env.plain 0 exTriangleDst exTriangle.d sharedNull 1 h1
    (Or.inl h2)
  exact ⟨h1, h2, by decide, t.1, t.2⟩

/-! ## Invalid rectangles (C11) -/

/-- C11. For every invalid rectangle `r` (`r.isValid()` false) and every path, `addRect(r)`
returns success and leaves the memory as it was: the path holds the same block, with the
same vertex sequence and length. -/
theorem addRect_invalid_noop (E : Env) (h : Heap) (d : Nat) (r : RectF)
    (hr : r.isValid = false) :
    addRect E h d r = ⟨h, d, .Ok⟩ ∧
    (addRect E h d r).err = .Ok ∧
    (addRect E h d r).heap.verts (addRect E h d r).d = h.verts d ∧
    ((addRect E h d r).heap.mem (addRect E h d r).d).length = (h.mem d).length := by
  have e : addRect E h d r = ⟨h, d, .Ok⟩ := by simp [addRect, hr]
  rw [e]
  exact ⟨rfl, rfl, rfl, rfl⟩

theorem addRect_invalid_noop_witness :
    RectF.isValid ⟨0, 0, 0, 10⟩ = false ∧
    (addRect Env.plain exMoved.heap exMoved.d ⟨0, 0, 0, 10⟩).err = .Ok ∧
    (addRect Env.plain exMoved.heap exMoved.d ⟨0, 0, 0, 10⟩).heap.verts
        (addRect Env.plain exMoved.heap exMoved.d ⟨0, 0, 0, 10⟩).d = [⟨CmdMoveTo, 10, 10⟩] := by
  have hr : RectF.isValid ⟨0, 0, 0, 10⟩ = false := by simp [RectF.isValid]
  have t := addRect_invalid_noop Env.plain exMoved.heap exMoved.d ⟨0, 0, 0, 10⟩ hr
  exact ⟨hr, t.2.1, t.2.2.1.trans exMoved_verts⟩

/-! ## The smooth forms (C13, C14) -/

theorem last2_of_verts {h : Heap} {d : Nat} {ws : List Vertex} {p w : Vertex}
    (hv : h.verts d = ws ++ [p] ++ [w]) :
    2 ≤ (h.mem d).length ∧ (h.mem d).data ((h.mem d).length - 2) = p := by
  have hl : (h.mem d).length = ws.length + 2 := by
    have := congrArg List.length hv
    simpa using this
  refine ⟨by omega, ?_⟩
  have hg := verts_getElem? h d ((h.mem d).length - 2) (by omega)
  rw [hv, hl] at hg
  have e : (ws ++ [p] ++ [w])[ws.length + 2 - 2]? = some p := by
    rw [show ws.length + 2 - 2 = ws.length by omega, List.append_assoc,
      List.getElem?_append_right (le_refl _)]
    simp
  rw [e] at hg
  rw [hl]; exact (Option.some.inj hg).symm

/-- C14. When the path is empty or its last vertex is a structural marker (Stop or
EndPoly), the smooth forms `curveTo(tx, ty)` and `cubicTo(cx2, cy2, tx, ty)` return
success and leave the memory as it was: same block, same vertex sequence, length and
cached type. -/
theorem smooth_noop_after_marker (E : Env) (h : Heap) (d : Nat)
    (hm : endsInMarker (h.verts d)) :
    (∀ tx ty, curveToSmooth E h d tx ty = ⟨h, d, .Ok⟩) ∧
    (∀ cx2 cy2 tx ty, cubicToSmooth E h d cx2 cy2 tx ty = ⟨h, d, .Ok⟩) := by
  have hl := lastIsVertex_of_marker hm
  exact ⟨fun _ _ => by simp [curveToSmooth, hl], fun _ _ _ _ => by simp [cubicToSmooth, hl]⟩

theorem smooth_noop_after_marker_witness :
    endsInMarker (exStarted.heap.verts exStarted.d) ∧
    (curveToSmooth Env.plain exStarted.heap exStarted.d 5 5).err = .Ok ∧
    (curveToSmooth Env.plain exStarted.heap exStarted.d 5 5).heap.verts
        (curveToSmooth Env.plain exStarted.heap exStarted.d 5 5).d =
      [⟨CmdMoveTo, 10, 10⟩, ⟨CmdStop, 0, 0⟩] ∧
    (cubicToSmooth Env.plain exStarted.heap exStarted.d 1 2 5 5).heap.verts
        (cubicToSmooth Env.plain exStarted.heap exStarted.d 1 2 5 5).d =
      [⟨CmdMoveTo, 10, 10⟩, ⟨CmdStop, 0, 0⟩] := by
  have hm : endsInMarker (exStarted.heap.verts exStarted.d) :=
    Or.inr ⟨[⟨CmdMoveTo, 10, 10⟩], ⟨CmdStop, 0, 0⟩, exStarted_verts, Or.inl (by decide)⟩
  have t := smooth_noop_after_marker Env.plain exStarted.heap exStarted.d hm
  refine ⟨hm, ?_, ?_, ?_⟩
  · rw [t.1 5 5]
  · rw [t.1 5 5]; exact exStarted_verts
  · rw [t.2 1 2 5 5]; exact exStarted_verts

/-- C13. Smooth continuation.  Let the last vertex of the path be a drawable vertex at
`L = (lx, ly)` and let the allocation `_add` may need not fail.  When the vertex before
the last, `p`, is a curve command (`isCurve()`), `curveTo(tx, ty)` appends
Curve3 `(2L - p)`, Curve3 `(tx, ty)` and `cubicTo(cx2, cy2, tx, ty)` appends Curve4
`(2L - p)`, Curve4 `(cx2, cy2)`, Curve4 `(tx, ty)`.  When there is no vertex before the
last or it is not a curve command, the first appended vertex is at `L` instead. -/
theorem smooth_reflects_control (E : Env) (h : Heap) (d : Nat) (vs : List Vertex)
    (c : Nat) (lx ly : ℚ)
    (hd : d < h.next) (hmem : E.oom h.next = false)
    (hv : h.verts d = vs ++ [⟨c, lx, ly⟩]) (hc : Cmd.isVertex c = true) :
    (∀ ws p, vs = ws ++ [p] → Cmd.isCurve p.cmd = true →
      (∀ tx ty, Appends h d (curveToSmooth E h d tx ty)
        [⟨CmdCurve3, 2 * lx - p.x, 2 * ly - p.y⟩, ⟨CmdCurve3, tx, ty⟩]) ∧
      (∀ cx2 cy2 tx ty, Appends h d (cubicToSmooth E h d cx2 cy2 tx ty)
        [⟨CmdCurve4, 2 * lx - p.x, 2 * ly - p.y⟩, ⟨CmdCurve4, cx2, cy2⟩,
         ⟨CmdCurve4, tx, ty⟩])) ∧
    ((vs = [] ∨ ∃ ws p, vs = ws ++ [p] ∧ Cmd.isCurve p.cmd = false) →
      (∀ tx ty, Appends h d (curveToSmooth E h d tx ty)
        [⟨CmdCurve3, lx, ly⟩, ⟨CmdCurve3, tx, ty⟩]) ∧
      (∀ cx2 cy2 tx ty, Appends h d (cubicToSmooth E h d cx2 cy2 tx ty)
        [⟨CmdCurve4, lx, ly⟩, ⟨CmdCurve4, cx2, cy2⟩, ⟨CmdCurve4, tx, ty⟩])) := by
  obtain ⟨h0, hl⟩ := last_of_verts hv
  have hlast : lastIsVertex h d = true := by simp [lastIsVertex, h0, hl, hc]
  refine ⟨?_, ?_⟩
  · intro ws p hvs hp
    subst hvs
    obtain ⟨h2, hl2⟩ := last2_of_verts hv
    have ex : lx + (lx - p.x) = 2 * lx - p.x := by ring
    have ey : ly + (ly - p.y) = 2 * ly - p.y := by ring
    refine ⟨fun tx ty => ?_, fun cx2 cy2 tx ty => ?_⟩
    · have := curveTo_appends E h d (2 * lx - p.x) (2 * ly - p.y) tx ty hd hmem
      simpa [curveToSmooth, hlast, hl, hl2, h2, hp, ex, ey] using this
    · have := cubicTo_appends E h d (2 * lx - p.x) (2 * ly - p.y) cx2 cy2 tx ty hd hmem
      simpa [cubicToSmooth, hlast, hl, hl2, h2, hp, ex, ey] using this
  · intro hcase
    have hno : ¬ (2 ≤ (h.mem d).length ∧
        Cmd.isCurve ((h.mem d).data ((h.mem d).length - 2)).cmd = true) := by
      rcases hcase with he | ⟨ws, p, hvs, hp⟩
      · subst he
        have : (h.mem d).length = 1 := by
          have := congrArg List.length hv
          simpa using this
        omega
      · subst hvs
        obtain ⟨_, hl2⟩ := last2_of_verts hv
        simp [hl2, hp]
    refine ⟨fun tx ty => ?_, fun cx2 cy2 tx ty => ?_⟩
    · have := curveTo_appends E h d lx ly tx ty hd hmem
      simpa [curveToSmooth, hlast, hl, hno] using this
    · have := cubicTo_appends E h d lx ly cx2 cy2 tx ty hd hmem
      simpa [cubicToSmooth, hlast, hl, hno] using this

theorem exCurve_appends :
    Appends exMoved.heap exMoved.d exCurve [⟨CmdCurve3, 20, 20⟩, ⟨CmdCurve3, 30, 10⟩] :=
  curveTo_appends Env.plain exMoved.heap exMoved.d 20 20 30 10 exMoved_appends.lt rfl

theorem exCurve_verts :
    exCurve.heap.verts exCurve.d =
      [⟨CmdMoveTo, 10, 10⟩, ⟨CmdCurve3, 20, 20⟩, ⟨CmdCurve3, 30, 10⟩] := by
  rw [exCurve_appends.verts, exMoved_verts]; rfl

theorem smooth_reflects_control_witness :
    exCurve.d < exCurve.heap.next ∧ Env.plain.oom exCurve.heap.next = false ∧
    exCurve.heap.verts exCurve.d
      = [⟨CmdMoveTo, 10, 10⟩, ⟨CmdCurve3, 20, 20⟩] ++ [⟨CmdCurve3, 30, 10⟩] ∧
    Cmd.isVertex CmdCurve3 = true ∧ Cmd.isCurve CmdCurve3 = true ∧
    (curveToSmooth Env.plain exCurve.heap exCurve.d 50 10).heap.verts
        (curveToSmooth Env.plain exCurve.heap exCurve.d 50 10).d =
      [⟨CmdMoveTo, 10, 10⟩, ⟨CmdCurve3, 20, 20⟩, ⟨CmdCurve3, 30, 10⟩,
       ⟨CmdCurve3, 40, 0⟩, ⟨CmdCurve3, 50, 10⟩] ∧
    (cubicToSmooth Env.plain exCurve.heap exCurve.d 45 5 50 10).heap.verts
        (cubicToSmooth Env.plain exCurve.heap exCurve.d 45 5 50 10).d =
      [⟨CmdMoveTo, 10, 10⟩, ⟨CmdCurve3, 20, 20⟩, ⟨CmdCurve3, 30, 10⟩,
       ⟨CmdCurve4, 40, 0⟩, ⟨CmdCurve4, 45, 5⟩, ⟨CmdCurve4, 50, 10⟩] := by
  have t := smooth_reflects_control Env.plain exCurve.heap exCurve.d
    [⟨CmdMoveTo, 10, 10⟩, ⟨CmdCurve3, 20, 20⟩] CmdCurve3 30 10
    exCurve_appends.lt rfl exCurve_verts (by decide)
  have u := t.1 [⟨CmdMoveTo, 10, 10⟩] ⟨CmdCurve3, 20, 20⟩ rfl (by decide)
  refine ⟨exCurve_appends.lt, rfl, exCurve_verts, by decide, by decide, ?_, ?_⟩
  · rw [(u.1 50 10).verts, exCurve_verts]
    norm_num
  · rw [(u.2 45 5 50 10).verts, exCurve_verts]
    norm_num

/-! ## Horizontal and vertical lines (C17) -/

/-- C17. When the allocation `_add` may need does not fail: on a path whose last vertex
is `w` (of any command), `hlineTo(x)` appends `LineTo(x, w.y)` and `vlineTo(y)` appends
`LineTo(w.x, y)`; on an empty path they append `LineTo(x, 0)` and `LineTo(0, y)`. -/
theorem hline_vline_use_last (E : Env) (h : Heap) (d : Nat)
    (hd : d < h.next) (hmem : E.oom h.next = false) :
    (∀ vs w, h.verts d = vs ++ [w] →
      (∀ x, Appends h d (hlineTo E h d x) [⟨CmdLineTo, x, w.y⟩]) ∧
      (∀ y, Appends h d (vlineTo E h d y) [⟨CmdLineTo, w.x, y⟩])) ∧
    (h.verts d = [] →
      (∀ x, Appends h d (hlineTo E h d x) [⟨CmdLineTo, x, 0⟩]) ∧
      (∀ y, Appends h d (vlineTo E h d y) [⟨CmdLineTo, 0, y⟩])) := by
  refine ⟨?_, ?_⟩
  · intro vs w hv
    obtain ⟨h0, hl⟩ := last_of_verts hv
    refine ⟨fun x => ?_, fun y => ?_⟩
    · simpa [hlineTo, lastY, h0, hl] using lineTo_appends E h d x w.y hd hmem
    · simpa [vlineTo, lastX, h0, hl] using lineTo_appends E h d w.x y hd hmem
  · intro he
    have h0 : (h.mem d).length = 0 := by
      have := congrArg List.length he
      simpa using this
    refine ⟨fun x => ?_, fun y => ?_⟩
    · simpa [hlineTo, lastY, h0] using lineTo_appends E h d x 0 hd hmem
    · simpa [vlineTo, lastX, h0] using lineTo_appends E h d 0 y hd hmem

theorem hline_vline_use_last_witness :
    exMoved.d < exMoved.heap.next ∧ Env.plain.oom exMoved.heap.next = false ∧
    (hlineTo Env.plain exMoved.heap exMoved.d 20).heap.verts
        (hlineTo Env.plain exMoved.heap exMoved.d 20).d =
      [⟨CmdMoveTo, 10, 10⟩, ⟨CmdLineTo, 20, 10⟩] ∧
    (vlineTo Env.plain exMoved.heap exMoved.d 30).heap.verts
        (vlineTo Env.plain exMoved.heap exMoved.d 30).d =
      [⟨CmdMoveTo, 10, 10⟩, ⟨CmdLineTo, 10, 30⟩] := by
  have t := (hline_vline_use_last Env.plain exMoved.heap exMoved.d exMoved_appends.lt rfl).1
    [] ⟨CmdMoveTo, 10, 10⟩ exMoved_verts
  refine ⟨exMoved_appends.lt, rfl, ?_, ?_⟩
  · rw [(t.1 20).verts, exMoved_verts]; rfl
  · rw [(t.2 30).verts, exMoved_verts]; rfl

/-! ## Closing a polygon (C16) -/

theorem endPoly_cmd (f : Nat) : Cmd.cmd (f ||| CmdEndPoly) = CmdEndPoly := by
  unfold Cmd.cmd CmdMask CmdEndPoly
  apply Nat.eq_of_testBit_eq
  intro i
  rw [Nat.testBit_and, Nat.testBit_or]
  cases Nat.testBit f i <;> cases Nat.testBit 15 i <;> rfl

theorem endPoly_appends (E : Env) (h : Heap) (d : Nat) (f : Nat)
    (hd : d < h.next) (hmem : E.oom h.next = false) (hl : lastIsVertex h d = true) :
    Appends h d (endPoly E h d f) [⟨f ||| CmdEndPoly, 0, 0⟩] := by
  have hs := add_ok_of_mem E h d 1 hmem
  unfold endPoly
  simp only [hl, if_true]
  generalize ha : _add E h d 1 = a at hs
  obtain ⟨h1, d1, v⟩ := a
  simp only at hs
  subst hs
  have ok := add_eq_some hd ha
  exact ⟨rfl, verts_add_writeList [_] ok, by simpa [Heap.write] using ok.lt⟩

theorem lastIsVertex_of_last {h : Heap} {d : Nat} {vs : List Vertex} {w : Vertex}
    (hv : h.verts d = vs ++ [w]) : lastIsVertex h d = Cmd.isVertex w.cmd := by
  obtain ⟨h0, hl⟩ := last_of_verts hv
  simp [lastIsVertex, h0, hl]

/-- C16. For every path and flags `f`: (1) when the last vertex is a drawable vertex and
the allocation `_add` may need does not fail, `endPoly(f)` appends exactly one vertex,
with command `f | EndPoly` (an EndPoly marker carrying `f`) at `(0, 0)`; (2) when the
path is empty or ends in Stop or EndPoly, `endPoly(f)` returns success and changes
nothing; (3) `closePolygon(f)` is `endPoly(f | Close)`; (4) when no allocation fails, a
`closePolygon` called right after a `closePolygon` returns success and changes nothing,
so the two calls append at most one marker. -/
theorem endPoly_once (E : Env) (h : Heap) (d : Nat) (f : Nat)
    (hd : d < h.next) (hmem : E.oom h.next = false) :
    (∀ vs w, h.verts d = vs ++ [w] → Cmd.isVertex w.cmd = true →
      Appends h d (endPoly E h d f) [⟨f ||| CmdEndPoly, 0, 0⟩] ∧
      Cmd.cmd (f ||| CmdEndPoly) = CmdEndPoly ∧
      Appends h d (closePolygon E h d f) [⟨f ||| CFlagClose ||| CmdEndPoly, 0, 0⟩]) ∧
    (endsInMarker (h.verts d) → endPoly E h d f = ⟨h, d, .Ok⟩) ∧
    closePolygon E h d f = endPoly E h d (f ||| CFlagClose) ∧
    (∀ E2 g, closePolygon E2 (closePolygon E h d f).heap (closePolygon E h d f).d g =
      ⟨(closePolygon E h d f).heap, (closePolygon E h d f).d, .Ok⟩) := by
  refine ⟨?_, ?_, rfl, ?_⟩
  · intro vs w hv hw
    have hl : lastIsVertex h d = true := by rw [lastIsVertex_of_last hv, hw]
    exact ⟨endPoly_appends E h d f hd hmem hl, endPoly_cmd f,
      endPoly_appends E h d (f ||| CFlagClose) hd hmem hl⟩
  · intro hm
    simp [endPoly, lastIsVertex_of_marker hm]
  · intro E2 g
    have key : lastIsVertex (closePolygon E h d f).heap (closePolygon E h d f).d = false := by
      cases hl : lastIsVertex h d with
      | false =>
        have e : closePolygon E h d f = ⟨h, d, .Ok⟩ := by simp [closePolygon, endPoly, hl]
        rw [e]; exact hl
      | true =>
        have a := endPoly_appends E h d (f ||| CFlagClose) hd hmem hl
        exact lastIsVertex_of_marker
          (Or.inr ⟨_, _, a.verts, Or.inr (endPoly_cmd (f ||| CFlagClose))⟩)
    generalize closePolygon E h d f = r at key
    simp [closePolygon, endPoly, key]

theorem exOpenTriangle_verts :
    exOpenTriangle.heap.verts exOpenTriangle.d =
      [⟨CmdMoveTo, 0, 0⟩, ⟨CmdLineTo, 10, 0⟩, ⟨CmdLineTo, 10, 10⟩] := by decide

theorem exOpenTriangle_lt : exOpenTriangle.d < exOpenTriangle.heap.next := by decide

theorem exTriangle_verts :
    exTriangle.heap.verts exTriangle.d =
      [⟨CmdMoveTo, 0, 0⟩, ⟨CmdLineTo, 10, 0⟩, ⟨CmdLineTo, 10, 10⟩,
       ⟨CmdEndPoly ||| CFlagClose, 0, 0⟩] := by decide

theorem exTriangle_lt : exTriangle.d < exTriangle.heap.next := by decide

theorem endPoly_once_witness :
    exOpenTriangle.d < exOpenTriangle.heap.next ∧
    Env.plain.oom exOpenTriangle.heap.next = false ∧
    (closePolygon Env.plain exOpenTriangle.heap exOpenTriangle.d 0).heap.verts
        (closePolygon Env.plain exOpenTriangle.heap exOpenTriangle.d 0).d =
      [⟨CmdMoveTo, 0, 0⟩, ⟨CmdLineTo, 10, 0⟩, ⟨CmdLineTo, 10, 10⟩, ⟨79, 0, 0⟩] ∧
    closePolygon Env.plain (closePolygon Env.plain exOpenTriangle.heap exOpenTriangle.d 0).heap
        (closePolygon Env.plain exOpenTriangle.heap exOpenTriangle.d 0).d 0 =
      ⟨(closePolygon Env.plain exOpenTriangle.heap exOpenTriangle.d 0).heap,
       (closePolygon Env.plain exOpenTriangle.heap exOpenTriangle.d 0).d, .Ok⟩ := by
  have t := endPoly_once Env.plain exOpenTriangle.heap exOpenTriangle.d 0
    exOpenTriangle_lt rfl
  have u := t.1 [⟨CmdMoveTo, 0, 0⟩, ⟨CmdLineTo, 10, 0⟩] ⟨CmdLineTo, 10, 10⟩
    exOpenTriangle_verts (by decide)
  refine ⟨exOpenTriangle_lt, rfl, ?_, t.2.2.2 Env.plain 0⟩
  rw [u.2.2.verts, exOpenTriangle_verts]
  rfl

/-! ## Starting a new sub-path (C15) -/

/-- C15 (counterexample). `Path p; p.moveTo(0,0); p.lineTo(10,0); p.lineTo(10,10);
p.closePolygon(); p.start(&i);`: the last vertex before `start` is an EndPoly marker, not
a drawable vertex, and `start` still appends a Stop vertex: the length goes from 4 to 5
and `i` is 5. -/
theorem start_after_endPoly_appends :
    exTriangle.heap.verts exTriangle.d =
      [⟨CmdMoveTo, 0, 0⟩, ⟨CmdLineTo, 10, 0⟩, ⟨CmdLineTo, 10, 10⟩,
       ⟨CmdEndPoly ||| CFlagClose, 0, 0⟩] ∧
    Cmd.cmd (CmdEndPoly ||| CFlagClose) = CmdEndPoly ∧
    Cmd.isVertex (CmdEndPoly ||| CFlagClose) = false ∧
    (start Env.plain exTriangle.heap exTriangle.d).1.err = .Ok ∧
    (start Env.plain exTriangle.heap exTriangle.d).1.heap.verts
        (start Env.plain exTriangle.heap exTriangle.d).1.d =
      [⟨CmdMoveTo, 0, 0⟩, ⟨CmdLineTo, 10, 0⟩, ⟨CmdLineTo, 10, 10⟩,
       ⟨CmdEndPoly ||| CFlagClose, 0, 0⟩, ⟨CmdStop, 0, 0⟩] ∧
    (start Env.plain exTriangle.heap exTriangle.d).1.heap.verts
        (start Env.plain exTriangle.heap exTriangle.d).1.d ≠
      exTriangle.heap.verts exTriangle.d ∧
    (start Env.plain exTriangle.heap exTriangle.d).2 = some 5 := by
  refine ⟨exTriangle_verts, by decide, by decide, by decide, by decide, by decide, by decide⟩

/-- C15 (amended). For every path, when the allocation `_add` may need does not fail:
`start(&i)` appends exactly one Stop vertex at `(0, 0)` when the path is not empty and
its last vertex is not a Stop vertex (a drawable vertex or an EndPoly marker), and
returns success changing nothing when the path is empty or its last vertex is Stop; in
both cases `i` is the resulting length. -/
theorem start_appends_unless_stop (E : Env) (h : Heap) (d : Nat)
    (hd : d < h.next) (hmem : E.oom h.next = false) :
    (∀ vs w, h.verts d = vs ++ [w] → Cmd.isStop w.cmd = false →
      Appends h d (start E h d).1 [⟨CmdStop, 0, 0⟩] ∧
      ((start E h d).1.heap.mem (start E h d).1.d).length = (h.mem d).length + 1) ∧
    ((h.verts d = [] ∨ ∃ vs w, h.verts d = vs ++ [w] ∧ Cmd.isStop w.cmd = true) →
      (start E h d).1 = ⟨h, d, .Ok⟩) ∧
    (start E h d).2 = some ((start E h d).1.heap.mem (start E h d).1.d).length := by
  refine ⟨?_, ?_, ?_⟩
  · intro vs w hv hw
    have a := start_appends E h d vs w hd hmem hv hw
    refine ⟨a, ?_⟩
    have := congrArg List.length a.verts
    simpa using this
  · intro hcase
    rcases hcase with he | ⟨vs, w, hv, hw⟩
    · have h0 : (h.mem d).length = 0 := by
        have := congrArg List.length he
        simpa using this
      simp [start, h0]
    · obtain ⟨_, hl⟩ := last_of_verts hv
      simp [start, hl, hw]
  · have hs := add_ok_of_mem E h d 1 hmem
    unfold start
    split
    · generalize ha : _add E h d 1 = a at hs
      obtain ⟨h1, d1, v⟩ := a
      simp only at hs
      subst hs
      rfl
    · rfl

theorem start_appends_unless_stop_witness :
    exTriangle.d < exTriangle.heap.next ∧ Env.plain.oom exTriangle.heap.next = false ∧
    (start Env.plain exTriangle.heap exTriangle.d).1.heap.verts
        (start Env.plain exTriangle.heap exTriangle.d).1.d =
      [⟨CmdMoveTo, 0, 0⟩, ⟨CmdLineTo, 10, 0⟩, ⟨CmdLineTo, 10, 10⟩,
       ⟨CmdEndPoly ||| CFlagClose, 0, 0⟩, ⟨CmdStop, 0, 0⟩] ∧
    (start Env.plain exTriangle.heap exTriangle.d).2 =
      some ((start Env.plain exTriangle.heap exTriangle.d).1.heap.mem
        (start Env.plain exTriangle.heap exTriangle.d).1.d).length ∧
    (start Env.plain exStarted.heap exStarted.d).1 = ⟨exStarted.heap, exStarted.d, .Ok⟩ := by
  have t := start_appends_unless_stop Env.plain exTriangle.heap exTriangle.d
    exTriangle_lt rfl
  have u := t.1 [⟨CmdMoveTo, 0, 0⟩, ⟨CmdLineTo, 10, 0⟩, ⟨CmdLineTo, 10, 10⟩]
    ⟨CmdEndPoly ||| CFlagClose, 0, 0⟩ exTriangle_verts (by decide)
  refine ⟨exTriangle_lt, rfl, ?_, t.2.2, ?_⟩
  · rw [u.1.verts, exTriangle_verts]; rfl
  · exact (start_appends_unless_stop Env.plain exStarted.heap exStarted.d
      exStarted_appends.lt rfl).2.1
      (Or.inr ⟨[⟨CmdMoveTo, 10, 10⟩], ⟨CmdStop, 0, 0⟩, exStarted_verts, by decide⟩)

/-! ## Several rectangles at once (C12) -/

theorem writeList_append (h : Heap) (p i : Nat) (a b : List Vertex) :
    h.writeList p i (a ++ b) = (h.writeList p i a).writeList p (i + a.length) b := by
  induction a generalizing h i with
  | nil => rfl
  | cons v a ih =>
    have e := ih (h.write p i v) (i + 1)
    rw [show i + 1 + a.length = i + (a.length + 1) by omega] at e
    simpa only [List.cons_append, Heap.writeList, List.length_cons] using e

theorem rectsVertices_length (rs : List RectF) :
    (rectsVertices rs).length = 5 * (rs.filter RectF.isValid).length := by
  induction rs with
  | nil => rfl
  | cons r rs ih =>
    by_cases hr : r.isValid = true
    · simp [rectsVertices, hr, ih, rectVertices]; omega
    · simp [rectsVertices, hr, ih]

theorem addRectsLoop_eq (h : Heap) (d v : Nat) (rs : List RectF) :
    addRectsLoop h d v rs =
      (h.writeList d v (rectsVertices rs), v + (rectsVertices rs).length) := by
  induction rs generalizing h v with
  | nil => rfl
  | cons r rs ih =>
    by_cases hr : r.isValid = true
    · simp only [addRectsLoop, rectsVertices, hr, not_true_eq_false, if_false, if_true]
      rw [ih, writeList_append]
      have e : (rectVertices r).length = 5 := rfl
      rw [e, List.length_append, e]
      congr 1
      omega
    · simp only [addRectsLoop, rectsVertices, hr, not_false_eq_true, if_true, if_false]
      exact ih h v

/-- A successful `_add` of any count, the stores of `vs` into the new slots and the
assignment of the length `v + vs.length` append `vs`. -/
theorem verts_add_writeList_setLength {E : Env} {h h1 : Heap} {d d1 v count : Nat}
    (vs : List Vertex) (a : AddOk E h d count h1 d1 v) :
    ((h1.writeList d1 v vs).setLength d1 (v + vs.length)).verts d1 = h.verts d ++ vs := by
  apply verts_eq_append
  · simp [a.slot]
  · intro i hi
    simp only [setLength_data]
    rw [writeList_data_lt _ _ _ _ _ _ (by rw [a.slot]; exact hi)]
    exact a.data i hi
  · intro k hk
    simp only [setLength_data]
    rw [← a.slot]
    exact writeList_data_at h1 d1 v vs k hk

theorem addRects_appends (E : Env) (h : Heap) (d : Nat) (rs : List RectF)
    (hd : d < h.next) (hmem : E.oom h.next = false) :
    Appends h d (addRects E h d rs) (rectsVertices rs) := by
  unfold addRects
  split
  · rename_i h0
    have : rs = [] := List.length_eq_zero.mp h0
    subst this
    exact ⟨rfl, by simp [rectsVertices], hd⟩
  · have hs := add_ok_of_mem E h d (rs.length * 5) hmem
    generalize ha : _add E h d (rs.length * 5) = a at hs
    obtain ⟨h1, d1, v⟩ := a
    simp only at hs
    subst hs
    have ok := add_eq_some hd ha
    simp only [addRectsLoop_eq]
    exact ⟨rfl, verts_add_writeList_setLength _ ok, by simpa using ok.lt⟩

theorem addRect_appends (E : Env) (h : Heap) (d : Nat) (r : RectF)
    (hd : d < h.next) (hmem : E.oom h.next = false) (hr : r.isValid = true) :
    Appends h d (addRect E h d r) (rectVertices r) := by
  have hs := add_ok_of_mem E h d 5 hmem
  unfold addRect
  simp only [hr, not_true_eq_false, if_false]
  generalize ha : _add E h d 5 = a at hs
  obtain ⟨h1, d1, v⟩ := a
  simp only at hs
  subst hs
  have ok := add_eq_some hd ha
  exact ⟨rfl, verts_add_writeList (rectVertices r) ok, by simpa using ok.lt⟩

theorem addRectEach_appends (E : Env) (h : Heap) (d : Nat) (rs : List RectF)
    (hd : d < h.next) (hmem : ∀ k, E.oom k = false) :
    Appends h d (addRectEach E h d rs) (rectsVertices rs) := by
  induction rs generalizing h d with
  | nil => exact ⟨rfl, by simp [addRectEach, rectsVertices], hd⟩
  | cons r rs ih =>
    by_cases hr : r.isValid = true
    · have a := addRect_appends E h d r hd (hmem _) hr
      have b := ih (addRect E h d r).heap (addRect E h d r).d a.lt
      simp only [addRectEach, a.err, if_true, rectsVertices, hr]
      exact ⟨b.err, by rw [b.verts, a.verts, List.append_assoc], b.lt⟩
    · have e : addRect E h d r = ⟨h, d, .Ok⟩ := by simp [addRect, hr]
      simp only [addRectEach, e, if_true, rectsVertices, hr]
      exact ih h d hd

/-- C12. For every path and every list of rectangles `rs`, when no allocation fails:
`addRects(rs)` and the calls `addRect(r)` for each `r` of `rs` in order both succeed and
leave the same vertex sequence and the same length: the old vertices followed by the five
vertices of each valid rectangle, the old length plus 5 times the number of valid
rectangles. -/
theorem addRects_eq_addRect_each (E : Env) (h : Heap) (d : Nat) (rs : List RectF)
    (hd : d < h.next) (hmem : ∀ k, E.oom k = false) :
    (addRects E h d rs).err = .Ok ∧ (addRectEach E h d rs).err = .Ok ∧
    (addRects E h d rs).heap.verts (addRects E h d rs).d =
      (addRectEach E h d rs).heap.verts (addRectEach E h d rs).d ∧
    ((addRects E h d rs).heap.mem (addRects E h d rs).d).length =
      ((addRectEach E h d rs).heap.mem (addRectEach E h d rs).d).length ∧
    (addRects E h d rs).heap.verts (addRects E h d rs).d = h.verts d ++ rectsVertices rs ∧
    ((addRects E h d rs).heap.mem (addRects E h d rs).d).length =
      (h.mem d).length + 5 * (rs.filter RectF.isValid).length := by
  have a := addRects_appends E h d rs hd (hmem _)
  have b := addRectEach_appends E h d rs hd hmem
  have la := congrArg List.length a.verts
  have lb := congrArg List.length b.verts
  simp only [verts_length, List.length_append, rectsVertices_length] at la lb
  exact ⟨a.err, b.err, a.verts.trans b.verts.symm, la.trans lb.symm, a.verts, la⟩

theorem addRects_eq_addRect_each_witness :
    exMoved.d < exMoved.heap.next ∧ (∀ k, Env.plain.oom k = false) ∧
    (addRects Env.plain exMoved.heap exMoved.d
        [⟨0, 0, 10, 10⟩, ⟨0, 0, 0, 5⟩, ⟨1, 1, 2, 2⟩]).heap.verts
      (addRects Env.plain exMoved.heap exMoved.d
        [⟨0, 0, 10, 10⟩, ⟨0, 0, 0, 5⟩, ⟨1, 1, 2, 2⟩]).d =
      [⟨CmdMoveTo, 10, 10⟩,
       ⟨CmdMoveTo, 0, 0⟩, ⟨CmdLineTo, 10, 0⟩, ⟨CmdLineTo, 10, 10⟩, ⟨CmdLineTo, 0, 10⟩,
       ⟨CmdEndPoly ||| CFlagClose, 0, 0⟩,
       ⟨CmdMoveTo, 1, 1⟩, ⟨CmdLineTo, 3, 1⟩, ⟨CmdLineTo, 3, 3⟩, ⟨CmdLineTo, 1, 3⟩,
       ⟨CmdEndPoly ||| CFlagClose, 0, 0⟩] ∧
    ((addRects Env.plain exMoved.heap exMoved.d
        [⟨0, 0, 10, 10⟩, ⟨0, 0, 0, 5⟩, ⟨1, 1, 2, 2⟩]).heap.mem
      (addRects Env.plain exMoved.heap exMoved.d
        [⟨0, 0, 10, 10⟩, ⟨0, 0, 0, 5⟩, ⟨1, 1, 2, 2⟩]).d).length = 11 ∧
    (addRectEach Env.plain exMoved.heap exMoved.d
        [⟨0, 0, 10, 10⟩, ⟨0, 0, 0, 5⟩, ⟨1, 1, 2, 2⟩]).heap.verts
      (addRectEach Env.plain exMoved.heap exMoved.d
        [⟨0, 0, 10, 10⟩, ⟨0, 0, 0, 5⟩, ⟨1, 1, 2, 2⟩]).d =
    (addRects Env.plain exMoved.heap exMoved.d
        [⟨0, 0, 10, 10⟩, ⟨0, 0, 0, 5⟩, ⟨1, 1, 2, 2⟩]).heap.verts
      (addRects Env.plain exMoved.heap exMoved.d
        [⟨0, 0, 10, 10⟩, ⟨0, 0, 0, 5⟩, ⟨1, 1, 2, 2⟩]).d := by
  have t := addRects_eq_addRect_each Env.plain exMoved.heap exMoved.d
    [⟨0, 0, 10, 10⟩, ⟨0, 0, 0, 5⟩, ⟨1, 1, 2, 2⟩] exMoved_appends.lt (fun _ => rfl)
  have hl : (exMoved.heap.mem exMoved.d).length = 1 := by
    have := congrArg List.length exMoved_verts
    simpa using this
  refine ⟨exMoved_appends.lt, fun _ => rfl, ?_, ?_, t.2.2.1.symm⟩
  · rw [t.2.2.2.2.1, exMoved_verts]
    norm_num [rectsVertices, rectVertices, RectF.isValid, RectF.x1, RectF.x2, RectF.y1,
      RectF.y2]
  · rw [t.2.2.2.2.2, hl]
    simp [RectF.isValid]

/-! ## Appending a path (C18) -/

/-- A successful `_add` on block `d` leaves `_d` on a block other than any existing block
`q ≠ d`, and does not touch the vertices of `q`. -/
theorem add_other {E : Env} {h : Heap} {d count : Nat} {h1 : Heap} {d1 v : Nat}
    (e : _add E h d count = (h1, d1, some v)) (q : Nat) (hq : q < h.next) (hqd : q ≠ d) :
    q ≠ d1 ∧ (h1.mem q).data = (h.mem q).data ∧ (h1.mem q).length = (h.mem q).length := by
  by_cases hc : (h.mem d).refCount = 1 ∧ count ≤ (h.mem d).capacity - (h.mem d).length
  · rw [add_inplace E h d count hc] at e
    simp only [Prod.mk.injEq, Option.some.injEq] at e
    obtain ⟨rfl, rfl, rfl⟩ := e
    exact ⟨hqd, by simp, by simp [hqd]⟩
  · by_cases ho : E.oom h.next = true
    · rw [add_fail E h d count hc ho] at e
      simp at e
    · have ho' : E.oom h.next = false := by simpa using ho
      rw [add_grow E h d count hc ho'] at e
      simp only [Prod.mk.injEq, Option.some.injEq] at e
      obtain ⟨rfl, rfl, rfl⟩ := e
      have hne : q ≠ h.next := Nat.ne_of_lt hq
      refine ⟨hne, ?_, ?_⟩
      · funext i
        simp [hne, alloc_mem_of_lt E h _ q hq]
      · simp [hne, alloc_mem_of_lt E h _ q hq]

/-- The copy loop of `addPath` stores the slots `i .. i+count-1` of `src` into the slots
`v .. v+count-1` of `d`, when the two ranges do not overlap. -/
theorem addPathLoop_eq (d src : Nat) (count v i : Nat) (h : Heap)
    (hno : src ≠ d ∨ i + count ≤ v) :
    addPathLoop d src count v i h =
      h.writeList d v ((List.range count).map (fun k => (h.mem src).data (i + k))) := by
  induction count generalizing v i h with
  | zero => rfl
  | succ n ih =>
    have hno2 : src ≠ d ∨ i + 1 + n ≤ v + 1 := by
      rcases hno with a | a
      · exact Or.inl a
      · exact Or.inr (by omega)
    have e := ih (v + 1) (i + 1) (h.write d v ((h.mem src).data i)) hno2
    have hsrc : ∀ k, k < n →
        ((h.write d v ((h.mem src).data i)).mem src).data (i + 1 + k) =
          (h.mem src).data (i + (k + 1)) := by
      intro k hk
      rw [write_data_apply]
      have : ¬ (src = d ∧ i + 1 + k = v) := by
        rintro ⟨a, b⟩
        rcases hno with c | c
        · exact c a
        · omega
      rw [if_neg this, Nat.add_assoc, Nat.add_comm 1 k]
    have hmap : (List.range n).map
        (fun k => ((h.write d v ((h.mem src).data i)).mem src).data (i + 1 + k)) =
        (List.range n).map (fun k => (h.mem src).data (i + (k + 1))) := by
      apply List.map_congr_left
      intro k hk
      exact hsrc k (List.mem_range.mp hk)
    rw [hmap] at e
    simp only [addPathLoop, e, List.range_succ_eq_map, List.map_cons, List.map_map,
      Heap.writeList, Nat.add_zero]
    rfl

theorem type_ne_zero (h : Heap) (d : Nat) : (type h d).2 ≠ 0 := by
  unfold type
  simp only
  split
  · assumption
  · simp only [detectType]
    split <;> decide

theorem type_of_cached {h : Heap} {d : Nat} (t : (h.mem d).type ≠ 0) :
    (type h d).2 = (h.mem d).type := by
  simp [type, t]

theorem type_type (h : Heap) (d path : Nat) :
    (type (type h d).1 path).2 = (type h path).2 := by
  by_cases e : path = d
  · subst e
    have c := type_cached h path
    rw [type_of_cached (by rw [c]; exact type_ne_zero h path), c]
  · have m : (type h d).1.mem path = h.mem path := by
      unfold type
      simp only
      split
      · rfl
      · exact setType_mem_ne _ _ _ _ e
    generalize (type h d).1 = g at m
    unfold type Heap.verts
    simp only [m]
    split <;> rfl

theorem addPath_ok_of_mem (E : Env) (h : Heap) (d path : Nat)
    (hmem : E.oom h.next = false) : (addPath E h d path).err = .Ok := by
  have hn : (type (type h d).1 path).1.next = h.next := by rw [type_next, type_next]
  unfold addPath
  simp only
  split
  · rfl
  · have hs := add_ok_of_mem E (type (type h d).1 path).1 d (length h path)
      (by rw [hn]; exact hmem)
    generalize _add E (type (type h d).1 path).1 d (length h path) = a at hs
    obtain ⟨h1, d1, v⟩ := a
    simp only at hs
    subst hs
    rfl

theorem addPath_appends (E : Env) (h : Heap) (d path : Nat)
    (hd : d < h.next) (hp : path < h.next) (hok : (addPath E h d path).err = .Ok)
    (hne : h.verts path ≠ []) :
    Appends h d (addPath E h d path) (h.verts path) ∧
    ((addPath E h d path).heap.mem (addPath E h d path).d).type =
      max (type h d).2 (type h path).2 := by
  have hcount : (h.mem path).length ≠ 0 := by
    intro e
    apply hne
    simp [Heap.verts, e]
  have hn : (type (type h d).1 path).1.next = h.next := by rw [type_next, type_next]
  have sd : Same d h (type (type h d).1 path).1 :=
    same_trans (type_same d h d) (type_same d _ path)
  have sp : Same path h (type (type h d).1 path).1 :=
    same_trans (type_same path h d) (type_same path _ path)
  have ht := type_type h d path
  unfold addPath at hok ⊢
  simp only [length, hcount, if_false] at hok ⊢
  generalize (type (type h d).1 path).1 = g at hn sd sp hok ⊢
  generalize (type (type h d).1 path).2 = t2 at ht
  subst ht
  generalize ha : _add E g d (h.mem path).length = a at hok ⊢
  obtain ⟨h1, d1, v⟩ := a
  cases v with
  | none => simp at hok
  | some v =>
  have ok := add_eq_some (by rw [hn]; exact hd) ha
  have hv := ok.slot
  subst hv
  have hsrc : (if path = d then d1 else path) ≠ d1 ∨ 0 + (h.mem path).length ≤ (g.mem d).length
      := by
    by_cases e : path = d
    · subst e
      right
      rw [sd.1]; omega
    · left
      rw [if_neg e]
      exact (add_other ha path (by rw [hn]; exact hp) e).1
  have hlist : (List.range (h.mem path).length).map
      (fun k => (h1.mem (if path = d then d1 else path)).data (0 + k)) = h.verts path := by
    unfold Heap.verts
    apply List.map_congr_left
    intro k hk
    have hk := List.mem_range.mp hk
    rw [Nat.zero_add]
    by_cases e : path = d
    · subst e
      rw [if_pos rfl, ok.data k (by rw [sd.1]; exact hk), sd.2]
    · rw [if_neg e, (add_other ha path (by rw [hn]; exact hp) e).2.1, sp.2]
  have ok2 : AddOk E g d (h.verts path).length h1 d1 (g.mem d).length := by
    rw [verts_length]; exact ok
  refine ⟨⟨rfl, ?_, ?_⟩, ?_⟩
  · simp only [verts_setType]
    rw [addPathLoop_eq _ _ _ _ _ _ hsrc, hlist, verts_add_writeList _ ok2, verts_eq_of_same sd]
  · simp only [setType_next]
    rw [addPathLoop_eq _ _ _ _ _ _ hsrc, writeList_next]
    exact ok.lt
  · simp

/-- C18. For every pair of paths `a` (block `d`) and `b` (block `path`) of an existing
memory: (1) after a successful `a.addPath(b)` with `b` not empty, the vertices of `a` are
the old ones followed by the vertices of `b`, verbatim, and the type of `a` (cached, and
returned by the next `type()`) is the maximum of `a.type()` and `b.type()` taken before
the append; (2) `b`, a live handle other than `a`, shows the same vertices afterwards
(also when `a` and `b` share one block); (3) when `b` is empty, `addPath` returns
success and changes nothing; (4) `addPath` succeeds when the allocation `_add` may need
does not fail. -/
theorem addPath_appends_verbatim (E : Env) (h : Heap) (d path : Nat)
    (hd : d < h.next) (hp : path < h.next) :
    (h.verts path ≠ [] → (addPath E h d path).err = .Ok →
      (addPath E h d path).heap.verts (addPath E h d path).d = h.verts d ++ h.verts path ∧
      ((addPath E h d path).heap.mem (addPath E h d path).d).type =
        max (type h d).2 (type h path).2 ∧
      (type (addPath E h d path).heap (addPath E h d path).d).2 =
        max (type h d).2 (type h path).2) ∧
    (1 ≤ (h.mem path).refCount → (path = d → 2 ≤ (h.mem d).refCount) →
      (addPath E h d path).heap.verts path = h.verts path) ∧
    (h.verts path = [] → addPath E h d path = ⟨h, d, .Ok⟩) ∧
    (E.oom h.next = false → (addPath E h d path).err = .Ok) := by
  refine ⟨?_, ?_, ?_, ?_⟩
  · intro hne hok
    obtain ⟨a, t⟩ := addPath_appends E h d path hd hp hok hne
    refine ⟨a.verts, t, ?_⟩
    have t0 : max (type h d).2 (type h path).2 ≠ 0 := by
      have := type_ne_zero h d
      omega
    rw [type_of_cached (by rw [t]; exact t0), t]
  · intro hlive hsh
    have s : Safe path h h d := ⟨same_refl path h, hp, hlive, fun e => by subst e; exact hsh rfl⟩
    exact verts_eq_of_same (safe_addPath E s path).same
  · intro he
    have h0 : (h.mem path).length = 0 := by
      have := congrArg List.length he
      simpa using this
    simp [addPath, length, h0]
  · intro hmem
    exact addPath_ok_of_mem E h d path hmem

theorem exPair_verts :
    exPair.heap.verts exPair.d = [⟨CmdMoveTo, 0, 0⟩, ⟨CmdLineTo, 5, 5⟩] ∧
    exPair.heap.verts exCurve.d =
      [⟨CmdMoveTo, 10, 10⟩, ⟨CmdCurve3, 20, 20⟩, ⟨CmdCurve3, 30, 10⟩] := by
  constructor <;> decide

theorem addPath_appends_verbatim_witness :
    exPair.d < exPair.heap.next ∧ exCurve.d < exPair.heap.next ∧
    Env.plain.oom exPair.heap.next = false ∧
    exPair.heap.verts exCurve.d ≠ [] ∧
    1 ≤ (exPair.heap.mem exCurve.d).refCount ∧ exCurve.d ≠ exPair.d ∧
    (addPath Env.plain exPair.heap exPair.d exCurve.d).err = .Ok ∧
    (addPath Env.plain exPair.heap exPair.d exCurve.d).heap.verts
        (addPath Env.plain exPair.heap exPair.d exCurve.d).d =
      [⟨CmdMoveTo, 0, 0⟩, ⟨CmdLineTo, 5, 5⟩,
       ⟨CmdMoveTo, 10, 10⟩, ⟨CmdCurve3, 20, 20⟩, ⟨CmdCurve3, 30, 10⟩] ∧
    (type exPair.heap exPair.d).2 = LineType ∧ (type exPair.heap exCurve.d).2 = CurveType ∧
    (type (addPath Env.plain exPair.heap exPair.d exCurve.d).heap
      (addPath Env.plain exPair.heap exPair.d exCurve.d).d).2 = CurveType ∧
    (addPath Env.plain exPair.heap exPair.d exCurve.d).heap.verts exCurve.d =
      [⟨CmdMoveTo, 10, 10⟩, ⟨CmdCurve3, 20, 20⟩, ⟨CmdCurve3, 30, 10⟩] := by
  have hd : exPair.d < exPair.heap.next := by decide
  have hp : exCurve.d < exPair.heap.next := by decide
  have hne : exPair.heap.verts exCurve.d ≠ [] := by rw [exPair_verts.2]; simp
  have hlive : 1 ≤ (exPair.heap.mem exCurve.d).refCount := by decide
  have hdist : exCurve.d ≠ exPair.d := by decide
  have ta : (type exPair.heap exPair.d).2 = LineType := by decide
  have tb : (type exPair.heap exCurve.d).2 = CurveType := by decide
  have t := addPath_appends_verbatim Env.plain exPair.heap exPair.d exCurve.d hd hp
  have t1 := t.2.2.2 rfl
  obtain ⟨t2, t3, t4⟩ := t.1 hne t1
  refine ⟨hd, hp, rfl, hne, hlive, hdist, t1, ?_, ta, tb, ?_, ?_⟩
  · rw [t2, exPair_verts.1, exPair_verts.2]; rfl
  · rw [t4, ta, tb]; rfl
  · rw [t.2.1 hlive (fun e => absurd e hdist), exPair_verts.2]

/-! ## The degenerate arc (C19, C20) -/

/-- What `_arcTo` stores when `|sweep| < 1e-10`, `closePath` is false and the allocation
does not fail: two vertices, both with `cx` in the `y` coordinate, as the code has it. -/
theorem arcTo_degenerate (E : Env) (h : Heap) (d : Nat) (cx cy rx ry start sweep : ℚ)
    (cmd : Nat) (hd : d < h.next) (hmem : E.oom h.next = false) (hpi : 3 < E.M_PI)
    (hs : |sweep| < 1 / 10000000000) :
    (_arcTo E h d cx cy rx ry start sweep cmd false).2.2 = none ∧
    (_arcTo E h d cx cy rx ry start sweep cmd false).1.verts
        (_arcTo E h d cx cy rx ry start sweep cmd false).2.1 =
      h.verts d ++
        [⟨cmd, cx + rx * E.cos (E.fmod start (2 * E.M_PI)),
            cx + ry * E.sin (E.fmod start (2 * E.M_PI))⟩,
         ⟨CmdLineTo, cx + rx * E.cos (E.fmod start (2 * E.M_PI) + sweep),
            cx + ry * E.sin (E.fmod start (2 * E.M_PI) + sweep)⟩] := by
  obtain ⟨lo, hi⟩ := abs_lt.mp hs
  have c1 : ¬ (2 * E.M_PI ≤ sweep) := by intro c; linarith
  have c2 : ¬ (sweep ≤ -2 * E.M_PI) := by intro c; linarith
  have hadd := add_ok_of_mem E h d 2 hmem
  unfold _arcTo
  simp only [c1, c2, if_false]
  unfold arcBody
  simp only [hs, if_true]
  generalize ha : _add E h d 2 = a at hadd
  obtain ⟨h1, d1, v⟩ := a
  simp only at hadd
  subst hadd
  have ok := add_eq_some hd ha
  refine ⟨rfl, ?_⟩
  simp only [write2_eq_writeList, Bool.false_eq_true, if_false]
  exact verts_add_writeList [_, _] ok

theorem arcTo_degenerate_pair (E : Env) (h : Heap) (d : Nat) (cx cy rx ry start sweep : ℚ)
    (cmd : Nat) (hd : d < h.next) (hmem : E.oom h.next = false) (hpi : 3 < E.M_PI)
    (hs : |sweep| < 1 / 10000000000) :
    AppendsArcPair h d (_arcTo E h d cx cy rx ry start sweep cmd false) cmd := by
  have t := (arcTo_degenerate E h d cx cy rx ry start sweep cmd hd hmem hpi hs).2
  refine ⟨_, _, _, _, t, ?_⟩
  have := congrArg List.length t
  simpa using this

/-- C19. For every path, center, radii, start angle and every sweep with
`|sweep| < 1e-10`, when the allocation `_add` may need does not fail (and `M_PI` is
above 3, so the sweep is not clamped): `_arcTo` called without closing appends exactly
two vertices, the first with the initial command and the second with LineTo; so do
`arcTo` (initial command LineTo), `addArc` with a center and radii and `addArc` with a
valid rectangle (initial command MoveTo).  No Curve4 vertex is appended. -/
theorem degenerate_arc_two_vertices (E : Env) (h : Heap) (d : Nat)
    (cx cy rx ry start sweep : ℚ)
    (hd : d < h.next) (hmem : E.oom h.next = false) (hpi : 3 < E.M_PI)
    (hs : |sweep| < 1 / 10000000000) :
    (∀ cmd, AppendsArcPair h d (_arcTo E h d cx cy rx ry start sweep cmd false) cmd) ∧
    AppendsArcPair h d (arcTo E h d cx cy rx ry start sweep) CmdLineTo ∧
    AppendsArcPair h d (addArcCenter E h d ⟨cx, cy⟩ ⟨rx, ry⟩ start sweep) CmdMoveTo ∧
    (∀ r : RectF, r.isValid = true →
      AppendsArcPair h d (addArc E h d r start sweep) CmdMoveTo) := by
  refine ⟨fun cmd => arcTo_degenerate_pair E h d cx cy rx ry start sweep cmd hd hmem hpi hs,
    arcTo_degenerate_pair E h d cx cy rx ry start sweep CmdLineTo hd hmem hpi hs,
    arcTo_degenerate_pair E h d cx cy rx ry start sweep CmdMoveTo hd hmem hpi hs, ?_⟩
  intro r hr
  have e : addArc E h d r start sweep =
      _arcTo E h d (r.x + r.w / 2) (r.y + r.h / 2) (r.w / 2) (r.h / 2) start sweep
        CmdMoveTo false := by
    simp [addArc, hr]
  rw [e]
  exact arcTo_degenerate_pair E h d _ _ _ _ start sweep CmdMoveTo hd hmem hpi hs

theorem degenerate_arc_two_vertices_witness :
    exMoved.d < exMoved.heap.next ∧ Env.plain.oom exMoved.heap.next = false ∧
    (3 : ℚ) < Env.plain.M_PI ∧ |(1 / 1000000000000 : ℚ)| < 1 / 10000000000 ∧
    AppendsArcPair exMoved.heap exMoved.d
      (arcTo Env.plain exMoved.heap exMoved.d 3 4 2 1 0 (1 / 1000000000000)) CmdLineTo ∧
    ((arcTo Env.plain exMoved.heap exMoved.d 3 4 2 1 0 (1 / 1000000000000)).1.mem
      (arcTo Env.plain exMoved.heap exMoved.d 3 4 2 1 0 (1 / 1000000000000)).2.1).length
      = 3 := by
  have hpi : (3 : ℚ) < Env.plain.M_PI := by norm_num [Env.plain]
  have hs : |(1 / 1000000000000 : ℚ)| < 1 / 10000000000 := by
    rw [abs_of_pos (by norm_num)]; norm_num
  have t := (degenerate_arc_two_vertices Env.plain exMoved.heap exMoved.d 3 4 2 1 0
    (1 / 1000000000000) exMoved_appends.lt rfl hpi hs).2.1
  refine ⟨exMoved_appends.lt, rfl, hpi, hs, t, ?_⟩
  obtain ⟨_, _, _, _, -, hl⟩ := t
  rw [hl]
  have := congrArg List.length exMoved_verts
  simp only [verts_length, List.length_singleton] at this
  rw [this]

/-- C20 (failing input). `Path p; p.arcTo(0, 5, 1, 1, 0, 0);` (center `(0, 5)`, both
radii 1, start 0, sweep 0, with `cos 0 = 1`, `sin 0 = 0` and `fmod(0, 2π) = 0`): the two
vertices stored are `LineTo(1, 0)` and `LineTo(1, 0)`; the start and end point of the
arc, `(cx + rx·cos 0, cy + ry·sin 0)`, are `(1, 5)`.  The `y` coordinates are computed
from `cx`, not `cy`. -/
theorem degenerate_arc_uses_cx_for_y :
    Env.plain.cos 0 = 1 ∧ Env.plain.sin 0 = 0 ∧ Env.plain.fmod 0 (2 * Env.plain.M_PI) = 0 ∧
    (arcTo Env.plain exEmpty sharedNull 0 5 1 1 0 0).1.verts
        (arcTo Env.plain exEmpty sharedNull 0 5 1 1 0 0).2.1 =
      [⟨CmdLineTo, 1, 0⟩, ⟨CmdLineTo, 1, 0⟩] ∧
    (arcTo Env.plain exEmpty sharedNull 0 5 1 1 0 0).1.verts
        (arcTo Env.plain exEmpty sharedNull 0 5 1 1 0 0).2.1 ≠
      [⟨CmdLineTo, 0 + 1 * Env.plain.cos 0, 5 + 1 * Env.plain.sin 0⟩,
       ⟨CmdLineTo, 0 + 1 * Env.plain.cos (0 + 0), 5 + 1 * Env.plain.sin (0 + 0)⟩] := by
  have hpi : (3 : ℚ) < Env.plain.M_PI := by norm_num [Env.plain]
  have hs : |(0 : ℚ)| < 1 / 10000000000 := by norm_num
  have t := (arcTo_degenerate Env.plain exEmpty sharedNull 0 5 1 1 0 0 CmdLineTo
    exEmpty_lt rfl hpi hs).2
  have e : (arcTo Env.plain exEmpty sharedNull 0 5 1 1 0 0).1.verts
        (arcTo Env.plain exEmpty sharedNull 0 5 1 1 0 0).2.1 =
      [⟨CmdLineTo, 1, 0⟩, ⟨CmdLineTo, 1, 0⟩] := by
    unfold arcTo
    rw [t, exEmpty_verts]
    norm_num [Env.plain]
  refine ⟨rfl, rfl, rfl, e, ?_⟩
  rw [e]
  norm_num [Env.plain]

/-! ## The result code of an arc without closing (C22) -/

theorem arcBody_code (E : Env) (h : Heap) (d : Nat) (cx cy rx ry start sweep : ℚ)
    (cmd : Nat) :
    (arcBody E h d cx cy rx ry start sweep cmd).2.2 = none ∨
    (arcBody E h d cx cy rx ry start sweep cmd).2.2 = some .OutOfMemory := by
  unfold arcBody
  split
  · generalize _add E h d 2 = a
    obtain ⟨h1, d1, v⟩ := a
    cases v with
    | none => right; rfl
    | some v => left; rfl
  · generalize _add E h d 13 = a
    obtain ⟨h1, d1, v⟩ := a
    cases v with
    | none => right; rfl
    | some v => left; rfl

theorem arcTo_code (E : Env) (h : Heap) (d : Nat) (cx cy rx ry start sweep : ℚ)
    (cmd : Nat) :
    (_arcTo E h d cx cy rx ry start sweep cmd false).2.2 = none ∨
    (_arcTo E h d cx cy rx ry start sweep cmd false).2.2 = some .OutOfMemory := by
  unfold _arcTo
  simp only
  generalize hb : arcBody E h d cx cy rx ry _ _ cmd = b
  have hc := arcBody_code E h d cx cy rx ry (E.fmod start (2 * E.M_PI))
    (if (if 2 * E.M_PI ≤ sweep then 2 * E.M_PI else sweep) ≤ -2 * E.M_PI then -2 * E.M_PI
      else if 2 * E.M_PI ≤ sweep then 2 * E.M_PI else sweep) cmd
  rw [hb] at hc
  obtain ⟨h1, d1, e⟩ := b
  cases e with
  | none => left; rfl
  | some e =>
    right
    simp only at hc ⊢
    rcases hc with hc | hc
    · exact absurd hc (by simp)
    · exact hc

/-- C22 (failing input). `Path p; p.moveTo(10, 10); p.arcTo(3, 4, 2, 1, 0, 1);`: the
allocation succeeds, four vertices are appended (length 1 to 5), and control leaves
`_arcTo` at the end of its body without a `return`: there is no result code.  For every
argument tuple the arc primitive called without closing has no result code, or the code
OutOfMemory; it never returns the success code. -/
theorem arcTo_returns_nothing :
    ((arcTo Env.plain exMoved.heap exMoved.d 3 4 2 1 0 1).1.mem
      (arcTo Env.plain exMoved.heap exMoved.d 3 4 2 1 0 1).2.1).length = 5 ∧
    (arcTo Env.plain exMoved.heap exMoved.d 3 4 2 1 0 1).2.2 = none ∧
    (arcToRel Env.plain exMoved.heap exMoved.d 3 4 2 1 0 1).2.2 = none ∧
    (addArc Env.plain exMoved.heap exMoved.d ⟨1, 3, 4, 2⟩ 0 1).2.2 = none ∧
    (∀ E h d cx cy rx ry start sweep,
      (arcTo E h d cx cy rx ry start sweep).2.2 ≠ some .Ok ∧
      (arcToRel E h d cx cy rx ry start sweep).2.2 ≠ some .Ok ∧
      (addArcCenter E h d ⟨cx, cy⟩ ⟨rx, ry⟩ start sweep).2.2 ≠ some .Ok) := by
  refine ⟨by decide!, by decide!, by decide!, by decide!, ?_⟩
  intro E h d cx cy rx ry start sweep
  have key : ∀ cx cy cmd, (_arcTo E h d cx cy rx ry start sweep cmd false).2.2 ≠ some .Ok := by
    intro cx cy cmd
    rcases arcTo_code E h d cx cy rx ry start sweep cmd with e | e <;> rw [e] <;> simp
  exact ⟨key _ _ _, key _ _ _, key _ _ _⟩

/-! ## The vertex-source adapter (C27) -/

theorem aggPath_after (h : Heap) (path i k : Nat) (hi : i ≤ (h.mem path).length) :
    AggPath.after h (AggPath.rewind h (AggPath.create h path) i) k =
      ⟨path, min (i + k) (h.mem path).length, (h.mem path).length⟩ := by
  induction k with
  | zero => simp [AggPath.after, AggPath.rewind, AggPath.create, hi]
  | succ k ih =>
    simp only [AggPath.after, ih, AggPath.vertex]
    by_cases hk : i + k < (h.mem path).length
    · have e1 : min (i + k) (h.mem path).length = i + k := by omega
      have e2 : min (i + (k + 1)) (h.mem path).length = i + k + 1 := by omega
      simp [e1, e2, Nat.ne_of_lt hk]
    · have e1 : min (i + k) (h.mem path).length = (h.mem path).length := by omega
      have e2 : min (i + (k + 1)) (h.mem path).length = (h.mem path).length := by omega
      simp [e1, e2]

/-- C27. For every path (block `path`, length `n`) and every index `i ≤ n`: after
`rewind(i)`, the call of `vertex` that follows `k` earlier calls returns the command
(`cmd()`, the command without its flags) of the vertex `i + k` and stores its
coordinates while `i + k < n`, and returns Stop, storing nothing, once `i + k ≥ n`;
`rewind(0)` positions the adapter where its constructor does, at the path start. -/
theorem aggPath_streams (h : Heap) (path i k : Nat) (hi : i ≤ (h.mem path).length) :
    (i + k < (h.mem path).length →
      (AggPath.vertex h (AggPath.after h (AggPath.rewind h (AggPath.create h path) i) k)).1 =
        Cmd.cmd ((h.mem path).data (i + k)).cmd ∧
      (AggPath.vertex h (AggPath.after h (AggPath.rewind h (AggPath.create h path) i) k)).2.1 =
        some (((h.mem path).data (i + k)).x, ((h.mem path).data (i + k)).y)) ∧
    ((h.mem path).length ≤ i + k →
      (AggPath.vertex h (AggPath.after h (AggPath.rewind h (AggPath.create h path) i) k)).1 =
        CmdStop ∧
      (AggPath.vertex h (AggPath.after h (AggPath.rewind h (AggPath.create h path) i) k)).2.1 =
        none) ∧
    (∀ a : AggPath, a.d = path → AggPath.rewind h a 0 = AggPath.create h path) := by
  rw [aggPath_after h path i k hi]
  refine ⟨?_, ?_, ?_⟩
  · intro hk
    have e1 : min (i + k) (h.mem path).length = i + k := by omega
    simp [AggPath.vertex, e1, Nat.ne_of_lt hk]
  · intro hk
    have e1 : min (i + k) (h.mem path).length = (h.mem path).length := by omega
    simp [AggPath.vertex, e1]
  · intro a ha
    simp [AggPath.rewind, AggPath.create, ha]

theorem aggPath_streams_witness :
    1 ≤ (exTriangle.heap.mem exTriangle.d).length ∧
    (AggPath.vertex exTriangle.heap
      (AggPath.after exTriangle.heap
        (AggPath.rewind exTriangle.heap (AggPath.create exTriangle.heap exTriangle.d) 1) 0)).1
      = CmdLineTo ∧
    (AggPath.vertex exTriangle.heap
      (AggPath.after exTriangle.heap
        (AggPath.rewind exTriangle.heap (AggPath.create exTriangle.heap exTriangle.d) 1) 2)).1
      = CmdEndPoly ∧
    (AggPath.vertex exTriangle.heap
      (AggPath.after exTriangle.heap
        (AggPath.rewind exTriangle.heap (AggPath.create exTriangle.heap exTriangle.d) 1) 3)).1
      = CmdStop ∧
    (AggPath.vertex exTriangle.heap
      (AggPath.after exTriangle.heap
        (AggPath.rewind exTriangle.heap (AggPath.create exTriangle.heap exTriangle.d) 1) 7)).1
      = CmdStop := by
  have hl : (exTriangle.heap.mem exTriangle.d).length = 4 := by decide
  have hi : 1 ≤ (exTriangle.heap.mem exTriangle.d).length := by rw [hl]; decide
  have t := fun k => aggPath_streams exTriangle.heap exTriangle.d 1 k hi
  refine ⟨hi, ?_, ?_, ?_, ?_⟩
  · rw [((t 0).1 (by rw [hl]; decide)).1]; decide
  · rw [((t 2).1 (by rw [hl]; decide)).1]; decide
  · exact ((t 3).2.1 (by rw [hl])).1
  · exact ((t 7).2.1 (by rw [hl]; decide)).1

/-! ## Failed appends leave the path as it was (C30) -/

theorem untouched_of_mem {h h1 : Heap} {d : Nat} (e : h1.mem = h.mem) (err : err_t) :
    Untouched h d ⟨h1, d, err⟩ := by
  refine ⟨rfl, ?_, ?_, ?_, ?_⟩
  · simp [Heap.verts, e]
  · simp [e]
  · simp [e]
  · unfold type Heap.verts
    simp only [e]
    split <;> rfl

/-- A failed `_add` leaves the block in `_d` and all of memory as they were. -/
theorem add_none_untouched {E : Env} {h : Heap} {d count : Nat} {h1 : Heap} {d1 : Nat}
    (e : _add E h d count = (h1, d1, none)) (err : err_t) : Untouched h d ⟨h1, d1, err⟩ := by
  obtain ⟨rfl, hm, -, -⟩ := add_eq_none e
  exact untouched_of_mem hm err

theorem type_fst_type (h : Heap) (d p : Nat) :
    (type (type h p).1 d).2 = (type h d).2 := type_type h p d

theorem untouched_type {h g : Heap} {d : Nat} {o : Out} (p : Nat) (hg : g = (type h p).1)
    (u : Untouched g d o) : Untouched h d o := by
  subst hg
  have s := type_same d h p
  refine ⟨u.block, ?_, ?_, ?_, ?_⟩
  · rw [u.verts]; exact verts_eq_of_same s
  · rw [u.length]; exact s.1
  · rw [u.capacity]
    unfold type
    simp only
    split
    · rfl
    · simp
  · rw [u.type]; exact type_fst_type h d p

/-- The allocation `_add(count)` needs is the one numbered `h.next`; it is needed when
the block is shared or has fewer than `count` free slots, and then fails iff `oom`. -/
theorem add_none_iff (E : Env) (h : Heap) (d count : Nat) :
    (_add E h d count).2.2 = none ↔
      ¬((h.mem d).refCount = 1 ∧ count ≤ (h.mem d).capacity - (h.mem d).length) ∧
        E.oom h.next = true := by
  by_cases hc : (h.mem d).refCount = 1 ∧ count ≤ (h.mem d).capacity - (h.mem d).length
  · rw [add_inplace E h d count hc]; simp [hc]
  · by_cases ho : E.oom h.next = true
    · rw [add_fail E h d count hc ho]; simp [hc, ho]
    · have ho' : E.oom h.next = false := by simpa using ho
      rw [add_grow E h d count hc ho']; simp [ho']

theorem add_none_of_fails {E : Env} {h : Heap} {d count : Nat} (f : AllocFails E h d count) :
    (_add E h d count).2.2 = none := (add_none_iff E h d count).2 f

theorem allocFails_type {E : Env} {h : Heap} {d count : Nat} (p : Nat)
    (f : AllocFails E h d count) : AllocFails E (type h p).1 d count := by
  unfold AllocFails at f ⊢
  have e : ((type h p).1.mem d).refCount = (h.mem d).refCount ∧
      ((type h p).1.mem d).capacity = (h.mem d).capacity ∧
      ((type h p).1.mem d).length = (h.mem d).length := by
    unfold type
    simp only
    split
    · exact ⟨rfl, rfl, rfl⟩
    · simp
  rw [e.1, e.2.1, e.2.2, type_next]
  exact f

/-- C29 (counterexample). `Path p; p.moveTo(10, 10); p.reserve(2);` succeeds and leaves
capacity 2 with length 1; appending 2 vertices then, with one `lineTo(pts, 2)` or with two
calls of `lineTo`, allocates a new buffer: the path holds another block afterwards and
one more allocation was made. -/
theorem reserve_then_append_reallocates :
    exMovedReserved.err = .Ok ∧
    (exMovedReserved.heap.mem exMovedReserved.d).capacity = 2 ∧
    (exMovedReserved.heap.mem exMovedReserved.d).length = 1 ∧
    (lineToPts Env.plain exMovedReserved.heap exMovedReserved.d [(1, 1), (2, 2)]).err = .Ok ∧
    (lineToPts Env.plain exMovedReserved.heap exMovedReserved.d [(1, 1), (2, 2)]).d
      ≠ exMovedReserved.d ∧
    (lineToPts Env.plain exMovedReserved.heap exMovedReserved.d [(1, 1), (2, 2)]).heap.next
      = exMovedReserved.heap.next + 1 ∧
    (lineToEach Env.plain exMovedReserved.heap exMovedReserved.d [(1, 1), (2, 2)]).d
      ≠ exMovedReserved.d ∧
    (lineToEach Env.plain exMovedReserved.heap exMovedReserved.d [(1, 1), (2, 2)]).heap.next
      = exMovedReserved.heap.next + 1 := by
  decide

theorem reserve_room (E : Env) (h : Heap) (d n : Nat) (hd : d < h.next)
    (hok : (reserve E h d n).err = .Ok) :
    ((reserve E h d n).heap.mem (reserve E h d n).d).refCount = 1 ∧
    n ≤ ((reserve E h d n).heap.mem (reserve E h d n).d).capacity ∧
    ((reserve E h d n).heap.mem (reserve E h d n).d).length = (h.mem d).length ∧
    (reserve E h d n).heap.verts (reserve E h d n).d = h.verts d ∧
    (reserve E h d n).d < (reserve E h d n).heap.next := by
  unfold reserve at hok ⊢
  split at hok
  · rename_i hc
    rw [if_pos hc]
    exact ⟨hc.1, hc.2, rfl, rfl, hd⟩
  · rename_i hc
    rw [if_neg hc]
    rcases alloc_cases E h n with ⟨_, e⟩ | ⟨_, a1, e, hn, hf, hm⟩
    · rw [e] at hok; simp at hok
    · rw [e]
      have hne : h.next ≠ d := (Nat.ne_of_lt hd).symm
      have hmd := hm d (Nat.ne_of_lt hd)
      refine ⟨?_, ?_, ?_, ?_, ?_⟩
      · simp [hne, hf, Data.fresh]
      · simp [hne, hf, Data.fresh]
      · simp [hne, hmd]
      · apply verts_eq_of_copy
        · simp [hne, hmd]
        · intro i hi
          simp [hne, hmd, hi]
      · simp [hn]

theorem lineToPts_inplace (E : Env) (h : Heap) (d : Nat) (pts : List (ℚ × ℚ))
    (hd : d < h.next)
    (hc : (h.mem d).refCount = 1 ∧ pts.length ≤ (h.mem d).capacity - (h.mem d).length) :
    InPlace h d (lineToPts E h d pts) (pts.map (fun p => ⟨CmdLineTo, p.1, p.2⟩)) := by
  have ha := add_inplace E h d pts.length hc
  have ok := add_eq_some hd ha
  unfold lineToPts
  rw [ha]
  refine ⟨rfl, rfl, by simp, by simp, ?_⟩
  have := verts_add_writeList (pts.map (fun p => (⟨CmdLineTo, p.1, p.2⟩ : Vertex)))
    (by simpa using ok)
  exact this

theorem lineToEach_inplace (E : Env) (h : Heap) (d : Nat) (pts : List (ℚ × ℚ))
    (hd : d < h.next)
    (hc : (h.mem d).refCount = 1 ∧ pts.length ≤ (h.mem d).capacity - (h.mem d).length) :
    InPlace h d (lineToEach E h d pts) (pts.map (fun p => ⟨CmdLineTo, p.1, p.2⟩)) := by
  induction pts generalizing h with
  | nil => exact ⟨rfl, rfl, rfl, rfl, by simp [lineToEach]⟩
  | cons p pts ih =>
    have hc1 : (h.mem d).refCount = 1 ∧ 1 ≤ (h.mem d).capacity - (h.mem d).length := by
      simp only [List.length_cons] at hc
      exact ⟨hc.1, by omega⟩
    have ha := add_inplace E h d 1 hc1
    have ok := add_eq_some hd ha
    have e : lineTo E h d p.1 p.2 =
        ⟨(h.setLength d ((h.mem d).length + 1)).write d (h.mem d).length ⟨CmdLineTo, p.1, p.2⟩,
          d, .Ok⟩ := by
      unfold lineTo; rw [ha]
    have hv := verts_add_writeList [(⟨CmdLineTo, p.1, p.2⟩ : Vertex)] ok
    rw [← write_eq_writeList] at hv
    simp only [lineToEach, e, if_true, List.map_cons]
    have := ih ((h.setLength d ((h.mem d).length + 1)).write d (h.mem d).length
      ⟨CmdLineTo, p.1, p.2⟩) (by simpa using hd)
      (by simp only [List.length_cons] at hc; simp [hc.1]; omega)
    refine ⟨this.err, this.block, by simpa using this.next, by simpa using this.capacity, ?_⟩
    rw [this.verts, hv, List.append_assoc]
    rfl

/-- C29 (amended). For every path `p` of length `l` and every `n`: after `p.reserve(n)`
succeeds, appending `k` vertices with `l + k ≤ n` (`n` is the capacity asked for, not
the number of free slots; `k = n` on an empty path), with one `lineTo` of a `k`-element
array or with `k` calls of `lineTo`, succeeds in place: no allocation is attempted, the
path holds the block `reserve` left, with the capacity `reserve` left, and the vertices
are the old ones followed by the `k` LineTo vertices. -/
theorem reserve_then_append_in_place (E : Env) (h : Heap) (d n : Nat)
    (pts : List (ℚ × ℚ)) (hd : d < h.next) (hok : (reserve E h d n).err = .Ok)
    (hfit : (h.mem d).length + pts.length ≤ n) :
    InPlace (reserve E h d n).heap (reserve E h d n).d
      (lineToPts E (reserve E h d n).heap (reserve E h d n).d pts)
      (pts.map (fun p => ⟨CmdLineTo, p.1, p.2⟩)) ∧
    InPlace (reserve E h d n).heap (reserve E h d n).d
      (lineToEach E (reserve E h d n).heap (reserve E h d n).d pts)
      (pts.map (fun p => ⟨CmdLineTo, p.1, p.2⟩)) ∧
    (reserve E h d n).heap.verts (reserve E h d n).d = h.verts d := by
  obtain ⟨r1, r2, r3, r4, r5⟩ := reserve_room E h d n hd hok
  have hc : ((reserve E h d n).heap.mem (reserve E h d n).d).refCount = 1 ∧
      pts.length ≤ ((reserve E h d n).heap.mem (reserve E h d n).d).capacity -
        ((reserve E h d n).heap.mem (reserve E h d n).d).length := by
    refine ⟨r1, ?_⟩
    rw [r3]; omega
  exact ⟨lineToPts_inplace E _ _ pts r5 hc, lineToEach_inplace E _ _ pts r5 hc, r4⟩

theorem reserve_then_append_in_place_witness :
    exMoved.d < exMoved.heap.next ∧
    (reserve Env.plain exMoved.heap exMoved.d 3).err = .Ok ∧
    (exMoved.heap.mem exMoved.d).length + [((1 : ℚ), (1 : ℚ)), (2, 2)].length ≤ 3 ∧
    (lineToPts Env.plain (reserve Env.plain exMoved.heap exMoved.d 3).heap
        (reserve Env.plain exMoved.heap exMoved.d 3).d [(1, 1), (2, 2)]).d =
      (reserve Env.plain exMoved.heap exMoved.d 3).d ∧
    (lineToPts Env.plain (reserve Env.plain exMoved.heap exMoved.d 3).heap
        (reserve Env.plain exMoved.heap exMoved.d 3).d [(1, 1), (2, 2)]).heap.next =
      (reserve Env.plain exMoved.heap exMoved.d 3).heap.next ∧
    (lineToEach Env.plain (reserve Env.plain exMoved.heap exMoved.d 3).heap
        (reserve Env.plain exMoved.heap exMoved.d 3).d [(1, 1), (2, 2)]).heap.verts
      (reserve Env.plain exMoved.heap exMoved.d 3).d =
      [⟨CmdMoveTo, 10, 10⟩, ⟨CmdLineTo, 1, 1⟩, ⟨CmdLineTo, 2, 2⟩] := by
  have hok : (reserve Env.plain exMoved.heap exMoved.d 3).err = .Ok :=
    reserve_ok Env.plain exMoved.heap exMoved.d 3 rfl
  have hfit : (exMoved.heap.mem exMoved.d).length + [((1 : ℚ), (1 : ℚ)), (2, 2)].length ≤ 3 := by
    decide
  have t := reserve_then_append_in_place Env.plain exMoved.heap exMoved.d 3 [(1, 1), (2, 2)]
    exMoved_appends.lt hok hfit
  refine ⟨exMoved_appends.lt, hok, hfit, t.1.block, t.1.next, ?_⟩
  rw [t.2.1.verts, t.2.2, exMoved_verts]
  rfl

/-! ## The output of the curve loops is not bounded by what they reserve (C23) -/

/-- C23 (failing input). `Path p; p.moveTo(0, 0); p.curveTo(2000, 4000, 4000, 0);
p.flatten();` calls `approximateCurve3` with the curve `(0,0), (2000,4000), (4000,0)` at
scale 1: it reserves 65 vertices with `_add` and stores 119; with the growth policy of
`Env.plain` the block has capacity 99 and the length is set to 120, also at the end of
`flatten()`.  `approximateCurve4` with `(0,0), (4000,8000), (8000,8000), (12000,0)` at
scale 1 reserves 129 and stores 237. -/
theorem approximateCurve_overruns_reserve :
    (approximateCurve3Points Env.plain 300 0 0 2000 4000 4000 0 1 0).map List.length
      = some 119 ∧
    (approximateCurve4Points Env.plain 600 0 0 4000 8000 8000 8000 12000 0 1 0 0).map
      List.length = some 237 ∧
    (approximateCurve3 Env.plain 300 exOrigin.heap exOrigin.d 0 0 2000 4000 4000 0 1 0).map
      (fun o => (o.err, (o.heap.mem o.d).length, (o.heap.mem o.d).capacity))
      = some (.Ok, 120, 99) ∧
    (flatten0 Env.plain 300 exBigCurve.heap exBigCurve.d).map
      (fun o => (o.err, (o.heap.mem o.d).length, (o.heap.mem o.d).capacity))
      = some (.Ok, 120, 99) := by
  refine ⟨by decide!, by decide!, by decide!, by decide!⟩

/-! ## The general branch of the arc (C21) -/

theorem arc_to_bezier_length (E : Env) (cx cy rx ry a b : ℚ) :
    (arc_to_bezier E cx cy rx ry a b).length = 4 := by
  simp [arc_to_bezier]

theorem arc_to_bezier_cmd (E : Env) (cx cy rx ry a b : ℚ) (v : Vertex)
    (hv : v ∈ arc_to_bezier E cx cy rx ry a b) : v.cmd = CmdCurve4 := by
  simp only [arc_to_bezier, List.mem_map] at hv
  obtain ⟨p, -, rfl⟩ := hv
  rfl

/-- One round of the arc loop after `j` rounds: the total sweep becomes `j + 1` quarter
turns (with the sign of `sweep`), and the round is the last one iff `j + 1` quarter turns
reach `|sweep| - bezier_arc_angle_epsilon`. -/
theorem arcStep_round (E : Env) (sweep : ℚ) (j : Nat) :
    (arcStep E sweep ((if sweep < 0 then -1 else 1) * (j * (E.M_PI * (1 / 2))))).2.1 =
      (if sweep < 0 then -1 else 1) * ((j + 1 : Nat) * (E.M_PI * (1 / 2))) ∧
    ((arcStep E sweep ((if sweep < 0 then -1 else 1) * (j * (E.M_PI * (1 / 2))))).2.2 = true ↔
      |sweep| - bezier_arc_angle_epsilon ≤ (j + 1 : Nat) * (E.M_PI * (1 / 2))) := by
  by_cases hs : sweep < 0
  · have ha : |sweep| = -sweep := abs_of_neg hs
    simp only [arcStep, hs, if_true, ha]
    push_cast
    constructor
    · split <;> simp only <;> ring
    · split
      · rename_i c
        simp only [true_iff]
        linarith
      · rename_i c
        simp only [Bool.false_eq_true, false_iff]
        intro c2
        apply c
        linarith
  · have ha : |sweep| = sweep := abs_of_nonneg (not_lt.mp hs)
    simp only [arcStep, hs, if_false, ha]
    push_cast
    constructor
    · split <;> simp only <;> ring
    · split
      · rename_i c
        simp only [true_iff]
        linarith
      · rename_i c
        simp only [Bool.false_eq_true, false_iff]
        intro c2
        apply c
        linarith

theorem writeList_bezier_cmd (E : Env) (h : Heap) (d w : Nat) (cx cy rx ry a b : ℚ) (i : Nat)
    (h1 : w ≤ i) (h2 : i < w + 4) :
    (((h.writeList d w (arc_to_bezier E cx cy rx ry a b)).mem d).data i).cmd = CmdCurve4 := by
  have hl := arc_to_bezier_length E cx cy rx ry a b
  have hk : i - w < (arc_to_bezier E cx cy rx ry a b).length := by rw [hl]; omega
  have e := writeList_data_at h d w (arc_to_bezier E cx cy rx ry a b) (i - w) hk
  rw [show w + (i - w) = i by omega] at e
  rw [e]
  exact arc_to_bezier_cmd E cx cy rx ry a b _ (List.getElem_mem _)

/-- The arc loop, entered after `j` rounds with the cursor at `vs + 1 + 3j`, stops after
round `k`, the first round whose total reaches `|sweep| - bezier_arc_angle_epsilon`: the
cursor ends at `vs + 1 + 3k`, the slots below `vs + 3j` are not touched and the slots
from there up to the cursor carry Curve4. -/
theorem arcLoop_rounds (E : Env) (d : Nat) (cx cy rx ry sweep : ℚ) (vs k : Nat) (hk4 : k ≤ 4)
    (hdone : |sweep| - bezier_arc_angle_epsilon ≤ (k : ℚ) * (E.M_PI * (1 / 2)))
    (hnot : ∀ i : Nat, 1 ≤ i → i < k →
      ¬ (|sweep| - bezier_arc_angle_epsilon ≤ (i : ℚ) * (E.M_PI * (1 / 2)))) :
    ∀ (fuel j : Nat) (s : ArcLoop), j < k → k ≤ j + fuel →
      s.total_sweep = (if sweep < 0 then -1 else 1) * (j * (E.M_PI * (1 / 2))) →
      s.v = vs + 1 + 3 * j →
      (arcLoop E d cx cy rx ry sweep (vs + 13) fuel s).v = vs + 1 + 3 * k ∧
      (∀ i, i < vs + 3 * j →
        ((arcLoop E d cx cy rx ry sweep (vs + 13) fuel s).heap.mem d).data i =
          (s.heap.mem d).data i) ∧
      (∀ i, vs + 3 * j ≤ i → i < vs + 1 + 3 * k →
        (((arcLoop E d cx cy rx ry sweep (vs + 13) fuel s).heap.mem d).data i).cmd
          = CmdCurve4) := by
  intro fuel
  induction fuel with
  | zero => intro j s hj hf; omega
  | succ n ih =>
    intro j s hj hf htot hv
    obtain ⟨r1, r2⟩ := arcStep_round E sweep j
    rw [← htot] at r1 r2
    have hw : s.v - 1 = vs + 3 * j := by omega
    unfold arcLoop
    simp only
    by_cases hlast : j + 1 = k
    · have hd : (arcStep E sweep s.total_sweep).2.2 = true := by
        rw [r2, hlast]; exact hdone
      simp only [hd, not_true_eq_false, false_and, if_false]
      refine ⟨by omega, ?_, ?_⟩
      · intro i hi
        rw [hw]
        exact writeList_data_lt _ _ _ _ _ i hi
      · intro i h1 h2
        rw [hw]
        exact writeList_bezier_cmd E _ _ _ _ _ _ _ _ _ i h1 (by omega)
    · have hlt : j + 1 < k := by omega
      have hd : ¬ ((arcStep E sweep s.total_sweep).2.2 = true) := by
        rw [r2]; exact hnot (j + 1) (by omega) hlt
      have hc : s.v + 3 < vs + 13 := by omega
      simp only [hd, not_false_eq_true, hc, and_self, if_true]
      obtain ⟨a1, a2, a3⟩ := ih (j + 1)
        ⟨s.heap.writeList d (s.v - 1)
          (arc_to_bezier E cx cy rx ry s.start (arcStep E sweep s.total_sweep).1),
          s.v + 3, s.start + (arcStep E sweep s.total_sweep).1,
          (arcStep E sweep s.total_sweep).2.1⟩ hlt (by omega) r1 (by simp only; omega)
      refine ⟨a1, ?_, ?_⟩
      · intro i hi
        refine (a2 i (by omega)).trans ?_
        simp only
        rw [hw]
        exact writeList_data_lt _ _ _ _ _ i hi
      · intro i h1 h2
        by_cases hi : i < vs + 3 * (j + 1)
        · refine (congrArg Vertex.cmd (a2 i hi)).trans ?_
          simp only
          rw [hw]
          exact writeList_bezier_cmd E _ _ _ _ _ _ _ _ _ i h1 (by omega)
        · exact a3 i (by omega) h2

theorem arcBody_general (E : Env) (h : Heap) (d : Nat) (cx cy rx ry start sweep : ℚ)
    (cmd k : Nat) (hd : d < h.next) (hmem : E.oom h.next = false)
    (hs : ¬ |sweep| < 1 / 10000000000) (hk1 : 1 ≤ k) (hk4 : k ≤ 4)
    (hdone : |sweep| - bezier_arc_angle_epsilon ≤ (k : ℚ) * (E.M_PI * (1 / 2)))
    (hnot : ∀ i : Nat, 1 ≤ i → i < k →
      ¬ (|sweep| - bezier_arc_angle_epsilon ≤ (i : ℚ) * (E.M_PI * (1 / 2)))) :
    (arcBody E h d cx cy rx ry start sweep cmd).2.2 = none ∧
    AppendsArc h d (arcBody E h d cx cy rx ry start sweep cmd) cmd k ∧
    ((arcBody E h d cx cy rx ry start sweep cmd).1.mem
      (arcBody E h d cx cy rx ry start sweep cmd).2.1).length = (h.mem d).length + 1 + 3 * k := by
  have hadd := add_ok_of_mem E h d 13 hmem
  unfold arcBody
  simp only [hs, if_false]
  generalize ha : _add E h d 13 = a at hadd
  obtain ⟨h1, d1, v⟩ := a
  simp only at hadd
  subst hadd
  have ok := add_eq_some hd ha
  obtain ⟨a1, a2, a3⟩ := arcLoop_rounds E d1 cx cy rx ry sweep (h.mem d).length k hk4 hdone hnot
    4 0 ⟨h1, (h.mem d).length + 1, start, 0⟩ (by omega) (by omega) (by simp) (by simp)
  simp only
  generalize arcLoop E d1 cx cy rx ry sweep ((h.mem d).length + 13) 4
    ⟨h1, (h.mem d).length + 1, start, 0⟩ = l at a1 a2 a3
  simp only [Nat.mul_zero, Nat.add_zero] at a2 a3
  refine ⟨trivial, ?_, by simp [a1]⟩
  refine ⟨{ (l.heap.mem d1).data (h.mem d).length with cmd := cmd },
    (List.range (3 * k)).map (fun t => (l.heap.mem d1).data ((h.mem d).length + 1 + t)),
    ?_, rfl, by simp, ?_, by simp⟩
  · apply verts_eq_append
    · simp [a1]; omega
    · intro i hi
      have hne : i ≠ (h.mem d).length := Nat.ne_of_lt hi
      simp only [setType_data, setLength_data, Heap.upd_mem, if_true, hne, if_false]
      rw [a2 i hi]
      exact ok.data i hi
    · intro t ht
      cases t with
      | zero => simp
      | succ t =>
        have hne : (h.mem d).length + (t + 1) ≠ (h.mem d).length := by omega
        simp only [setType_data, setLength_data, Heap.upd_mem, if_true, hne, if_false,
          List.getElem_cons_succ, List.getElem_map, List.getElem_range]
        congr 1
        omega
  · intro v hv
    simp only [List.mem_map, List.mem_range] at hv
    obtain ⟨t, ht, rfl⟩ := hv
    exact a3 _ (by omega) (by omega)

theorem arcSweep_abs_le (E : Env) (sweep : ℚ) (hpi : 0 < E.M_PI) :
    |arcSweep E sweep| ≤ 2 * E.M_PI := by
  unfold arcSweep
  rw [abs_le]
  split_ifs <;> constructor <;> linarith

theorem arcTo_eq_arcBody (E : Env) (h : Heap) (d : Nat) (cx cy rx ry start sweep : ℚ)
    (cmd : Nat) (e : (arcBody E h d cx cy rx ry (E.fmod start (2 * E.M_PI)) (arcSweep E sweep)
      cmd).2.2 = none) :
    _arcTo E h d cx cy rx ry start sweep cmd false =
      arcBody E h d cx cy rx ry (E.fmod start (2 * E.M_PI)) (arcSweep E sweep) cmd := by
  unfold _arcTo arcSweep at *
  simp only at e ⊢
  generalize arcBody E h d cx cy rx ry _ _ cmd = b at e ⊢
  obtain ⟨h1, d1, c⟩ := b
  simp only at e
  subst e
  rfl

theorem arcTo_general (E : Env) (h : Heap) (d : Nat) (cx cy rx ry start sweep : ℚ)
    (cmd k : Nat) (hd : d < h.next) (hmem : E.oom h.next = false) (hpi : 3 < E.M_PI)
    (hs : 1 / 10000000000 ≤ |arcSweep E sweep|) (hk1 : 1 ≤ k)
    (hk : |arcSweep E sweep| - bezier_arc_angle_epsilon ≤ (k : ℚ) * (E.M_PI * (1 / 2)))
    (hleast : ∀ j : Nat, 1 ≤ j → j < k →
      (j : ℚ) * (E.M_PI * (1 / 2)) < |arcSweep E sweep| - bezier_arc_angle_epsilon) :
    k ≤ 4 ∧
    AppendsArc h d (_arcTo E h d cx cy rx ry start sweep cmd false) cmd k ∧
    ((_arcTo E h d cx cy rx ry start sweep cmd false).1.mem
      (_arcTo E h d cx cy rx ry start sweep cmd false).2.1).length
        = (h.mem d).length + 1 + 3 * k := by
  have hk4 : k ≤ 4 := by
    by_contra hc
    have h4 := hleast 4 (by omega) (by omega)
    have hle := arcSweep_abs_le E sweep (by linarith)
    have he : (0 : ℚ) < bezier_arc_angle_epsilon := by norm_num [bezier_arc_angle_epsilon]
    push_cast at h4
    linarith
  obtain ⟨b1, b2, b3⟩ := arcBody_general E h d cx cy rx ry (E.fmod start (2 * E.M_PI))
    (arcSweep E sweep) cmd k hd hmem (not_lt.mpr hs) hk1 hk4 hk
    (fun i h1 h2 => not_le.mpr (hleast i h1 h2))
  rw [arcTo_eq_arcBody E h d cx cy rx ry start sweep cmd b1]
  exact ⟨hk4, b2, b3⟩

/-- C21. For every path, center, radii, start angle and every sweep whose clamped value
`s` (to `[-2π, 2π]`) has `|s| ≥ 1e-10`, when the allocation `_add` may need does not
fail (and `M_PI` is above 3): with `k` the least positive integer such that
`k·(π/2) ≥ |s| - 0.01`, `k` is at most 4 and the arc primitive called without closing
appends exactly `1 + 3k` vertices, the first with the initial command and all others
with Curve4, and leaves the type CurveType; so do `arcTo` (initial command LineTo),
`addArc` with a center and radii and `addArc` with a valid rectangle (MoveTo). -/
theorem arc_appends_quarter_turns (E : Env) (h : Heap) (d : Nat)
    (cx cy rx ry start sweep : ℚ) (k : Nat)
    (hd : d < h.next) (hmem : E.oom h.next = false) (hpi : 3 < E.M_PI)
    (hs : 1 / 10000000000 ≤ |arcSweep E sweep|) (hk1 : 1 ≤ k)
    (hk : |arcSweep E sweep| - bezier_arc_angle_epsilon ≤ (k : ℚ) * (E.M_PI * (1 / 2)))
    (hleast : ∀ j : Nat, 1 ≤ j → j < k →
      (j : ℚ) * (E.M_PI * (1 / 2)) < |arcSweep E sweep| - bezier_arc_angle_epsilon) :
    k ≤ 4 ∧
    (∀ cmd, AppendsArc h d (_arcTo E h d cx cy rx ry start sweep cmd false) cmd k ∧
      ((_arcTo E h d cx cy rx ry start sweep cmd false).1.mem
        (_arcTo E h d cx cy rx ry start sweep cmd false).2.1).length
          = (h.mem d).length + 1 + 3 * k) ∧
    AppendsArc h d (arcTo E h d cx cy rx ry start sweep) CmdLineTo k ∧
    AppendsArc h d (addArcCenter E h d ⟨cx, cy⟩ ⟨rx, ry⟩ start sweep) CmdMoveTo k ∧
    (∀ r : RectF, r.isValid = true →
      AppendsArc h d (addArc E h d r start sweep) CmdMoveTo k) := by
  have t := fun cx cy rx ry cmd =>
    arcTo_general E h d cx cy rx ry start sweep cmd k hd hmem hpi hs hk1 hk hleast
  refine ⟨(t cx cy rx ry 0).1, fun cmd => (t cx cy rx ry cmd).2, (t cx cy rx ry _).2.1,
    (t cx cy rx ry _).2.1, ?_⟩
  intro r hr
  have e : addArc E h d r start sweep =
      _arcTo E h d (r.x + r.w / 2) (r.y + r.h / 2) (r.w / 2) (r.h / 2) start sweep
        CmdMoveTo false := by
    simp [addArc, hr]
  rw [e]
  exact (t _ _ _ _ _).2.1

theorem arc_appends_quarter_turns_witness :
    exMoved.d < exMoved.heap.next ∧ Env.plain.oom exMoved.heap.next = false ∧
    (3 : ℚ) < Env.plain.M_PI ∧
    arcSweep Env.plain 7 = 2 * Env.plain.M_PI ∧
    AppendsArc exMoved.heap exMoved.d
      (arcTo Env.plain exMoved.heap exMoved.d 3 4 2 1 0 7) CmdLineTo 4 ∧
    ((arcTo Env.plain exMoved.heap exMoved.d 3 4 2 1 0 7).1.mem
      (arcTo Env.plain exMoved.heap exMoved.d 3 4 2 1 0 7).2.1).length = 14 ∧
    ((arcTo Env.plain exMoved.heap exMoved.d 3 4 2 1 0 3).1.mem
      (arcTo Env.plain exMoved.heap exMoved.d 3 4 2 1 0 3).2.1).length = 8 := by
  have hpi : (3 : ℚ) < Env.plain.M_PI := by norm_num [Env.plain]
  have e7 : arcSweep Env.plain 7 = 2 * Env.plain.M_PI := by
    norm_num [arcSweep, Env.plain]
  have e3 : arcSweep Env.plain 3 = 3 := by
    norm_num [arcSweep, Env.plain]
  have hl : (exMoved.heap.mem exMoved.d).length = 1 := by
    have := congrArg List.length exMoved_verts
    simpa using this
  have a7 : |arcSweep Env.plain 7| = 710 / 113 := by
    rw [e7, abs_of_pos (by norm_num [Env.plain])]; norm_num [Env.plain]
  have a3 : |arcSweep Env.plain 3| = 3 := by
    rw [e3, abs_of_pos (by norm_num)]
  have t7 := arc_appends_quarter_turns Env.plain exMoved.heap exMoved.d 3 4 2 1 0 7 4
    exMoved_appends.lt rfl hpi
    (by rw [a7]; norm_num [Env.plain])
    (by decide)
    (by rw [a7]; norm_num [Env.plain, bezier_arc_angle_epsilon])
    (by
      intro j h1 h2
      rw [a7]
      interval_cases j <;> norm_num [Env.plain, bezier_arc_angle_epsilon])
  have t3 := arc_appends_quarter_turns Env.plain exMoved.heap exMoved.d 3 4 2 1 0 3 2
    exMoved_appends.lt rfl hpi
    (by rw [a3]; norm_num)
    (by decide)
    (by rw [a3]; norm_num [Env.plain, bezier_arc_angle_epsilon])
    (by
      intro j h1 h2
      rw [a3]
      interval_cases j
      norm_num [Env.plain, bezier_arc_angle_epsilon])
  refine ⟨exMoved_appends.lt, rfl, hpi, e7, t7.2.2.1, ?_, ?_⟩
  · have := (t7.2.1 CmdLineTo).2
    rw [hl] at this
    exact this
  · have := (t3.2.1 CmdLineTo).2
    rw [hl] at this
    exact this

/-! ## Draining a vertex source (C28) -/

/-- One chunk of `concatToPath` on a source that yields `vs` and then Stop: the cursor
advances by `min i vs.length`, the loop leaves through `done` iff `vs.length < i`, the
vertices stored from `v` on are those of `vs`, and nothing else a path shows changes. -/
theorem concatChunk_spec {σ : Type} (V : VertexStorage σ) (d : Nat) :
    ∀ (i : Nat) (h : Heap) (v : Nat) (s : σ) (vs : List Vertex), Yields V s vs →
      (concatChunk V d i h v s).2.1 = v + min i vs.length ∧
      ((concatChunk V d i h v s).2.2.2 = true ↔ vs.length < i) ∧
      (i ≤ vs.length → Yields V (concatChunk V d i h v s).2.2.1 (vs.drop i)) ∧
      (concatChunk V d i h v s).1.next = h.next ∧
      (∀ j, j < v → ((concatChunk V d i h v s).1.mem d).data j = (h.mem d).data j) ∧
      (∀ t (ht : t < vs.length), t < i →
        ((concatChunk V d i h v s).1.mem d).data (v + t) = vs[t]) := by
  intro i
  induction i with
  | zero =>
    intro h v s vs hy
    simp only [concatChunk]
    refine ⟨by simp, by simp, fun _ => by simpa using hy, trivial, fun _ _ => trivial, ?_⟩
    intro t _ ht
    omega
  | succ i ih =>
    intro h v s vs hy
    cases vs with
    | nil =>
      have hs : (V.vertex s).1 = CmdStop := hy
      simp only [concatChunk, hs, if_true]
      refine ⟨by simp, by simp, fun hc => by simp at hc, by simp, ?_, ?_⟩
      · intro j hj
        simp [Nat.ne_of_lt hj]
      · intro t ht
        simp at ht
    | cons v0 rest =>
      obtain ⟨y1, y2, y3, y4⟩ := hy
      have hne : ¬ ((V.vertex s).1 = CmdStop) := by rw [y1]; exact y2
      have hw : (⟨(V.vertex s).1,
          ((V.vertex s).2.1.getD (((h.mem d).data v).x, ((h.mem d).data v).y)).1,
          ((V.vertex s).2.1.getD (((h.mem d).data v).x, ((h.mem d).data v).y)).2⟩ : Vertex)
          = v0 := by
        rw [y1, y3]
        rfl
      simp only [concatChunk, hne, if_false, hw]
      obtain ⟨a1, a2, a3, a4, a5, a6⟩ := ih (h.write d v v0) (v + 1) (V.vertex s).2.2 rest y4
      refine ⟨?_, ?_, ?_, ?_, ?_, ?_⟩
      · rw [a1]
        simp only [List.length_cons]
        omega
      · rw [a2]
        simp only [List.length_cons]
        omega
      · intro hc
        simp only [List.length_cons] at hc
        simpa using a3 (by omega)
      · rw [a4]; simp
      · intro j hj
        rw [a5 j (by omega)]
        simp [Nat.ne_of_lt hj]
      · intro t ht hti
        cases t with
        | zero =>
          have := a5 v (by omega)
          simpa using this
        | succ t =>
          simp only [List.length_cons] at ht
          have := a6 t (by omega) (by omega)
          rw [show v + (t + 1) = v + 1 + t by omega, this]
          simp

theorem concatChunk_mem_ne {σ : Type} (V : VertexStorage σ) (d : Nat) (q : Nat) (hq : q ≠ d) :
    ∀ (i : Nat) (h : Heap) (v : Nat) (s : σ), (concatChunk V d i h v s).1.mem q = h.mem q := by
  intro i
  induction i with
  | zero => intro h v s; rfl
  | succ i ih =>
    intro h v s
    simp only [concatChunk]
    split
    · exact write_mem_ne _ _ _ _ _ hq
    · rw [ih]; exact write_mem_ne _ _ _ _ _ hq

theorem concatLoop_spec {σ : Type} (E : Env) (V : VertexStorage σ)
    (hmem : ∀ k, E.oom k = false) :
    ∀ (fuel : Nat) (h : Heap) (d len step : Nat) (s : σ) (rest : List Vertex),
      d < h.next → len = (h.mem d).length → 1 ≤ step → Yields V s rest →
      rest.length + 1 ≤ fuel →
      ∃ r, concatLoop E V fuel h d len step s = some r ∧ r.err = .Ok ∧
        r.heap.verts r.d = h.verts d ++ rest := by
  intro fuel
  induction fuel with
  | zero => intro h d len step s rest _ _ _ _ hf; omega
  | succ n ih =>
    intro h d len step s rest hd hlen hstep hy hf
    have hok := reserve_ok E h d (len + step) (hmem _)
    obtain ⟨-, -, r3, r4, r5⟩ := reserve_room E h d (len + step) hd hok
    unfold concatLoop
    simp only [hok, ne_eq, not_true_eq_false, if_false]
    generalize reserve E h d (len + step) = rr at r3 r4 r5
    obtain ⟨c1, c2, c3, c4, c5, c6⟩ := concatChunk_spec V rr.d step rr.heap len s rest hy
    have hl : (rr.heap.mem rr.d).length = len := by rw [r3, hlen]
    by_cases hlt : rest.length < step
    · have hdone : (concatChunk V rr.d step rr.heap len s).2.2.2 = true := c2.mpr hlt
      simp only [hdone, if_true]
      refine ⟨_, rfl, rfl, ?_⟩
      rw [← r4]
      apply verts_eq_append
      · simp only [setLength_length, if_true, c1, hl]
        omega
      · intro j hj
        simp only [setLength_data]
        exact c5 j (by omega)
      · intro t ht
        simp only [setLength_data, hl]
        exact c6 t ht (by omega)
    · have hge : step ≤ rest.length := by omega
      have hdone : ¬ ((concatChunk V rr.d step rr.heap len s).2.2.2 = true) :=
        fun e => hlt (c2.mp e)
      simp only [hdone, if_false]
      have hstep2 : 1 ≤ (if step < 1024 * 1024 then step <<< 1 else step) := by
        split
        · rw [Nat.shiftLeft_eq]; omega
        · exact hstep
      have htake : ((concatChunk V rr.d step rr.heap len s).1.setLength rr.d (len + step)).verts
          rr.d = rr.heap.verts rr.d ++ rest.take step := by
        apply verts_eq_append
        · simp only [setLength_length, if_true, hl, List.length_take]
          omega
        · intro j hj
          simp only [setLength_data]
          exact c5 j (by omega)
        · intro t ht
          simp only [List.length_take] at ht
          simp only [setLength_data, hl, List.getElem_take]
          exact c6 t (by omega) (by omega)
      obtain ⟨r, e1, e2, e3⟩ := ih
        ((concatChunk V rr.d step rr.heap len s).1.setLength rr.d (len + step)) rr.d
        (len + step) (if step < 1024 * 1024 then step <<< 1 else step)
        (concatChunk V rr.d step rr.heap len s).2.2.1 (rest.drop step)
        (by simp only [setLength_next, c4]; exact r5) (by simp) hstep2 (c3 hge)
        (by simp only [List.length_drop]; omega)
      refine ⟨r, e1, e2, ?_⟩
      rw [e3, htake, r4, List.append_assoc, List.take_append_drop]

/-- C28. For every destination path and every vertex source that, after
`rewind(path_id)`, yields the vertices `vs` (none with the command Stop) and then Stop:
when no allocation fails, `concatToPath` ends (within `vs.length + 1` rounds of its
outer loop, for every length of `vs`, also 0 and above the first chunk of 1024) and
returns success with the destination holding its old vertices followed by exactly `vs`;
the Stop is not among them. -/
theorem concatToPath_drains {σ : Type} (E : Env) (V : VertexStorage σ) (h : Heap)
    (dst : Nat) (src : σ) (path_id : Nat) (vs : List Vertex) (fuel : Nat)
    (hd : dst < h.next) (hmem : ∀ k, E.oom k = false)
    (hy : Yields V (V.rewind src path_id) vs) (hf : vs.length + 1 ≤ fuel) :
    ∃ r, concatToPath E V fuel h dst src path_id = some r ∧ r.err = .Ok ∧
      r.heap.verts r.d = h.verts dst ++ vs ∧
      (r.heap.mem r.d).length = (h.mem dst).length + vs.length := by
  obtain ⟨r, e1, e2, e3⟩ := concatLoop_spec E V hmem fuel h dst (length h dst) 1024
    (V.rewind src path_id) vs hd rfl (by decide) hy hf
  refine ⟨r, e1, e2, e3, ?_⟩
  have := congrArg List.length e3
  simpa using this

theorem listStorage_yields (all vs : List Vertex) (hv : ∀ v ∈ vs, v.cmd ≠ CmdStop) :
    Yields listStorage (all, vs) vs := by
  induction vs with
  | nil => rfl
  | cons v vs ih =>
    refine ⟨rfl, hv v (List.mem_cons_self _ _), rfl, ?_⟩
    exact ih (fun w hw => hv w (List.mem_cons_of_mem _ hw))

theorem concatToPath_drains_witness :
    exMoved.d < exMoved.heap.next ∧ (∀ k, Env.plain.oom k = false) ∧
    Yields listStorage
      (listStorage.rewind (List.replicate 1025 ⟨CmdLineTo, 1, 2⟩, []) 0)
      (List.replicate 1025 ⟨CmdLineTo, 1, 2⟩) ∧
    (∃ r, concatToPath Env.plain listStorage 1026 exMoved.heap exMoved.d
        (List.replicate 1025 ⟨CmdLineTo, 1, 2⟩, []) 0 = some r ∧ r.err = .Ok ∧
      r.heap.verts r.d = [⟨CmdMoveTo, 10, 10⟩] ++ List.replicate 1025 ⟨CmdLineTo, 1, 2⟩ ∧
      (r.heap.mem r.d).length = 1026) := by
  have hy : Yields listStorage
      (listStorage.rewind (List.replicate 1025 ⟨CmdLineTo, 1, 2⟩, []) 0)
      (List.replicate 1025 ⟨CmdLineTo, 1, 2⟩) := by
    apply listStorage_yields
    intro v hv
    rw [List.eq_of_mem_replicate hv]
    decide
  have hl : (exMoved.heap.mem exMoved.d).length = 1 := by
    have := congrArg List.length exMoved_verts
    simpa using this
  obtain ⟨r, e1, e2, e3, e4⟩ := concatToPath_drains Env.plain listStorage exMoved.heap
    exMoved.d (List.replicate 1025 ⟨CmdLineTo, 1, 2⟩, []) 0
    (List.replicate 1025 ⟨CmdLineTo, 1, 2⟩) 1026 exMoved_appends.lt (fun _ => rfl) hy
    (Nat.le_of_eq (by rw [List.length_replicate]))
  refine ⟨exMoved_appends.lt, fun _ => rfl, hy, r, e1, e2, ?_, ?_⟩
  · rw [e3, exMoved_verts]
  · rw [e4, hl, List.length_replicate]

/-! ## The subdivision loop of `approximateCurve3` ends in exact arithmetic (C26) -/

theorem sq_le_of_abs_le {a m : ℚ} (h : |a| ≤ m) : a * a ≤ m * m := by
  have h0 : 0 ≤ |a| := abs_nonneg a
  have : |a| * |a| ≤ m * m := mul_le_mul h h h0 (le_trans h0 h)
  rwa [abs_mul_abs_self] at this

/-- A curve whose control polygon is small against the tolerance is accepted by the tests
of the loop: the round does not subdivide. -/
theorem curve3Test_of_small (E : Env) (c : ApproximateCurve3Data) (m tol ang : ℚ)
    (w : Curve3Within c m) (hm : 2 * (m * m) < tol)
    (ha : ang < curve_angle_tolerance_epsilon) :
    (curve3Test E c tol ang).isSome = true := by
  obtain ⟨w1, w2, w3, w4⟩ := w
  have s1 := sq_le_of_abs_le w1
  have s2 := sq_le_of_abs_le w2
  have s3 := sq_le_of_abs_le w3
  have s4 := sq_le_of_abs_le w4
  have hA : squareDistance c.x2 c.y2 c.x1 c.y1 < tol := by
    unfold squareDistance
    simp only
    have e1 : (c.x1 - c.x2) * (c.x1 - c.x2) = (c.x2 - c.x1) * (c.x2 - c.x1) := by ring
    have e2 : (c.y1 - c.y2) * (c.y1 - c.y2) = (c.y2 - c.y1) * (c.y2 - c.y1) := by ring
    rw [e1, e2]
    linarith
  have hB : squareDistance c.x2 c.y2 c.x3 c.y3 < tol := by
    unfold squareDistance
    simp only
    linarith
  have hC : squareDistance c.x1 c.y1 c.x2 c.y2 < tol := by
    unfold squareDistance
    simp only
    linarith
  have key : |(c.x2 - c.x3) * (c.y3 - c.y1) - (c.y2 - c.y3) * (c.x3 - c.x1)| *
      |(c.x2 - c.x3) * (c.y3 - c.y1) - (c.y2 - c.y3) * (c.x3 - c.x1)| ≤
      tol * ((c.x3 - c.x1) * (c.x3 - c.x1) + (c.y3 - c.y1) * (c.y3 - c.y1)) := by
    rw [abs_mul_abs_self]
    have lag : ((c.x2 - c.x3) * (c.y3 - c.y1) - (c.y2 - c.y3) * (c.x3 - c.x1)) *
        ((c.x2 - c.x3) * (c.y3 - c.y1) - (c.y2 - c.y3) * (c.x3 - c.x1)) =
        ((c.x3 - c.x2) * (c.x3 - c.x2) + (c.y3 - c.y2) * (c.y3 - c.y2)) *
        ((c.x3 - c.x1) * (c.x3 - c.x1) + (c.y3 - c.y1) * (c.y3 - c.y1)) -
        ((c.x3 - c.x2) * (c.x3 - c.x1) + (c.y3 - c.y2) * (c.y3 - c.y1)) *
        ((c.x3 - c.x2) * (c.x3 - c.x1) + (c.y3 - c.y2) * (c.y3 - c.y1)) := by ring
    have hn : 0 ≤ (c.x3 - c.x1) * (c.x3 - c.x1) + (c.y3 - c.y1) * (c.y3 - c.y1) :=
      add_nonneg (mul_self_nonneg _) (mul_self_nonneg _)
    have hb : (c.x3 - c.x2) * (c.x3 - c.x2) + (c.y3 - c.y2) * (c.y3 - c.y2) ≤ tol := by
      linarith
    have h2 := mul_le_mul_of_nonneg_right hb hn
    have h3 := mul_self_nonneg ((c.x3 - c.x2) * (c.x3 - c.x1) + (c.y3 - c.y2) * (c.y3 - c.y1))
    rw [lag]
    linarith
  unfold curve3Test
  simp only
  split_ifs <;> first | rfl | contradiction | skip
  rename_i a b c e
  exact absurd ⟨not_le.mp b, not_le.mp c⟩ a

theorem abs_half_le {a m : ℚ} (h : |a| ≤ m) : |a / 2| ≤ m / 2 := by
  rw [abs_div, abs_of_pos (by norm_num : (0 : ℚ) < 2)]
  linarith

theorem abs_quarter_le {a b m : ℚ} (ha : |a| ≤ m) (hb : |b| ≤ m) : |(a + b) / 4| ≤ m / 2 := by
  rw [abs_div, abs_of_pos (by norm_num : (0 : ℚ) < 4)]
  have := abs_add a b
  linarith

/-- The two halves the loop of `approximateCurve3` goes on with have control polygons half
as large. -/
theorem curve3Within_halves (c : ApproximateCurve3Data) (m : ℚ) (w : Curve3Within c m) :
    Curve3Within
      { c with x2 := (c.x1 + c.x2) / 2, y2 := (c.y1 + c.y2) / 2,
               x3 := ((c.x1 + c.x2) / 2 + (c.x2 + c.x3) / 2) / 2,
               y3 := ((c.y1 + c.y2) / 2 + (c.y2 + c.y3) / 2) / 2 } (m / 2) ∧
    Curve3Within
      ⟨((c.x1 + c.x2) / 2 + (c.x2 + c.x3) / 2) / 2, ((c.y1 + c.y2) / 2 + (c.y2 + c.y3) / 2) / 2,
        (c.x2 + c.x3) / 2, (c.y2 + c.y3) / 2, c.x3, c.y3⟩ (m / 2) := by
  obtain ⟨w1, w2, w3, w4⟩ := w
  refine ⟨⟨?_, ?_, ?_, ?_⟩, ⟨?_, ?_, ?_, ?_⟩⟩
  · have e : (c.x1 + c.x2) / 2 - c.x1 = (c.x2 - c.x1) / 2 := by ring
    simp only [e]; exact abs_half_le w1
  · have e : (c.y1 + c.y2) / 2 - c.y1 = (c.y2 - c.y1) / 2 := by ring
    simp only [e]; exact abs_half_le w2
  · have e : ((c.x1 + c.x2) / 2 + (c.x2 + c.x3) / 2) / 2 - (c.x1 + c.x2) / 2 =
        ((c.x2 - c.x1) + (c.x3 - c.x2)) / 4 := by ring
    simp only [e]; exact abs_quarter_le w1 w3
  · have e : ((c.y1 + c.y2) / 2 + (c.y2 + c.y3) / 2) / 2 - (c.y1 + c.y2) / 2 =
        ((c.y2 - c.y1) + (c.y3 - c.y2)) / 4 := by ring
    simp only [e]; exact abs_quarter_le w2 w4
  · have e : (c.x2 + c.x3) / 2 - ((c.x1 + c.x2) / 2 + (c.x2 + c.x3) / 2) / 2 =
        ((c.x2 - c.x1) + (c.x3 - c.x2)) / 4 := by ring
    simp only [e]; exact abs_quarter_le w1 w3
  · have e : (c.y2 + c.y3) / 2 - ((c.y1 + c.y2) / 2 + (c.y2 + c.y3) / 2) / 2 =
        ((c.y2 - c.y1) + (c.y3 - c.y2)) / 4 := by ring
    simp only [e]; exact abs_quarter_le w2 w4
  · have e : c.x3 - (c.x2 + c.x3) / 2 = (c.x3 - c.x2) / 2 := by ring
    simp only [e]; exact abs_half_le w3
  · have e : c.y3 - (c.y2 + c.y3) / 2 = (c.y3 - c.y2) / 2 := by ring
    simp only [e]; exact abs_half_le w4

/-- Processing the curve `c` with the stack `stack`: after finitely many rounds the loop
is at `ret` with the same stack, having added some points, the curve then in `x1 .. y3`
ending where `c` ends. -/
theorem curve3_subtree (E : Env) (tol ang : ℚ) (ha : ang < curve_angle_tolerance_epsilon) :
    ∀ (n : Nat) (c : ApproximateCurve3Data) (m : ℚ), Curve3Within c m →
      2 * ((m / 2 ^ n) * (m / 2 ^ n)) < tol →
      ∀ (stack : List ApproximateCurve3Data) (out : List (ℚ × ℚ)),
      ∃ (steps : Nat) (pts : List (ℚ × ℚ)) (cf : ApproximateCurve3Data),
        cf.x3 = c.x3 ∧ cf.y3 = c.y3 ∧
        ∀ fuel, approximateCurve3Loop E tol ang (fuel + steps) c stack out =
          match stack with
          | [] => some (out ++ pts, cf)
          | top :: rest => approximateCurve3Loop E tol ang fuel top rest (out ++ pts) := by
  intro n
  induction n with
  | zero =>
    intro c m w hm stack out
    have hs := curve3Test_of_small E c m tol ang w (by simpa using hm) ha
    obtain ⟨pts, hT⟩ := Option.isSome_iff_exists.mp hs
    refine ⟨1, pts, c, rfl, rfl, fun fuel => ?_⟩
    cases stack <;> simp [approximateCurve3Loop, hT]
  | succ n ih =>
    intro c m w hm stack out
    cases hT : curve3Test E c tol ang with
    | some pts =>
      refine ⟨1, pts, c, rfl, rfl, fun fuel => ?_⟩
      cases stack <;> simp [approximateCurve3Loop, hT]
    | none =>
      by_cases hlim : stack.length < APPROXIMATE_CURVE3_RECURSION_LIMIT
      · obtain ⟨wl, wr⟩ := curve3Within_halves c m w
        have hm2 : 2 * ((m / 2 / 2 ^ n) * (m / 2 / 2 ^ n)) < tol := by
          have e : m / 2 / 2 ^ n = m / 2 ^ (n + 1) := by
            rw [pow_succ, div_div, mul_comm]
          rw [e]; exact hm
        obtain ⟨s1, p1, cf1, -, -, e1⟩ := ih _ (m / 2) wl hm2
          (⟨((c.x1 + c.x2) / 2 + (c.x2 + c.x3) / 2) / 2,
            ((c.y1 + c.y2) / 2 + (c.y2 + c.y3) / 2) / 2,
            (c.x2 + c.x3) / 2, (c.y2 + c.y3) / 2, c.x3, c.y3⟩ :: stack) out
        obtain ⟨s2, p2, cf2, f1, f2, e2⟩ := ih _ (m / 2) wr hm2 stack (out ++ p1)
        refine ⟨s2 + s1 + 1, p1 ++ p2, cf2, f1, f2, fun fuel => ?_⟩
        have r1 : approximateCurve3Loop E tol ang (fuel + (s2 + s1 + 1)) c stack out =
            approximateCurve3Loop E tol ang (fuel + s2 + s1)
              { c with x2 := (c.x1 + c.x2) / 2, y2 := (c.y1 + c.y2) / 2,
                       x3 := ((c.x1 + c.x2) / 2 + (c.x2 + c.x3) / 2) / 2,
                       y3 := ((c.y1 + c.y2) / 2 + (c.y2 + c.y3) / 2) / 2 }
              (⟨((c.x1 + c.x2) / 2 + (c.x2 + c.x3) / 2) / 2,
                ((c.y1 + c.y2) / 2 + (c.y2 + c.y3) / 2) / 2,
                (c.x2 + c.x3) / 2, (c.y2 + c.y3) / 2, c.x3, c.y3⟩ :: stack) out := by
          rw [show fuel + (s2 + s1 + 1) = (fuel + s2 + s1) + 1 by omega]
          simp [approximateCurve3Loop, hT, hlim]
        rw [r1, e1 (fuel + s2)]
        simp only
        rw [e2 fuel, List.append_assoc]
      · refine ⟨1, [], c, rfl, rfl, fun fuel => ?_⟩
        cases stack with
        | nil => exact absurd (by decide) hlim
        | cons top rest =>
          simp only [approximateCurve3Loop, hT, hlim, if_false, List.append_nil]

theorem exists_small_pow (m tol : ℚ) (ht : 0 < tol) :
    ∃ n : Nat, 2 * ((m / 2 ^ n) * (m / 2 ^ n)) < tol := by
  obtain ⟨n, hn⟩ := pow_unbounded_of_one_lt (2 * (m * m) / tol) (one_lt_two : (1 : ℚ) < 2)
  refine ⟨n, ?_⟩
  have hp : (0 : ℚ) < 2 ^ n := pow_pos (by norm_num) n
  have h1 : (1 : ℚ) ≤ 2 ^ n := one_le_pow₀ (by norm_num)
  have e : (m / 2 ^ n) * (m / 2 ^ n) = (m * m) / (2 ^ n * 2 ^ n) := by
    field_simp
  have hmm : 0 ≤ m * m := mul_self_nonneg m
  have h2 : 2 * (m * m) < tol * 2 ^ n := by
    rw [div_lt_iff₀ ht] at hn
    linarith
  rw [e, ← mul_div_assoc, div_lt_iff₀ (mul_pos hp hp)]
  have h3 : tol * 2 ^ n ≤ tol * (2 ^ n * 2 ^ n) := by
    have : (2 : ℚ) ^ n ≤ 2 ^ n * 2 ^ n := by nlinarith
    exact mul_le_mul_of_nonneg_left this (le_of_lt ht)
  linarith

/-- The loop of `approximateCurve3` ends: with enough rounds of fuel the points stored
are some list `pts` followed by the end point the caller passed. -/
theorem curve3_points (E : Env) (x1 y1 x2 y2 x3 y3 scale ang : ℚ) (hs : 0 < scale)
    (ha : ang < curve_angle_tolerance_epsilon) :
    ∃ (steps : Nat) (pts : List (ℚ × ℚ)), ∀ fuel, steps ≤ fuel →
      approximateCurve3Points E fuel x1 y1 x2 y2 x3 y3 scale ang =
        some ((pts ++ [(x3, y3)]).map (fun p => ⟨CmdLineTo, p.1, p.2⟩)) := by
  have ht : 0 < 1 / 2 / scale * (1 / 2 / scale) := by positivity
  have w : Curve3Within ⟨x1, y1, x2, y2, x3, y3⟩
      (|x2 - x1| + |y2 - y1| + |x3 - x2| + |y3 - y2|) := by
    have a1 := abs_nonneg (x2 - x1)
    have a2 := abs_nonneg (y2 - y1)
    have a3 := abs_nonneg (x3 - x2)
    have a4 := abs_nonneg (y3 - y2)
    refine ⟨?_, ?_, ?_, ?_⟩ <;> simp only <;> linarith
  obtain ⟨n, hn⟩ := exists_small_pow (|x2 - x1| + |y2 - y1| + |x3 - x2| + |y3 - y2|) _ ht
  obtain ⟨steps, pts, cf, f1, f2, e⟩ := curve3_subtree E _ ang ha n _ _ w hn [] []
  refine ⟨steps, pts, fun fuel hf => ?_⟩
  have e2 := e (fuel - steps)
  rw [Nat.sub_add_cancel hf] at e2
  simp only at e2 f1 f2
  unfold approximateCurve3Points
  simp only [e2, f1, f2, List.nil_append]

/-- C26. For every input `(x1,y1), (x2,y2), (x3,y3)`, every `approximationScale > 0` and
every angle tolerance below `curve_angle_tolerance_epsilon` (the default 0 among
them), in exact arithmetic: there is a number of rounds after which the subdivision loop
of `approximateCurve3` has reached its `break`; with that much fuel or more the function
returns. -/
theorem approximateCurve3_terminates (E : Env) (x1 y1 x2 y2 x3 y3 scale ang : ℚ)
    (hs : 0 < scale) (ha : ang < curve_angle_tolerance_epsilon) :
    ∃ steps : Nat, ∀ fuel, steps ≤ fuel →
      (approximateCurve3Loop E (1 / 2 / scale * (1 / 2 / scale)) ang fuel
        ⟨x1, y1, x2, y2, x3, y3⟩ [] []).isSome = true ∧
      (approximateCurve3Points E fuel x1 y1 x2 y2 x3 y3 scale ang).isSome = true ∧
      ∀ h dst, (approximateCurve3 E fuel h dst x1 y1 x2 y2 x3 y3 scale ang).isSome = true := by
  obtain ⟨steps, pts, e⟩ := curve3_points E x1 y1 x2 y2 x3 y3 scale ang hs ha
  refine ⟨steps, fun fuel hf => ?_⟩
  have e1 := e fuel hf
  refine ⟨?_, by rw [e1]; rfl, ?_⟩
  · unfold approximateCurve3Points at e1
    simp only at e1
    cases hl : approximateCurve3Loop E (1 / 2 / scale * (1 / 2 / scale)) ang fuel
      ⟨x1, y1, x2, y2, x3, y3⟩ [] [] with
    | none => rw [hl] at e1; simp at e1
    | some r => rfl
  · intro h dst
    unfold approximateCurve3
    generalize _add E h dst (APPROXIMATE_CURVE3_RECURSION_LIMIT * 2 + 1) = a
    obtain ⟨h1, d1, v⟩ := a
    cases v with
    | none => rfl
    | some v => simp only [e1]; rfl

theorem approximateCurve3_terminates_witness :
    (0 : ℚ) < 1 ∧ (0 : ℚ) < curve_angle_tolerance_epsilon ∧
    (∃ steps : Nat, ∀ fuel, steps ≤ fuel →
      (approximateCurve3Points Env.plain fuel 0 0 1 1 2 0 1 0).isSome = true) ∧
    (approximateCurve3Points Env.plain 3 0 0 1 1 2 0 1 0).isSome = true ∧
    (approximateCurve3Points Env.plain 2 0 0 1 1 2 0 1 0).isSome = false := by
  have h1 : (0 : ℚ) < 1 := by norm_num
  have h2 : (0 : ℚ) < curve_angle_tolerance_epsilon := by
    norm_num [curve_angle_tolerance_epsilon]
  obtain ⟨steps, e⟩ := approximateCurve3_terminates Env.plain 0 0 1 1 2 0 1 0 h1 h2
  exact ⟨h1, h2, ⟨steps, fun fuel hf => (e fuel hf).2.1⟩, by decide!, by decide!⟩

/-- In exact arithmetic (the tolerance an exact rational, which is positive for every
positive scale): for every input `(x1,y1), (x2,y2), (x3,y3)`, every
`approximationScale > 0` and every angle tolerance below `curve_angle_tolerance_epsilon`
(the default 0 among them), `approximateCurve3` ends, and the vertices it stores are a
non-empty list, all with the command LineTo, whose last vertex is the end point
`(x3, y3)` the caller passed. -/
theorem approximateCurve3_ends_at_end_point (E : Env) (x1 y1 x2 y2 x3 y3 scale ang : ℚ)
    (hs : 0 < scale) (ha : ang < curve_angle_tolerance_epsilon) :
    ∃ steps : Nat, ∀ fuel, steps ≤ fuel →
      ∃ vs, approximateCurve3Points E fuel x1 y1 x2 y2 x3 y3 scale ang = some vs ∧
        vs ≠ [] ∧ (∀ v ∈ vs, v.cmd = CmdLineTo) ∧
        vs.getLast? = some ⟨CmdLineTo, x3, y3⟩ := by
  obtain ⟨steps, pts, e⟩ := curve3_points E x1 y1 x2 y2 x3 y3 scale ang hs ha
  refine ⟨steps, fun fuel hf => ⟨_, e fuel hf, ?_, ?_, ?_⟩⟩
  · simp
  · intro v hv
    simp only [List.mem_map] at hv
    obtain ⟨p, -, rfl⟩ := hv
    rfl
  · simp [List.getLast?_append]

theorem approximateCurve3_ends_at_end_point_witness :
    (0 : ℚ) < 1 ∧ (0 : ℚ) < curve_angle_tolerance_epsilon ∧
    (∃ steps : Nat, ∀ fuel, steps ≤ fuel →
      ∃ vs, approximateCurve3Points Env.plain fuel 0 0 1 1 2 0 1 0 = some vs ∧
        vs ≠ [] ∧ (∀ v ∈ vs, v.cmd = CmdLineTo) ∧
        vs.getLast? = some ⟨CmdLineTo, 2, 0⟩) ∧
    approximateCurve3Points Env.plain 3 0 0 1 1 2 0 1 0 =
      some [⟨CmdLineTo, 1 / 2, 3 / 8⟩, ⟨CmdLineTo, 3 / 2, 3 / 8⟩, ⟨CmdLineTo, 2, 0⟩] := by
  have h1 : (0 : ℚ) < 1 := by norm_num
  have h2 : (0 : ℚ) < curve_angle_tolerance_epsilon := by
    norm_num [curve_angle_tolerance_epsilon]
  exact ⟨h1, h2, approximateCurve3_ends_at_end_point Env.plain 0 0 1 1 2 0 1 0 h1 h2,
    by decide!⟩

/-! ## The vertex count of `approximateCurve4` against the scale (C25) -/

/-- C25 (counterexample). The cubic `(0,0), (1,1e-30), (2,1e-30), (3,0)`: at scale 1
`approximateCurve4` stores 2 vertices, `LineTo(3/2, 1e-30)` and the end point; at the
larger scale `1e30` the cubic is subdivided, both halves have `d2` and `d3` at or below
the collinearity epsilon and end in the simple collinear case, which stores nothing, and
only the end point is stored: 1 vertex. -/
theorem approximateCurve4_count_not_monotone :
    (0 : ℚ) < 1 ∧ (1 : ℚ) ≤ 10 ^ 30 ∧
    approximateCurve4Points Env.plain 5 0 0 1 (1 / 10 ^ 30) 2 (1 / 10 ^ 30) 3 0 1 0 0 =
      some [⟨CmdLineTo, 3 / 2, 1 / 10 ^ 30⟩, ⟨CmdLineTo, 3, 0⟩] ∧
    approximateCurve4Points Env.plain 5 0 0 1 (1 / 10 ^ 30) 2 (1 / 10 ^ 30) 3 0 (10 ^ 30) 0 0 =
      some [⟨CmdLineTo, 3, 0⟩] ∧
    (approximateCurve4Points Env.plain 5 0 0 1 (1 / 10 ^ 30) 2 (1 / 10 ^ 30) 3 0
      1 0 0).map List.length = some 2 ∧
    (approximateCurve4Points Env.plain 5 0 0 1 (1 / 10 ^ 30) 2 (1 / 10 ^ 30) 3 0
      (10 ^ 30) 0 0).map List.length = some 1 := by
  refine ⟨by norm_num, by norm_num, by decide!, by decide!, by decide!, by decide!⟩

theorem approximateCurve4Loop_round (E : Env) (tol ang cusp : ℚ) (fuel : Nat)
    (c : ApproximateCurve4Data) (stack : List ApproximateCurve4Data) (out : List (ℚ × ℚ)) :
    approximateCurve4Loop E tol ang cusp (fuel + 1) c stack out =
      match curve4Test E c tol ang cusp with
      | none =>
        if stack.length < APPROXIMATE_CURVE3_RECURSION_LIMIT then
          approximateCurve4Loop E tol ang cusp fuel (curve4Left c) (curve4Right c :: stack) out
        else
          match stack with
          | [] => some (out, c)
          | top :: rest => approximateCurve4Loop E tol ang cusp fuel top rest out
      | some pts =>
        match stack with
        | [] => some (out ++ pts, c)
        | top :: rest => approximateCurve4Loop E tol ang cusp fuel top rest (out ++ pts) := by
  rfl

/-- The loop of `approximateCurve4` follows `subdivide4`: entered with the cubic `c` and
`level` curves on the stack, after finitely many rounds it is at `ret` with the same
stack, having stored the points `subdivide4` gives. -/
theorem subdivide4_loop (E : Env) (tol ang cusp : ℚ) :
    ∀ (depth level : Nat) (c : ApproximateCurve4Data) (pts : List (ℚ × ℚ)),
      subdivide4 E tol ang cusp depth level c = some pts →
      ∀ stack : List ApproximateCurve4Data, stack.length = level →
      ∃ (steps : Nat) (cf : ApproximateCurve4Data), cf.x4 = c.x4 ∧ cf.y4 = c.y4 ∧
        ∀ fuel out, approximateCurve4Loop E tol ang cusp (fuel + steps) c stack out =
          match stack with
          | [] => some (out ++ pts, cf)
          | top :: rest => approximateCurve4Loop E tol ang cusp fuel top rest (out ++ pts) := by
  intro depth
  induction depth with
  | zero => intro level c pts h; simp [subdivide4] at h
  | succ n ih =>
    intro level c pts h stack hl
    unfold subdivide4 at h
    cases hT : curve4Test E c tol ang cusp with
    | some p =>
      rw [hT] at h
      simp only [Option.some.injEq] at h
      subst h
      refine ⟨1, c, rfl, rfl, fun fuel out => ?_⟩
      rw [approximateCurve4Loop_round, hT]
    | none =>
      rw [hT] at h
      simp only at h
      by_cases hlim : level < APPROXIMATE_CURVE3_RECURSION_LIMIT
      · rw [if_pos hlim] at h
        cases ha : subdivide4 E tol ang cusp n (level + 1) (curve4Left c) with
        | none => rw [ha] at h; simp at h
        | some a =>
          cases hb : subdivide4 E tol ang cusp n level (curve4Right c) with
          | none => rw [ha, hb] at h; simp at h
          | some b =>
            rw [ha, hb] at h
            simp only [Option.some.injEq] at h
            subst h
            obtain ⟨s1, cf1, -, -, e1⟩ := ih (level + 1) (curve4Left c) a ha
              (curve4Right c :: stack) (by simp [hl])
            obtain ⟨s2, cf2, f1, f2, e2⟩ := ih level (curve4Right c) b hb stack hl
            refine ⟨s2 + s1 + 1, cf2, f1, f2, fun fuel out => ?_⟩
            rw [show fuel + (s2 + s1 + 1) = (fuel + s2 + s1) + 1 by omega,
              approximateCurve4Loop_round, hT]
            simp only [hl, hlim, if_true]
            rw [e1 (fuel + s2) out]
            simp only
            rw [e2 fuel (out ++ a), List.append_assoc]
      · rw [if_neg hlim] at h
        simp only [Option.some.injEq] at h
        subst h
        refine ⟨1, c, rfl, rfl, fun fuel out => ?_⟩
        rw [approximateCurve4Loop_round, hT]
        simp only [hl, hlim, if_false, List.append_nil]

set_option maxHeartbeats 4000000

/-- The test of one round of `approximateCurve4` is antitone in the tolerance: what a
smaller tolerance accepts, a larger one accepts with the same points. -/
theorem curve4Test_mono (E : Env) (c : ApproximateCurve4Data) (tol1 tol2 ang cusp : ℚ)
    (ht : tol2 ≤ tol1) (pts : List (ℚ × ℚ))
    (h : curve4Test E c tol2 ang cusp = some pts) :
    curve4Test E c tol1 ang cusp = some pts := by
  have hn : 0 ≤ (c.x4 - c.x1) * (c.x4 - c.x1) + (c.y4 - c.y1) * (c.y4 - c.y1) :=
    add_nonneg (mul_self_nonneg _) (mul_self_nonneg _)
  have hm := mul_le_mul_of_nonneg_right ht hn
  unfold curve4Test at h ⊢
  simp only at h ⊢
  split at h
  all_goals
    split_ifs at h ⊢ <;>
      first
        | exact h
        | (exfalso; linarith)

set_option maxHeartbeats 200000

theorem curve4Test_length (E : Env) (c : ApproximateCurve4Data) (tol ang cusp : ℚ)
    (pts : List (ℚ × ℚ)) (h : curve4Test E c tol ang cusp = some pts) : pts.length ≤ 2 := by
  unfold curve4Test at h
  simp only at h
  split at h
  all_goals
    split_ifs at h <;>
      first
        | (simp only [Option.some.injEq] at h; subst h; simp)

/-- With a larger tolerance the subdivision below `c` ends as well and stores at most as
many points, when with the smaller tolerance every sub-curve stores a point. -/
theorem subdivide4_mono (E : Env) (tol1 tol2 ang cusp : ℚ) (ht : tol2 ≤ tol1) :
    ∀ (depth level : Nat) (c : ApproximateCurve4Data) (pts2 : List (ℚ × ℚ)),
      subdivide4 E tol2 ang cusp depth level c = some pts2 →
      storesEverywhere4 E tol2 ang cusp depth level c = true →
      ∃ pts1, subdivide4 E tol1 ang cusp depth level c = some pts1 ∧
        pts1.length ≤ pts2.length ∧ 1 ≤ pts2.length := by
  intro depth
  induction depth with
  | zero => intro level c pts2 h; simp [subdivide4] at h
  | succ n ih =>
    intro level c pts2 h hs
    unfold subdivide4 at h ⊢
    unfold storesEverywhere4 at hs
    cases hT2 : curve4Test E c tol2 ang cusp with
    | some p2 =>
      rw [hT2] at h hs
      simp only [Option.some.injEq] at h
      subst h
      rw [curve4Test_mono E c tol1 tol2 ang cusp ht p2 hT2]
      refine ⟨p2, rfl, le_refl _, ?_⟩
      cases p2 with
      | nil => simp at hs
      | cons a l => simp
    | none =>
      rw [hT2] at h hs
      simp only [Bool.and_eq_true, decide_eq_true_eq] at hs
      obtain ⟨⟨hlim, hsl⟩, hsr⟩ := hs
      simp only [hlim, if_true] at h ⊢
      cases ha : subdivide4 E tol2 ang cusp n (level + 1) (curve4Left c) with
      | none => rw [ha] at h; simp at h
      | some a2 =>
        cases hb : subdivide4 E tol2 ang cusp n level (curve4Right c) with
        | none => rw [ha, hb] at h; simp at h
        | some b2 =>
          rw [ha, hb] at h
          simp only [Option.some.injEq] at h
          subst h
          obtain ⟨a1, ea, la, na⟩ := ih (level + 1) (curve4Left c) a2 ha hsl
          obtain ⟨b1, eb, lb, nb⟩ := ih level (curve4Right c) b2 hb hsr
          cases hT1 : curve4Test E c tol1 ang cusp with
          | some p1 =>
            refine ⟨p1, rfl, ?_, ?_⟩
            · have := curve4Test_length E c tol1 ang cusp p1 hT1
              simp only [List.length_append]
              omega
            · simp only [List.length_append]
              omega
          | none =>
            simp only [ea, eb]
            refine ⟨a1 ++ b1, rfl, ?_, ?_⟩
            · simp only [List.length_append]
              omega
            · simp only [List.length_append]
              omega

theorem subdivide4_points (E : Env) (x1 y1 x2 y2 x3 y3 x4 y4 scale ang cusp : ℚ)
    (depth : Nat) (pts : List (ℚ × ℚ))
    (h : subdivide4 E (1 / 2 / scale * (1 / 2 / scale)) ang cusp depth 0
      ⟨x1, y1, x2, y2, x3, y3, x4, y4⟩ = some pts) :
    ∃ steps : Nat, ∀ fuel, steps ≤ fuel →
      approximateCurve4Points E fuel x1 y1 x2 y2 x3 y3 x4 y4 scale ang cusp =
        some ((pts ++ [(x4, y4)]).map (fun p => ⟨CmdLineTo, p.1, p.2⟩)) := by
  obtain ⟨steps, cf, f1, f2, e⟩ := subdivide4_loop E _ ang cusp depth 0 _ pts h [] rfl
  refine ⟨steps, fun fuel hf => ?_⟩
  have e2 := e (fuel - steps) []
  rw [Nat.sub_add_cancel hf] at e2
  simp only at e2 f1 f2
  unfold approximateCurve4Points
  simp only [e2, f1, f2, List.nil_append]

/-- C25 (amended). For every cubic `(x1,y1) .. (x4,y4)` and every pair of scales
`0 < s1 ≤ s2` such that at scale `s2` the subdivision ends and leaves no sub-curve
without a stored point (no round ends in the simple collinear case and no sub-curve is
dropped because the stack is full): `approximateCurve4` ends at both scales and the
number of vertices it emits at `s2` is greater than or equal to the number at `s1`. -/
theorem approximateCurve4_count_monotone (E : Env) (x1 y1 x2 y2 x3 y3 x4 y4 s1 s2 ang cusp : ℚ)
    (depth : Nat) (h1 : 0 < s1) (h12 : s1 ≤ s2)
    (hsub : (subdivide4 E (1 / 2 / s2 * (1 / 2 / s2)) ang cusp depth 0
      ⟨x1, y1, x2, y2, x3, y3, x4, y4⟩).isSome = true)
    (hst : storesEverywhere4 E (1 / 2 / s2 * (1 / 2 / s2)) ang cusp depth 0
      ⟨x1, y1, x2, y2, x3, y3, x4, y4⟩ = true) :
    ∃ steps : Nat, ∀ fuel, steps ≤ fuel →
      ∃ v1 v2,
        approximateCurve4Points E fuel x1 y1 x2 y2 x3 y3 x4 y4 s1 ang cusp = some v1 ∧
        approximateCurve4Points E fuel x1 y1 x2 y2 x3 y3 x4 y4 s2 ang cusp = some v2 ∧
        v1.length ≤ v2.length := by
  have h2 : 0 < s2 := lt_of_lt_of_le h1 h12
  have ht : 1 / 2 / s2 * (1 / 2 / s2) ≤ 1 / 2 / s1 * (1 / 2 / s1) := by
    have a : 1 / 2 / s2 ≤ 1 / 2 / s1 := div_le_div_of_nonneg_left (by norm_num) h1 h12
    have b : (0 : ℚ) ≤ 1 / 2 / s2 := by positivity
    exact mul_le_mul a a b (le_trans b a)
  obtain ⟨pts2, hp2⟩ := Option.isSome_iff_exists.mp hsub
  obtain ⟨pts1, hp1, hl, -⟩ := subdivide4_mono E _ _ ang cusp ht depth 0 _ pts2 hp2 hst
  obtain ⟨n1, e1⟩ := subdivide4_points E x1 y1 x2 y2 x3 y3 x4 y4 s1 ang cusp depth pts1 hp1
  obtain ⟨n2, e2⟩ := subdivide4_points E x1 y1 x2 y2 x3 y3 x4 y4 s2 ang cusp depth pts2 hp2
  refine ⟨max n1 n2, fun fuel hf => ⟨_, _, e1 fuel (le_trans (le_max_left _ _) hf),
    e2 fuel (le_trans (le_max_right _ _) hf), ?_⟩⟩
  simp only [List.length_map, List.length_append, List.length_singleton]
  omega

theorem approximateCurve4_count_monotone_witness :
    (0 : ℚ) < 1 ∧ (1 : ℚ) ≤ 4 ∧
    (subdivide4 Env.plain (1 / 2 / 4 * (1 / 2 / 4)) 0 0 8 0
      ⟨0, 0, 100, 200, 200, 200, 300, 0⟩).isSome = true ∧
    storesEverywhere4 Env.plain (1 / 2 / 4 * (1 / 2 / 4)) 0 0 8 0
      ⟨0, 0, 100, 200, 200, 200, 300, 0⟩ = true ∧
    (∃ steps : Nat, ∀ fuel, steps ≤ fuel →
      ∃ v1 v2,
        approximateCurve4Points Env.plain fuel 0 0 100 200 200 200 300 0 1 0 0 = some v1 ∧
        approximateCurve4Points Env.plain fuel 0 0 100 200 200 200 300 0 4 0 0 = some v2 ∧
        v1.length ≤ v2.length) ∧
    (approximateCurve4Points Env.plain 200 0 0 100 200 200 200 300 0 1 0 0).map List.length
      = some 33 ∧
    (approximateCurve4Points Env.plain 200 0 0 100 200 200 200 300 0 4 0 0).map List.length
      = some 65 := by
  have a1 : (0 : ℚ) < 1 := by norm_num
  have a2 : (1 : ℚ) ≤ 4 := by norm_num
  have a3 : (subdivide4 Env.plain (1 / 2 / 4 * (1 / 2 / 4)) 0 0 8 0
      ⟨0, 0, 100, 200, 200, 200, 300, 0⟩).isSome = true := by decide!
  have a4 : storesEverywhere4 Env.plain (1 / 2 / 4 * (1 / 2 / 4)) 0 0 8 0
      ⟨0, 0, 100, 200, 200, 200, 300, 0⟩ = true := by decide!
  exact ⟨a1, a2, a3, a4,
    approximateCurve4_count_monotone Env.plain 0 0 100 200 200 200 300 0 1 4 0 0 8 a1 a2 a3 a4,
    by decide!, by decide!⟩

/-! ## The simple collinear case of `approximateCurve3` (C35) -/

/-- Three collinear points with the middle one strictly between the two others: the
tests of the round jump to `ret` without storing a vertex. -/
theorem curve3Test_collinear (E : Env) (c : ApproximateCurve3Data) (tol ang : ℚ)
    (hcol : (c.x2 - c.x1) * (c.y3 - c.y1) - (c.y2 - c.y1) * (c.x3 - c.x1) = 0)
    (hne : (c.x1, c.y1) ≠ (c.x3, c.y3))
    (hpos : 0 < ((c.x2 - c.x1) * (c.x3 - c.x1) + (c.y2 - c.y1) * (c.y3 - c.y1)) /
      ((c.x3 - c.x1) * (c.x3 - c.x1) + (c.y3 - c.y1) * (c.y3 - c.y1)))
    (hlt : ((c.x2 - c.x1) * (c.x3 - c.x1) + (c.y2 - c.y1) * (c.y3 - c.y1)) /
      ((c.x3 - c.x1) * (c.x3 - c.x1) + (c.y3 - c.y1) * (c.y3 - c.y1)) < 1) :
    curve3Test E c tol ang = some [] := by
  have hd : |(c.x2 - c.x3) * (c.y3 - c.y1) - (c.y2 - c.y3) * (c.x3 - c.x1)| = 0 := by
    rw [abs_eq_zero]
    linear_combination hcol
  have hda : (c.x3 - c.x1) * (c.x3 - c.x1) + (c.y3 - c.y1) * (c.y3 - c.y1) ≠ 0 := by
    intro e
    apply hne
    have h1 : (c.x3 - c.x1) * (c.x3 - c.x1) = 0 := by
      nlinarith [mul_self_nonneg (c.x3 - c.x1), mul_self_nonneg (c.y3 - c.y1)]
    have h2 : (c.y3 - c.y1) * (c.y3 - c.y1) = 0 := by
      nlinarith [mul_self_nonneg (c.x3 - c.x1), mul_self_nonneg (c.y3 - c.y1)]
    have h3 : c.x3 - c.x1 = 0 := mul_self_eq_zero.mp h1
    have h4 : c.y3 - c.y1 = 0 := mul_self_eq_zero.mp h2
    rw [Prod.mk.injEq]
    constructor <;> linarith
  have he : ¬ curve_collinearity_epsilon < (0 : ℚ) := by
    norm_num [curve_collinearity_epsilon]
  unfold curve3Test
  simp only [hd, he, if_false, hda, hpos, hlt, and_self, if_true]

/-- C34. For every state of the flatten loop: (1) when the source cursor stands on a
well-formed Catrom group `v0, v1, v2` (at least three vertices left), the round hands to
`approximateCurve4` exactly the control points `catromToBezier` computes from the
running last point `P1 = (lastx, lasty)` and the triple `P2, P3, P4`, that is `P2`,
`(-P1 + 6·P2 + P3)/6`, `(P2 + 6·P3 - P4)/6`, `P3`, and goes on with `P4` as last point;
(2) the cubic Bezier curve with these control points is equal, at every parameter `t`
and in each coordinate, to the uniform Catmull-Rom segment through `P1 .. P4`,
`(1/2)·(2·P2 + (-P1 + P3)·t + (2·P1 - 5·P2 + 4·P3 - P4)·t² + (-P1 + 3·P2 - 3·P3 + P4)·t³)`. -/
theorem catrom_bezier_is_catmull_rom (E : Env) (fuel this : Nat)
    (matrix : Option AffineMatrix) (approximationScale : ℚ) (steps : Nat) (h : Heap)
    (dst v n dstv : Nat) (lastx lasty : ℚ) :
    (Cmd.cmd ((h.mem this).data v).cmd = CmdCatrom → 2 < n →
      Cmd.cmd ((h.mem this).data (v + 1)).cmd = CmdCatrom →
      Cmd.cmd ((h.mem this).data (v + 2)).cmd = CmdCatrom →
      flattenLoop E fuel this matrix approximationScale (steps + 1) h dst v n dstv lastx lasty =
        match approximateCurve4 E fuel (h.setLength dst dstv) dst
            (catromToBezier lastx lasty ((h.mem this).data v) ((h.mem this).data (v + 1))
              ((h.mem this).data (v + 2))).x1
            (catromToBezier lastx lasty ((h.mem this).data v) ((h.mem this).data (v + 1))
              ((h.mem this).data (v + 2))).y1
            (catromToBezier lastx lasty ((h.mem this).data v) ((h.mem this).data (v + 1))
              ((h.mem this).data (v + 2))).x2
            (catromToBezier lastx lasty ((h.mem this).data v) ((h.mem this).data (v + 1))
              ((h.mem this).data (v + 2))).y2
            (catromToBezier lastx lasty ((h.mem this).data v) ((h.mem this).data (v + 1))
              ((h.mem this).data (v + 2))).x3
            (catromToBezier lastx lasty ((h.mem this).data v) ((h.mem this).data (v + 1))
              ((h.mem this).data (v + 2))).y3
            (catromToBezier lastx lasty ((h.mem this).data v) ((h.mem this).data (v + 1))
              ((h.mem this).data (v + 2))).x4
            (catromToBezier lastx lasty ((h.mem this).data v) ((h.mem this).data (v + 1))
              ((h.mem this).data (v + 2))).y4
            approximationScale 0 0 with
        | none => none
        | some r =>
          flattenAgain E r n 3 (fun h2 d2 dstv2 =>
            flattenLoop E fuel this matrix approximationScale steps h2 d2 (v + 3) (n - 3) dstv2
              ((h.mem this).data (v + 2)).x ((h.mem this).data (v + 2)).y)) ∧
    (∀ (v0 v1 v2 : Vertex) (t : ℚ),
      bezierAt (catromToBezier lastx lasty v0 v1 v2) t =
        catmullRomAt (lastx, lasty) (v0.x, v0.y) (v1.x, v1.y) (v2.x, v2.y) t) := by
  constructor
  · intro h0 hn h1 h2
    have a1 : ¬ (CmdCatrom = CmdMoveTo ∨ CmdCatrom = CmdLineTo) := by decide
    have a2 : ¬ (CmdCatrom = CmdCurve3) := by decide
    have a3 : ¬ (CmdCatrom = CmdCurve4) := by decide
    have a4 : ¬ n ≤ 2 := by omega
    conv_lhs => unfold flattenLoop
    simp only [h0, h1, h2, a1, a2, a3, a4, if_false, if_true, ne_eq, not_true_eq_false,
      or_self, catromToBezier]
  · intro v0 v1 v2 t
    simp only [bezierAt, catromToBezier, catmullRomAt, Prod.mk.injEq]
    constructor <;> ring

theorem catrom_bezier_is_catmull_rom_witness :
    Cmd.cmd ((exCatrom.heap.mem exCatrom.d).data 1).cmd = CmdCatrom ∧
    catromToBezier 0 0 ⟨CmdCatrom, 1, 2⟩ ⟨CmdCatrom, 3, 2⟩ ⟨CmdCatrom, 4, 0⟩
      = ⟨1, 2, 3 / 2, 7 / 3, 5 / 2, 7 / 3, 3, 2⟩ ∧
    (∀ t : ℚ, bezierAt ⟨1, 2, 3 / 2, 7 / 3, 5 / 2, 7 / 3, 3, 2⟩ t =
      catmullRomAt (0, 0) (1, 2) (3, 2) (4, 0) t) ∧
    flattenLoop Env.plain 10 exCatrom.d none 1 3 exCatrom.heap sharedNull 1 3 0 0 0 =
      match approximateCurve4 Env.plain 10 (exCatrom.heap.setLength sharedNull 0) sharedNull
          1 2 (3 / 2) (7 / 3) (5 / 2) (7 / 3) 3 2 1 0 0 with
      | none => none
      | some r =>
        flattenAgain Env.plain r 3 3 (fun h2 d2 dstv2 =>
          flattenLoop Env.plain 10 exCatrom.d none 1 2 h2 d2 4 0 dstv2 4 0) := by
  have t := catrom_bezier_is_catmull_rom Env.plain 10 exCatrom.d none 1 2 exCatrom.heap
    sharedNull 1 3 0 0 0
  have e : catromToBezier 0 0 ⟨CmdCatrom, 1, 2⟩ ⟨CmdCatrom, 3, 2⟩ ⟨CmdCatrom, 4, 0⟩
      = ⟨1, 2, 3 / 2, 7 / 3, 5 / 2, 7 / 3, 3, 2⟩ := by
    norm_num [catromToBezier]
  refine ⟨by decide, e, ?_, ?_⟩
  · intro s
    rw [← e]
    exact t.2 _ _ _ s
  · have d1 : (exCatrom.heap.mem exCatrom.d).data 1 = ⟨CmdCatrom, 1, 2⟩ := by decide
    have d2 : (exCatrom.heap.mem exCatrom.d).data (1 + 1) = ⟨CmdCatrom, 3, 2⟩ := by decide
    have d3 : (exCatrom.heap.mem exCatrom.d).data (1 + 2) = ⟨CmdCatrom, 4, 0⟩ := by decide
    have := t.1 (by decide) (by decide) (by decide) (by decide)
    rw [d1, d2, d3, e] at this
    exact this

/-! ## Rounded rectangles with a zero radius (C31) -/

/-- The corner radius `addRound` clamps to half the extent of a valid rectangle is zero
exactly when the radius given is zero. -/
theorem clamped_radius_eq_zero (a half : ℚ) (hh : 0 < half) :
    (if half < |a| then half else |a|) = 0 ↔ a = 0 := by
  split_ifs with c
  · constructor
    · intro e; linarith
    · intro e; rw [e, abs_zero] at c; linarith
  · exact abs_eq_zero

/-- C31. For every path, every rectangle `r` and every radius: (1) when `r` is valid and
the x or the y component of the radius is 0 (the clamped corner radius is then zero),
`addRound(r, radius)` leaves the memory, the block of the path and the result code of
`addRect(r)`, so the same vertex sequence and the same result code; (2) when `r` is not
valid, `addRound` changes nothing, so appends nothing, and returns success. -/
theorem addRound_zero_radius_is_addRect (E : Env) (h : Heap) (d : Nat) (r : RectF)
    (radius : PointF) :
    (r.isValid = true → (radius.x = 0 ∨ radius.y = 0) →
      addRound E h d r radius =
        ((addRect E h d r).heap, (addRect E h d r).d, some (addRect E h d r).err) ∧
      (addRound E h d r radius).1.verts (addRound E h d r radius).2.1 =
        (addRect E h d r).heap.verts (addRect E h d r).d) ∧
    (r.isValid = false →
      addRound E h d r radius = (h, d, some .Ok) ∧
      (addRound E h d r radius).1.verts (addRound E h d r radius).2.1 = h.verts d) := by
  constructor
  · intro hr hz
    have e : addRound E h d r radius =
        ((addRect E h d r).heap, (addRect E h d r).d, some (addRect E h d r).err) := by
      have hv := hr
      simp only [RectF.isValid, Bool.and_eq_true, decide_eq_true_eq] at hv
      have hw : (0 : ℚ) < r.w / 2 := by linarith [hv.1]
      have hh : (0 : ℚ) < r.h / 2 := by linarith [hv.2]
      have hc : (if r.w / 2 < |radius.x| then r.w / 2 else |radius.x|) = 0 ∨
          (if r.h / 2 < |radius.y| then r.h / 2 else |radius.y|) = 0 := by
        rcases hz with z | z
        · exact Or.inl ((clamped_radius_eq_zero _ _ hw).mpr z)
        · exact Or.inr ((clamped_radius_eq_zero _ _ hh).mpr z)
      unfold addRound
      simp only [hr, not_true_eq_false, if_false]
      rw [if_pos hc]
    exact ⟨e, by rw [e]⟩
  · intro hr
    have e : addRound E h d r radius = (h, d, some .Ok) := by
      unfold addRound
      simp only [hr, Bool.false_eq_true, not_false_eq_true, if_true]
    exact ⟨e, by rw [e]⟩

theorem addRound_zero_radius_is_addRect_witness :
    (⟨0, 0, 4, 2⟩ : RectF).isValid = true ∧ (⟨0, 0, -4, 2⟩ : RectF).isValid = false ∧
    (addRound Env.plain exEmpty sharedNull ⟨0, 0, 4, 2⟩ ⟨0, 5⟩).1.verts
        (addRound Env.plain exEmpty sharedNull ⟨0, 0, 4, 2⟩ ⟨0, 5⟩).2.1 =
      (addRect Env.plain exEmpty sharedNull ⟨0, 0, 4, 2⟩).heap.verts
        (addRect Env.plain exEmpty sharedNull ⟨0, 0, 4, 2⟩).d ∧
    (addRect Env.plain exEmpty sharedNull ⟨0, 0, 4, 2⟩).heap.verts
        (addRect Env.plain exEmpty sharedNull ⟨0, 0, 4, 2⟩).d =
      [⟨CmdMoveTo, 0, 0⟩, ⟨CmdLineTo, 4, 0⟩, ⟨CmdLineTo, 4, 2⟩, ⟨CmdLineTo, 0, 2⟩,
       ⟨CmdEndPoly ||| CFlagClose, 0, 0⟩] ∧
    (addRound Env.plain exEmpty sharedNull ⟨0, 0, 4, 2⟩ ⟨0, 5⟩).2.2 = some .Ok ∧
    addRound Env.plain exEmpty sharedNull ⟨0, 0, -4, 2⟩ ⟨1, 1⟩ = (exEmpty, sharedNull, some .Ok) := by
  have t := addRound_zero_radius_is_addRect Env.plain exEmpty sharedNull ⟨0, 0, 4, 2⟩ ⟨0, 5⟩
  have u := addRound_zero_radius_is_addRect Env.plain exEmpty sharedNull ⟨0, 0, -4, 2⟩ ⟨1, 1⟩
  have a := t.1 (by decide) (Or.inl rfl)
  refine ⟨by decide, by decide, a.2, by decide!, ?_, (u.2 (by decide)).1⟩
  rw [a.1]
  decide

/-! ## The Bezier arc meets the ellipse at three angles (C33) -/

theorem arc_to_bezier_exact (E : Env) (cx cy rx ry a b : ℚ) :
    arc_to_bezier E cx cy rx ry a b =
      (Exact.arc_to_bezier E.cos E.sin cx cy rx ry a b).map (fun p => ⟨CmdCurve4, p.1, p.2⟩) := by
  simp [arc_to_bezier, Exact.arc_to_bezier]

/-- In real arithmetic the first and the last control point `arc_to_bezier` computes are
the points of the ellipse at the angles `a` and `a + b`. -/
theorem arc_to_bezier_ends (cx cy rx ry a b : ℝ) :
    ∃ p1 p2 : ℝ × ℝ, Exact.arc_to_bezier Real.cos Real.sin cx cy rx ry a b =
      [(cx + rx * Real.cos a, cy + ry * Real.sin a), p1, p2,
       (cx + rx * Real.cos (a + b), cy + ry * Real.sin (a + b))] := by
  have c0 : Real.cos a = Real.cos (a + b / 2) * Real.cos (b / 2)
      + Real.sin (a + b / 2) * Real.sin (b / 2) := by
    rw [← Real.cos_sub]; congr 1; ring
  have s0 : Real.sin a = Real.sin (a + b / 2) * Real.cos (b / 2)
      - Real.cos (a + b / 2) * Real.sin (b / 2) := by
    rw [← Real.sin_sub]; congr 1; ring
  have c3 : Real.cos (a + b) = Real.cos (a + b / 2) * Real.cos (b / 2)
      - Real.sin (a + b / 2) * Real.sin (b / 2) := by
    rw [← Real.cos_add]; congr 1; ring
  have s3 : Real.sin (a + b) = Real.sin (a + b / 2) * Real.cos (b / 2)
      + Real.cos (a + b / 2) * Real.sin (b / 2) := by
    rw [← Real.sin_add]; congr 1; ring
  refine ⟨(Exact.arc_to_bezier Real.cos Real.sin cx cy rx ry a b).getD 1 (0, 0),
    (Exact.arc_to_bezier Real.cos Real.sin cx cy rx ry a b).getD 2 (0, 0), ?_⟩
  rw [c0, s0, c3, s3]
  simp only [Exact.arc_to_bezier, List.map_cons, List.map_nil, List.getD_cons_succ,
    List.getD_cons_zero, List.cons.injEq, Prod.mk.injEq, and_true, true_and]
  refine ⟨⟨?_, ?_⟩, ?_, ?_⟩ <;> ring

/-- C33. (1) The four vertices `arc_to_bezier` stores are Curve4 vertices at the
coordinates its arithmetic gives with the scalars and functions of the path.  (2) In
exact real arithmetic, for every `cx`, `cy`, `rx`, `ry`, `start` and every `sweep` with
`sin(sweep/2) ≠ 0`, this arithmetic gives four control points `P0 .. P3` of which the
first is `(cx + rx·cos(start), cy + ry·sin(start))`, the last is
`(cx + rx·cos(start+sweep), cy + ry·sin(start+sweep))`, and for which the value of the
cubic Bezier at the parameter 1/2, `(P0 + 3·P1 + 3·P2 + P3)/8`, is
`(cx + rx·cos(start+sweep/2), cy + ry·sin(start+sweep/2))`. -/
theorem arc_to_bezier_interpolates (cx cy rx ry start sweep : ℝ) :
    (∀ (E : Env) (cx cy rx ry a b : ℚ),
      arc_to_bezier E cx cy rx ry a b =
        (Exact.arc_to_bezier E.cos E.sin cx cy rx ry a b).map
          (fun p => ⟨CmdCurve4, p.1, p.2⟩)) ∧
    (Real.sin (sweep / 2) ≠ 0 →
      ∃ p0 p1 p2 p3 : ℝ × ℝ,
        Exact.arc_to_bezier Real.cos Real.sin cx cy rx ry start sweep = [p0, p1, p2, p3] ∧
        p0 = (cx + rx * Real.cos start, cy + ry * Real.sin start) ∧
        p3 = (cx + rx * Real.cos (start + sweep), cy + ry * Real.sin (start + sweep)) ∧
        ((p0.1 + 3 * p1.1 + 3 * p2.1 + p3.1) / 8, (p0.2 + 3 * p1.2 + 3 * p2.2 + p3.2) / 8) =
          (cx + rx * Real.cos (start + sweep / 2), cy + ry * Real.sin (start + sweep / 2))) := by
  refine ⟨arc_to_bezier_exact, fun _ => ?_⟩
  obtain ⟨p1, p2, e⟩ := arc_to_bezier_ends cx cy rx ry start sweep
  refine ⟨_, p1, p2, _, e, rfl, rfl, ?_⟩
  have e1 := e
  simp only [Exact.arc_to_bezier, List.map_cons, List.map_nil, List.cons.injEq,
    and_true] at e1
  obtain ⟨-, h1, h2, -⟩ := e1
  rw [← h1, ← h2]
  have c0 : Real.cos start = Real.cos (start + sweep / 2) * Real.cos (sweep / 2)
      + Real.sin (start + sweep / 2) * Real.sin (sweep / 2) := by
    rw [← Real.cos_sub]; congr 1; ring
  have s0 : Real.sin start = Real.sin (start + sweep / 2) * Real.cos (sweep / 2)
      - Real.cos (start + sweep / 2) * Real.sin (sweep / 2) := by
    rw [← Real.sin_sub]; congr 1; ring
  have c3 : Real.cos (start + sweep) = Real.cos (start + sweep / 2) * Real.cos (sweep / 2)
      - Real.sin (start + sweep / 2) * Real.sin (sweep / 2) := by
    rw [← Real.cos_add]; congr 1; ring
  have s3 : Real.sin (start + sweep) = Real.sin (start + sweep / 2) * Real.cos (sweep / 2)
      + Real.cos (start + sweep / 2) * Real.sin (sweep / 2) := by
    rw [← Real.sin_add]; congr 1; ring
  rw [c0, s0, c3, s3, Prod.mk.injEq]
  constructor <;> simp only <;> ring

theorem arc_to_bezier_interpolates_witness :
    Real.sin (Real.pi / 2) ≠ 0 ∧
    ∃ p0 p1 p2 p3 : ℝ × ℝ,
      Exact.arc_to_bezier Real.cos Real.sin 0 0 2 1 0 Real.pi = [p0, p1, p2, p3] ∧
      p0 = (0 + 2 * Real.cos 0, 0 + 1 * Real.sin 0) ∧
      p3 = (0 + 2 * Real.cos (0 + Real.pi), 0 + 1 * Real.sin (0 + Real.pi)) ∧
      ((p0.1 + 3 * p1.1 + 3 * p2.1 + p3.1) / 8, (p0.2 + 3 * p1.2 + 3 * p2.2 + p3.2) / 8) =
        (0 + 2 * Real.cos (0 + Real.pi / 2), 0 + 1 * Real.sin (0 + Real.pi / 2)) := by
  have hs : Real.sin (Real.pi / 2) ≠ 0 := by
    rw [Real.sin_pi_div_two]; exact one_ne_zero
  exact ⟨hs, (arc_to_bezier_interpolates 0 0 2 1 0 Real.pi).2 hs⟩

/-! ## The arc loop and its arithmetic (C36) -/

theorem arcStep_exact (E : Env) (sweep total : ℚ) :
    arcStep E sweep total = Exact.arcStep E.M_PI sweep total := by
  simp only [arcStep, Exact.arcStep, bezier_arc_angle_epsilon]

theorem exact_arc_to_bezier_length {K : Type} [Field K] (cos sin : K → K)
    (cx cy rx ry a b : K) : (Exact.arc_to_bezier cos sin cx cy rx ry a b).length = 4 := by
  simp [Exact.arc_to_bezier]

/-- One round of the arc loop keeps the two loops in step. -/
theorem arcSim_round (E : Env) (d vs : Nat) (cx cy rx ry sweep : ℚ) (h0 : Heap)
    (s : ArcLoop) (x : Exact.ArcLoop ℚ)
    (hv : s.v = vs + x.v) (h1 : 1 ≤ x.v) (hlen : x.v - 1 ≤ x.out.length)
    (hstart : s.start = x.start) (htotal : s.total_sweep = x.total_sweep)
    (hdata : ∀ i p, i < x.v - 1 → x.out[i]? = some p →
      (s.heap.mem d).data (vs + i) = ⟨CmdCurve4, p.1, p.2⟩)
    (hbelow : ∀ i, i < vs → (s.heap.mem d).data i = (h0.mem d).data i)
    (hnext : s.heap.next = h0.next) :
    ArcSim d vs h0
      ⟨s.heap.writeList d (s.v - 1)
          (arc_to_bezier E cx cy rx ry s.start (arcStep E sweep s.total_sweep).1),
        s.v + 3, s.start + (arcStep E sweep s.total_sweep).1,
        (arcStep E sweep s.total_sweep).2.1⟩
      ⟨x.out.take (x.v - 1) ++ Exact.arc_to_bezier E.cos E.sin cx cy rx ry x.start
          (Exact.arcStep E.M_PI sweep x.total_sweep).1,
        x.v + 3, x.start + (Exact.arcStep E.M_PI sweep x.total_sweep).1,
        (Exact.arcStep E.M_PI sweep x.total_sweep).2.1,
        x.sweeps ++ [(Exact.arcStep E.M_PI sweep x.total_sweep).1]⟩ := by
  have hw : s.v - 1 = vs + (x.v - 1) := by omega
  have hl4 := exact_arc_to_bezier_length E.cos E.sin cx cy rx ry x.start
    (Exact.arcStep E.M_PI sweep x.total_sweep).1
  have htk : (x.out.take (x.v - 1)).length = x.v - 1 := by
    rw [List.length_take]; omega
  refine ⟨by simp only; omega, ?_, ?_, ?_, ?_, ?_, ?_⟩
  · simp only [List.length_append, htk, hl4]; omega
  · simp only [hstart, htotal, arcStep_exact]
  · simp only [htotal, arcStep_exact]
  · intro i p hp
    simp only at hp ⊢
    rw [hw, hstart, htotal, arcStep_exact, arc_to_bezier_exact]
    by_cases hi : i < x.v - 1
    · rw [List.getElem?_append_left (by rw [htk]; exact hi), List.getElem?_take_of_lt hi] at hp
      rw [writeList_data_lt _ _ _ _ _ _ (by omega)]
      exact hdata i p hi hp
    · rw [List.getElem?_append_right (by rw [htk]; omega), htk] at hp
      have hk : i - (x.v - 1) < (Exact.arc_to_bezier E.cos E.sin cx cy rx ry x.start
          (Exact.arcStep E.M_PI sweep x.total_sweep).1).length :=
        (List.getElem?_eq_some_iff.mp hp).1
      have e := writeList_data_at s.heap d (vs + (x.v - 1))
        ((Exact.arc_to_bezier E.cos E.sin cx cy rx ry x.start
          (Exact.arcStep E.M_PI sweep x.total_sweep).1).map
            (fun p => (⟨CmdCurve4, p.1, p.2⟩ : Vertex))) (i - (x.v - 1))
        (by rw [List.length_map]; exact hk)
      rw [show vs + (x.v - 1) + (i - (x.v - 1)) = vs + i by omega] at e
      rw [e, List.getElem_map]
      have := (List.getElem?_eq_some_iff.mp hp).2
      rw [this]
  · intro i hi
    simp only
    rw [writeList_data_lt _ _ _ _ _ _ (by omega)]
    exact hbelow i hi
  · simp only [writeList_next]
    exact hnext

/-- The two loops stay in step over any number of rounds (at least one). -/
theorem arcSim_loop (E : Env) (d vs : Nat) (cx cy rx ry sweep : ℚ) (h0 : Heap) :
    ∀ (fuel : Nat) (s : ArcLoop) (x : Exact.ArcLoop ℚ),
      s.v = vs + x.v → 1 ≤ x.v → x.v - 1 ≤ x.out.length →
      s.start = x.start → s.total_sweep = x.total_sweep →
      (∀ i p, i < x.v - 1 → x.out[i]? = some p →
        (s.heap.mem d).data (vs + i) = ⟨CmdCurve4, p.1, p.2⟩) →
      (∀ i, i < vs → (s.heap.mem d).data i = (h0.mem d).data i) →
      s.heap.next = h0.next →
      ArcSim d vs h0 (arcLoop E d cx cy rx ry sweep (vs + 13) (fuel + 1) s)
        (Exact.arcLoop E.cos E.sin E.M_PI cx cy rx ry sweep (fuel + 1) x) := by
  intro fuel
  induction fuel with
  | zero =>
    intro s x hv h1 hlen hstart htotal hdata hbelow hnext
    have r := arcSim_round E d vs cx cy rx ry sweep h0 s x hv h1 hlen hstart htotal hdata
      hbelow hnext
    unfold arcLoop Exact.arcLoop
    simp only
    split_ifs <;> exact r
  | succ n ih =>
    intro s x hv h1 hlen hstart htotal hdata hbelow hnext
    have r := arcSim_round E d vs cx cy rx ry sweep h0 s x hv h1 hlen hstart htotal hdata
      hbelow hnext
    have hc : (¬ (arcStep E sweep s.total_sweep).2.2 = true ∧ s.v + 3 < vs + 13) ↔
        (¬ (Exact.arcStep E.M_PI sweep x.total_sweep).2.2 = true ∧ x.v + 3 < 13) := by
      rw [htotal, arcStep_exact, hv]
      constructor <;> rintro ⟨c1, c2⟩ <;> exact ⟨c1, by omega⟩
    rw [arcLoop, Exact.arcLoop]
    simp only
    by_cases c : ¬ (Exact.arcStep E.M_PI sweep x.total_sweep).2.2 = true ∧ x.v + 3 < 13
    · rw [if_pos (hc.mpr c), if_pos c]
      exact ih _ _ r.v (by simp only; omega) (by rw [r.len]; omega) r.start r.total
        (fun i p _ hp => r.data i p hp) r.below r.next
    · rw [if_neg (fun c2 => c (hc.mp c2)), if_neg c]
      exact r

theorem exact_arcLoop_v {K : Type} [LinearOrderedField K] (cos sin : K → K)
    (pi cx cy rx ry sweep : K) :
    ∀ (fuel : Nat) (x : Exact.ArcLoop K),
      x.v + 3 ≤ (Exact.arcLoop cos sin pi cx cy rx ry sweep (fuel + 1) x).v := by
  intro fuel
  induction fuel with
  | zero =>
    intro x
    unfold Exact.arcLoop
    simp only
    split_ifs <;> exact le_refl _
  | succ n ih =>
    intro x
    rw [Exact.arcLoop]
    simp only
    split_ifs
    · have := ih ⟨x.out.take (x.v - 1) ++ Exact.arc_to_bezier cos sin cx cy rx ry x.start
          (Exact.arcStep pi sweep x.total_sweep).1, x.v + 3,
        x.start + (Exact.arcStep pi sweep x.total_sweep).1,
        (Exact.arcStep pi sweep x.total_sweep).2.1,
        x.sweeps ++ [(Exact.arcStep pi sweep x.total_sweep).1]⟩
      simp only at this
      omega
    · exact le_refl _

theorem arcVertices_length (c : Nat) (pts : List (ℚ × ℚ)) :
    (arcVertices c pts).length = pts.length := by
  cases pts <;> simp [arcVertices]

theorem arcVertices_getLast (c : Nat) (pts : List (ℚ × ℚ)) (h2 : 2 ≤ pts.length) :
    ∃ vs w, arcVertices c pts = vs ++ [w] ∧ w.cmd = CmdCurve4 := by
  match pts, h2 with
  | p :: q :: ps, _ =>
    refine ⟨⟨c, p.1, p.2⟩ :: ((q :: ps).map (fun q => ⟨CmdCurve4, q.1, q.2⟩)).dropLast,
      ((q :: ps).map (fun q => (⟨CmdCurve4, q.1, q.2⟩ : Vertex))).getLast (by simp), ?_, ?_⟩
    · simp only [arcVertices, List.cons_append, List.cons.injEq, true_and]
      exact (List.dropLast_append_getLast _).symm
    · have hm := List.getLast_mem (l := (q :: ps).map
        (fun q => (⟨CmdCurve4, q.1, q.2⟩ : Vertex))) (by simp)
      rw [List.mem_map] at hm
      obtain ⟨a, -, ha⟩ := hm
      rw [← ha]

/-- The slots the arc loop has filled, with the initial command stored over the command
of the first, hold the vertices of the arc. -/
theorem arcVertices_data (c vs : Nat) (pts : List (ℚ × ℚ)) (data : Nat → Vertex)
    (hdata : ∀ i p, pts[i]? = some p → data (vs + i) = ⟨CmdCurve4, p.1, p.2⟩) :
    ∀ k (hk : k < (arcVertices c pts).length),
      (if vs + k = vs then { data vs with cmd := c } else data (vs + k)) =
        (arcVertices c pts)[k] := by
  intro k hk
  cases pts with
  | nil => simp [arcVertices] at hk
  | cons p ps =>
    cases k with
    | zero =>
      have := hdata 0 p (by simp)
      simp only [Nat.add_zero] at this
      simp only [Nat.add_zero, if_true, arcVertices, List.getElem_cons_zero, this]
    | succ k =>
      have hk2 : k < ps.length := by
        simp only [arcVertices, List.length_cons, List.length_map] at hk; omega
      have := hdata (k + 1) ps[k] (by simp [List.getElem?_eq_getElem hk2])
      have hne : vs + (k + 1) ≠ vs := by omega
      simp only [hne, if_false, arcVertices, List.getElem_cons_succ, List.getElem_map, this]

/-- The general branch of `_arcTo` appends the vertices of the points its arithmetic
gives, over the rationals with the functions of the environment. -/
theorem arcBody_exact (E : Env) (h : Heap) (d : Nat) (cx cy rx ry start sweep : ℚ)
    (cmd : Nat) (hd : d < h.next) (hmem : E.oom h.next = false)
    (hs : ¬ |sweep| < 1 / 10000000000) :
    (arcBody E h d cx cy rx ry start sweep cmd).2.2 = none ∧
    (arcBody E h d cx cy rx ry start sweep cmd).1.verts
        (arcBody E h d cx cy rx ry start sweep cmd).2.1 =
      h.verts d ++ arcVertices cmd
        (Exact.arcLoop E.cos E.sin E.M_PI cx cy rx ry sweep 4 ⟨[], 1, start, 0, []⟩).out ∧
    (arcBody E h d cx cy rx ry start sweep cmd).2.1 <
      (arcBody E h d cx cy rx ry start sweep cmd).1.next ∧
    ((arcBody E h d cx cy rx ry start sweep cmd).1.mem
      (arcBody E h d cx cy rx ry start sweep cmd).2.1).type = CurveType ∧
    4 ≤ (Exact.arcLoop E.cos E.sin E.M_PI cx cy rx ry sweep 4 ⟨[], 1, start, 0, []⟩).out.length
    := by
  have hadd := add_ok_of_mem E h d 13 hmem
  unfold arcBody
  simp only [hs, if_false]
  generalize ha : _add E h d 13 = a at hadd
  obtain ⟨h1, d1, v⟩ := a
  simp only at hadd
  subst hadd
  have ok := add_eq_some hd ha
  have sim := arcSim_loop E d1 (h.mem d).length cx cy rx ry sweep h1 3
    ⟨h1, (h.mem d).length + 1, start, 0⟩ ⟨[], 1, start, 0, []⟩ rfl (le_refl _) (by simp)
    rfl rfl (fun i p hi _ => by simp at hi) (fun _ _ => rfl) rfl
  have hv4 := exact_arcLoop_v E.cos E.sin E.M_PI cx cy rx ry sweep 3 ⟨[], 1, start, 0, []⟩
  simp only
  generalize arcLoop E d1 cx cy rx ry sweep ((h.mem d).length + 13) (3 + 1)
    ⟨h1, (h.mem d).length + 1, start, 0⟩ = l at sim
  generalize Exact.arcLoop E.cos E.sin E.M_PI cx cy rx ry sweep (3 + 1)
    ⟨[], 1, start, 0, []⟩ = y at sim hv4
  refine ⟨trivial, ?_, ?_, by simp, by rw [sim.len]; simpa using hv4⟩
  · apply verts_eq_append
    · simp [sim.v, sim.len, arcVertices_length]
    · intro i hi
      have hne : i ≠ (h.mem d).length := Nat.ne_of_lt hi
      simp only [setType_data, setLength_data, Heap.upd_mem, if_true, hne, if_false]
      rw [sim.below i hi]
      exact ok.data i hi
    · intro k hk
      simp only [setType_data, setLength_data, Heap.upd_mem, if_true]
      exact arcVertices_data cmd (h.mem d).length y.out (l.heap.mem d1).data sim.data k hk
  · simp only [Heap.setType, Heap.setLength, Heap.upd]
    rw [sim.next]
    exact ok.lt

theorem arcGeneral_eq (E : Env) (cx cy rx ry start sweep : ℚ) :
    Exact.arcGeneral E.cos E.sin E.fmod E.M_PI cx cy rx ry start sweep =
      Exact.arcLoop E.cos E.sin E.M_PI cx cy rx ry (arcSweep E sweep) 4
        ⟨[], 1, E.fmod start (2 * E.M_PI), 0, []⟩ := rfl

/-- The arc primitive called without closing, in the general branch: what it appends. -/
theorem arcTo_exact (E : Env) (h : Heap) (d : Nat) (cx cy rx ry start sweep : ℚ)
    (cmd : Nat) (hd : d < h.next) (hmem : E.oom h.next = false)
    (hs : 1 / 10000000000 ≤ |arcSweep E sweep|) :
    (_arcTo E h d cx cy rx ry start sweep cmd false).2.2 = none ∧
    (_arcTo E h d cx cy rx ry start sweep cmd false).1.verts
        (_arcTo E h d cx cy rx ry start sweep cmd false).2.1 =
      h.verts d ++ arcVertices cmd
        (Exact.arcGeneral E.cos E.sin E.fmod E.M_PI cx cy rx ry start sweep).out ∧
    (_arcTo E h d cx cy rx ry start sweep cmd false).2.1 <
      (_arcTo E h d cx cy rx ry start sweep cmd false).1.next ∧
    ((_arcTo E h d cx cy rx ry start sweep cmd false).1.mem
      (_arcTo E h d cx cy rx ry start sweep cmd false).2.1).type = CurveType := by
  obtain ⟨b1, b2, b3, b4, -⟩ := arcBody_exact E h d cx cy rx ry (E.fmod start (2 * E.M_PI))
    (arcSweep E sweep) cmd hd hmem (not_lt.mpr hs)
  rw [arcTo_eq_arcBody E h d cx cy rx ry start sweep cmd b1, arcGeneral_eq]
  exact ⟨b1, b2, b3, b4⟩

/-- The arc primitive called with closing, in the general branch, when no allocation
fails: the vertices of the arc and a closed EndPoly. -/
theorem arcTo_closed_exact (E : Env) (h : Heap) (d : Nat) (cx cy rx ry start sweep : ℚ)
    (cmd : Nat) (hd : d < h.next) (hmem : ∀ k, E.oom k = false)
    (hs : 1 / 10000000000 ≤ |arcSweep E sweep|) :
    (_arcTo E h d cx cy rx ry start sweep cmd true).2.2 = some .Ok ∧
    (_arcTo E h d cx cy rx ry start sweep cmd true).1.verts
        (_arcTo E h d cx cy rx ry start sweep cmd true).2.1 =
      h.verts d ++ arcVertices cmd
        (Exact.arcGeneral E.cos E.sin E.fmod E.M_PI cx cy rx ry start sweep).out ++
        [⟨0 ||| CFlagClose ||| CmdEndPoly, 0, 0⟩] ∧
    (_arcTo E h d cx cy rx ry start sweep cmd true).2.1 <
      (_arcTo E h d cx cy rx ry start sweep cmd true).1.next := by
  obtain ⟨b1, b2, b3, -, b5⟩ := arcBody_exact E h d cx cy rx ry (E.fmod start (2 * E.M_PI))
    (arcSweep E sweep) cmd hd (hmem _) (not_lt.mpr hs)
  rw [arcGeneral_eq]
  unfold _arcTo
  simp only
  have hb : arcBody E h d cx cy rx ry (E.fmod start (2 * E.M_PI))
      (if (if 2 * E.M_PI ≤ sweep then 2 * E.M_PI else sweep) ≤ -2 * E.M_PI then -2 * E.M_PI
        else if 2 * E.M_PI ≤ sweep then 2 * E.M_PI else sweep) cmd =
      arcBody E h d cx cy rx ry (E.fmod start (2 * E.M_PI)) (arcSweep E sweep) cmd := rfl
  rw [hb]
  generalize arcBody E h d cx cy rx ry (E.fmod start (2 * E.M_PI)) (arcSweep E sweep) cmd = b
    at b1 b2 b3
  obtain ⟨h1, d1, c⟩ := b
  simp only at b1 b2 b3
  subst b1
  simp only [if_true]
  obtain ⟨vs, w, e, hw⟩ := arcVertices_getLast cmd
    (Exact.arcLoop E.cos E.sin E.M_PI cx cy rx ry (arcSweep E sweep) 4
      ⟨[], 1, E.fmod start (2 * E.M_PI), 0, []⟩).out (by omega)
  have hl : lastIsVertex h1 d1 = true := by
    have hv : h1.verts d1 = (h.verts d ++ vs) ++ [w] := by
      rw [b2, e, List.append_assoc]
    rw [lastIsVertex_of_last hv, hw]
    decide
  have ap := endPoly_appends E h1 d1 (0 ||| CFlagClose) b3 (hmem _) hl
  unfold closePolygon
  exact ⟨congrArg some ap.err, by rw [ap.verts, b2], ap.lt⟩

/-! ### The loop in real arithmetic -/

/-- One round of the arc loop in real arithmetic, entered after `j` rounds none of which
was the last. -/
theorem exact_arcStep_real (sweep : ℝ) (j : Nat)
    (hnot : 1 ≤ j → (j : ℝ) * (Real.pi * (1 / 2)) < |sweep| - 1 / 100) :
    (Exact.arcStep Real.pi sweep
        ((if sweep < 0 then -1 else 1) * (j * (Real.pi * (1 / 2))))).2.1 =
      (if sweep < 0 then -1 else 1) * ((j + 1 : Nat) * (Real.pi * (1 / 2))) ∧
    ((Exact.arcStep Real.pi sweep
        ((if sweep < 0 then -1 else 1) * (j * (Real.pi * (1 / 2))))).2.2 = true ↔
      |sweep| - 1 / 100 ≤ (j + 1 : Nat) * (Real.pi * (1 / 2))) ∧
    ((Exact.arcStep Real.pi sweep
        ((if sweep < 0 then -1 else 1) * (j * (Real.pi * (1 / 2))))).2.2 = true →
      (Exact.arcStep Real.pi sweep
        ((if sweep < 0 then -1 else 1) * (j * (Real.pi * (1 / 2))))).1 =
        sweep - (if sweep < 0 then -1 else 1) * (j * (Real.pi * (1 / 2)))) ∧
    ((Exact.arcStep Real.pi sweep
        ((if sweep < 0 then -1 else 1) * (j * (Real.pi * (1 / 2))))).2.2 = false →
      (Exact.arcStep Real.pi sweep
        ((if sweep < 0 then -1 else 1) * (j * (Real.pi * (1 / 2))))).1 =
        (if sweep < 0 then -1 else 1) * (Real.pi * (1 / 2))) ∧
    |(Exact.arcStep Real.pi sweep
        ((if sweep < 0 then -1 else 1) * (j * (Real.pi * (1 / 2))))).1| ≤
      Real.pi / 2 + 1 / 100 := by
  have hpi := Real.pi_pos
  have hj0 : (0 : ℝ) ≤ j := Nat.cast_nonneg j
  have hcases : j = 0 ∨ 1 ≤ j := by omega
  by_cases hs : sweep < 0
  · have ha : |sweep| = -sweep := abs_of_neg hs
    rw [ha] at hnot ⊢
    simp only [hs, if_true]
    by_cases c : -1 * (↑j * (Real.pi * (1 / 2))) - Real.pi * (1 / 2) ≤ sweep + 1 / 100
    · have key : Exact.arcStep Real.pi sweep (-1 * (↑j * (Real.pi * (1 / 2)))) =
          (sweep - -1 * (↑j * (Real.pi * (1 / 2))),
            -1 * (↑j * (Real.pi * (1 / 2))) - Real.pi * (1 / 2), true) := by
        simp only [Exact.arcStep, hs, if_true, c]
      rw [key]
      refine ⟨by push_cast; ring, ⟨fun _ => by push_cast; linarith, fun _ => rfl⟩,
        fun _ => rfl, fun e => Bool.noConfusion e, ?_⟩
      simp only
      rw [abs_le]
      rcases hcases with z | z
      · subst z
        simp only [Nat.cast_zero, zero_mul, mul_zero, sub_zero] at c ⊢
        constructor <;> linarith
      · have := hnot z
        constructor <;> linarith
    · have key : Exact.arcStep Real.pi sweep (-1 * (↑j * (Real.pi * (1 / 2)))) =
          (-Real.pi * (1 / 2), -1 * (↑j * (Real.pi * (1 / 2))) - Real.pi * (1 / 2), false) := by
        simp only [Exact.arcStep, hs, if_true, c, if_false]
      rw [key]
      refine ⟨by push_cast; ring,
        ⟨fun e => Bool.noConfusion e, fun c2 => absurd (by push_cast at c2; linarith) c⟩,
        fun e => Bool.noConfusion e, fun _ => by ring, ?_⟩
      simp only
      rw [abs_le]
      constructor <;> linarith
  · have ha : |sweep| = sweep := abs_of_nonneg (not_lt.mp hs)
    rw [ha] at hnot ⊢
    simp only [hs, if_false]
    by_cases c : sweep - 1 / 100 ≤ 1 * (↑j * (Real.pi * (1 / 2))) + Real.pi * (1 / 2)
    · have key : Exact.arcStep Real.pi sweep (1 * (↑j * (Real.pi * (1 / 2)))) =
          (sweep - 1 * (↑j * (Real.pi * (1 / 2))),
            1 * (↑j * (Real.pi * (1 / 2))) + Real.pi * (1 / 2), true) := by
        simp only [Exact.arcStep, hs, if_false, c, if_true]
      rw [key]
      refine ⟨by push_cast; ring, ⟨fun _ => by push_cast; linarith, fun _ => rfl⟩,
        fun _ => rfl, fun e => Bool.noConfusion e, ?_⟩
      simp only
      rw [abs_le]
      rcases hcases with z | z
      · subst z
        simp only [Nat.cast_zero, zero_mul, mul_zero, sub_zero] at c ⊢
        constructor <;> linarith [not_lt.mp hs]
      · have := hnot z
        constructor <;> linarith
    · have key : Exact.arcStep Real.pi sweep (1 * (↑j * (Real.pi * (1 / 2)))) =
          (Real.pi * (1 / 2), 1 * (↑j * (Real.pi * (1 / 2))) + Real.pi * (1 / 2), false) := by
        simp only [Exact.arcStep, hs, if_false, c]
      rw [key]
      refine ⟨by push_cast; ring,
        ⟨fun e => Bool.noConfusion e, fun c2 => absurd (by push_cast at c2; linarith) c⟩,
        fun e => Bool.noConfusion e, fun _ => by ring, ?_⟩
      simp only
      rw [abs_le]
      constructor <;> linarith

/-- One round of the arc loop in real arithmetic, entered after `j` rounds none of which
was the last, with the start angle `s0` of the arc: what the round leaves. -/
theorem exact_arc_round_real (cx cy rx ry s0 sweep : ℝ) (j : Nat) (x : Exact.ArcLoop ℝ)
    (ht : x.total_sweep = (if sweep < 0 then -1 else 1) * (j * (Real.pi * (1 / 2))))
    (hv : x.v = 1 + 3 * j) (hst : x.start = s0 + x.total_sweep)
    (hsum : x.sweeps.sum = x.total_sweep)
    (hb : ∀ l ∈ x.sweeps, |l| ≤ Real.pi / 2 + 1 / 100)
    (hnot : 1 ≤ j → (j : ℝ) * (Real.pi * (1 / 2)) < |sweep| - 1 / 100)
    (hout : 1 ≤ j → x.out.length = x.v ∧
      x.out.head? = some (cx + rx * Real.cos s0, cy + ry * Real.sin s0))
    (st : ℝ × ℝ × Bool) (hstep : st = Exact.arcStep Real.pi sweep x.total_sweep)
    (s1 : Exact.ArcLoop ℝ)
    (hs1 : s1 = ⟨x.out.take (x.v - 1) ++
      Exact.arc_to_bezier Real.cos Real.sin cx cy rx ry x.start st.1,
      x.v + 3, x.start + st.1, st.2.1, x.sweeps ++ [st.1]⟩) :
    s1.total_sweep = (if sweep < 0 then -1 else 1) * ((j + 1 : Nat) * (Real.pi * (1 / 2))) ∧
    s1.v = 1 + 3 * (j + 1) ∧
    (st.2.2 = true ↔ |sweep| - 1 / 100 ≤ (j + 1 : Nat) * (Real.pi * (1 / 2))) ∧
    (∀ l ∈ s1.sweeps, |l| ≤ Real.pi / 2 + 1 / 100) ∧
    s1.out.length = s1.v ∧
    s1.out.head? = some (cx + rx * Real.cos s0, cy + ry * Real.sin s0) ∧
    (st.2.2 = true → s1.sweeps.sum = sweep ∧
      s1.out.getLast? =
        some (cx + rx * Real.cos (s0 + sweep), cy + ry * Real.sin (s0 + sweep))) ∧
    (st.2.2 = false → s1.sweeps.sum = s1.total_sweep ∧ s1.start = s0 + s1.total_sweep) := by
  obtain ⟨r1, r2, r3, r4, r5⟩ := exact_arcStep_real sweep j hnot
  rw [← ht, ← hstep] at r1 r2 r3 r4 r5
  obtain ⟨p1, p2, hbez⟩ := arc_to_bezier_ends cx cy rx ry x.start st.1
  have hcases : j = 0 ∨ 1 ≤ j := by omega
  have htk : (x.out.take (x.v - 1)).length = x.v - 1 := by
    rw [List.length_take]
    rcases hcases with z | z
    · rw [hv, z]; simp
    · rw [(hout z).1]; omega
  subst hs1
  simp only
  refine ⟨r1, by omega, r2, ?_, ?_, ?_, ?_, ?_⟩
  · intro l hl
    rw [List.mem_append, List.mem_singleton] at hl
    rcases hl with hl | hl
    · exact hb l hl
    · rw [hl]; exact r5
  · rw [List.length_append, htk, hbez]
    simp only [List.length_cons, List.length_nil]
    omega
  · rcases hcases with z | z
    · have h0 : x.v - 1 = 0 := by rw [hv, z]
      have hs0 : x.start = s0 := by
        rw [hst, ht, z]; simp
      rw [h0, List.take_zero, List.nil_append, hbez, hs0]
      rfl
    · obtain ⟨o1, o2⟩ := hout z
      have hpos : 0 < x.v - 1 := by omega
      cases hxo : x.out with
      | nil => rw [hxo] at o1; simp at o1; omega
      | cons a rest =>
        rw [hxo] at o2
        obtain ⟨m, hm⟩ : ∃ m, x.v - 1 = m + 1 := ⟨x.v - 2, by omega⟩
        rw [hm, List.take_succ_cons, List.cons_append, List.head?_cons]
        simpa using o2
  · intro hd
    constructor
    · rw [List.sum_append, hsum, r3 hd]
      simp
    · rw [hbez, List.getLast?_append]
      simp only [List.getLast?_cons_cons, List.getLast?_singleton]
      have e : x.start + st.1 = s0 + sweep := by
        rw [r3 hd, hst]; ring
      rw [e]
      rfl
  · intro hd
    constructor
    · rw [List.sum_append, hsum, r1, r4 hd, ht]
      simp only [List.sum_cons, List.sum_nil, add_zero]
      push_cast
      ring
    · rw [r1, r4 hd, hst, ht]
      push_cast
      ring

/-- The arc loop in real arithmetic, for a sweep of at most a full turn: the local sweeps
stay within a quarter turn and `bezier_arc_angle_epsilon`, they add up to the sweep, and
the points stored start on the ellipse at the start angle and end on it at the start
angle plus the sweep. -/
theorem exact_arcLoop_real (cx cy rx ry s0 sweep : ℝ) (h2 : |sweep| ≤ 2 * Real.pi) :
    ∀ (fuel j : Nat) (x : Exact.ArcLoop ℝ), j + fuel = 3 →
      x.total_sweep = (if sweep < 0 then -1 else 1) * (j * (Real.pi * (1 / 2))) →
      x.v = 1 + 3 * j → x.start = s0 + x.total_sweep →
      x.sweeps.sum = x.total_sweep →
      (∀ l ∈ x.sweeps, |l| ≤ Real.pi / 2 + 1 / 100) →
      (1 ≤ j → (j : ℝ) * (Real.pi * (1 / 2)) < |sweep| - 1 / 100) →
      (1 ≤ j → x.out.length = x.v ∧
        x.out.head? = some (cx + rx * Real.cos s0, cy + ry * Real.sin s0)) →
      (Exact.arcLoop Real.cos Real.sin Real.pi cx cy rx ry sweep (fuel + 1) x).sweeps.sum
        = sweep ∧
      (∀ l ∈ (Exact.arcLoop Real.cos Real.sin Real.pi cx cy rx ry sweep (fuel + 1) x).sweeps,
        |l| ≤ Real.pi / 2 + 1 / 100) ∧
      (Exact.arcLoop Real.cos Real.sin Real.pi cx cy rx ry sweep (fuel + 1) x).out.head? =
        some (cx + rx * Real.cos s0, cy + ry * Real.sin s0) ∧
      (Exact.arcLoop Real.cos Real.sin Real.pi cx cy rx ry sweep (fuel + 1) x).out.getLast? =
        some (cx + rx * Real.cos (s0 + sweep), cy + ry * Real.sin (s0 + sweep)) := by
  intro fuel
  induction fuel with
  | zero =>
    intro j x hj ht hv hst hsum hb hnot hout
    obtain ⟨a1, a2, a3, a4, a5, a6, a7, a8⟩ := exact_arc_round_real cx cy rx ry s0 sweep j x
      ht hv hst hsum hb hnot hout _ rfl _ rfl
    have hd : (Exact.arcStep Real.pi sweep x.total_sweep).2.2 = true := by
      rw [a3]
      have : j = 3 := by omega
      subst this
      push_cast
      linarith
    unfold Exact.arcLoop
    simp only [hd, not_true_eq_false, false_and, if_false]
    exact ⟨(a7 hd).1, a4, a6, (a7 hd).2⟩
  | succ n ih =>
    intro j x hj ht hv hst hsum hb hnot hout
    obtain ⟨a1, a2, a3, a4, a5, a6, a7, a8⟩ := exact_arc_round_real cx cy rx ry s0 sweep j x
      ht hv hst hsum hb hnot hout _ rfl _ rfl
    rw [Exact.arcLoop]
    simp only
    by_cases hd : (Exact.arcStep Real.pi sweep x.total_sweep).2.2 = true
    · rw [if_neg (fun c => c.1 hd)]
      exact ⟨(a7 hd).1, a4, a6, (a7 hd).2⟩
    · have hc : x.v + 3 < 13 := by omega
      rw [if_pos ⟨hd, hc⟩]
      have hf : (Exact.arcStep Real.pi sweep x.total_sweep).2.2 = false := by
        simpa using hd
      refine ih (j + 1) _ (by omega) a1 a2 (a8 hf).2 (a8 hf).1 a4 ?_ (fun _ => ⟨a5, a6⟩)
      intro _
      exact not_le.mp (fun c => hd (a3.mpr c))

/-- C36. (1) For every path and arguments with `|sweep| ≥ 1e-10` after the clamps, when
the allocation `_add` may need does not fail, the arc primitive appends exactly the
vertices of the points its loop computes, in their order (`Exact.arcGeneral` with the
scalars and functions of the path), the first with the initial command and the others
with Curve4; called with closing, when no allocation fails, it appends these and then a
closed EndPoly.  (2) In exact real arithmetic (`cos`, `sin` and `π` the real ones, `fmod`
any function whose value differs from its first argument by an integer multiple of the
second), for every `cx`, `cy`, `rx`, `ry`, `start` and every `sweep` with
`1e-10 ≤ |sweep| ≤ 2π`: the per-chunk sweeps of the loop each have magnitude at most
`π/2 + 0.01` and sum to `sweep`, the first point computed is the ellipse point at the
angle `start`, `(cx + rx·cos(start), cy + ry·sin(start))`, and the last point computed
is the ellipse point at the angle `start + sweep`. -/
theorem arc_runs_from_start_to_end (cx cy rx ry start sweep : ℝ) (fmod : ℝ → ℝ → ℝ) :
    (∀ (E : Env) (h : Heap) (d : Nat) (cx cy rx ry start sweep : ℚ) (cmd : Nat),
      d < h.next → E.oom h.next = false → 1 / 10000000000 ≤ |arcSweep E sweep| →
      (_arcTo E h d cx cy rx ry start sweep cmd false).1.verts
          (_arcTo E h d cx cy rx ry start sweep cmd false).2.1 =
        h.verts d ++ arcVertices cmd
          (Exact.arcGeneral E.cos E.sin E.fmod E.M_PI cx cy rx ry start sweep).out) ∧
    (∀ (E : Env) (h : Heap) (d : Nat) (cx cy rx ry start sweep : ℚ) (cmd : Nat),
      d < h.next → (∀ k, E.oom k = false) → 1 / 10000000000 ≤ |arcSweep E sweep| →
      (_arcTo E h d cx cy rx ry start sweep cmd true).1.verts
          (_arcTo E h d cx cy rx ry start sweep cmd true).2.1 =
        h.verts d ++ arcVertices cmd
          (Exact.arcGeneral E.cos E.sin E.fmod E.M_PI cx cy rx ry start sweep).out ++
          [⟨0 ||| CFlagClose ||| CmdEndPoly, 0, 0⟩]) ∧
    ((∀ x y, ∃ n : ℤ, fmod x y = x - n * y) →
      1 / 10000000000 ≤ |sweep| → |sweep| ≤ 2 * Real.pi →
      (∀ l ∈ (Exact.arcGeneral Real.cos Real.sin fmod Real.pi cx cy rx ry start sweep).sweeps,
        |l| ≤ Real.pi / 2 + 1 / 100) ∧
      (Exact.arcGeneral Real.cos Real.sin fmod Real.pi cx cy rx ry start sweep).sweeps.sum
        = sweep ∧
      (Exact.arcGeneral Real.cos Real.sin fmod Real.pi cx cy rx ry start sweep).out.head? =
        some (cx + rx * Real.cos start, cy + ry * Real.sin start) ∧
      (Exact.arcGeneral Real.cos Real.sin fmod Real.pi cx cy rx ry start sweep).out.getLast? =
        some (cx + rx * Real.cos (start + sweep), cy + ry * Real.sin (start + sweep))) := by
  refine ⟨fun E h d cx cy rx ry start sweep cmd hd hmem hs =>
      (arcTo_exact E h d cx cy rx ry start sweep cmd hd hmem hs).2.1,
    fun E h d cx cy rx ry start sweep cmd hd hmem hs =>
      (arcTo_closed_exact E h d cx cy rx ry start sweep cmd hd hmem hs).2.1, ?_⟩
  intro hf _ h2
  obtain ⟨n, hn⟩ := hf start (2 * Real.pi)
  obtain ⟨l1, l2⟩ := abs_le.mp h2
  have hsw : (if (if 2 * Real.pi ≤ sweep then 2 * Real.pi else sweep) ≤ -2 * Real.pi
      then -2 * Real.pi else (if 2 * Real.pi ≤ sweep then 2 * Real.pi else sweep)) = sweep := by
    have hpi := Real.pi_pos
    split_ifs <;> linarith
  have e : Exact.arcGeneral Real.cos Real.sin fmod Real.pi cx cy rx ry start sweep =
      Exact.arcLoop Real.cos Real.sin Real.pi cx cy rx ry sweep (3 + 1)
        ⟨[], 1, fmod start (2 * Real.pi), 0, []⟩ := by
    unfold Exact.arcGeneral
    simp only
    rw [hsw]
  rw [e]
  obtain ⟨t1, t2, t3, t4⟩ := exact_arcLoop_real cx cy rx ry (fmod start (2 * Real.pi)) sweep h2
    3 0 ⟨[], 1, fmod start (2 * Real.pi), 0, []⟩ rfl (by simp) rfl (by simp) (by simp)
    (by simp) (fun c => absurd c (by decide)) (fun c => absurd c (by decide))
  have c0 : Real.cos (fmod start (2 * Real.pi)) = Real.cos start := by
    rw [hn]; exact Real.cos_sub_int_mul_two_pi start n
  have s0 : Real.sin (fmod start (2 * Real.pi)) = Real.sin start := by
    rw [hn]; exact Real.sin_sub_int_mul_two_pi start n
  have c1 : Real.cos (fmod start (2 * Real.pi) + sweep) = Real.cos (start + sweep) := by
    rw [hn, show start - n * (2 * Real.pi) + sweep = (start + sweep) - n * (2 * Real.pi) by ring]
    exact Real.cos_sub_int_mul_two_pi _ n
  have s1 : Real.sin (fmod start (2 * Real.pi) + sweep) = Real.sin (start + sweep) := by
    rw [hn, show start - n * (2 * Real.pi) + sweep = (start + sweep) - n * (2 * Real.pi) by ring]
    exact Real.sin_sub_int_mul_two_pi _ n
  rw [c0, s0] at t3
  rw [c1, s1] at t4
  exact ⟨t2, t1, t3, t4⟩

theorem arc_runs_from_start_to_end_witness :
    (∀ x y : ℝ, ∃ n : ℤ, (fun (a : ℝ) (_ : ℝ) => a) x y = x - n * y) ∧
    (1 / 10000000000 : ℝ) ≤ |1| ∧ |(1 : ℝ)| ≤ 2 * Real.pi ∧
    (Exact.arcGeneral Real.cos Real.sin (fun a _ => a) Real.pi 0 0 2 1 0 1).sweeps.sum = 1 ∧
    (Exact.arcGeneral Real.cos Real.sin (fun a _ => a) Real.pi 0 0 2 1 0 1).out.head? =
      some (0 + 2 * Real.cos 0, 0 + 1 * Real.sin 0) ∧
    (Exact.arcGeneral Real.cos Real.sin (fun a _ => a) Real.pi 0 0 2 1 0 1).out.getLast? =
      some (0 + 2 * Real.cos (0 + 1), 0 + 1 * Real.sin (0 + 1)) := by
  have hf : ∀ x y : ℝ, ∃ n : ℤ, (fun (a : ℝ) (_ : ℝ) => a) x y = x - n * y :=
    fun x y => ⟨0, by simp⟩
  have h1 : (1 / 10000000000 : ℝ) ≤ |1| := by rw [abs_one]; norm_num
  have h2 : |(1 : ℝ)| ≤ 2 * Real.pi := by
    rw [abs_one]; linarith [Real.pi_gt_three]
  have t := (arc_runs_from_start_to_end 0 0 2 1 0 1 (fun a _ => a)).2.2 hf h1 h2
  exact ⟨hf, h1, h2, t.2.1, t.2.2.1, t.2.2.2⟩

/-! ## Pies (C32) -/

theorem arcSweep_of_lt (E : Env) (sweep : ℚ) (hpi : 3 < E.M_PI) (hlt : sweep < E.M_PI * 2)
    (hs : 1 / 10000000000 ≤ |sweep|) : 1 / 10000000000 ≤ |arcSweep E sweep| := by
  unfold arcSweep
  have h1 : ¬ 2 * E.M_PI ≤ sweep := by intro c; linarith
  simp only [h1, if_false]
  split_ifs
  · rw [abs_of_neg (by linarith)]
    linarith
  · exact hs

/-- C32. For every path, center `cp`, radii `r` and start angle: (1) for every
`sweep ≥ 2π`, `addPie(cp, r, start, sweep)` leaves the memory, the block and the result
code of `addEllipse(cp, r)`, so the same vertex sequence; (2) for every `sweep < 2π`
with `|sweep| ≥ 1e-10`, when no allocation fails (and `M_PI` is above 3), it returns
success and appends MoveTo at the center `(cp.x, cp.y)`, then the vertices of the arc
the arc primitive computes for the normalised start angle and the sweep, at least four,
the first with LineTo and the others with Curve4, then a closed EndPoly. -/
theorem addPie_ellipse_or_sector (E : Env) (h : Heap) (d : Nat) (cp r : PointF)
    (start sweep : ℚ) :
    (E.M_PI * 2 ≤ sweep →
      addPieCenter E h d cp r start sweep = addEllipseCenter E h d cp r ∧
      (addPieCenter E h d cp r start sweep).1.verts (addPieCenter E h d cp r start sweep).2.1 =
        (addEllipseCenter E h d cp r).1.verts (addEllipseCenter E h d cp r).2.1) ∧
    (sweep < E.M_PI * 2 → 1 / 10000000000 ≤ |sweep| → d < h.next →
      (∀ k, E.oom k = false) → 3 < E.M_PI →
      (addPieCenter E h d cp r start sweep).2.2 = some .Ok ∧
      ∃ p ps, 3 ≤ ps.length ∧
        (Exact.arcGeneral E.cos E.sin E.fmod E.M_PI cp.x cp.y r.x r.y (pieStart E start)
          sweep).out = p :: ps ∧
        (addPieCenter E h d cp r start sweep).1.verts
            (addPieCenter E h d cp r start sweep).2.1 =
          h.verts d ++ ⟨CmdMoveTo, cp.x, cp.y⟩ :: ⟨CmdLineTo, p.1, p.2⟩ ::
            ps.map (fun q => ⟨CmdCurve4, q.1, q.2⟩) ++
            [⟨CmdEndPoly ||| CFlagClose, 0, 0⟩]) := by
  constructor
  · intro hge
    have e : addPieCenter E h d cp r start sweep = addEllipseCenter E h d cp r := by
      unfold addPieCenter
      rw [if_pos hge]
    exact ⟨e, by rw [e]⟩
  · intro hlt hs hd hmem hpi
    have m := moveTo_appends E h d cp.x cp.y hd (hmem _)
    have hs2 := arcSweep_of_lt E sweep hpi hlt hs
    unfold addPieCenter
    rw [if_neg (not_le.mpr hlt)]
    simp only
    generalize moveTo E h d cp.x cp.y = o at m
    obtain ⟨c1, c2, c3, c4⟩ := arcBody_exact E o.heap o.d cp.x cp.y r.x r.y
      (E.fmod (pieStart E start) (2 * E.M_PI)) (arcSweep E sweep) CmdLineTo m.lt (hmem _)
      (not_lt.mpr hs2)
    obtain ⟨a1, a2, a3⟩ := arcTo_closed_exact E o.heap o.d cp.x cp.y r.x r.y
      (pieStart E start) sweep CmdLineTo m.lt hmem hs2
    rw [arcGeneral_eq] at a2 ⊢
    simp only [m.err, ne_eq, not_true_eq_false, if_false]
    have hp : (if E.fmod start (E.M_PI * 2) < 0 then E.fmod start (E.M_PI * 2) + E.M_PI * 2
        else E.fmod start (E.M_PI * 2)) = pieStart E start := rfl
    rw [hp]
    generalize _arcTo E o.heap o.d cp.x cp.y r.x r.y (pieStart E start) sweep CmdLineTo true
      = a at a1 a2 a3
    obtain ⟨h1, d1, e⟩ := a
    simp only at a1 a2 a3
    subst a1
    simp only [ne_eq, not_true_eq_false, if_false]
    refine ⟨trivial, ?_⟩
    generalize (Exact.arcLoop E.cos E.sin E.M_PI cp.x cp.y r.x r.y (arcSweep E sweep) 4
      ⟨[], 1, E.fmod (pieStart E start) (2 * E.M_PI), 0, []⟩).out = pts at a2 c4
    match pts, c4.2 with
    | p :: ps, hl =>
      refine ⟨p, ps, by simpa using hl, rfl, ?_⟩
      rw [a2, m.verts]
      simp only [arcVertices, List.append_assoc, List.singleton_append, List.cons_append,
        List.nil_append]
      rfl

theorem addPie_ellipse_or_sector_witness :
    Env.plain.M_PI * 2 ≤ 7 ∧ (3 : ℚ) < Env.plain.M_PI * 2 ∧
    (1 / 10000000000 : ℚ) ≤ |3| ∧ sharedNull < exEmpty.next ∧
    (∀ k, Env.plain.oom k = false) ∧ (3 : ℚ) < Env.plain.M_PI ∧
    addPieCenter Env.plain exEmpty sharedNull ⟨3, 4⟩ ⟨2, 1⟩ 0 7 =
      addEllipseCenter Env.plain exEmpty sharedNull ⟨3, 4⟩ ⟨2, 1⟩ ∧
    (addPieCenter Env.plain exEmpty sharedNull ⟨3, 4⟩ ⟨2, 1⟩ 0 3).2.2 = some .Ok ∧
    (∃ p ps, 3 ≤ ps.length ∧
      (Exact.arcGeneral Env.plain.cos Env.plain.sin Env.plain.fmod Env.plain.M_PI 3 4 2 1
        (pieStart Env.plain 0) 3).out = p :: ps ∧
      (addPieCenter Env.plain exEmpty sharedNull ⟨3, 4⟩ ⟨2, 1⟩ 0 3).1.verts
          (addPieCenter Env.plain exEmpty sharedNull ⟨3, 4⟩ ⟨2, 1⟩ 0 3).2.1 =
        exEmpty.verts sharedNull ++ ⟨CmdMoveTo, 3, 4⟩ :: ⟨CmdLineTo, p.1, p.2⟩ ::
          ps.map (fun q => ⟨CmdCurve4, q.1, q.2⟩) ++
          [⟨CmdEndPoly ||| CFlagClose, 0, 0⟩]) := by
  have a1 : Env.plain.M_PI * 2 ≤ 7 := by norm_num [Env.plain]
  have a2 : (3 : ℚ) < Env.plain.M_PI * 2 := by norm_num [Env.plain]
  have a3 : (1 / 10000000000 : ℚ) ≤ |3| := by
    rw [abs_of_pos (by norm_num)]; norm_num
  have a4 : sharedNull < exEmpty.next := by decide
  have a5 : ∀ k, Env.plain.oom k = false := fun _ => rfl
  have a6 : (3 : ℚ) < Env.plain.M_PI := by norm_num [Env.plain]
  have t := (addPie_ellipse_or_sector Env.plain exEmpty sharedNull ⟨3, 4⟩ ⟨2, 1⟩ 0 3).2
    a2 a3 a4 a5 a6
  have u := (addPie_ellipse_or_sector Env.plain exEmpty sharedNull ⟨3, 4⟩ ⟨2, 1⟩ 0 7).1 a1
  exact ⟨a1, a2, a3, a4, a5, a6, u.1, t.1, t.2⟩

/-! ## What the transformations leave alone (C38) -/

/-- The block `detach` leaves in `_d` shows the vertices the path showed. -/
theorem detach_shows (E : Env) (h : Heap) (d : Nat) (hd : d < h.next) :
    ((detach E h d).heap.mem (detach E h d).d).length = (h.mem d).length ∧
    (∀ i, i < (h.mem d).length →
      ((detach E h d).heap.mem (detach E h d).d).data i = (h.mem d).data i) := by
  unfold detach
  by_cases hdet : isDetached h d = true
  · rw [if_pos hdet]
    exact ⟨rfl, fun _ _ => rfl⟩
  · by_cases hlen : (h.mem d).length = 0
    · simp only [hdet, _detach, Data.copy, hlen, if_true, Bool.false_eq_true, if_false]
      refine ⟨by simp [hlen], fun i hi => by omega⟩
    · simp only [hdet, _detach, Data.copy, hlen, if_false, Bool.false_eq_true]
      rcases alloc_cases E h (h.mem d).length with ⟨_, e⟩ | ⟨_, a1, e, hn, _, hm⟩
      · rw [e]
        exact ⟨rfl, fun _ _ => rfl⟩
      · rw [e]
        have hne : d ≠ h.next := Nat.ne_of_lt hd
        constructor
        · simp [hm d hne]
        · intro i hi
          simp [hm d hne, hi]

theorem mapVertices_structure (h0 h : Heap) (d0 d : Nat) (f : Vertex → Vertex)
    (hf : ∀ v, (f v).cmd = v.cmd)
    (hl : (h.mem d).length = (h0.mem d0).length)
    (hdata : ∀ i, i < (h0.mem d0).length → (h.mem d).data i = (h0.mem d0).data i) :
    KeepsStructure h0 d0 ⟨mapVertices h d f, d, .Ok⟩ := by
  refine ⟨?_, ?_, ?_⟩
  · simp [mapVertices, hl]
  · intro i hi
    simp only [mapVertices, Heap.upd_mem, if_true]
    split
    · rw [hf, hdata i hi]
    · rw [hdata i hi]
  · intro i hi hv
    simp only [mapVertices, Heap.upd_mem, if_true]
    rw [hdata i hi, hv]
    simp

/-- The loop of `translate(dx, dy, pathId)` from the slot `i`: commands stay, vertices
that are not drawable stay, and so do the slots below `i`, the slots from the first Stop
at or after `i` on and the slots from `len` on; a drawable vertex from `i` on with no
Stop from `i` up to it is moved by `(dx, dy)`. -/
theorem translateLoop_frame (dx dy : ℚ) (len : Nat) :
    ∀ (fuel i : Nat) (data : Nat → Vertex) (k : Nat),
      ((translateLoop dx dy len fuel i data) k).cmd = (data k).cmd ∧
      (Cmd.isVertex (data k).cmd = false → translateLoop dx dy len fuel i data k = data k) ∧
      (k < i → translateLoop dx dy len fuel i data k = data k) ∧
      (len ≤ k → translateLoop dx dy len fuel i data k = data k) ∧
      ((∃ j, i ≤ j ∧ j ≤ k ∧ Cmd.isStop (data j).cmd = true) →
        translateLoop dx dy len fuel i data k = data k) ∧
      (i ≤ k → k < i + fuel → k < len → Cmd.isVertex (data k).cmd = true →
        (∀ j, i ≤ j → j ≤ k → Cmd.isStop (data j).cmd = false) →
        translateLoop dx dy len fuel i data k =
          { data k with x := (data k).x + dx, y := (data k).y + dy }) := by
  intro fuel
  induction fuel with
  | zero =>
    intro i data k
    refine ⟨rfl, fun _ => rfl, fun _ => rfl, fun _ => rfl, fun _ => rfl, ?_⟩
    intro h1 h2
    omega
  | succ n ih =>
    intro i data k
    unfold translateLoop
    by_cases hi : i < len
    · rw [if_pos hi]
      by_cases hstop : Cmd.isStop (data i).cmd = true
      · rw [if_pos hstop]
        refine ⟨rfl, fun _ => rfl, fun _ => rfl, fun _ => rfl, fun _ => rfl, ?_⟩
        intro h1 _ _ _ hno
        have := hno i (le_refl _) h1
        rw [hstop] at this
        exact Bool.noConfusion this
      · rw [if_neg hstop]
        by_cases hv : Cmd.isVertex (data i).cmd = true
        · rw [if_pos hv]
          obtain ⟨a1, a2, a3, a4, a5, a6⟩ := ih (i + 1)
            (fun j => if j = i then { data i with x := (data i).x + dx, y := (data i).y + dy }
              else data j) k
          by_cases hk : k = i
          · subst hk
            have e := a3 (by omega)
            simp only [if_true] at e a1
            refine ⟨by rw [a1], ?_, fun c => by omega, fun c => by omega, ?_, ?_⟩
            · intro c; rw [hv] at c; exact Bool.noConfusion c
            · rintro ⟨j, j1, j2, j3⟩
              have : j = k := by omega
              subst this
              exact absurd j3 hstop
            · intro _ _ _ _ _
              exact e
          · simp only [hk, if_false] at a1 a2 a3 a4 a5 a6
            refine ⟨a1, a2, fun c => a3 (by omega), a4, ?_, ?_⟩
            · rintro ⟨j, j1, j2, j3⟩
              have hji : j ≠ i := fun c => by subst c; exact hstop j3
              exact a5 ⟨j, by omega, j2, by simpa [hji] using j3⟩
            · intro h1 h2 h3 h4 hno
              refine a6 (by omega) (by omega) h3 h4 ?_
              intro j j1 j2
              have hji : j ≠ i := by omega
              simpa [hji] using hno j (by omega) j2
        · rw [if_neg hv]
          obtain ⟨a1, a2, a3, a4, a5, a6⟩ := ih (i + 1) data k
          refine ⟨a1, a2, fun c => a3 (by omega), a4, ?_, ?_⟩
          · rintro ⟨j, j1, j2, j3⟩
            have hji : j ≠ i := fun c => by subst c; exact hstop j3
            exact a5 ⟨j, by omega, j2, j3⟩
          · intro h1 h2 h3 h4 hno
            have hki : k ≠ i := fun c => by subst c; exact hv h4
            exact a6 (by omega) (by omega) h3 h4 (fun j j1 j2 => hno j (by omega) j2)
    · rw [if_neg hi]
      refine ⟨rfl, fun _ => rfl, fun _ => rfl, fun _ => rfl, fun _ => rfl, ?_⟩
      intro h1 _ h3
      omega

/-- C38. For every path (a block that exists) and all arguments, `flipX`, `flipY`,
`translate(dx, dy)`, `translate(dx, dy, pathId)`, `scale` (with and without
`keepStartPos`) and `applyMatrix`, whether they succeed or fail in `detach`, leave the
length of the path and the command of every vertex unchanged and leave the stored
coordinates of every vertex that is not drawable (Stop, EndPoly) unchanged, so only
coordinates of drawable vertices change; and `translate(dx, dy, pathId)` leaves every
vertex below `pathId` and every vertex from the first Stop at or after `pathId` on
unchanged, and when it succeeds moves by `(dx, dy)` each drawable vertex from `pathId`
on that has no Stop from `pathId` up to it. -/
theorem transformations_keep_structure (E : Env) (h : Heap) (d : Nat) (hd : d < h.next) :
    (∀ x1 x2, KeepsStructure h d (flipX E h d x1 x2)) ∧
    (∀ y1 y2, KeepsStructure h d (flipY E h d y1 y2)) ∧
    (∀ dx dy, KeepsStructure h d (translate E h d dx dy)) ∧
    (∀ dx dy pathId, KeepsStructure h d (translateFrom E h d dx dy pathId) ∧
      (∀ i, i < (h.mem d).length →
        (i < pathId ∨ ∃ j, pathId ≤ j ∧ j ≤ i ∧ Cmd.isStop ((h.mem d).data j).cmd = true) →
        ((translateFrom E h d dx dy pathId).heap.mem (translateFrom E h d dx dy pathId).d).data i
          = (h.mem d).data i) ∧
      ((translateFrom E h d dx dy pathId).err = .Ok →
        ∀ i, pathId ≤ i → i < (h.mem d).length →
          Cmd.isVertex ((h.mem d).data i).cmd = true →
          (∀ j, pathId ≤ j → j ≤ i → Cmd.isStop ((h.mem d).data j).cmd = false) →
          ((translateFrom E h d dx dy pathId).heap.mem
              (translateFrom E h d dx dy pathId).d).data i =
            { (h.mem d).data i with x := ((h.mem d).data i).x + dx,
                                    y := ((h.mem d).data i).y + dy })) ∧
    (∀ sx sy k, KeepsStructure h d (scale E h d sx sy k)) ∧
    (∀ m, KeepsStructure h d (applyMatrix E h d m)) := by
  obtain ⟨dl, dd⟩ := detach_shows E h d hd
  have same : KeepsStructure h d (detach E h d) :=
    ⟨dl, fun i hi => by rw [dd i hi], fun i hi _ => dd i hi⟩
  have refl : KeepsStructure h d ⟨h, d, .Ok⟩ := ⟨rfl, fun _ _ => rfl, fun _ _ _ => rfl⟩
  have mv : ∀ f : Vertex → Vertex, (∀ v, (f v).cmd = v.cmd) →
      KeepsStructure h d ⟨mapVertices (detach E h d).heap (detach E h d).d f,
        (detach E h d).d, .Ok⟩ :=
    fun f hf => mapVertices_structure h (detach E h d).heap d (detach E h d).d f hf dl dd
  refine ⟨?_, ?_, ?_, ?_, ?_, ?_⟩
  · intro x1 x2
    unfold flipX
    simp only
    split_ifs
    · exact refl
    · exact same
    · exact mv _ (fun _ => rfl)
  · intro y1 y2
    unfold flipY
    simp only
    split_ifs
    · exact refl
    · exact same
    · exact mv _ (fun _ => rfl)
  · intro dx dy
    unfold translate
    simp only
    split_ifs
    · exact refl
    · exact same
    · exact mv _ (fun _ => rfl)
  · intro dx dy pathId
    unfold translateFrom
    simp only
    split_ifs with c1 c2
    · exact ⟨refl, fun _ _ _ => rfl, fun _ i _ hi => by omega⟩
    · refine ⟨same, fun i hi _ => dd i hi, fun e => ?_⟩
      exact absurd e c2
    · have key := fun k => translateLoop_frame dx dy
        ((detach E h d).heap.mem (detach E h d).d).length
        (((detach E h d).heap.mem (detach E h d).d).length - pathId) pathId
        ((detach E h d).heap.mem (detach E h d).d).data k
      refine ⟨⟨?_, ?_, ?_⟩, ?_, ?_⟩
      · simp [dl]
      · intro i hi
        simp only [Heap.upd_mem, if_true]
        rw [(key i).1, dd i hi]
      · intro i hi hv
        simp only [Heap.upd_mem, if_true]
        rw [(key i).2.1 (by rw [dd i hi]; exact hv), dd i hi]
      · intro i hi hc
        simp only [Heap.upd_mem, if_true]
        rcases hc with hc | ⟨j, j1, j2, j3⟩
        · rw [(key i).2.2.1 hc, dd i hi]
        · rw [(key i).2.2.2.2.1 ⟨j, j1, j2, by rw [dd j (by omega)]; exact j3⟩, dd i hi]
      · intro _ i h1 h2 hv hno
        simp only [Heap.upd_mem, if_true]
        rw [(key i).2.2.2.2.2 h1 (by rw [dl]; omega) (by rw [dl]; exact h2)
          (by rw [dd i h2]; exact hv)
          (fun j j1 j2 => by rw [dd j (by omega)]; exact hno j j1 j2), dd i h2]
  · intro sx sy k
    unfold scale
    simp only
    split_ifs
    · exact refl
    · exact same
    · exact mv _ (fun _ => rfl)
    · exact mv _ (fun _ => rfl)
  · intro m
    unfold applyMatrix
    simp only
    split_ifs
    · exact refl
    · exact same
    · exact mv _ (fun _ => rfl)

theorem transformations_keep_structure_witness :
    exTriangle.d < exTriangle.heap.next ∧
    KeepsStructure exTriangle.heap exTriangle.d
      (scale Env.plain exTriangle.heap exTriangle.d 2 3 true) ∧
    KeepsStructure exTriangle.heap exTriangle.d
      (translateFrom Env.plain exTriangle.heap exTriangle.d 5 7 1) ∧
    (translateFrom Env.plain exTriangle.heap exTriangle.d 5 7 1).heap.verts
        (translateFrom Env.plain exTriangle.heap exTriangle.d 5 7 1).d =
      [⟨CmdMoveTo, 0, 0⟩, ⟨CmdLineTo, 15, 7⟩, ⟨CmdLineTo, 15, 17⟩,
       ⟨CmdEndPoly ||| CFlagClose, 0, 0⟩] := by
  have hd : exTriangle.d < exTriangle.heap.next := by decide
  have t := transformations_keep_structure Env.plain exTriangle.heap exTriangle.d hd
  exact ⟨hd, t.2.2.2.2.1 2 3 true, (t.2.2.2.1 5 7 1).1, by decide!⟩

/-! ## Scaling about the top-left corner (C39) -/

/-- The first loop of `scale` with `keepStartPos` over a list of slots: the running
minima end at or below their initial values and below every drawable vertex met, and
each is its initial value or the coordinate of a drawable vertex met. -/
theorem scaleOrigin_fold (data : Nat → Vertex) :
    ∀ (l : List Nat) (acc : ℚ × ℚ),
      ((l.foldl (fun p i =>
          if Cmd.isVertex (data i).cmd then
            (if (data i).x < p.1 then (data i).x else p.1,
             if (data i).y < p.2 then (data i).y else p.2)
          else p) acc).1 ≤ acc.1 ∧
        (∀ i ∈ l, Cmd.isVertex (data i).cmd = true →
          (l.foldl (fun p i =>
            if Cmd.isVertex (data i).cmd then
              (if (data i).x < p.1 then (data i).x else p.1,
               if (data i).y < p.2 then (data i).y else p.2)
            else p) acc).1 ≤ (data i).x) ∧
        ((l.foldl (fun p i =>
            if Cmd.isVertex (data i).cmd then
              (if (data i).x < p.1 then (data i).x else p.1,
               if (data i).y < p.2 then (data i).y else p.2)
            else p) acc).1 = acc.1 ∨
          ∃ i ∈ l, Cmd.isVertex (data i).cmd = true ∧
            (l.foldl (fun p i =>
              if Cmd.isVertex (data i).cmd then
                (if (data i).x < p.1 then (data i).x else p.1,
                 if (data i).y < p.2 then (data i).y else p.2)
              else p) acc).1 = (data i).x)) ∧
      ((l.foldl (fun p i =>
          if Cmd.isVertex (data i).cmd then
            (if (data i).x < p.1 then (data i).x else p.1,
             if (data i).y < p.2 then (data i).y else p.2)
          else p) acc).2 ≤ acc.2 ∧
        (∀ i ∈ l, Cmd.isVertex (data i).cmd = true →
          (l.foldl (fun p i =>
            if Cmd.isVertex (data i).cmd then
              (if (data i).x < p.1 then (data i).x else p.1,
               if (data i).y < p.2 then (data i).y else p.2)
            else p) acc).2 ≤ (data i).y) ∧
        ((l.foldl (fun p i =>
            if Cmd.isVertex (data i).cmd then
              (if (data i).x < p.1 then (data i).x else p.1,
               if (data i).y < p.2 then (data i).y else p.2)
            else p) acc).2 = acc.2 ∨
          ∃ i ∈ l, Cmd.isVertex (data i).cmd = true ∧
            (l.foldl (fun p i =>
              if Cmd.isVertex (data i).cmd then
                (if (data i).x < p.1 then (data i).x else p.1,
                 if (data i).y < p.2 then (data i).y else p.2)
              else p) acc).2 = (data i).y)) := by
  intro l
  induction l with
  | nil =>
    intro acc
    simp
  | cons a l ih =>
    intro acc
    simp only [List.foldl_cons]
    by_cases hv : Cmd.isVertex (data a).cmd = true
    · simp only [hv, if_true]
      obtain ⟨⟨x1, x2, x3⟩, ⟨y1, y2, y3⟩⟩ := ih
        (if (data a).x < acc.1 then (data a).x else acc.1,
         if (data a).y < acc.2 then (data a).y else acc.2)
      simp only at x1 x3 y1 y3
      have mx1 : (if (data a).x < acc.1 then (data a).x else acc.1) ≤ acc.1 := by
        split_ifs <;> linarith
      have mx2 : (if (data a).x < acc.1 then (data a).x else acc.1) ≤ (data a).x := by
        split_ifs <;> linarith
      have my1 : (if (data a).y < acc.2 then (data a).y else acc.2) ≤ acc.2 := by
        split_ifs <;> linarith
      have my2 : (if (data a).y < acc.2 then (data a).y else acc.2) ≤ (data a).y := by
        split_ifs <;> linarith
      refine ⟨⟨le_trans x1 mx1, ?_, ?_⟩, ⟨le_trans y1 my1, ?_, ?_⟩⟩
      · intro i hi hiv
        rcases List.mem_cons.mp hi with e | e
        · subst e; exact le_trans x1 mx2
        · exact x2 i e hiv
      · rcases x3 with e | ⟨i, hi, hiv, e⟩
        · by_cases c : (data a).x < acc.1
          · right
            refine ⟨a, List.mem_cons_self _ _, hv, ?_⟩
            rw [e, if_pos c]
          · left
            rw [e, if_neg c]
        · exact Or.inr ⟨i, List.mem_cons_of_mem _ hi, hiv, e⟩
      · intro i hi hiv
        rcases List.mem_cons.mp hi with e | e
        · subst e; exact le_trans y1 my2
        · exact y2 i e hiv
      · rcases y3 with e | ⟨i, hi, hiv, e⟩
        · by_cases c : (data a).y < acc.2
          · right
            refine ⟨a, List.mem_cons_self _ _, hv, ?_⟩
            rw [e, if_pos c]
          · left
            rw [e, if_neg c]
        · exact Or.inr ⟨i, List.mem_cons_of_mem _ hi, hiv, e⟩
    · simp only [hv, if_false, Bool.false_eq_true]
      obtain ⟨⟨x1, x2, x3⟩, ⟨y1, y2, y3⟩⟩ := ih acc
      refine ⟨⟨x1, ?_, ?_⟩, ⟨y1, ?_, ?_⟩⟩
      · intro i hi hiv
        rcases List.mem_cons.mp hi with e | e
        · subst e; exact absurd hiv hv
        · exact x2 i e hiv
      · rcases x3 with e | ⟨i, hi, hiv, e⟩
        · exact Or.inl e
        · exact Or.inr ⟨i, List.mem_cons_of_mem _ hi, hiv, e⟩
      · intro i hi hiv
        rcases List.mem_cons.mp hi with e | e
        · subst e; exact absurd hiv hv
        · exact y2 i e hiv
      · rcases y3 with e | ⟨i, hi, hiv, e⟩
        · exact Or.inl e
        · exact Or.inr ⟨i, List.mem_cons_of_mem _ hi, hiv, e⟩

/-- With a drawable first vertex, the corner `scale` computes holds the minimum x and
the minimum y over the drawable vertices of the slots `0 .. len-1`. -/
theorem scaleOrigin_min (data : Nat → Vertex) (len : Nat) (hlen : len ≠ 0)
    (h0 : Cmd.isVertex (data 0).cmd = true) :
    ((∃ i, i < len ∧ Cmd.isVertex (data i).cmd = true ∧
        (scaleOrigin data len).1 = (data i).x) ∧
      ∀ i, i < len → Cmd.isVertex (data i).cmd = true → (scaleOrigin data len).1 ≤ (data i).x) ∧
    ((∃ i, i < len ∧ Cmd.isVertex (data i).cmd = true ∧
        (scaleOrigin data len).2 = (data i).y) ∧
      ∀ i, i < len → Cmd.isVertex (data i).cmd = true → (scaleOrigin data len).2 ≤ (data i).y) := by
  obtain ⟨⟨x1, x2, x3⟩, ⟨y1, y2, y3⟩⟩ := scaleOrigin_fold data (List.range' 1 (len - 1))
    ((data 0).x, (data 0).y)
  have hm : ∀ i, i ∈ List.range' 1 (len - 1) ↔ 1 ≤ i ∧ i < len := by
    intro i
    rw [List.mem_range'_1]
    omega
  unfold scaleOrigin
  refine ⟨⟨?_, ?_⟩, ⟨?_, ?_⟩⟩
  · rcases x3 with e | ⟨i, hi, hiv, e⟩
    · exact ⟨0, by omega, h0, e⟩
    · exact ⟨i, ((hm i).mp hi).2, hiv, e⟩
  · intro i hi hiv
    by_cases c : i = 0
    · subst c; exact x1
    · exact x2 i ((hm i).mpr ⟨by omega, hi⟩) hiv
  · rcases y3 with e | ⟨i, hi, hiv, e⟩
    · exact ⟨0, by omega, h0, e⟩
    · exact ⟨i, ((hm i).mp hi).2, hiv, e⟩
  · intro i hi hiv
    by_cases c : i = 0
    · subst c; exact y1
    · exact y2 i ((hm i).mpr ⟨by omega, hi⟩) hiv

theorem mem_verts_iff (h : Heap) (d : Nat) (v : Vertex) :
    v ∈ h.verts d ↔ ∃ i, i < (h.mem d).length ∧ (h.mem d).data i = v := by
  simp [Heap.verts]

theorem verts_mapVertices (h : Heap) (d : Nat) (f : Vertex → Vertex) :
    (mapVertices h d f).verts d =
      (h.verts d).map (fun v => if Cmd.isVertex v.cmd then f v else v) := by
  simp only [Heap.verts, mapVertices, Heap.upd_mem, if_true, List.map_map]
  apply List.map_congr_left
  intro i hi
  have hi' : i < (h.mem d).length := List.mem_range.mp hi
  simp [hi']

/-- Scaling about a lower bound with a factor that is not negative keeps the bound. -/
theorem scale_ge (p x s : ℚ) (hs : 0 ≤ s) (hx : p ≤ x) : p ≤ (x - p) * s + p := by
  have : 0 ≤ (x - p) * s := mul_nonneg (by linarith) hs
  linarith

/-- C39. For every non-empty path (a block that exists) whose first vertex is a
drawable vertex and all factors `sx ≥ 0`, `sy ≥ 0`, when `scale(sx, sy, true)` succeeds:
there are `px` and `py`, the minimum x and the minimum y over the drawable vertices of
the path, such that the path afterwards holds the old vertices with each drawable
vertex `(x, y)` mapped to `((x - px)·sx + px, (y - py)·sy + py)` and every other vertex
as it was; and `px` and `py` are again the minimum x and the minimum y over the
drawable vertices afterwards. -/
theorem scale_keeps_top_left (E : Env) (h : Heap) (d : Nat) (sx sy : ℚ)
    (hd : d < h.next) (hne : (h.mem d).length ≠ 0)
    (hfirst : Cmd.isVertex ((h.mem d).data 0).cmd = true)
    (hsx : 0 ≤ sx) (hsy : 0 ≤ sy) (hok : (scale E h d sx sy true).err = .Ok) :
    ∃ px py, IsMinX (h.verts d) px ∧ IsMinY (h.verts d) py ∧
      (scale E h d sx sy true).heap.verts (scale E h d sx sy true).d =
        (h.verts d).map (scaleAbout px py sx sy) ∧
      IsMinX ((scale E h d sx sy true).heap.verts (scale E h d sx sy true).d) px ∧
      IsMinY ((scale E h d sx sy true).heap.verts (scale E h d sx sy true).d) py := by
  obtain ⟨dl, dd⟩ := detach_shows E h d hd
  have hv : (detach E h d).heap.verts (detach E h d).d = h.verts d :=
    verts_eq_of_copy h _ d _ dl dd
  have hne2 : ((detach E h d).heap.mem (detach E h d).d).length ≠ 0 := by rw [dl]; exact hne
  have hf2 : Cmd.isVertex (((detach E h d).heap.mem (detach E h d).d).data 0).cmd = true := by
    rw [dd 0 (by omega)]; exact hfirst
  obtain ⟨⟨mx1, mx2⟩, ⟨my1, my2⟩⟩ := scaleOrigin_min
    ((detach E h d).heap.mem (detach E h d).d).data
    ((detach E h d).heap.mem (detach E h d).d).length hne2 hf2
  have hX : IsMinX (h.verts d) (scaleOrigin ((detach E h d).heap.mem (detach E h d).d).data
      ((detach E h d).heap.mem (detach E h d).d).length).1 := by
    rw [← hv]
    constructor
    · obtain ⟨i, hi, hiv, e⟩ := mx1
      exact ⟨_, (mem_verts_iff _ _ _).mpr ⟨i, hi, rfl⟩, hiv, e.symm⟩
    · intro v hvm hvv
      obtain ⟨i, hi, e⟩ := (mem_verts_iff _ _ _).mp hvm
      subst e
      exact mx2 i hi hvv
  have hY : IsMinY (h.verts d) (scaleOrigin ((detach E h d).heap.mem (detach E h d).d).data
      ((detach E h d).heap.mem (detach E h d).d).length).2 := by
    rw [← hv]
    constructor
    · obtain ⟨i, hi, hiv, e⟩ := my1
      exact ⟨_, (mem_verts_iff _ _ _).mpr ⟨i, hi, rfl⟩, hiv, e.symm⟩
    · intro v hvm hvv
      obtain ⟨i, hi, e⟩ := (mem_verts_iff _ _ _).mp hvm
      subst e
      exact my2 i hi hvv
  have hde : (detach E h d).err = .Ok := by
    by_contra c
    have e : scale E h d sx sy true = detach E h d := by
      unfold scale
      simp only
      rw [if_neg hne, if_pos c]
    rw [e] at hok
    exact c hok
  have hs : (scale E h d sx sy true).heap.verts (scale E h d sx sy true).d =
      (h.verts d).map (scaleAbout
        (scaleOrigin ((detach E h d).heap.mem (detach E h d).d).data
          ((detach E h d).heap.mem (detach E h d).d).length).1
        (scaleOrigin ((detach E h d).heap.mem (detach E h d).d).data
          ((detach E h d).heap.mem (detach E h d).d).length).2 sx sy) := by
    have e : scale E h d sx sy true =
        ⟨mapVertices (detach E h d).heap (detach E h d).d
          (fun v => { v with
            x := (v.x - (scaleOrigin ((detach E h d).heap.mem (detach E h d).d).data
              ((detach E h d).heap.mem (detach E h d).d).length).1) * sx
              + (scaleOrigin ((detach E h d).heap.mem (detach E h d).d).data
              ((detach E h d).heap.mem (detach E h d).d).length).1,
            y := (v.y - (scaleOrigin ((detach E h d).heap.mem (detach E h d).d).data
              ((detach E h d).heap.mem (detach E h d).d).length).2) * sy
              + (scaleOrigin ((detach E h d).heap.mem (detach E h d).d).data
              ((detach E h d).heap.mem (detach E h d).d).length).2 }),
          (detach E h d).d, .Ok⟩ := by
      unfold scale
      simp only
      rw [if_neg hne, if_neg (not_not.mpr hde), if_pos trivial]
    rw [e]
    simp only
    rw [verts_mapVertices, hv]
    rfl
  generalize scaleOrigin ((detach E h d).heap.mem (detach E h d).d).data
      ((detach E h d).heap.mem (detach E h d).d).length = p at hX hY hs
  refine ⟨p.1, p.2, hX, hY, hs, ?_, ?_⟩
  · rw [hs]
    obtain ⟨⟨v, hvm, hvv, e⟩, lo⟩ := hX
    constructor
    · refine ⟨scaleAbout p.1 p.2 sx sy v, List.mem_map_of_mem _ hvm, ?_, ?_⟩
      · simp [scaleAbout, hvv]
      · simp [scaleAbout, hvv, e]
    · intro w hw hwv
      obtain ⟨u, hu, rfl⟩ := List.mem_map.mp hw
      by_cases c : Cmd.isVertex u.cmd = true
      · simp only [scaleAbout, c, if_true]
        exact scale_ge _ _ _ hsx (lo u hu c)
      · simp only [scaleAbout, c, if_false, Bool.false_eq_true] at hwv
  · rw [hs]
    obtain ⟨⟨v, hvm, hvv, e⟩, lo⟩ := hY
    constructor
    · refine ⟨scaleAbout p.1 p.2 sx sy v, List.mem_map_of_mem _ hvm, ?_, ?_⟩
      · simp [scaleAbout, hvv]
      · simp [scaleAbout, hvv, e]
    · intro w hw hwv
      obtain ⟨u, hu, rfl⟩ := List.mem_map.mp hw
      by_cases c : Cmd.isVertex u.cmd = true
      · simp only [scaleAbout, c, if_true]
        exact scale_ge _ _ _ hsy (lo u hu c)
      · simp only [scaleAbout, c, if_false, Bool.false_eq_true] at hwv

theorem scale_keeps_top_left_witness :
    exOpenTriangle.d < exOpenTriangle.heap.next ∧
    (exOpenTriangle.heap.mem exOpenTriangle.d).length ≠ 0 ∧
    Cmd.isVertex ((exOpenTriangle.heap.mem exOpenTriangle.d).data 0).cmd = true ∧
    (scale Env.plain exOpenTriangle.heap exOpenTriangle.d 2 3 true).err = .Ok ∧
    (∃ px py, IsMinX (exOpenTriangle.heap.verts exOpenTriangle.d) px ∧
      IsMinY (exOpenTriangle.heap.verts exOpenTriangle.d) py ∧
      (scale Env.plain exOpenTriangle.heap exOpenTriangle.d 2 3 true).heap.verts
          (scale Env.plain exOpenTriangle.heap exOpenTriangle.d 2 3 true).d =
        (exOpenTriangle.heap.verts exOpenTriangle.d).map (scaleAbout px py 2 3) ∧
      IsMinX ((scale Env.plain exOpenTriangle.heap exOpenTriangle.d 2 3 true).heap.verts
        (scale Env.plain exOpenTriangle.heap exOpenTriangle.d 2 3 true).d) px ∧
      IsMinY ((scale Env.plain exOpenTriangle.heap exOpenTriangle.d 2 3 true).heap.verts
        (scale Env.plain exOpenTriangle.heap exOpenTriangle.d 2 3 true).d) py) ∧
    (scale Env.plain exOpenTriangle.heap exOpenTriangle.d 2 3 true).heap.verts
        (scale Env.plain exOpenTriangle.heap exOpenTriangle.d 2 3 true).d =
      [⟨CmdMoveTo, 0, 0⟩, ⟨CmdLineTo, 20, 0⟩, ⟨CmdLineTo, 20, 30⟩] := by
  have a1 : exOpenTriangle.d < exOpenTriangle.heap.next := by decide
  have a2 : (exOpenTriangle.heap.mem exOpenTriangle.d).length ≠ 0 := by decide
  have a3 : Cmd.isVertex ((exOpenTriangle.heap.mem exOpenTriangle.d).data 0).cmd = true := by
    decide
  have a4 : (scale Env.plain exOpenTriangle.heap exOpenTriangle.d 2 3 true).err = .Ok := by
    decide
  exact ⟨a1, a2, a3, a4,
    scale_keeps_top_left Env.plain exOpenTriangle.heap exOpenTriangle.d 2 3 a1 a2 a3
      (by norm_num) (by norm_num) a4,
    by decide!⟩

/-! ## The matrix of a flatten after a curve group (C37) -/

/-- C37 (failing input). On the path `MoveTo(0,0), Curve3(1,1), Curve3(2,0)`, which ends
with a curve group, `flattenTo(dst, &M, 1)` with `M` the translation by `(100, 0)`
returns success and leaves in `dst` the flattened vertices not transformed, from
`MoveTo(0,0)` to `LineTo(2,0)`, and so does `flattenTo` of the path into itself, whereas
`flattenTo(dst, NULL, 1)` followed by `dst.applyMatrix(M)` leaves them translated, from
`MoveTo(100,0)` to `LineTo(102,0)`: the return inside the curve case is taken before the
matrix is applied.  On the same path with `LineTo(3,0)` appended, which ends with a line
vertex, the two agree. -/
theorem flattenTo_skips_matrix_after_curve_group :
    (flattenToOther Env.plain 10 exArchDst.1 exArch.d exArchDst.2 (some exShift) 1).map
        (fun r => (r.err, r.heap.verts r.d)) =
      some (.Ok, [⟨CmdMoveTo, 0, 0⟩, ⟨CmdLineTo, 1 / 2, 3 / 8⟩, ⟨CmdLineTo, 3 / 2, 3 / 8⟩,
        ⟨CmdLineTo, 2, 0⟩]) ∧
    (flattenToSelf Env.plain 10 exArch.heap exArch.d (some exShift) 1).map
        (fun r => (r.err, r.heap.verts r.d)) =
      some (.Ok, [⟨CmdMoveTo, 0, 0⟩, ⟨CmdLineTo, 1 / 2, 3 / 8⟩, ⟨CmdLineTo, 3 / 2, 3 / 8⟩,
        ⟨CmdLineTo, 2, 0⟩]) ∧
    (flattenToOther Env.plain 10 exArchDst.1 exArch.d exArchDst.2 none 1).map
        (fun r => (r.err, (applyMatrix Env.plain r.heap r.d exShift).heap.verts
          (applyMatrix Env.plain r.heap r.d exShift).d)) =
      some (.Ok, [⟨CmdMoveTo, 100, 0⟩, ⟨CmdLineTo, 201 / 2, 3 / 8⟩,
        ⟨CmdLineTo, 203 / 2, 3 / 8⟩, ⟨CmdLineTo, 102, 0⟩]) ∧
    (flattenToOther Env.plain 10 exArchLineDst.1 exArchLine.d exArchLineDst.2
        (some exShift) 1).map (fun r => (r.err, r.heap.verts r.d)) =
      some (.Ok, [⟨CmdMoveTo, 100, 0⟩, ⟨CmdLineTo, 201 / 2, 3 / 8⟩,
        ⟨CmdLineTo, 203 / 2, 3 / 8⟩, ⟨CmdLineTo, 102, 0⟩, ⟨CmdLineTo, 103, 0⟩]) ∧
    (flattenToOther Env.plain 10 exArchLineDst.1 exArchLine.d exArchLineDst.2 none 1).map
        (fun r => (r.err, (applyMatrix Env.plain r.heap r.d exShift).heap.verts
          (applyMatrix Env.plain r.heap r.d exShift).d)) =
      some (.Ok, [⟨CmdMoveTo, 100, 0⟩, ⟨CmdLineTo, 201 / 2, 3 / 8⟩,
        ⟨CmdLineTo, 203 / 2, 3 / 8⟩, ⟨CmdLineTo, 102, 0⟩, ⟨CmdLineTo, 103, 0⟩]) := by
  refine ⟨?_, ?_, ?_, ?_, ?_⟩ <;> decide!

/-! ## A tolerance that underflows (C24) -/

/-- With the tolerance 0, a curve on the x axis whose last two points coincide is not
accepted: the round goes on to the subdivision. -/
theorem curve3Test_tail (E : Env) (a b ang : ℚ) (hab : a < b) :
    curve3Test E ⟨a, 0, b, 0, b, 0⟩ 0 ang = none := by
  have h1 : b - a ≠ 0 := by linarith
  have h2 : (b - a) * (b - a) / ((b - a) * (b - a)) = 1 := div_self (mul_ne_zero h1 h1)
  have he : ¬ curve_collinearity_epsilon < (0 : ℚ) := by
    norm_num [curve_collinearity_epsilon]
  unfold curve3Test
  simp only [sub_self, zero_mul, mul_zero, abs_zero, he, if_false, add_zero,
    mul_self_eq_zero, h1, h2]
  norm_num [squareDistance]

/-- The left half of such a curve is accepted by the simple collinear case, which stores
nothing. -/
theorem curve3Test_tail_left (E : Env) (a b tol ang : ℚ) (hab : a < b) :
    curve3Test E ⟨a, 0, (a + b) / 2, 0, ((a + b) / 2 + (b + b) / 2) / 2, 0⟩ tol ang
      = some [] := by
  have hx : ((a + b) / 2 + (b + b) / 2) / 2 - a = 3 * (b - a) / 4 := by ring
  have h1 : 3 * (b - a) / 4 ≠ 0 := by
    have : 0 < 3 * (b - a) / 4 := by linarith
    linarith
  have h2 : ((a + b) / 2 - a) * (3 * (b - a) / 4) / (3 * (b - a) / 4 * (3 * (b - a) / 4))
      = 2 / 3 := by
    have hne : b - a ≠ 0 := by linarith
    field_simp
    ring
  have he : ¬ curve_collinearity_epsilon < (0 : ℚ) := by
    norm_num [curve_collinearity_epsilon]
  unfold curve3Test
  simp only [hx, sub_self, zero_mul, mul_zero, abs_zero, he, if_false, add_zero,
    mul_self_eq_zero, h1, h2]
  norm_num

/-- With the tolerance 0 the loop, on a curve on the x axis whose last two points
coincide and with room on the stack, never reaches its `break`: each right half is such
a curve again. -/
theorem approximateCurve3Loop_tail (E : Env) (ang : ℚ) :
    ∀ (fuel : Nat) (a b : ℚ) (stack : List ApproximateCurve3Data) (out : List (ℚ × ℚ)),
      a < b → stack.length < APPROXIMATE_CURVE3_RECURSION_LIMIT →
      approximateCurve3Loop E 0 ang fuel ⟨a, 0, b, 0, b, 0⟩ stack out = none := by
  intro fuel
  induction fuel using Nat.strong_induction_on with
  | _ fuel ih =>
    intro a b stack out hab hlen
    cases fuel with
    | zero => rfl
    | succ m =>
      simp only [approximateCurve3Loop, curve3Test_tail E a b ang hab, hlen, if_true]
      cases m with
      | zero => rfl
      | succ n =>
        have e : (0 + 0) / 2 = (0 : ℚ) := by norm_num
        have e2 : (b + b) / 2 = b := by ring
        simp only [approximateCurve3Loop, e, curve3Test_tail_left E a b 0 ang hab,
          List.append_nil]
        rw [e2]
        exact ih n (by omega) _ b stack out (by linarith) hlen

/-- C24 (failing input). `approximateCurve3` on `(0,0), (1,0), (0,0)` with
`approximationScale = 1e200`: the square of `0.5 / 1e200` is below half the smallest
positive `double`, so the tolerance the source computes is `0.0`; with it no round of the
loop after the first subdivision reaches the `break` other than through the simple
collinear case, the right halves are subdivided again and again at the same `level`, and
for every number of rounds the function has not returned: it stores no end point.  (With
coordinates in `double` the right halves collapse to a point after some rounds, and a
point is subdivided for ever as well.)  With the tolerance computed exactly the same
call ends after 3 rounds with the end point `(0,0)` last. -/
theorem approximateCurve3_never_returns_on_underflow :
    (0 : ℚ) < 10 ^ 200 ∧
    distanceToleranceSquareDouble (10 ^ 200) = 0 ∧
    (∀ fuel, approximateCurve3Loop Env.plain 0 0 fuel ⟨0, 0, 1, 0, 0, 0⟩ [] [] = none) ∧
    (∀ fuel, approximateCurve3PointsDouble Env.plain fuel 0 0 1 0 0 0 (10 ^ 200) 0 = none) ∧
    approximateCurve3Points Env.plain 3 0 0 1 0 0 0 (10 ^ 200) 0 =
      some [⟨CmdLineTo, 1 / 2, 0⟩, ⟨CmdLineTo, 1 / 2, 0⟩, ⟨CmdLineTo, 0, 0⟩] := by
  have ht : distanceToleranceSquareDouble (10 ^ 200) = 0 := by
    unfold distanceToleranceSquareDouble
    norm_num
  have hloop : ∀ fuel,
      approximateCurve3Loop Env.plain 0 0 fuel ⟨0, 0, 1, 0, 0, 0⟩ [] [] = none := by
    intro fuel
    cases fuel with
    | zero => rfl
    | succ n =>
      have hT : curve3Test Env.plain ⟨0, 0, 1, 0, 0, 0⟩ 0 0 = none := by decide!
      have hl : ([] : List ApproximateCurve3Data).length < APPROXIMATE_CURVE3_RECURSION_LIMIT := by
        decide
      simp only [approximateCurve3Loop, hT, hl, if_true]
      have e1 : ((0 : ℚ) + 1) / 2 = 1 / 2 := by norm_num
      have e2 : ((0 : ℚ) + 0) / 2 = 0 := by norm_num
      have e3 : ((1 : ℚ) + 0) / 2 = 1 / 2 := by norm_num
      have e4 : ((1 : ℚ) / 2 + 1 / 2) / 2 = 1 / 2 := by norm_num
      simp only [e1, e2, e3, e4]
      exact approximateCurve3Loop_tail Env.plain 0 n 0 (1 / 2) _ [] (by norm_num) (by decide)
  refine ⟨by norm_num, ht, hloop, ?_, by decide!⟩
  intro fuel
  unfold approximateCurve3PointsDouble
  rw [ht, hloop fuel]

end Fog
